import Mathlib

/-!
# Dual-tree variable-bandwidth kernel density estimation

A shallow embedding of `fastlib2/mlpack/kde/dualtree_vkde_impl.h`.

Modelling conventions.

* A C++ `double` is an exact rational number.  Sums, products, `std::min` and
  `std::max` of finite values are finite; the only operation of the embedded
  code that leaves the finite values is the division that computes the
  allowed error, whose result is an `Ext` (a finite value, an infinity or NaN).
  Zero has no sign: a non-zero value divided by zero is the infinity of the
  sign of the numerator.
* A `Tree *` is a node of an immutable tree shape that carries the address
  (`id`) of the node.  The mutable statistic of a node is kept in the arena
  `Mem.stat`, indexed by that address; the query tree and the reference tree
  share the arena, so a run in which both are the same tree is covered.
* The kernel type `K` and the bound type `B` are the two template
  parameters; their operations are fields of `Env`.
* `State.trace` is a ghost history: every completed step of the traversal
  pushes the event and the memory it produced.
-/

set_option autoImplicit false

namespace VKde

/-! ## Numbers -/

/-- The value of a floating-point division: finite, an infinity, or NaN. -/
inductive Ext where
  | fin (x : ℚ)
  | pinf
  | ninf
  | nan
  deriving DecidableEq

namespace Ext

/-- The quotient `a / b` of two finite values. -/
def div (a b : ℚ) : Ext :=
  if b = 0 then
    if a = 0 then nan else if 0 < a then pinf else ninf
  else fin (a / b)

/-- The C `isnan`. -/
def isnan : Ext → Bool
  | nan => true
  | _ => false

/-- The C `isinf`. -/
def isinf : Ext → Bool
  | pinf => true
  | ninf => true
  | _ => false

/-- The comparison `x <= e` of a finite value with a quotient. -/
def le (x : ℚ) : Ext → Bool
  | fin y => decide (x ≤ y)
  | pinf => true
  | ninf => false
  | nan => false

/-- The comparison `x < e` of a finite value with a quotient. -/
def lt (x : ℚ) : Ext → Bool
  | fin y => decide (x < y)
  | pinf => true
  | ninf => false
  | nan => false

end Ext

/-- The constant `DBL_MAX` of `<cfloat>`. -/
def DBL_MAX : ℚ := (2 ^ 1024 - 2 ^ 971 : ℕ)

/-- The function `math::Sqr`. -/
def Sqr (x : ℚ) : ℚ := x * x

/-- The range type `DRange`. -/
structure DRange where
  lo : ℚ
  hi : ℚ

/-! ## Trees and statistics -/

/-- The fields of `VKdeStat<TKernel>`. -/
structure VKdeStat (K : Type) where
  mass_l : ℚ
  mass_u : ℚ
  used_error : ℚ
  n_pruned : ℚ
  postponed_l : ℚ
  postponed_e : ℚ
  postponed_u : ℚ
  postponed_used_error : ℚ
  postponed_n_pruned : ℚ
  min_bandwidth_kernel : K
  max_bandwidth_kernel : K
  weight_sum : ℚ

/-- The shape of a spatial tree: each node has an address, the index range
`[begin, begin + count)`, a bounding region, and either no child or two. -/
inductive Tree (B : Type) where
  | leaf (id : Nat) (begin count : Nat) (bound : B)
  | node (id : Nat) (begin count : Nat) (bound : B) (left right : Tree B)

namespace Tree

variable {B : Type}

/-- The address of the node. -/
def id : Tree B → Nat
  | leaf i _ _ _ => i
  | node i _ _ _ _ _ => i

/-- The accessor `begin()`. -/
def begin : Tree B → Nat
  | leaf _ b _ _ => b
  | node _ b _ _ _ _ => b

/-- The accessor `count()`. -/
def count : Tree B → Nat
  | leaf _ _ c _ => c
  | node _ _ c _ _ _ => c

/-- The accessor `end()`. -/
def end_ (t : Tree B) : Nat := t.begin + t.count

/-- The accessor `bound()`. -/
def bound : Tree B → B
  | leaf _ _ _ b => b
  | node _ _ _ b _ _ => b

/-- The accessor `is_leaf()`. -/
def is_leaf : Tree B → Bool
  | leaf _ _ _ _ => true
  | node _ _ _ _ _ _ => false

/-- The addresses of all nodes of the tree. -/
def ids : Tree B → List Nat
  | leaf i _ _ _ => [i]
  | node i _ _ _ l r => i :: (l.ids ++ r.ids)

/-- The index `q` lies in the range of the node. -/
def Contains (t : Tree B) (q : Nat) : Prop := t.begin ≤ q ∧ q < t.end_

instance (t : Tree B) (q : Nat) : Decidable (t.Contains q) := by
  unfold Contains; infer_instance

/-- The children of every node split its index range in two. -/
def Partitioned : Tree B → Prop
  | leaf _ _ _ _ => True
  | node _ b c _ l r =>
    l.begin = b ∧ r.begin = b + l.count ∧ l.count + r.count = c ∧
      l.Partitioned ∧ r.Partitioned

/-- Distinct nodes have distinct addresses. -/
def Distinct (t : Tree B) : Prop := t.ids.Nodup

instance (t : Tree B) : Decidable t.Distinct := by
  unfold Distinct; infer_instance

end Tree

/-! ## The object `DualtreeVKde<TKernel>` -/

/-- The members of the object that a computation only reads, and the
operations of its collaborators. -/
structure Env (B K : Type) where
  /-- The operation `TKernel::Init`. -/
  Init : ℚ → K
  /-- The operation `TKernel::bandwidth_sq`. -/
  bandwidth_sq : K → ℚ
  /-- The operation `TKernel::EvalUnnormOnSq`. -/
  EvalUnnormOnSq : K → ℚ → ℚ
  /-- The operation `MinDistanceSq` of the bound type. -/
  MinDistanceSq : B → B → ℚ
  /-- The operation `MaxDistanceSq` of the bound type. -/
  MaxDistanceSq : B → B → ℚ
  /-- The library function `sqrt`. -/
  sqrt : ℚ → ℚ
  /-- The columns of `qset_`. -/
  qset : Nat → List ℚ
  /-- The columns of `rset_`. -/
  rset : Nat → List ℚ
  kernels : Nat → K
  rset_weights : Nat → ℚ
  rset_weight_sum : ℚ
  tau : ℚ
  threshold : ℚ
  mult_const : ℚ
  coverage_probabilities : List ℚ
  sample_multiple : Int
  /-- The address held by `rroot_`. -/
  rroot : Nat

/-- The members of the object that a computation writes, with the arena of
node statistics and the state of the random number generator. -/
structure Mem (K : Type) where
  stat : Nat → VKdeStat K
  densities_l : Nat → ℚ
  densities_e : Nat → ℚ
  densities_u : Nat → ℚ
  used_error : Nat → ℚ
  n_pruned : Nat → ℚ
  num_finite_difference_prunes : Nat
  num_monte_carlo_prunes : Nat
  /-- The stream of numbers the generator will produce. -/
  rng : Nat → Nat
  /-- How many numbers have been drawn. -/
  rng_pos : Nat

/-- The steps of the traversal recorded in the ghost history. -/
inductive Event where
  | call (q r : Nat) (probability : ℚ)
  | finiteDifferencePrune (q r : Nat)
  | monteCarloPrune (q r : Nat)
  | baseCase (q r : Nat)
  | pushDown (q : Nat)
  | refine (q : Nat)
  deriving DecidableEq

/-- The memory together with the ghost history (newest entry first). -/
structure State (K : Type) where
  mem : Mem K
  trace : List (Event × Mem K)

namespace State

variable {K : Type}

/-- Performs a step on the memory and records it. -/
def step (e : Event) (f : Mem K → Mem K) (s : State K) : State K :=
  ⟨f s.mem, (e, f s.mem) :: s.trace⟩

end State

/-! ## Operations of the node statistic -/

namespace VKdeStat

variable {K : Type}

/-- Modelled from the spec: `VKdeStat::ResetBoundStatistics` is declared in
`dualtree_vkde.h`, which is not among the sources.  It sets the lower bound
to 0, the upper bound to the total reference weight, and the used error and
the pruned weight to 0. -/
def ResetBoundStatistics (s : VKdeStat K) (total : ℚ) : VKdeStat K :=
  { s with mass_l := 0, mass_u := total, used_error := 0, n_pruned := 0 }

/-- Modelled from the spec: `VKdeStat::AddPostponed` is declared in
`dualtree_vkde.h`, which is not among the sources.  It adds the postponed
deltas of the parent into the postponed deltas of the node. -/
def AddPostponed (s : VKdeStat K) (parent_stat : VKdeStat K) : VKdeStat K :=
  { s with
    postponed_l := s.postponed_l + parent_stat.postponed_l
    postponed_e := s.postponed_e + parent_stat.postponed_e
    postponed_u := s.postponed_u + parent_stat.postponed_u
    postponed_used_error := s.postponed_used_error + parent_stat.postponed_used_error
    postponed_n_pruned := s.postponed_n_pruned + parent_stat.postponed_n_pruned }

/-- Modelled from the spec: `VKdeStat::ClearPostponed` is declared in
`dualtree_vkde.h`, which is not among the sources.  It zeroes the postponed
fields. -/
def ClearPostponed (s : VKdeStat K) : VKdeStat K :=
  { s with
    postponed_l := 0
    postponed_e := 0
    postponed_u := 0
    postponed_used_error := 0
    postponed_n_pruned := 0 }

/-- Modelled from the spec: `VKdeStat::RefineBoundStatistics` is declared in
`dualtree_vkde.h`, which is not among the sources.  It recomputes the bound
of the node as the worst case of the bounds of the two children, so that it
remains valid for every point in either subtree; the bound of a child is its
own value together with the delta still postponed on it. -/
def RefineBoundStatistics (s : VKdeStat K) (left_stat right_stat : VKdeStat K) :
    VKdeStat K :=
  { s with
    mass_l := min (left_stat.mass_l + left_stat.postponed_l)
      (right_stat.mass_l + right_stat.postponed_l)
    mass_u := max (left_stat.mass_u + left_stat.postponed_u)
      (right_stat.mass_u + right_stat.postponed_u)
    used_error := max (left_stat.used_error + left_stat.postponed_used_error)
      (right_stat.used_error + right_stat.postponed_used_error)
    n_pruned := min (left_stat.n_pruned + left_stat.postponed_n_pruned)
      (right_stat.n_pruned + right_stat.postponed_n_pruned) }

end VKdeStat

/-! ## Operations on the memory -/

section Operations

variable {B K : Type}

/-- Writes the statistic of one node. -/
def Mem.setStat (m : Mem K) (node : Nat) (s : VKdeStat K) : Mem K :=
  { m with stat := Function.update m.stat node s }

/-- The method `AddPostponed_`. -/
def AddPostponed_ (node : Nat) (destination : Nat) (m : Mem K) : Mem K :=
  { m with
    densities_l := Function.update m.densities_l destination
      (m.densities_l destination + (m.stat node).postponed_l)
    densities_e := Function.update m.densities_e destination
      (m.densities_e destination + (m.stat node).postponed_e)
    densities_u := Function.update m.densities_u destination
      (m.densities_u destination + (m.stat node).postponed_u)
    used_error := Function.update m.used_error destination
      (m.used_error destination + (m.stat node).postponed_used_error)
    n_pruned := Function.update m.n_pruned destination
      (m.n_pruned destination + (m.stat node).postponed_n_pruned) }

/-- The method `RefineBoundStatistics_`. -/
def RefineBoundStatistics_ (q : Nat) (qnode : Nat) (m : Mem K) : Mem K :=
  m.setStat qnode
    { m.stat qnode with
      mass_l := min (m.stat qnode).mass_l (m.densities_l q)
      mass_u := max (m.stat qnode).mass_u (m.densities_u q)
      used_error := max (m.stat qnode).used_error (m.used_error q)
      n_pruned := min (m.stat qnode).n_pruned (m.n_pruned q) }

/-- The library function `la::DistanceSqEuclidean`. -/
def DistanceSqEuclidean (a b : List ℚ) : ℚ :=
  (List.zipWith (fun x y => (x - y) * (x - y)) a b).sum

/-- The body of the inner loop of `DualtreeVKdeBase_`: the reference point
`r` is added to the three bounds of the query point `q`. -/
def baseReference (env : Env B K) (q : Nat) (m : Mem K) (r : Nat) : Mem K :=
  let dsqd := DistanceSqEuclidean (env.qset q) (env.rset r)
  let kernel_value := env.EvalUnnormOnSq (env.kernels r) dsqd
  let weighted_kernel_value := env.rset_weights r * kernel_value
  { m with
    densities_l := Function.update m.densities_l q (m.densities_l q + weighted_kernel_value)
    densities_e := Function.update m.densities_e q (m.densities_e q + weighted_kernel_value)
    densities_u := Function.update m.densities_u q (m.densities_u q + weighted_kernel_value) }

/-- The body of the outer loop of `DualtreeVKdeBase_` for the query point `q`. -/
def baseQuery (env : Env B K) (qnode rnode : Tree B) (m : Mem K) (q : Nat) : Mem K :=
  let m1 := AddPostponed_ qnode.id q m
  let m2 := (List.range' rnode.begin rnode.count).foldl (baseReference env q) m1
  let m3 := { m2 with
    n_pruned := Function.update m2.n_pruned q (m2.n_pruned q + (m2.stat rnode.id).weight_sum) }
  let m4 := { m3 with
    densities_u := Function.update m3.densities_u q
      (m3.densities_u q - (m3.stat rnode.id).weight_sum) }
  RefineBoundStatistics_ q qnode.id m4

/-- The method `DualtreeVKdeBase_`. -/
def DualtreeVKdeBase_ (env : Env B K) (qnode rnode : Tree B) (_probability : ℚ)
    (m : Mem K) : Mem K :=
  let m1 := m.setStat qnode.id ((m.stat qnode.id).ResetBoundStatistics env.rset_weight_sum)
  let m2 := (List.range' qnode.begin qnode.count).foldl (baseQuery env qnode rnode) m1
  m2.setStat qnode.id (m2.stat qnode.id).ClearPostponed

/-- The five amounts a pruning test hands back to the traversal. -/
structure Deltas where
  dl : ℚ
  de : ℚ
  du : ℚ
  used_error : ℚ
  n_pruned : ℚ

/-- The values of the locals and reference parameters of `Prunable_` when it
returns, with its return value. -/
structure PrunableResult where
  dsqd_range : DRange
  kernel_value_range : DRange
  dl : ℚ
  de : ℚ
  du : ℚ
  new_mass_l : ℚ
  new_used_error : ℚ
  new_n_pruned : ℚ
  allowed_err : Ext
  kernel_diff : ℚ
  used_error : ℚ
  n_pruned : ℚ
  result : Bool

/-- The amounts handed back by `Prunable_`. -/
def PrunableResult.deltas (p : PrunableResult) : Deltas :=
  ⟨p.dl, p.de, p.du, p.used_error, p.n_pruned⟩

/-- The method `Prunable_`. -/
def Prunable_ (env : Env B K) (m : Mem K) (qnode rnode : Tree B) (_probability : ℚ) :
    PrunableResult :=
  let stat := m.stat qnode.id
  let dsqd_lo := env.MinDistanceSq qnode.bound rnode.bound
  let dsqd_hi := env.MaxDistanceSq qnode.bound rnode.bound
  let kernel_lo := env.EvalUnnormOnSq (m.stat rnode.id).min_bandwidth_kernel dsqd_hi
  let kernel_hi := env.EvalUnnormOnSq (m.stat rnode.id).max_bandwidth_kernel dsqd_lo
  let dl := kernel_lo * (m.stat rnode.id).weight_sum
  let de := 0.5 * (m.stat rnode.id).weight_sum * (kernel_lo + kernel_hi)
  let du := (kernel_hi - 1) * (m.stat rnode.id).weight_sum
  let new_mass_l := stat.mass_l + stat.postponed_l + dl
  let new_used_error := stat.used_error + stat.postponed_used_error
  let new_n_pruned := stat.n_pruned + stat.postponed_n_pruned
  let new_max_kernel_value_l := env.threshold
  let allowed_err := Ext.div
    ((max (env.tau * new_mass_l) new_max_kernel_value_l - new_used_error) *
      (m.stat rnode.id).weight_sum)
    ((m.stat env.rroot).weight_sum - new_n_pruned)
  let kernel_diff := 0.5 * (kernel_hi - kernel_lo)
  let used_error := kernel_diff * (m.stat rnode.id).weight_sum
  let n_pruned := (m.stat rnode.id).weight_sum
  { dsqd_range := ⟨dsqd_lo, dsqd_hi⟩
    kernel_value_range := ⟨kernel_lo, kernel_hi⟩
    dl := dl
    de := de
    du := du
    new_mass_l := new_mass_l
    new_used_error := new_used_error
    new_n_pruned := new_n_pruned
    allowed_err := allowed_err
    kernel_diff := kernel_diff
    used_error := used_error
    n_pruned := n_pruned
    result := !allowed_err.isnan && Ext.le used_error allowed_err }

/-- Modelled from the spec: `math::RandInt` is not among the sources.  It
draws an index from `[lo, hi)`; the draw is the next number of the stream,
reduced into the range. -/
def RandInt (lo hi : Nat) (m : Mem K) : Nat × Mem K :=
  (lo + m.rng m.rng_pos % (hi - lo), { m with rng_pos := m.rng_pos + 1 })

/-- The first loop of `MonteCarloPrunableByOrderStatistics_`, from index `i`
on: the number of samples for the least index whose coverage probability
reaches `probability`, and 0 when there is none. -/
def numSamplesFrom (probability : ℚ) (sample_multiple : Int) : Nat → List ℚ → Int
  | _, [] => 0
  | i, c :: cs =>
    if probability ≤ c then sample_multiple * ((i : Int) + 1)
    else numSamplesFrom probability sample_multiple (i + 1) cs

/-- The variables the sampling loop of
`MonteCarloPrunableByOrderStatistics_` updates. -/
structure SampleState (K : Type) where
  mem : Mem K
  min_kernel_value : ℚ
  max_kernel_value : ℚ

/-- The body of the sampling loop of `MonteCarloPrunableByOrderStatistics_`. -/
def sampleOnce (env : Env B K) (qnode rnode : Tree B) (s : SampleState K) :
    SampleState K :=
  let q := RandInt qnode.begin qnode.end_ s.mem
  let r := RandInt rnode.begin rnode.end_ q.2
  let squared_distance := DistanceSqEuclidean (env.qset q.1) (env.rset r.1)
  let kernel_value := env.EvalUnnormOnSq (env.kernels r.1) squared_distance
  ⟨r.2, min s.min_kernel_value kernel_value, max s.max_kernel_value kernel_value⟩

/-- The method `MonteCarloPrunableByOrderStatistics_`: its return value, the
amounts in its reference parameters, and the memory (the generator has
advanced). -/
def MonteCarloPrunableByOrderStatistics_ (env : Env B K) (m : Mem K) (qnode rnode : Tree B)
    (probability : ℚ) (d : Deltas) : Bool × Deltas × Mem K :=
  let stat := m.stat qnode.id
  let num_samples := numSamplesFrom probability env.sample_multiple 0 env.coverage_probabilities
  if num_samples = 0 ∨ num_samples > (qnode.count : Int) * (rnode.count : Int) then
    (false, d, m)
  else
    let s := (sampleOnce env qnode rnode)^[num_samples.toNat] ⟨m, DBL_MAX, -DBL_MAX⟩
    let new_used_error := stat.used_error + stat.postponed_used_error
    let new_n_pruned := stat.n_pruned + stat.postponed_n_pruned
    let dl := (m.stat rnode.id).weight_sum * s.min_kernel_value
    let new_mass_l := stat.mass_l + stat.postponed_l + dl
    let new_max_kernel_value_l := env.threshold
    let left_hand_side := 0.5 * (s.max_kernel_value - s.min_kernel_value)
    let right_hand_side := Ext.div
      (max (env.tau * new_mass_l) new_max_kernel_value_l - new_used_error)
      ((m.stat env.rroot).weight_sum - new_n_pruned)
    if Ext.lt left_hand_side right_hand_side then
      (true,
        { d with
          dl := dl
          de := 0.5 * (s.min_kernel_value + s.max_kernel_value) * (m.stat rnode.id).weight_sum
          used_error := (m.stat rnode.id).weight_sum * 0.5 *
            (s.max_kernel_value - s.min_kernel_value) },
        s.mem)
    else
      (false, { d with dl := dl }, s.mem)

/-- The values `BestNodePartners` stores through its four pointers. -/
structure Partners (B : Type) where
  partner1 : Tree B
  probability1 : ℚ
  partner2 : Tree B
  probability2 : ℚ

/-- The method `BestNodePartners`. -/
def BestNodePartners (env : Env B K) (nd nd1 nd2 : Tree B) (probability : ℚ) : Partners B :=
  let d1 := env.MinDistanceSq nd.bound nd1.bound
  let d2 := env.MinDistanceSq nd.bound nd2.bound
  if d1 ≤ d2 then ⟨nd1, env.sqrt probability, nd2, env.sqrt probability⟩
  else ⟨nd2, env.sqrt probability, nd1, env.sqrt probability⟩

/-- The five `+=` on the postponed fields of the query node after an approved
prune. -/
def addDeltas (qnode : Nat) (d : Deltas) (m : Mem K) : Mem K :=
  m.setStat qnode
    { m.stat qnode with
      postponed_l := (m.stat qnode).postponed_l + d.dl
      postponed_e := (m.stat qnode).postponed_e + d.de
      postponed_u := (m.stat qnode).postponed_u + d.du
      postponed_used_error := (m.stat qnode).postponed_used_error + d.used_error
      postponed_n_pruned := (m.stat qnode).postponed_n_pruned + d.n_pruned }

/-- The branch of `DualtreeVKdeCanonical_` taken when `Prunable_` approves. -/
def finiteDifferencePrune (qnode : Nat) (d : Deltas) (m : Mem K) : Mem K :=
  let m1 := addDeltas qnode d m
  { m1 with num_finite_difference_prunes := m1.num_finite_difference_prunes + 1 }

/-- The branch of `DualtreeVKdeCanonical_` taken when the Monte Carlo test
approves. -/
def monteCarloPrune (qnode : Nat) (d : Deltas) (m : Mem K) : Mem K :=
  let m1 := addDeltas qnode d m
  { m1 with num_monte_carlo_prunes := m1.num_monte_carlo_prunes + 1 }

/-- The two pruning attempts that open `DualtreeVKdeCanonical_`.  The first
component is the value the method returns at once, if it does. -/
def pruneAttempt (env : Env B K) (qnode rnode : Tree B) (probability : ℚ) (st : State K) :
    Option Bool × State K :=
  let p := Prunable_ env st.mem qnode rnode probability
  if p.result then
    (some true,
      st.step (.finiteDifferencePrune qnode.id rnode.id) (finiteDifferencePrune qnode.id p.deltas))
  else if probability < 1 then
    let mc := MonteCarloPrunableByOrderStatistics_ env st.mem qnode rnode probability p.deltas
    if mc.1 then
      (some false,
        State.step (.monteCarloPrune qnode.id rnode.id) (monteCarloPrune qnode.id mc.2.1)
          ⟨mc.2.2, st.trace⟩)
    else (none, ⟨mc.2.2, st.trace⟩)
  else (none, st)

/-- The two recursive calls on the children of the reference node: the
second one is made with the squared confidence of the first when the first
returned true. -/
def visitPartners (first second : ℚ → State K → State K × Bool)
    (probability_first probability_second : ℚ) (st : State K) : State K × Bool :=
  let r1 := first probability_first st
  let probability_second := if r1.2 then Sqr probability_first else probability_second
  let r2 := second probability_second r1.1
  (r2.1, r1.2 && r2.2)

/-- The two recursive calls on the children of the query node when the
reference node is a leaf. -/
def visitChildren (first second : ℚ → State K → State K × Bool)
    (probability : ℚ) (st : State K) : State K × Bool :=
  let r1 := first probability st
  let r2 := second probability r1.1
  (r2.1, r1.2 && r2.2)

/-- The push-down that opens the non-leaf query case of
`DualtreeVKdeCanonical_`. -/
def pushDown (qnode left right : Nat) (m : Mem K) : Mem K :=
  let m1 := m.setStat left ((m.stat left).AddPostponed (m.stat qnode))
  let m2 := m1.setStat right ((m1.stat right).AddPostponed (m1.stat qnode))
  m2.setStat qnode (m2.stat qnode).ClearPostponed

/-- The statement that closes the non-leaf query case of
`DualtreeVKdeCanonical_`. -/
def refine (qnode left right : Nat) (m : Mem K) : Mem K :=
  m.setStat qnode ((m.stat qnode).RefineBoundStatistics (m.stat left) (m.stat right))

/-- The method `DualtreeVKdeCanonical_` for a leaf query node. -/
def canonicalLeaf (env : Env B K) (qnode : Tree B) : Tree B → ℚ → State K → State K × Bool
  | .leaf rid rb rc rbd, probability, st =>
    let rnode : Tree B := .leaf rid rb rc rbd
    let a := pruneAttempt env qnode rnode probability
      (st.step (.call qnode.id rnode.id probability) id)
    match a.1 with
    | some b => (a.2, b)
    | none =>
      (a.2.step (.baseCase qnode.id rnode.id) (DualtreeVKdeBase_ env qnode rnode probability),
        true)
  | .node rid rb rc rbd rl rr, probability, st =>
    let rnode : Tree B := .node rid rb rc rbd rl rr
    let a := pruneAttempt env qnode rnode probability
      (st.step (.call qnode.id rnode.id probability) id)
    match a.1 with
    | some b => (a.2, b)
    | none =>
      let bp := BestNodePartners env qnode rl rr probability
      if env.MinDistanceSq qnode.bound rl.bound ≤ env.MinDistanceSq qnode.bound rr.bound then
        visitPartners (canonicalLeaf env qnode rl) (canonicalLeaf env qnode rr)
          bp.probability1 bp.probability2 a.2
      else
        visitPartners (canonicalLeaf env qnode rr) (canonicalLeaf env qnode rl)
          bp.probability1 bp.probability2 a.2

/-- The method `DualtreeVKdeCanonical_`. -/
def DualtreeVKdeCanonical_ (env : Env B K) : Tree B → Tree B → ℚ → State K → State K × Bool
  | .leaf qid qb qc qbd, rnode, probability, st =>
    canonicalLeaf env (.leaf qid qb qc qbd) rnode probability st
  | .node qid qb qc qbd ql qr, rnode, probability, st =>
    let qnode : Tree B := .node qid qb qc qbd ql qr
    let a := pruneAttempt env qnode rnode probability
      (st.step (.call qnode.id rnode.id probability) id)
    match a.1 with
    | some b => (a.2, b)
    | none =>
      let st1 := a.2.step (.pushDown qid) (pushDown qid ql.id qr.id)
      let res :=
        match rnode with
        | .leaf _ _ _ _ =>
          if env.MinDistanceSq rnode.bound ql.bound ≤ env.MinDistanceSq rnode.bound qr.bound then
            visitChildren (DualtreeVKdeCanonical_ env ql rnode)
              (DualtreeVKdeCanonical_ env qr rnode) probability st1
          else
            visitChildren (DualtreeVKdeCanonical_ env qr rnode)
              (DualtreeVKdeCanonical_ env ql rnode) probability st1
        | .node _ _ _ _ rl rr =>
          let bl := BestNodePartners env ql rl rr probability
          let left :=
            if env.MinDistanceSq ql.bound rl.bound ≤ env.MinDistanceSq ql.bound rr.bound then
              visitPartners (DualtreeVKdeCanonical_ env ql rl) (DualtreeVKdeCanonical_ env ql rr)
                bl.probability1 bl.probability2 st1
            else
              visitPartners (DualtreeVKdeCanonical_ env ql rr) (DualtreeVKdeCanonical_ env ql rl)
                bl.probability1 bl.probability2 st1
          let br := BestNodePartners env qr rl rr probability
          let right :=
            if env.MinDistanceSq qr.bound rl.bound ≤ env.MinDistanceSq qr.bound rr.bound then
              visitPartners (DualtreeVKdeCanonical_ env qr rl) (DualtreeVKdeCanonical_ env qr rr)
                br.probability1 br.probability2 left.1
            else
              visitPartners (DualtreeVKdeCanonical_ env qr rr) (DualtreeVKdeCanonical_ env qr rl)
                br.probability1 br.probability2 left.1
          (right.1, left.2 && right.2)
      (res.1.step (.refine qid) (refine qid ql.id qr.id), res.2)

/-- The body of the loop of `PostProcess` for the query point `q`. -/
def postQuery (env : Env B K) (qnode : Nat) (m : Mem K) (q : Nat) : Mem K :=
  let m1 := AddPostponed_ qnode q m
  let m2 := { m1 with
    densities_l := Function.update m1.densities_l q (m1.densities_l q * env.mult_const)
    densities_e := Function.update m1.densities_e q (m1.densities_e q * env.mult_const)
    densities_u := Function.update m1.densities_u q (m1.densities_u q * env.mult_const) }
  RefineBoundStatistics_ q qnode m2

/-- The method `PostProcess`. -/
def PostProcess (env : Env B K) : Tree B → Mem K → Mem K
  | .leaf qid qb qc _, m =>
    let m1 := m.setStat qid ((m.stat qid).ResetBoundStatistics env.rset_weight_sum)
    let m2 := (List.range' qb qc).foldl (postQuery env qid) m1
    m2.setStat qid (m2.stat qid).ClearPostponed
  | .node qid _ _ _ ql qr, m =>
    let m1 := pushDown qid ql.id qr.id m
    let m2 := PostProcess env ql m1
    let m3 := PostProcess env qr m2
    refine qid ql.id qr.id m3

end Operations

/-! ## The decision rule of the spec -/

section SpecRule

variable {B K : Type}

/-- The lower kernel value of the spec: the kernel of least bandwidth of the
reference node at the largest squared distance between the two bounds. -/
def specVLo (env : Env B K) (m : Mem K) (qnode rnode : Tree B) : ℚ :=
  env.EvalUnnormOnSq (m.stat rnode.id).min_bandwidth_kernel
    (env.MaxDistanceSq qnode.bound rnode.bound)

/-- The upper kernel value of the spec: the kernel of greatest bandwidth of
the reference node at the least squared distance between the two bounds. -/
def specVHi (env : Env B K) (m : Mem K) (qnode rnode : Tree B) : ℚ :=
  env.EvalUnnormOnSq (m.stat rnode.id).max_bandwidth_kernel
    (env.MinDistanceSq qnode.bound rnode.bound)

/-- The used error of the spec, `0.5 * (v_hi - v_lo) * weight_sum`. -/
def specUsedError (env : Env B K) (m : Mem K) (qnode rnode : Tree B) : ℚ :=
  0.5 * (specVHi env m qnode rnode - specVLo env m qnode rnode) * (m.stat rnode.id).weight_sum

/-- The allowed error of the spec. -/
def specAllowedErr (env : Env B K) (m : Mem K) (qnode rnode : Tree B) : Ext :=
  Ext.div
    ((max (env.tau * ((m.stat qnode.id).mass_l + (m.stat qnode.id).postponed_l +
          specVLo env m qnode rnode * (m.stat rnode.id).weight_sum)) env.threshold -
        ((m.stat qnode.id).used_error + (m.stat qnode.id).postponed_used_error)) *
      (m.stat rnode.id).weight_sum)
    ((m.stat env.rroot).weight_sum -
      ((m.stat qnode.id).n_pruned + (m.stat qnode.id).postponed_n_pruned))

end SpecRule

/-! ## A concrete instance

One-dimensional points, interval bounds, and the Epanechnikov kernel of
`fastlib/math/kernel.h`. -/

namespace Example

/-- The fields of `EpanKernel`. -/
structure EpanKernel where
  inv_bandwidth_sq : ℚ
  bandwidth_sq : ℚ

/-- The method `EpanKernel::Init`. -/
def EpanKernel.Init (bandwidth_in : ℚ) : EpanKernel :=
  { bandwidth_sq := bandwidth_in * bandwidth_in
    inv_bandwidth_sq := 1 / (bandwidth_in * bandwidth_in) }

/-- The method `EpanKernel::EvalUnnormOnSq`. -/
def EpanKernel.EvalUnnormOnSq (k : EpanKernel) (sqdist : ℚ) : ℚ :=
  if sqdist < k.bandwidth_sq then 1 - sqdist * k.inv_bandwidth_sq else 0

/-- An interval `[lo, hi]` of the line. -/
abbrev Interval := ℚ × ℚ

/-- The least squared distance between two intervals. -/
def minDistanceSq (a b : Interval) : ℚ :=
  let g := max 0 (max (a.1 - b.2) (b.1 - a.2))
  g * g

/-- The greatest squared distance between two intervals. -/
def maxDistanceSq (a b : Interval) : ℚ :=
  let g := max (a.2 - b.1) (b.2 - a.1)
  g * g

/-- A statistic with all bounds zero, kernels of bandwidth 1 and the given
weight sum. -/
def stat0 (w : ℚ) : VKdeStat EpanKernel :=
  { mass_l := 0, mass_u := 0, used_error := 0, n_pruned := 0
    postponed_l := 0, postponed_e := 0, postponed_u := 0
    postponed_used_error := 0, postponed_n_pruned := 0
    min_bandwidth_kernel := EpanKernel.Init 1
    max_bandwidth_kernel := EpanKernel.Init 1
    weight_sum := w }

/-- One query point at 0; reference points at 0, 0 and 1/2, each of weight 1
and bandwidth 1; `tau_ = 0` and the given floor `threshold_`. -/
def env (threshold : ℚ) : Env Interval EpanKernel where
  Init := EpanKernel.Init
  bandwidth_sq := EpanKernel.bandwidth_sq
  EvalUnnormOnSq := EpanKernel.EvalUnnormOnSq
  MinDistanceSq := minDistanceSq
  MaxDistanceSq := maxDistanceSq
  sqrt := fun x => if x = 1 then 1 else x
  qset := fun _ => [0]
  rset := fun r => if r = 2 then [1 / 2] else [0]
  kernels := fun _ => EpanKernel.Init 1
  rset_weights := fun _ => 1
  rset_weight_sum := 3
  tau := 0
  threshold := threshold
  mult_const := 1
  coverage_probabilities := []
  sample_multiple := 1
  rroot := 1

/-- The query tree: one leaf holding the query point. -/
def qroot : Tree Interval := .leaf 0 0 1 (0, 0)

/-- The reference tree: a root over a leaf with the two points at 0 and a
leaf with the point at 1/2. -/
def rroot : Tree Interval :=
  .node 1 0 3 (0, 1 / 2) (.leaf 2 0 2 (0, 0)) (.leaf 3 2 1 (1 / 2, 1 / 2))

/-- A reference tree that is a single leaf over the three points. -/
def rleaf : Tree Interval := .leaf 1 0 3 (0, 1 / 2)

/-- The memory before a run: statistics as `PreProcess` leaves them, lower
bounds 0 and upper bounds the total reference weight. -/
def mem0 : Mem EpanKernel where
  stat := fun i =>
    if i = 0 then { stat0 0 with mass_u := 3 }
    else if i = 1 then { stat0 3 with mass_u := 3 }
    else if i = 2 then { stat0 2 with mass_u := 3 }
    else { stat0 1 with mass_u := 3 }
  densities_l := fun _ => 0
  densities_e := fun _ => 0
  densities_u := fun _ => 3
  used_error := fun _ => 0
  n_pruned := fun _ => 0
  num_finite_difference_prunes := 0
  num_monte_carlo_prunes := 0
  rng := fun _ => 0
  rng_pos := 0

/-- A memory in which the query leaf already counts the whole reference
weight as pruned while the reference leaf still carries weight 3. -/
def memAllPruned : Mem EpanKernel :=
  mem0.setStat 0 { stat0 0 with n_pruned := 3 }

end Example

section OrderDef

variable {B : Type}

/-- The two trees `a`, `b` are the children `l`, `r` in one of the two orders. -/
def IsOrder (a b l r : Tree B) : Prop := (a = l ∧ b = r) ∨ (a = r ∧ b = l)

end OrderDef

section TraceDefs

variable {K : Type}

/-- The event is a Monte Carlo prune. -/
def Event.isMonteCarloPrune : Event → Bool
  | .monteCarloPrune _ _ => true
  | _ => false

/-- The number of Monte Carlo prunes among the entries of a history. -/
def monteCarloCount (l : List (Event × Mem K)) : Nat :=
  l.countP (fun x => x.1.isMonteCarloPrune)

end TraceDefs

/-! ## Effective bounds

The value a query point holds in its accumulators together with the deltas
still postponed on the nodes that contain it. -/

namespace Deltas

instance : Zero Deltas := ⟨⟨0, 0, 0, 0, 0⟩⟩

instance : Add Deltas :=
  ⟨fun a b => ⟨a.dl + b.dl, a.de + b.de, a.du + b.du, a.used_error + b.used_error,
    a.n_pruned + b.n_pruned⟩⟩

instance : Sub Deltas :=
  ⟨fun a b => ⟨a.dl - b.dl, a.de - b.de, a.du - b.du, a.used_error - b.used_error,
    a.n_pruned - b.n_pruned⟩⟩

end Deltas

section Effective

variable {B K : Type}

/-- The five postponed fields of a statistic. -/
def VKdeStat.postponed (s : VKdeStat K) : Deltas :=
  ⟨s.postponed_l, s.postponed_e, s.postponed_u, s.postponed_used_error, s.postponed_n_pruned⟩

/-- The five accumulators of a query point. -/
def Mem.point (m : Mem K) (x : Nat) : Deltas :=
  ⟨m.densities_l x, m.densities_e x, m.densities_u x, m.used_error x, m.n_pruned x⟩

/-- The deltas postponed on the nodes of the tree that contain the point. -/
def pending (m : Mem K) : Tree B → Nat → Deltas
  | .leaf i b c _, x => if b ≤ x ∧ x < b + c then (m.stat i).postponed else 0
  | .node i b c _ l r, x =>
    if b ≤ x ∧ x < b + c then (m.stat i).postponed + pending m l x + pending m r x else 0

/-- The accumulators of a point with everything postponed on the tree
flushed into them. -/
def effective (m : Mem K) (t : Tree B) (x : Nat) : Deltas := m.point x + pending m t x

/-- The fields of a statistic that the traversal only reads. -/
structure RefView (K : Type) where
  weight_sum : ℚ
  min_bandwidth_kernel : K
  max_bandwidth_kernel : K

/-- The read-only fields of a statistic. -/
def VKdeStat.view (s : VKdeStat K) : RefView K :=
  ⟨s.weight_sum, s.min_bandwidth_kernel, s.max_bandwidth_kernel⟩

/-- The read-only fields of all statistics. -/
def Mem.view (m : Mem K) : Nat → RefView K := fun i => (m.stat i).view

/-- The amounts `Prunable_` computes, as a function of the read-only data. -/
def pruneDeltas (env : Env B K) (v : Nat → RefView K) (q r : Tree B) : Deltas :=
  let lo := env.EvalUnnormOnSq (v r.id).min_bandwidth_kernel (env.MaxDistanceSq q.bound r.bound)
  let hi := env.EvalUnnormOnSq (v r.id).max_bandwidth_kernel (env.MinDistanceSq q.bound r.bound)
  ⟨lo * (v r.id).weight_sum, 0.5 * (v r.id).weight_sum * (lo + hi), (hi - 1) * (v r.id).weight_sum,
    0.5 * (hi - lo) * (v r.id).weight_sum, (v r.id).weight_sum⟩

/-- The weighted kernel value of the reference point `i` at the query point `x`. -/
def kernelValue (env : Env B K) (x i : Nat) : ℚ :=
  env.rset_weights i *
    env.EvalUnnormOnSq (env.kernels i) (DistanceSqEuclidean (env.qset x) (env.rset i))

/-- The exact sum of the weighted kernel values of the reference points
`[b, b + c)` at the query point `x`. -/
def kernelSumRange (env : Env B K) (x b c : Nat) : ℚ :=
  ((List.range' b c).map (kernelValue env x)).sum

/-- The exact contribution of the points of a reference node to the query
point `x`. -/
def kernelSum (env : Env B K) (x : Nat) (r : Tree B) : ℚ := kernelSumRange env x r.begin r.count

/-- The sum of the weights of the reference points `[b, b + c)`. -/
def weightSumRange (env : Env B K) (b c : Nat) : ℚ :=
  ((List.range' b c).map env.rset_weights).sum

/-- The amounts the base case adds to the bounds of the query point `x`. -/
def baseDeltas (env : Env B K) (v : Nat → RefView K) (x : Nat) (r : Tree B) : Deltas :=
  ⟨kernelSum env x r, kernelSum env x r, kernelSum env x r - (v r.id).weight_sum, 0,
    (v r.id).weight_sum⟩

/-- The second memory differs from the first only in the bound fields of the
statistics of the nodes of the tree and in the accumulators of the points of
the tree (and in counters and generator). -/
structure Frame (t : Tree B) (m0 m : Mem K) : Prop where
  stat : ∀ i, i ∉ t.ids → m.stat i = m0.stat i
  point : ∀ x, ¬ t.Contains x → m.point x = m0.point x
  view : m.view = m0.view

end Effective

section EffectDefs

variable {B K : Type}

/-- A description of what a visit of a node pair may do to the effective
bounds of a query point: `Good` constrains the total change after the visit
of the pair, `Mid` the change at any step during the visit; `Ctx` is what is
assumed of the pair and the read-only data, `Pp` of the confidence. -/
structure EffectData (B K : Type) where
  Ctx : Tree B → Tree B → (Nat → RefView K) → Prop
  Pp : ℚ → Prop
  Good : (Nat → RefView K) → Tree B → Nat → Deltas → Prop
  Mid : (Nat → RefView K) → Tree B → Nat → Deltas → Prop

/-- The laws an effect description must satisfy for the traversal to respect
it: the assumptions pass to the children, the terminal visits are good, and
the changes of the visits of the two children of a reference node add up. -/
structure EffectLaws (env : Env B K) (D : EffectData B K) : Prop where
  ctx_r : ∀ q i b c bd l r v, D.Ctx q (.node i b c bd l r) v → D.Ctx q l v ∧ D.Ctx q r v
  ctx_q : ∀ i b c bd l r rn v, D.Ctx (.node i b c bd l r) rn v → D.Ctx l rn v ∧ D.Ctx r rn v
  pp_sqrt : ∀ p, D.Pp p → D.Pp (env.sqrt p) ∧ D.Pp (Sqr (env.sqrt p))
  good_fd : ∀ q r v x, D.Ctx q r v → q.Contains x → D.Good v r x (pruneDeltas env v q r)
  good_mc : ∀ q r v x p d, D.Ctx q r v → D.Pp p → p < 1 → q.Contains x →
    d.n_pruned = (v r.id).weight_sum → D.Good v r x d
  good_base : ∀ q r v x, D.Ctx q r v → q.is_leaf = true → r.is_leaf = true → q.Contains x →
    D.Good v r x (baseDeltas env v x r)
  good_add : ∀ q i b c bd l r v x a s d1 d2, D.Ctx q (.node i b c bd l r) v → q.Contains x →
    IsOrder a s l r → D.Good v a x d1 → D.Good v s x d2 →
    D.Good v (.node i b c bd l r) x (d1 + d2)
  mid_zero : ∀ q r v x, D.Ctx q r v → q.Contains x → D.Mid v r x 0
  mid_good : ∀ q r v x d, D.Ctx q r v → q.Contains x → D.Good v r x d → D.Mid v r x d
  mid_first : ∀ q i b c bd l r v x a s d, D.Ctx q (.node i b c bd l r) v → q.Contains x →
    IsOrder a s l r → D.Mid v a x d → D.Mid v (.node i b c bd l r) x d
  mid_second : ∀ q i b c bd l r v x a s d1 d2, D.Ctx q (.node i b c bd l r) v → q.Contains x →
    IsOrder a s l r → D.Good v a x d1 → D.Mid v s x d2 →
    D.Mid v (.node i b c bd l r) x (d1 + d2)

/-- The memory `m` is within the frame of the query node relative to `m0`,
and the change of the effective bounds of every point of the query node
satisfies `G`. -/
def Within (G : (Nat → RefView K) → Tree B → Nat → Deltas → Prop) (q r : Tree B)
    (m0 m : Mem K) : Prop :=
  Frame q m0 m ∧ ∀ x, q.Contains x → G m0.view r x (effective m q x - effective m0 q x)

/-- What a visit of the pair `(q, r)` from the state `st` with outcome `res`
satisfies under an effect description. -/
def EffectMotive (D : EffectData B K) (q r : Tree B) (p : ℚ) (st : State K)
    (res : State K × Bool) : Prop :=
  q.Partitioned → q.Distinct → D.Ctx q r st.mem.view → D.Pp p →
    Within D.Good q r st.mem res.1.mem ∧
      ∃ new, res.1.trace = new ++ st.trace ∧ ∀ y ∈ new, Within D.Mid q r st.mem y.2

end EffectDefs

section PostDefs

variable {B K : Type}

/-- The accumulators of a point after the normalisation of `PostProcess`:
the three densities are multiplied by `mult_const_`. -/
def normalize (env : Env B K) (d : Deltas) : Deltas :=
  ⟨d.dl * env.mult_const, d.de * env.mult_const, d.du * env.mult_const, d.used_error,
    d.n_pruned⟩

/-- The weight sum of every non-leaf node is the sum of the weight sums of
its two children, as `PreProcess` leaves them. -/
def WeightAdditive (v : Nat → RefView K) : Tree B → Prop
  | .leaf _ _ _ _ => True
  | .node i _ _ _ l r =>
    (v i).weight_sum = (v l.id).weight_sum + (v r.id).weight_sum ∧
      WeightAdditive v l ∧ WeightAdditive v r

end PostDefs

section PrunedWeightDefs

/-- The effect description of the pruned weight: a visit of a pair adds the
weight sum of the reference node to the pruned weight of every query point. -/
def prunedWeightData (B K : Type) : EffectData B K where
  Ctx := fun _ r v => WeightAdditive v r
  Pp := fun _ => True
  Good := fun v r _ d => d.n_pruned = (v r.id).weight_sum
  Mid := fun _ _ _ _ => True

end PrunedWeightDefs

section SoundDefs

variable {B K : Type}

/-- The nodes of a tree, as trees. -/
def Tree.subtrees : Tree B → List (Tree B)
  | .leaf i b c bd => [.leaf i b c bd]
  | .node i b c bd l r => .node i b c bd l r :: (l.subtrees ++ r.subtrees)

/-- The kernel value of the reference point `i` at the query point `x`. -/
def kernelAt (env : Env B K) (x i : Nat) : ℚ :=
  env.EvalUnnormOnSq (env.kernels i) (DistanceSqEuclidean (env.qset x) (env.rset i))

/-- The lower kernel value `Prunable_` computes for a pair. -/
def vLo (env : Env B K) (v : Nat → RefView K) (q r : Tree B) : ℚ :=
  env.EvalUnnormOnSq (v r.id).min_bandwidth_kernel (env.MaxDistanceSq q.bound r.bound)

/-- The upper kernel value `Prunable_` computes for a pair. -/
def vHi (env : Env B K) (v : Nat → RefView K) (q r : Tree B) : ℚ :=
  env.EvalUnnormOnSq (v r.id).max_bandwidth_kernel (env.MinDistanceSq q.bound r.bound)

/-- What bound soundness assumes of a node pair: non-negative weights,
kernel values in `[0, 1]`, kernel values of the pair bracketed by the two
values `Prunable_` computes, and the weight sum of the reference node equal
to the sum of the weights of its points. -/
structure SoundLocal (env : Env B K) (v : Nat → RefView K) (q r : Tree B) : Prop where
  weight_nonneg : ∀ i, r.Contains i → 0 ≤ env.rset_weights i
  kernel_unit : ∀ x i, q.Contains x → r.Contains i →
    0 ≤ kernelAt env x i ∧ kernelAt env x i ≤ 1
  bracket : ∀ x i, q.Contains x → r.Contains i →
    vLo env v q r ≤ kernelAt env x i ∧ kernelAt env x i ≤ vHi env v q r
  lo_nonneg : 0 ≤ vLo env v q r
  hi_le_one : vHi env v q r ≤ 1
  weight_sum : (v r.id).weight_sum = weightSumRange env r.begin r.count

/-- The assumptions of bound soundness for a pair and all pairs below it. -/
def SoundCtx (env : Env B K) (q r : Tree B) (v : Nat → RefView K) : Prop :=
  r.Partitioned ∧ ∀ q1 ∈ q.subtrees, ∀ r1 ∈ r.subtrees, SoundLocal env v q1 r1

/-- The change of the effective bounds of the query point `x` at any step
of a visit of the reference node `r`: the lower bound grew by at most the
exact contribution of `r`, the upper bound shrank by at most the part of the
weight of `r` that the exact contribution does not reach. -/
structure SoundMid (env : Env B K) (v : Nat → RefView K) (r : Tree B) (x : Nat) (d : Deltas) :
    Prop where
  dl_nonneg : 0 ≤ d.dl
  dl_le : d.dl ≤ kernelSum env x r
  du_ge : kernelSum env x r - (v r.id).weight_sum ≤ d.du
  du_nonpos : d.du ≤ 0

/-- The change of the effective bounds of the query point `x` after a
deterministic visit of the reference node `r`. -/
structure SoundGood (env : Env B K) (v : Nat → RefView K) (r : Tree B) (x : Nat) (d : Deltas)
    extends SoundMid env v r x d : Prop where
  de_le : d.de - kernelSum env x r ≤ d.used_error
  de_ge : kernelSum env x r - d.de ≤ d.used_error
  n_pruned_eq : d.n_pruned = (v r.id).weight_sum

/-- The effect description of bound soundness at confidence 1. -/
def soundData (env : Env B K) : EffectData B K where
  Ctx := SoundCtx env
  Pp := fun p => p = 1
  Good := SoundGood env
  Mid := SoundMid env

end SoundDefs

section ContractDefs

variable {B K : Type}

/-- The contract of the kernel collaborator: values in `[0, 1]`,
non-increasing in the squared distance, non-decreasing in the bandwidth. -/
structure KernelContract (env : Env B K) : Prop where
  unit : ∀ k d, 0 ≤ d → 0 ≤ env.EvalUnnormOnSq k d ∧ env.EvalUnnormOnSq k d ≤ 1
  mono_dist : ∀ k d1 d2, 0 ≤ d1 → d1 ≤ d2 → env.EvalUnnormOnSq k d2 ≤ env.EvalUnnormOnSq k d1
  mono_bandwidth : ∀ k1 k2 d, 0 ≤ d → env.bandwidth_sq k1 ≤ env.bandwidth_sq k2 →
    env.EvalUnnormOnSq k1 d ≤ env.EvalUnnormOnSq k2 d

/-- The bounding regions enclose the true distances: for every node of the
query tree and every node of the reference tree, the least squared distance
of the two bounds is non-negative and at most the greatest, and the squared
distance of every point pair of the two nodes lies between them. -/
def BoundsEnclose (env : Env B K) (qroot rroot : Tree B) : Prop :=
  ∀ q ∈ qroot.subtrees, ∀ r ∈ rroot.subtrees,
    0 ≤ env.MinDistanceSq q.bound r.bound ∧
      env.MinDistanceSq q.bound r.bound ≤ env.MaxDistanceSq q.bound r.bound ∧
      ∀ x ∈ List.range' q.begin q.count, ∀ i ∈ List.range' r.begin r.count,
        env.MinDistanceSq q.bound r.bound ≤ DistanceSqEuclidean (env.qset x) (env.rset i) ∧
          DistanceSqEuclidean (env.qset x) (env.rset i) ≤ env.MaxDistanceSq q.bound r.bound

instance (env : Env B K) (qroot rroot : Tree B) : Decidable (BoundsEnclose env qroot rroot) := by
  unfold BoundsEnclose; infer_instance

/-- The read-only statistics of the reference tree as `PreProcess` leaves
them: the weight sum of every node is the sum of the weights of its points,
and the bandwidths of its two kernels bracket those of its points. -/
def RefPreprocessed (env : Env B K) (v : Nat → RefView K) (rroot : Tree B) : Prop :=
  ∀ r ∈ rroot.subtrees,
    (v r.id).weight_sum = weightSumRange env r.begin r.count ∧
      ∀ i ∈ List.range' r.begin r.count,
        env.bandwidth_sq (v r.id).min_bandwidth_kernel ≤ env.bandwidth_sq (env.kernels i) ∧
          env.bandwidth_sq (env.kernels i) ≤ env.bandwidth_sq (v r.id).max_bandwidth_kernel

instance (env : Env B K) (v : Nat → RefView K) (rroot : Tree B) :
    Decidable (RefPreprocessed env v rroot) := by
  unfold RefPreprocessed; infer_instance

end ContractDefs

/-! ## A second concrete instance

Two query points and three reference points on the line, both trees with a
root over two leaves, and the Epanechnikov kernel represented by its squared
bandwidth. -/

namespace Example

/-- The Epanechnikov kernel of squared bandwidth `b` at the squared
distance `d`. -/
def epanOnSq (b d : ℚ) : ℚ := if d < b then 1 - d / b else 0

/-- Query points at 0 and 1; reference points at 0, 1/2 and 2, each of
weight 1 and squared bandwidth 1. -/
def env2 (tau threshold : ℚ) : Env Interval ℚ where
  Init := fun b => b * b
  bandwidth_sq := fun k => k
  EvalUnnormOnSq := epanOnSq
  MinDistanceSq := minDistanceSq
  MaxDistanceSq := maxDistanceSq
  sqrt := fun x => if x = 1 then 1 else x
  qset := fun x => if x = 0 then [0] else [1]
  rset := fun i => if i = 0 then [0] else if i = 1 then [1 / 2] else [2]
  kernels := fun _ => 1
  rset_weights := fun _ => 1
  rset_weight_sum := 3
  tau := tau
  threshold := threshold
  mult_const := 1 / 2
  coverage_probabilities := []
  sample_multiple := 1
  rroot := 20

/-- The query tree: a root over one leaf for each query point. -/
def qroot2 : Tree Interval :=
  .node 10 0 2 (0, 1) (.leaf 11 0 1 (0, 0)) (.leaf 12 1 1 (1, 1))

/-- The reference tree: a root over a leaf with the points at 0 and 1/2 and
a leaf with the point at 2. -/
def rroot2 : Tree Interval :=
  .node 20 0 3 (0, 2) (.leaf 21 0 2 (0, 1 / 2)) (.leaf 22 2 1 (2, 2))

/-- A statistic as `PreProcess` leaves it, with the given weight sum. -/
def stat2 (w : ℚ) : VKdeStat ℚ :=
  { mass_l := 0, mass_u := 3, used_error := 0, n_pruned := 0
    postponed_l := 0, postponed_e := 0, postponed_u := 0
    postponed_used_error := 0, postponed_n_pruned := 0
    min_bandwidth_kernel := 1
    max_bandwidth_kernel := 1
    weight_sum := w }

/-- The memory before a run on the second instance. -/
def mem2 : Mem ℚ where
  stat := fun i => if i = 20 then stat2 3 else if i = 21 then stat2 2 else
    if i = 22 then stat2 1 else stat2 0
  densities_l := fun _ => 0
  densities_e := fun _ => 0
  densities_u := fun _ => 3
  used_error := fun _ => 0
  n_pruned := fun _ => 0
  num_finite_difference_prunes := 0
  num_monte_carlo_prunes := 0
  rng := fun _ => 0
  rng_pos := 0

end Example

section BudgetDefs

variable {B K : Type}

/-- The summary statistic of a node is a worst case for its points: with
what is postponed on the node itself, its lower mass is at most the
effective lower bound of every point of the node, its used error at least
the effective used error, and its pruned weight at most the effective pruned
weight. -/
def NodeOK (m : Mem K) (n : Tree B) : Prop :=
  ∀ x, n.Contains x →
    (m.stat n.id).mass_l + (m.stat n.id).postponed_l ≤ (effective m n x).dl ∧
      (effective m n x).used_error ≤
        (m.stat n.id).used_error + (m.stat n.id).postponed_used_error ∧
      (m.stat n.id).n_pruned + (m.stat n.id).postponed_n_pruned ≤ (effective m n x).n_pruned

/-- Every node of the tree has a summary statistic that is a worst case for
its points. -/
def StatOK (m : Mem K) : Tree B → Prop
  | .leaf i b c bd => NodeOK m (.leaf i b c bd)
  | .node i b c bd l r => NodeOK m (.node i b c bd l r) ∧ StatOK m l ∧ StatOK m r

/-- The error budget of a query point whose exact sum is `total`. -/
def budget (env : Env B K) (total : ℚ) : ℚ := max (env.tau * total) env.threshold

/-- What the error budget assumes before the visit of a pair: the query
statistics are worst cases, the used error of every point is within its
budget, and the reference node is not yet counted in the lower bound and in
the pruned weight of the point. -/
structure BudgetPre (env : Env B K) (total : Nat → ℚ) (W : ℚ) (m : Mem K) (q r : Tree B) :
    Prop where
  stat : StatOK m q
  err : ∀ x, q.Contains x → (effective m q x).used_error ≤ budget env (total x)
  low : ∀ x, q.Contains x → (effective m q x).dl + kernelSum env x r ≤ total x
  pruned : ∀ x, q.Contains x → (effective m q x).n_pruned + (m.view r.id).weight_sum ≤ W

/-- What a deterministic visit of the pair `(q, r)` satisfies for the error
budget. -/
def BudgetMotive (env : Env B K) (total : Nat → ℚ) (W : ℚ) (q r : Tree B) (p : ℚ)
    (st : State K) (res : State K × Bool) : Prop :=
  q.Partitioned → q.Distinct → SoundCtx env q r st.mem.view → p = 1 → 0 ≤ env.tau →
    (st.mem.view env.rroot).weight_sum = W → BudgetPre env total W st.mem q r →
    (Within (SoundGood env) q r st.mem res.1.mem ∧
      ∃ new, res.1.trace = new ++ st.trace ∧
        ∀ y ∈ new, Within (SoundMid env) q r st.mem y.2) ∧
      StatOK res.1.mem q ∧
      ∀ x, q.Contains x → (effective res.1.mem q x).used_error ≤ budget env (total x)

end BudgetDefs

section QueryInitDef

variable {B K : Type}

/-- The query side before a run: every statistic of the query tree has
lower mass, used error and pruned weight 0 and nothing postponed, as
`PreProcess` leaves it, and every query point has lower bound, estimate,
used error and pruned weight 0. -/
structure QueryInit (m : Mem K) (qroot : Tree B) : Prop where
  stat : ∀ i ∈ qroot.ids,
    (m.stat i).mass_l = 0 ∧ (m.stat i).used_error = 0 ∧ (m.stat i).n_pruned = 0 ∧
      (m.stat i).postponed = 0
  point : ∀ x, qroot.Contains x →
    m.densities_l x = 0 ∧ m.densities_e x = 0 ∧ m.used_error x = 0 ∧ m.n_pruned x = 0

end QueryInitDef

section PathDefs

variable {B K : Type}

/-- The deltas postponed on the nodes of the path from the root of the tree
to the leaf that holds the point: at every non-leaf node the path continues
in the left child when it contains the point and in the right child
otherwise. -/
def pathPostponed (m : Mem K) : Tree B → Nat → Deltas
  | .leaf i _ _ _, _ => (m.stat i).postponed
  | .node i _ _ _ l r, x =>
    (m.stat i).postponed + (if l.Contains x then pathPostponed m l x else pathPostponed m r x)

end PathDefs

section SiblingDefs

variable {B K : Type}

/-- The visit of the two children of a reference node as the spec describes
it: the first child is visited with confidence `sqrt(p)`; the second with
`Sqr(sqrt(p))` when the first call returned true and with `sqrt(p)` when it
returned false; the visit is exact when both calls are. -/
def siblingVisit (env : Env B K) (qnode first second : Tree B) (p : ℚ) (st : State K) :
    State K × Bool :=
  let first_result := DualtreeVKdeCanonical_ env qnode first (env.sqrt p) st
  let second_result := DualtreeVKdeCanonical_ env qnode second
    (if first_result.2 then Sqr (env.sqrt p) else env.sqrt p) first_result.1
  (second_result.1, first_result.2 && second_result.2)

end SiblingDefs

namespace Example

end Example

section MonoDefs

variable {B K : Type}

/-- From the memory `m` to the memory `m1` the effective lower bound of no
point of the query node shrinks and the effective upper bound of none grows;
the memories differ within the frame of the node. -/
def MonoStep (q : Tree B) (m m1 : Mem K) : Prop :=
  Frame q m m1 ∧
    ∀ x, q.Contains x →
      (effective m q x).dl ≤ (effective m1 q x).dl ∧
        (effective m1 q x).du ≤ (effective m q x).du

/-- The recorded steps `new` (newest first) lead from the memory `m0` to the
memory `m1` along the relation `R`: every snapshot lies between the two and
every earlier snapshot is related to every later one. -/
def Seg (R : Mem K → Mem K → Prop) (m0 : Mem K) (new : List (Event × Mem K)) (m1 : Mem K) :
    Prop :=
  R m0 m1 ∧ (∀ y ∈ new, R m0 y.2 ∧ R y.2 m1) ∧ new.Pairwise (fun a b => R b.2 a.2)

/-- What a visit of the pair `(q, r)` satisfies for monotone convergence. -/
def MonoMotive (env : Env B K) (q r : Tree B) (_p : ℚ) (st : State K)
    (res : State K × Bool) : Prop :=
  q.Partitioned → q.Distinct → SoundCtx env q r st.mem.view →
    ∃ new, res.1.trace = new ++ st.trace ∧ Seg (MonoStep q) st.mem new res.1.mem

end MonoDefs

section TerminationDefs

variable {B K : Type}

/-- The height of a tree: 0 for a leaf. -/
def Tree.height : Tree B → Nat
  | .leaf _ _ _ _ => 0
  | .node _ _ _ _ l r => max l.height r.height + 1

/-- The event is the entry of a call of `DualtreeVKdeCanonical_`. -/
def Event.isCall : Event → Bool
  | .call _ _ _ => true
  | _ => false

/-- The number of calls of `DualtreeVKdeCanonical_` among the entries of a
history. -/
def callCount (l : List (Event × Mem K)) : Nat :=
  l.countP (fun x => x.1.isCall)

end TerminationDefs

/-! ## The sampling test `MonteCarloPrunable_`

Its sample mean and sample variance are quotients by the number of samples,
so they are `Ext` values; the arithmetic of `double` on them follows. -/

namespace Ext

/-- The C unary minus. -/
def neg : Ext → Ext
  | fin x => fin (-x)
  | pinf => ninf
  | ninf => pinf
  | nan => nan

/-- The C `+` on `double`. -/
def add : Ext → Ext → Ext
  | fin x, fin y => fin (x + y)
  | nan, _ => nan
  | _, nan => nan
  | pinf, ninf => nan
  | ninf, pinf => nan
  | pinf, _ => pinf
  | _, pinf => pinf
  | ninf, _ => ninf
  | _, ninf => ninf

/-- The C `-` on `double`. -/
def sub (a b : Ext) : Ext := add a (neg b)

/-- The product of an infinity of the given sign (true for `+∞`) with a
finite value. -/
def infTimes (positive : Bool) (y : ℚ) : Ext :=
  if y = 0 then nan else if (0 < y) = positive then pinf else ninf

/-- The C `*` on `double`. -/
def mul : Ext → Ext → Ext
  | fin x, fin y => fin (x * y)
  | nan, _ => nan
  | _, nan => nan
  | pinf, fin y => infTimes true y
  | ninf, fin y => infTimes false y
  | fin x, pinf => infTimes true x
  | fin x, ninf => infTimes false x
  | pinf, pinf => pinf
  | ninf, ninf => pinf
  | pinf, ninf => ninf
  | ninf, pinf => ninf

/-- The C `/` on `double`. -/
def divE : Ext → Ext → Ext
  | fin x, fin y => div x y
  | nan, _ => nan
  | _, nan => nan
  | fin _, pinf => fin 0
  | fin _, ninf => fin 0
  | pinf, fin y => if y < 0 then ninf else pinf
  | ninf, fin y => if y < 0 then pinf else ninf
  | pinf, pinf => nan
  | pinf, ninf => nan
  | ninf, pinf => nan
  | ninf, ninf => nan

/-- The C `sqrt` on `double`, given the square root of the finite
non-negative values. -/
def sqrtE (sqrt : ℚ → ℚ) : Ext → Ext
  | fin x => if x < 0 then nan else fin (sqrt x)
  | pinf => pinf
  | ninf => nan
  | nan => nan

/-- The C `<` on `double`. -/
def ltE : Ext → Ext → Bool
  | fin x, fin y => decide (x < y)
  | nan, _ => false
  | _, nan => false
  | ninf, ninf => false
  | ninf, _ => true
  | pinf, _ => false
  | fin _, pinf => true
  | fin _, ninf => false

end Ext

section MonteCarloDefs

variable {B K : Type}

/-- What `MonteCarloPrunable_` uses and the sources do not define: the member
`num_initial_samples_per_query_`, the function `InverseNormalCDF::Compute` of
`inverse_normal_cdf.h`, and the value of
`stat().farfield_expansion_.get_weight_sum()` for the node at an address. -/
structure MonteCarloConfig where
  num_initial_samples_per_query : Int
  inverse_normal_cdf : ℚ → ℚ
  farfield_weight_sum : Nat → ℚ

/-- The local variables of `MonteCarloPrunable_` that its loops update. -/
structure BatchState (K : Type) where
  mem : Mem K
  kernel_sums : Ext
  squared_kernel_sums : ℚ
  total_samples : Int
  max_used_error : Ext
  flag : Bool

/-- The body of the inner loop of `MonteCarloPrunable_`: one sampled pair. -/
def batchSample (env : Env B K) (qnode rnode : Tree B) (s : BatchState K) : BatchState K :=
  let q := RandInt qnode.begin qnode.end_ s.mem
  let r := RandInt rnode.begin rnode.end_ q.2
  let squared_distance := DistanceSqEuclidean (env.qset q.1) (env.rset r.1)
  let weighted_kernel_value := env.EvalUnnormOnSq (env.kernels r.1) squared_distance
  { s with
    mem := r.2
    kernel_sums := Ext.add s.kernel_sums (.fin weighted_kernel_value)
    squared_kernel_sums := s.squared_kernel_sums + weighted_kernel_value * weighted_kernel_value }

/-- One round of the `do ... while(true)` loop of `MonteCarloPrunable_`: a
batch of samples and the test of the half-width.  The second component says
whether the round ends with `break`; both branches of the test do. -/
def monteCarloRound (env : Env B K) (cfg : MonteCarloConfig) (qnode rnode : Tree B)
    (probability : ℚ) (d : Deltas) (s : BatchState K) : BatchState K × Bool :=
  let standard_score := cfg.inverse_normal_cdf (probability + 0.5 * (1 - probability))
  let num_samples := cfg.num_initial_samples_per_query
  let s1 := (batchSample env qnode rnode)^[num_samples.toNat] s
  let total_samples := s1.total_samples + num_samples
  let sample_mean := Ext.divE s1.kernel_sums (.fin total_samples)
  let sample_variance := Ext.divE
    (Ext.sub (.fin s1.squared_kernel_sums)
      (Ext.mul (Ext.mul (.fin total_samples) sample_mean) sample_mean))
    (.fin (total_samples - 1))
  let stat := s1.mem.stat qnode.id
  let new_used_error := stat.used_error + stat.postponed_used_error
  let new_n_pruned := stat.n_pruned + stat.postponed_n_pruned
  let new_mass_l := stat.mass_l + stat.postponed_l + d.dl
  let new_max_kernel_value_l := env.threshold
  let right_hand_side := Ext.div
    (max (env.tau * new_mass_l) new_max_kernel_value_l - new_used_error)
    (cfg.farfield_weight_sum env.rroot - new_n_pruned)
  if Ext.ltE (Ext.mul (Ext.sqrtE env.sqrt sample_variance) (.fin standard_score))
      right_hand_side then
    ({ s1 with
        total_samples := total_samples
        kernel_sums := Ext.mul (Ext.divE s1.kernel_sums (.fin total_samples))
          (.fin (cfg.farfield_weight_sum rnode.id))
        max_used_error := Ext.mul
          (Ext.mul (.fin (cfg.farfield_weight_sum rnode.id)) (.fin standard_score))
          (Ext.sqrtE env.sqrt sample_variance) },
      true)
  else
    ({ s1 with total_samples := total_samples, flag := false }, true)

/-- The `do ... while(true)` loop of `MonteCarloPrunable_`, with a bound on
the number of rounds. -/
def monteCarloRounds (env : Env B K) (cfg : MonteCarloConfig) (qnode rnode : Tree B)
    (probability : ℚ) (d : Deltas) : Nat → BatchState K → Option (BatchState K)
  | 0, _ => none
  | fuel + 1, s =>
    let r := monteCarloRound env cfg qnode rnode probability d s
    if r.2 then some r.1 else monteCarloRounds env cfg qnode rnode probability d fuel r.1

/-- The method `MonteCarloPrunable_`: its return value, the values of its
reference parameters `de` and `used_error`, and the memory. -/
def MonteCarloPrunable_ (env : Env B K) (cfg : MonteCarloConfig) (fuel : Nat) (m : Mem K)
    (qnode rnode : Tree B) (probability : ℚ) (d : Deltas) : Option (Bool × Ext × Ext × Mem K) :=
  if (qnode.count : Int) * (rnode.count : Int) < cfg.num_initial_samples_per_query then
    some (false, .fin d.de, .fin d.used_error, m)
  else
    match monteCarloRounds env cfg qnode rnode probability d fuel
      ⟨m, .fin 0, 0, 0, .fin 0, true⟩ with
    | none => none
    | some s =>
      if s.flag then some (true, s.kernel_sums, s.max_used_error, s.mem)
      else some (false, .fin d.de, .fin d.used_error, s.mem)

/-- The sums after the first batch of `n` samples drawn from the memory `m`. -/
def firstBatch (env : Env B K) (qnode rnode : Tree B) (n : Int) (m : Mem K) : BatchState K :=
  (batchSample env qnode rnode)^[n.toNat] ⟨m, .fin 0, 0, 0, .fin 0, true⟩

/-- The sample mean of the spec: the sum of the sampled values over their
number. -/
def specSampleMean (s : BatchState K) (n : Int) : Ext := Ext.divE s.kernel_sums (.fin n)

/-- The sample variance of the spec. -/
def specSampleVariance (s : BatchState K) (n : Int) : Ext :=
  Ext.divE
    (Ext.sub (.fin s.squared_kernel_sums)
      (Ext.mul (Ext.mul (.fin n) (specSampleMean s n)) (specSampleMean s n)))
    (.fin (n - 1))

/-- The half-width of the spec: `z(confidence) * sample_stddev`. -/
def specHalfWidth (env : Env B K) (cfg : MonteCarloConfig) (probability : ℚ)
    (s : BatchState K) (n : Int) : Ext :=
  Ext.mul (Ext.sqrtE env.sqrt (specSampleVariance s n))
    (.fin (cfg.inverse_normal_cdf (probability + 0.5 * (1 - probability))))

/-- The error budget of the spec for one reference point. -/
def specBudget (env : Env B K) (cfg : MonteCarloConfig) (m : Mem K) (qnode : Tree B)
    (d : Deltas) : Ext :=
  Ext.div
    (max (env.tau * ((m.stat qnode.id).mass_l + (m.stat qnode.id).postponed_l + d.dl))
        env.threshold -
      ((m.stat qnode.id).used_error + (m.stat qnode.id).postponed_used_error))
    (cfg.farfield_weight_sum env.rroot -
      ((m.stat qnode.id).n_pruned + (m.stat qnode.id).postponed_n_pruned))

end MonteCarloDefs

namespace Example

/-- The memory of the first instance with a generator whose fourth number
is 2, so that the second sampled reference point is the one at 1/2. -/
def mem0r : Mem EpanKernel := { mem0 with rng := fun i => if i = 3 then 2 else 0 }

/-- Batches of two samples, the quantile 2 for every confidence, and the
weight sums of the statistics. -/
def mcConfig : MonteCarloConfig where
  num_initial_samples_per_query := 2
  inverse_normal_cdf := fun _ => 2
  farfield_weight_sum := fun i => (mem0.stat i).weight_sum

end Example

/-! ## Dual-tree Boruvka

A shallow embedding of `fastlib/u/march/emst/dtb.h`.  The class `UnionFind`
and the type `EdgePair` of `emst.h` and the construction of the kd-tree are
not among the sources: the union-find is a parameter with a contract, an
edge is its two indices and its distance, and the tree is a value of `Tree`
whose statistics are in an arena indexed by the address of the node.  An
`index_t` that counts or indexes is a natural number; the component
membership, which may be -1, is an integer. -/

namespace Dtb

/-- The class `UnionFind` of `emst.h`, which is not among the sources: a type
of states and the three operations `dtb.h` calls. -/
structure UnionFind where
  Carrier : Type
  Init : Nat → Carrier
  Find : Carrier → Nat → Nat
  Union : Carrier → Nat → Nat → Carrier

/-- The contract of a union-find structure: after `Init` every index is its
own representative; a representative represents itself; `Union(x, y)` gives
the indices of the two classes of `x` and `y` one common representative, one
of the two old ones, and leaves every other representative. -/
structure UnionFind.Lawful (uf : UnionFind) : Prop where
  find_init : ∀ n i, uf.Find (uf.Init n) i = i
  find_find : ∀ s i, uf.Find s (uf.Find s i) = uf.Find s i
  union_root : ∀ s x y,
    uf.Find (uf.Union s x y) x = uf.Find s x ∨ uf.Find (uf.Union s x y) x = uf.Find s y
  find_union : ∀ s x y i,
    uf.Find (uf.Union s x y) i =
      if uf.Find s i = uf.Find s x ∨ uf.Find s i = uf.Find s y then uf.Find (uf.Union s x y) x
      else uf.Find s i

/-- The type `EdgePair` of `emst.h`: the two indices of an edge, the lesser
first, and its distance. -/
structure EdgePair where
  lesser_index : Nat
  greater_index : Nat
  distance : ℚ
  deriving DecidableEq

/-- The class `DTBStat`. -/
structure DTBStat where
  max_neighbor_distance : ℚ
  component_membership : Int
  deriving DecidableEq

/-- The constant `no_membership`. -/
def no_membership : Int := -1

namespace DTBStat

/-- The method `DTBStat::Init()`. -/
def Init : DTBStat := ⟨DBL_MAX, -1⟩

/-- The method `DTBStat::Init(dataset, start, count)`, also called by the
initialiser for non-leaves. -/
def InitLeaf (start count : Nat) : DTBStat :=
  if count = 1 then ⟨DBL_MAX, start⟩ else Init

end DTBStat

/-- What a computation reads and does not write: the number of points, the
columns of `data_points_`, the flag `do_naive_`, the tree `tree_`, the
permutation `old_from_new_permutation_`, and the operation `MinDistanceSq` of
the bound type. -/
structure Config (B : Type) where
  number_of_points : Nat
  data_points : Nat → List ℚ
  do_naive : Bool
  tree : Tree B
  old_from_new_permutation : Nat → Nat
  MinDistanceSq : B → B → ℚ

/-- The members of `DualTreeBoruvka` that a computation writes, with the
arena of the statistics of the nodes of `tree_`. -/
structure DualTreeBoruvka (uf : UnionFind) where
  number_of_edges : Nat
  edges : Nat → EdgePair
  connections : uf.Carrier
  neighbors_in_component : Nat → Nat
  neighbors_out_component : Nat → Nat
  neighbors_distances : Nat → ℚ
  total_dist : ℚ
  number_of_loops : Nat
  number_distance_prunes : Nat
  number_component_prunes : Nat
  number_leaf_computations : Nat
  number_q_recursions : Nat
  number_r_recursions : Nat
  number_both_recursions : Nat
  stat : Nat → DTBStat

section Operations

variable {B : Type} {uf : UnionFind}

/-- The squared distance of two points of `data_points_`. -/
def Config.dist (cfg : Config B) (i j : Nat) : ℚ :=
  DistanceSqEuclidean (cfg.data_points i) (cfg.data_points j)

/-- The method `AddEdge_` (its two assertions are compiled out). -/
def AddEdge_ (e1 e2 : Nat) (distance : ℚ) (s : DualTreeBoruvka uf) : DualTreeBoruvka uf :=
  let s1 :=
    if e1 < e2 then { s with edges := Function.update s.edges s.number_of_edges ⟨e1, e2, distance⟩ }
    else { s with edges := Function.update s.edges s.number_of_edges ⟨e2, e1, distance⟩ }
  { s1 with number_of_edges := s1.number_of_edges + 1 }

/-- The body of the loop of `AddAllEdges_` for the point `i`. -/
def addAllEdgesStep (s : DualTreeBoruvka uf) (i : Nat) : DualTreeBoruvka uf :=
  let component_i := uf.Find s.connections i
  let in_edge_i := s.neighbors_in_component component_i
  let out_edge_i := s.neighbors_out_component component_i
  if uf.Find s.connections in_edge_i ≠ uf.Find s.connections out_edge_i then
    let dist := s.neighbors_distances component_i
    let s1 := { s with total_dist := s.total_dist + dist }
    let s2 := AddEdge_ in_edge_i out_edge_i dist s1
    { s2 with connections := uf.Union s2.connections in_edge_i out_edge_i }
  else s

/-- The method `AddAllEdges_`. -/
def AddAllEdges_ (cfg : Config B) (s : DualTreeBoruvka uf) : DualTreeBoruvka uf :=
  (List.range' 0 cfg.number_of_points).foldl addAllEdgesStep s

/-- The body of the inner loop of `ComputeBaseCase_`: the reference point
against the query point, whose component is `query_component_index`. -/
def baseCaseReference (cfg : Config B) (query_index query_component_index : Nat)
    (s : DualTreeBoruvka uf) (reference_index : Nat) : DualTreeBoruvka uf :=
  let reference_component_index := uf.Find s.connections reference_index
  if query_component_index ≠ reference_component_index then
    let distance := cfg.dist query_index reference_index
    if distance < s.neighbors_distances query_component_index then
      { s with
        neighbors_distances :=
          Function.update s.neighbors_distances query_component_index distance
        neighbors_in_component :=
          Function.update s.neighbors_in_component query_component_index query_index
        neighbors_out_component :=
          Function.update s.neighbors_out_component query_component_index reference_index }
    else s
  else s

/-- The body of the outer loop of `ComputeBaseCase_`: the state is the
running `new_upper_bound` and the object. -/
def baseCaseQuery (cfg : Config B) (reference_start reference_end : Nat)
    (a : ℚ × DualTreeBoruvka uf) (query_index : Nat) : ℚ × DualTreeBoruvka uf :=
  let query_component_index := uf.Find a.2.connections query_index
  let s1 := (List.range' reference_start (reference_end - reference_start)).foldl
    (baseCaseReference cfg query_index query_component_index) a.2
  if a.1 < s1.neighbors_distances query_component_index then
    (s1.neighbors_distances query_component_index, s1)
  else (a.1, s1)

/-- The method `ComputeBaseCase_`: the bound it returns and the object. -/
def ComputeBaseCase_ (cfg : Config B) (query_start query_end reference_start reference_end : Nat)
    (s : DualTreeBoruvka uf) : ℚ × DualTreeBoruvka uf :=
  let s1 := { s with number_leaf_computations := s.number_leaf_computations + 1 }
  (List.range' query_start (query_end - query_start)).foldl
    (baseCaseQuery cfg reference_start reference_end) (-1, s1)

/-- Writes `max_neighbor_distance` of the node at an address. -/
def set_max_neighbor_distance (node : Nat) (distance : ℚ) (s : DualTreeBoruvka uf) :
    DualTreeBoruvka uf :=
  { s with
    stat := Function.update s.stat node ⟨distance, (s.stat node).component_membership⟩ }

/-- Writes `component_membership` of the node at an address. -/
def set_component_membership (node : Nat) (membership : Int) (s : DualTreeBoruvka uf) :
    DualTreeBoruvka uf :=
  { s with
    stat := Function.update s.stat node ⟨(s.stat node).max_neighbor_distance, membership⟩ }

/-- The two prunes that open `ComputeNeighborsRecursion_`: the object after
the prune when one applies. -/
def neighborPrune (query_node reference_node : Tree B) (incoming_distance : ℚ)
    (s : DualTreeBoruvka uf) : Option (DualTreeBoruvka uf) :=
  if (s.stat query_node.id).max_neighbor_distance < incoming_distance then
    some { s with number_distance_prunes := s.number_distance_prunes + 1 }
  else if (s.stat query_node.id).component_membership ≥ 0 ∧
      (s.stat query_node.id).component_membership =
        (s.stat reference_node.id).component_membership then
    some { s with number_component_prunes := s.number_component_prunes + 1 }
  else none

/-- The base case of `ComputeNeighborsRecursion_`. -/
def neighborBase (cfg : Config B) (query_node reference_node : Tree B)
    (s : DualTreeBoruvka uf) : DualTreeBoruvka uf :=
  let r := ComputeBaseCase_ cfg query_node.begin query_node.end_ reference_node.begin
    reference_node.end_ s
  set_max_neighbor_distance query_node.id r.1 r.2

/-- The method `ComputeNeighborsRecursion_` for a leaf query node. -/
def neighborsLeaf (cfg : Config B) (query_node : Tree B) :
    Tree B → ℚ → DualTreeBoruvka uf → DualTreeBoruvka uf
  | .leaf rid rb rc rbd, incoming_distance, s =>
    match neighborPrune query_node (.leaf rid rb rc rbd) incoming_distance s with
    | some s1 => s1
    | none => neighborBase cfg query_node (.leaf rid rb rc rbd) s
  | .node rid rb rc rbd rl rr, incoming_distance, s =>
    match neighborPrune query_node (.node rid rb rc rbd rl rr) incoming_distance s with
    | some s1 => s1
    | none =>
      let s1 := { s with number_r_recursions := s.number_r_recursions + 1 }
      let left_dist := cfg.MinDistanceSq query_node.bound rl.bound
      let right_dist := cfg.MinDistanceSq query_node.bound rr.bound
      if left_dist < right_dist then
        neighborsLeaf cfg query_node rr right_dist (neighborsLeaf cfg query_node rl left_dist s1)
      else
        neighborsLeaf cfg query_node rl left_dist (neighborsLeaf cfg query_node rr right_dist s1)

/-- The method `ComputeNeighborsRecursion_`. -/
def ComputeNeighborsRecursion_ (cfg : Config B) :
    Tree B → Tree B → ℚ → DualTreeBoruvka uf → DualTreeBoruvka uf
  | .leaf qid qb qc qbd, reference_node, incoming_distance, s =>
    neighborsLeaf cfg (.leaf qid qb qc qbd) reference_node incoming_distance s
  | .node qid qb qc qbd ql qr, reference_node, incoming_distance, s =>
    match neighborPrune (.node qid qb qc qbd ql qr) reference_node incoming_distance s with
    | some s1 => s1
    | none =>
      let s4 :=
        match reference_node with
        | .leaf _ _ _ _ =>
          let s1 := { s with number_q_recursions := s.number_q_recursions + 1 }
          let left_dist := cfg.MinDistanceSq ql.bound reference_node.bound
          let right_dist := cfg.MinDistanceSq qr.bound reference_node.bound
          ComputeNeighborsRecursion_ cfg qr reference_node right_dist
            (ComputeNeighborsRecursion_ cfg ql reference_node left_dist s1)
        | .node _ _ _ _ rl rr =>
          let s1 := { s with number_both_recursions := s.number_both_recursions + 1 }
          let s2 :=
            if cfg.MinDistanceSq ql.bound rl.bound < cfg.MinDistanceSq ql.bound rr.bound then
              ComputeNeighborsRecursion_ cfg ql rr (cfg.MinDistanceSq ql.bound rr.bound)
                (ComputeNeighborsRecursion_ cfg ql rl (cfg.MinDistanceSq ql.bound rl.bound) s1)
            else
              ComputeNeighborsRecursion_ cfg ql rl (cfg.MinDistanceSq ql.bound rl.bound)
                (ComputeNeighborsRecursion_ cfg ql rr (cfg.MinDistanceSq ql.bound rr.bound) s1)
          if cfg.MinDistanceSq qr.bound rl.bound < cfg.MinDistanceSq qr.bound rr.bound then
            ComputeNeighborsRecursion_ cfg qr rr (cfg.MinDistanceSq qr.bound rr.bound)
              (ComputeNeighborsRecursion_ cfg qr rl (cfg.MinDistanceSq qr.bound rl.bound) s2)
          else
            ComputeNeighborsRecursion_ cfg qr rl (cfg.MinDistanceSq qr.bound rl.bound)
              (ComputeNeighborsRecursion_ cfg qr rr (cfg.MinDistanceSq qr.bound rr.bound) s2)
      set_max_neighbor_distance qid
        (max (s4.stat ql.id).max_neighbor_distance (s4.stat qr.id).max_neighbor_distance) s4

/-- The method `ComputeNeighbors_`. -/
def ComputeNeighbors_ (cfg : Config B) (s : DualTreeBoruvka uf) : DualTreeBoruvka uf :=
  if cfg.do_naive then
    (ComputeBaseCase_ cfg 0 cfg.number_of_points 0 cfg.number_of_points s).2
  else ComputeNeighborsRecursion_ cfg cfg.tree cfg.tree DBL_MAX s

/-- The method `CleanupHelper_`.  On a leaf the loop returns at the first
point whose component differs from that of the first point, leaving the
membership as it was. -/
def CleanupHelper_ : Tree B → DualTreeBoruvka uf → DualTreeBoruvka uf
  | .leaf id b c _, s =>
    let s1 := set_max_neighbor_distance id DBL_MAX s
    let new_membership := uf.Find s1.connections b
    if (List.range' b c).all (fun i => decide (new_membership = uf.Find s1.connections i)) then
      set_component_membership id new_membership s1
    else s1
  | .node id _ _ _ l r, s =>
    let s1 := set_max_neighbor_distance id DBL_MAX s
    let s2 := CleanupHelper_ l s1
    let s3 := CleanupHelper_ r s2
    if (s3.stat l.id).component_membership ≥ 0 ∧
        (s3.stat l.id).component_membership = (s3.stat r.id).component_membership then
      set_component_membership id (s3.stat l.id).component_membership s3
    else s3

/-- The method `Cleanup_` (the two `DEBUG_ONLY` assignments are compiled
out). -/
def Cleanup_ (cfg : Config B) (s : DualTreeBoruvka uf) : DualTreeBoruvka uf :=
  let s1 := (List.range' 0 cfg.number_of_points).foldl
    (fun (t : DualTreeBoruvka uf) i =>
      { t with neighbors_distances := Function.update t.neighbors_distances i DBL_MAX }) s
  let s2 := { s1 with number_of_loops := s1.number_of_loops + 1 }
  if !cfg.do_naive then CleanupHelper_ cfg.tree s2 else s2

/-- One round of the loop of `ComputeMST`. -/
def mstRound (cfg : Config B) (s : DualTreeBoruvka uf) : DualTreeBoruvka uf :=
  Cleanup_ cfg (AddAllEdges_ cfg (ComputeNeighbors_ cfg s))

/-- The loop of `ComputeMST`, with a bound on the number of rounds: `none`
when the bound is reached with the loop condition still true. -/
def mstLoop (cfg : Config B) : Nat → DualTreeBoruvka uf → Option (DualTreeBoruvka uf)
  | 0, s =>
    if (s.number_of_edges : Int) < (cfg.number_of_points : Int) - 1 then none else some s
  | fuel + 1, s =>
    if (s.number_of_edges : Int) < (cfg.number_of_points : Int) - 1 then
      mstLoop cfg fuel (mstRound cfg s)
    else some s

/-- The method `EmitResults_`: the object and the array `results` (the
assertion is compiled out).  In tree mode the two indices of the first
`n - 1` entries of `edges_` are renamed in place by the permutation of the
tree, and `results` holds these entries; in naive mode `results` holds the
entries of `edges_`.  The entries of `results` from `number_of_edges_` on are
not part of the array. -/
def EmitResults_ (cfg : Config B) (s : DualTreeBoruvka uf) :
    DualTreeBoruvka uf × (Nat → EdgePair) :=
  if !cfg.do_naive then
    let s1 := { s with
      edges := fun i =>
        if i < cfg.number_of_points - 1 then
          ⟨cfg.old_from_new_permutation (s.edges i).lesser_index,
            cfg.old_from_new_permutation (s.edges i).greater_index, (s.edges i).distance⟩
        else s.edges i }
    (s1, s1.edges)
  else (s, s.edges)

/-- The statistics of the nodes of a tree as its construction leaves them:
every node is initialised by `DTBStat::Init(dataset, start, count)`. -/
def initStats : Tree B → (Nat → DTBStat) → (Nat → DTBStat)
  | .leaf id b c _, a => Function.update a id (DTBStat.InitLeaf b c)
  | .node id b c _ l r, a =>
    Function.update (initStats r (initStats l a)) id (DTBStat.InitLeaf b c)

/-- The contents of the arrays that `Init` allocates and does not fill. -/
structure Allocated where
  edges : Nat → EdgePair
  neighbors_in_component : Nat → Nat
  neighbors_out_component : Nat → Nat

/-- The method `Init`: the object before `ComputeMST`.  The arrays `edges_`,
`neighbors_in_component_` and `neighbors_out_component_` are allocated and
not filled: they hold the contents `a`. -/
def Init (cfg : Config B) (a : Allocated) : DualTreeBoruvka uf where
  number_of_edges := 0
  edges := a.edges
  connections := uf.Init cfg.number_of_points
  neighbors_in_component := a.neighbors_in_component
  neighbors_out_component := a.neighbors_out_component
  neighbors_distances := fun _ => DBL_MAX
  total_dist := 0
  number_of_loops := 0
  number_distance_prunes := 0
  number_component_prunes := 0
  number_leaf_computations := 0
  number_q_recursions := 0
  number_r_recursions := 0
  number_both_recursions := 0
  stat := if cfg.do_naive then fun _ => DTBStat.Init else initStats cfg.tree (fun _ => DTBStat.Init)

/-- The method `ComputeMST` with a bound on the rounds of its loop: the
object and the array `results`, `none` when the bound is reached with the
loop condition still true. -/
def ComputeMST (cfg : Config B) (fuel : Nat) (s : DualTreeBoruvka uf) :
    Option (DualTreeBoruvka uf × (Nat → EdgePair)) :=
  (mstLoop cfg fuel s).map (EmitResults_ cfg)

end Operations

end Dtb

namespace Dtb

/-- A union-find structure that keeps the representative of every index:
`Union(x, y)` gives the class of `x` the representative of `y`. -/
def quickFind : UnionFind where
  Carrier := { f : Nat → Nat // ∀ i, f (f i) = f i }
  Init := fun _ => ⟨fun i => i, fun _ => rfl⟩
  Find := fun s i => s.1 i
  Union := fun s x y =>
    ⟨fun i => if s.1 i = s.1 x then s.1 y else s.1 i, by
      intro i
      by_cases h : s.1 i = s.1 x
      · simp only [h, if_true, s.2 y]
        split_ifs <;> rfl
      · simp only [h, if_false, s.2 i]⟩

namespace Example

/-- Four points on the line, at 0, 1, 3 and 7. -/
def points (i : Nat) : List ℚ :=
  if i = 0 then [0] else if i = 1 then [1] else if i = 2 then [3] else [7]

/-- The tree over the four points: a root over two nodes of two leaves each,
the bound of a node being the interval of its points. -/
def tree : Tree VKde.Example.Interval :=
  .node 0 0 4 (0, 7)
    (.node 1 0 2 (0, 1) (.leaf 2 0 1 (0, 0)) (.leaf 3 1 1 (1, 1)))
    (.node 4 2 2 (3, 7) (.leaf 5 2 1 (3, 3)) (.leaf 6 3 1 (7, 7)))

/-- The instance in naive mode or in tree mode. -/
def config (do_naive : Bool) : Config VKde.Example.Interval where
  number_of_points := 4
  data_points := points
  do_naive := do_naive
  tree := tree
  old_from_new_permutation := fun i => i
  MinDistanceSq := VKde.Example.minDistanceSq

/-- Allocated arrays that hold zeros. -/
def zeros : Allocated := ⟨fun _ => ⟨0, 0, 0⟩, fun _ => 0, fun _ => 0⟩

/-- Two points of the space whose squared distance is `DBL_MAX`: the three
squares of 92184541, 42027399 and 88034690 add up to `2 ^ 54 - 2`. -/
def farPoints (i : Nat) : List ℚ :=
  if i = 0 then [0, 0, 0]
  else [92184541 * 2 ^ 485, 42027399 * 2 ^ 485, 88034690 * 2 ^ 485]

/-- The instance of the two far points, in naive mode. -/
def farConfig : Config VKde.Example.Interval where
  number_of_points := 2
  data_points := farPoints
  do_naive := true
  tree := .leaf 0 0 2 (0, 0)
  old_from_new_permutation := fun i => i
  MinDistanceSq := VKde.Example.minDistanceSq

end Example

end Dtb

namespace Dtb

section SpecDefs

variable {B : Type} {uf : UnionFind}

/-- Two points are joined by the edges of `E`: they are equal or linked by a
chain of edges, taken in either direction. -/
def Joined (E : Finset (Nat × Nat)) (a b : Nat) : Prop :=
  Relation.EqvGen (fun x y => (x, y) ∈ E) a b

/-- The edge set `E`, of edges written lesser index first, connects the
points `0 .. n - 1`. -/
def Spanning (n : Nat) (E : Finset (Nat × Nat)) : Prop :=
  (∀ e ∈ E, e.1 < e.2 ∧ e.2 < n) ∧ ∀ a b, a < n → b < n → Joined E a b

/-- The edge set has no cycle: no edge joins two points that the other edges
join. -/
def Acyclic (E : Finset (Nat × Nat)) : Prop :=
  ∀ e ∈ E, ¬ Joined (E.erase e) e.1 e.2

/-- The total squared distance of an edge set. -/
def weight (cfg : Config B) (E : Finset (Nat × Nat)) : ℚ :=
  ∑ e ∈ E, cfg.dist e.1 e.2

/-- The edges stored so far, as index pairs, in the order of `edges_`. -/
def edgeList (s : DualTreeBoruvka uf) : List (Nat × Nat) :=
  (List.range s.number_of_edges).map
    (fun k => ((s.edges k).lesser_index, (s.edges k).greater_index))

/-- The set of the edges stored so far. -/
def edgeSet (s : DualTreeBoruvka uf) : Finset (Nat × Nat) := (edgeList s).toFinset

/-- The pair of two indices, lesser first. -/
def ordered (u v : Nat) : Nat × Nat := if u < v then (u, v) else (v, u)

/-- The tree of the configuration is a kd-tree over the points: the children
of a node split its index range, the nodes are distinct objects and hold at
least one point each, the root holds the points `0 .. n - 1`, and the least
squared distance of the bounds of two nodes is at most the squared distance
of any two of their points. -/
structure WellFormed (cfg : Config B) : Prop where
  partitioned : cfg.tree.Partitioned
  distinct : cfg.tree.Distinct
  root_begin : cfg.tree.begin = 0
  root_count : cfg.tree.count = cfg.number_of_points
  nonempty : ∀ t ∈ cfg.tree.subtrees, 0 < t.count
  bounds : ∀ q ∈ cfg.tree.subtrees, ∀ r ∈ cfg.tree.subtrees, ∀ i j,
    q.Contains i → r.Contains j → cfg.MinDistanceSq q.bound r.bound ≤ cfg.dist i j

end SpecDefs

end Dtb

namespace Dtb

section InvariantDefs

variable {B : Type} {uf : UnionFind}

/-- The component index of a point: the value of `connections_.Find`. -/
def comp (s : DualTreeBoruvka uf) (i : Nat) : Nat := uf.Find s.connections i

/-- The indices below `n` that represent themselves. -/
def roots (n : Nat) (s : DualTreeBoruvka uf) : Finset Nat :=
  (Finset.range n).filter (fun i => comp s i = i)

/-- The invariant of the edges and the components: the union-find gives two
points one component exactly when the stored edges join them; the stored
edges are written lesser index first with their squared distance, are
pairwise different and free of cycles; `total_dist_` is their weight; the
components and the edges together number `n`; and every connected edge set
over the points can be changed, without growing in weight, into one that
contains the stored edges. -/
structure Forest (cfg : Config B) (s : DualTreeBoruvka uf) : Prop where
  root_lt : ∀ i, i < cfg.number_of_points → comp s i < cfg.number_of_points
  joined : ∀ i j, comp s i = comp s j ↔ Joined (edgeSet s) i j
  edge_ok : ∀ k, k < s.number_of_edges →
    (s.edges k).lesser_index < (s.edges k).greater_index ∧
      (s.edges k).greater_index < cfg.number_of_points ∧
      (s.edges k).distance = cfg.dist (s.edges k).lesser_index (s.edges k).greater_index
  nodup : (edgeList s).Nodup
  acyclic : Acyclic (edgeSet s)
  total : s.total_dist = weight cfg (edgeSet s)
  count : (roots cfg.number_of_points s).card + s.number_of_edges = cfg.number_of_points
  promising : ∀ T, Spanning cfg.number_of_points T →
    ∃ T1, Spanning cfg.number_of_points T1 ∧ edgeSet s ⊆ T1 ∧ weight cfg T1 ≤ weight cfg T

/-- The result of the neighbour search: for every component, the two
neighbour arrays hold a nearest pair of a point of the component and a point
outside it, and the distance array their squared distance. -/
def Selected (cfg : Config B) (s : DualTreeBoruvka uf) : Prop :=
  ∀ c, c < cfg.number_of_points → comp s c = c →
    s.neighbors_in_component c < cfg.number_of_points ∧
      s.neighbors_out_component c < cfg.number_of_points ∧
      comp s (s.neighbors_in_component c) = c ∧
      comp s (s.neighbors_out_component c) ≠ c ∧
      s.neighbors_distances c =
        cfg.dist (s.neighbors_in_component c) (s.neighbors_out_component c) ∧
      ∀ y z, y < cfg.number_of_points → z < cfg.number_of_points → comp s y = c →
        comp s z ≠ c → s.neighbors_distances c ≤ cfg.dist y z

/-- The invariant of the loop of `AddAllEdges_`, relative to the object `s0`
at its start: the neighbour arrays are those of `s0`; the components are
unions of those of `s0` and are represented by representatives of `s0`; and
for every component either its selected pair lies inside it, or the selected
distance is at most every distance from one of its points to a point of
another component of `s0`. -/
structure Round (cfg : Config B) (s0 s : DualTreeBoruvka uf) : Prop where
  forest : Forest cfg s
  same_in : s.neighbors_in_component = s0.neighbors_in_component
  same_out : s.neighbors_out_component = s0.neighbors_out_component
  same_dist : s.neighbors_distances = s0.neighbors_distances
  same_stat : s.stat = s0.stat
  coarser : ∀ i j, comp s0 i = comp s0 j → comp s i = comp s j
  root_old : ∀ i, comp s0 (comp s i) = comp s i
  least : ∀ r, (∃ i, i < cfg.number_of_points ∧ comp s i = r) →
    comp s (s.neighbors_in_component r) = comp s (s.neighbors_out_component r) ∨
      ∀ y z, y < cfg.number_of_points → z < cfg.number_of_points → comp s y = r →
        comp s0 z ≠ comp s0 y → s.neighbors_distances r ≤ cfg.dist y z
  edges_ge : s0.number_of_edges ≤ s.number_of_edges

end InvariantDefs

end Dtb

namespace Dtb

section SearchDefs

variable {B : Type} {uf : UnionFind}

/-- The candidate of every component is unset, with the distance `DBL_MAX`,
or is a pair of a point of the component and a point outside it with its
squared distance. -/
def Cand (cfg : Config B) (s : DualTreeBoruvka uf) : Prop :=
  ∀ c, c < cfg.number_of_points →
    s.neighbors_distances c = DBL_MAX ∨
      (s.neighbors_in_component c < cfg.number_of_points ∧
        s.neighbors_out_component c < cfg.number_of_points ∧
        comp s (s.neighbors_in_component c) = c ∧
        comp s (s.neighbors_out_component c) ≠ c ∧
        s.neighbors_distances c =
          cfg.dist (s.neighbors_in_component c) (s.neighbors_out_component c))

/-- The pair of the query point `q` and the reference point `r` is accounted
for: the two are in one component, or the candidate distance of the component
of `q` is at most their squared distance. -/
def Covered (cfg : Config B) (s : DualTreeBoruvka uf) (q r : Nat) : Prop :=
  comp s q = comp s r ∨ s.neighbors_distances (comp s q) ≤ cfg.dist q r

/-- What a part of the neighbour search may change: the edges and the
components stay, the candidate distances only decrease, the component
memberships of the nodes stay, and candidates stay candidates. -/
structure Search (cfg : Config B) (s s1 : DualTreeBoruvka uf) : Prop where
  connections : s1.connections = s.connections
  number : s1.number_of_edges = s.number_of_edges
  edges : s1.edges = s.edges
  total : s1.total_dist = s.total_dist
  decreasing : ∀ c, s1.neighbors_distances c ≤ s.neighbors_distances c
  member : ∀ id, (s1.stat id).component_membership = (s.stat id).component_membership
  cand : Cand cfg s → Cand cfg s1

/-- The bound of the distance prune: the `max_neighbor_distance` of a node is
at least the candidate distance of the component of each of its points. -/
def Bound (cfg : Config B) (s : DualTreeBoruvka uf) : Prop :=
  ∀ N ∈ cfg.tree.subtrees, ∀ i, N.Contains i →
    s.neighbors_distances (comp s i) ≤ (s.stat N.id).max_neighbor_distance

/-- A non-negative `component_membership` of a node is the component of all
its points. -/
def MemberSound (cfg : Config B) (s : DualTreeBoruvka uf) : Prop :=
  ∀ N ∈ cfg.tree.subtrees, 0 ≤ (s.stat N.id).component_membership →
    ∀ i, N.Contains i → ((comp s i : Nat) : Int) = (s.stat N.id).component_membership

/-- A node whose points are all in one component has a non-negative
`component_membership`. -/
def MemberComplete (cfg : Config B) (s : DualTreeBoruvka uf) : Prop :=
  ∀ N ∈ cfg.tree.subtrees,
    (∀ i j, N.Contains i → N.Contains j → comp s i = comp s j) →
      0 ≤ (s.stat N.id).component_membership

/-- The state at the head of the loop of `ComputeMST`: the invariant of the
edges, every candidate distance reset, and in tree mode every
`max_neighbor_distance` reset and every `component_membership` right. -/
structure Clean (cfg : Config B) (s : DualTreeBoruvka uf) : Prop where
  forest : Forest cfg s
  dist_reset : ∀ i, i < cfg.number_of_points → s.neighbors_distances i = DBL_MAX
  stat_reset : cfg.do_naive = false → ∀ N ∈ cfg.tree.subtrees,
    (s.stat N.id).max_neighbor_distance = DBL_MAX
  sound : cfg.do_naive = false → MemberSound cfg s
  complete : cfg.do_naive = false → MemberComplete cfg s

end SearchDefs

end Dtb

namespace Dtb

section CoversDefs

variable {B : Type} {uf : UnionFind}

/-- A part `f` of the neighbour search accounts for the pairs of `P`: from a
state with right memberships and bounds it changes only what the search may
change, keeps the bound of the distance prune, and accounts for every pair
of `P`. -/
def Covers (cfg : Config B) (P : Nat → Nat → Prop)
    (f : DualTreeBoruvka uf → DualTreeBoruvka uf) : Prop :=
  ∀ s, MemberSound cfg s → Bound cfg s →
    Search cfg s (f s) ∧ Bound cfg (f s) ∧ ∀ q r, P q r → Covered cfg (f s) q r

end CoversDefs

end Dtb

namespace Dtb

section ProofDefs

variable {B : Type} {uf : UnionFind}

/-- The recursive calls of `ComputeNeighborsRecursion_` for a query node
with children. -/
def neighborsDescend (cfg : Config B) (ql qr : Tree B) :
    Tree B → DualTreeBoruvka uf → DualTreeBoruvka uf
  | .leaf rid rb rc rbd, s =>
    ComputeNeighborsRecursion_ cfg qr (.leaf rid rb rc rbd)
      (cfg.MinDistanceSq qr.bound (Tree.leaf rid rb rc rbd).bound)
      (ComputeNeighborsRecursion_ cfg ql (.leaf rid rb rc rbd)
        (cfg.MinDistanceSq ql.bound (Tree.leaf rid rb rc rbd).bound)
        { s with number_q_recursions := s.number_q_recursions + 1 })
  | .node _ _ _ _ rl rr, s =>
    let s1 := { s with number_both_recursions := s.number_both_recursions + 1 }
    let s2 :=
      if cfg.MinDistanceSq ql.bound rl.bound < cfg.MinDistanceSq ql.bound rr.bound then
        ComputeNeighborsRecursion_ cfg ql rr (cfg.MinDistanceSq ql.bound rr.bound)
          (ComputeNeighborsRecursion_ cfg ql rl (cfg.MinDistanceSq ql.bound rl.bound) s1)
      else
        ComputeNeighborsRecursion_ cfg ql rl (cfg.MinDistanceSq ql.bound rl.bound)
          (ComputeNeighborsRecursion_ cfg ql rr (cfg.MinDistanceSq ql.bound rr.bound) s1)
    if cfg.MinDistanceSq qr.bound rl.bound < cfg.MinDistanceSq qr.bound rr.bound then
      ComputeNeighborsRecursion_ cfg qr rr (cfg.MinDistanceSq qr.bound rr.bound)
        (ComputeNeighborsRecursion_ cfg qr rl (cfg.MinDistanceSq qr.bound rl.bound) s2)
    else
      ComputeNeighborsRecursion_ cfg qr rl (cfg.MinDistanceSq qr.bound rl.bound)
        (ComputeNeighborsRecursion_ cfg qr rr (cfg.MinDistanceSq qr.bound rr.bound) s2)

/-- What `CleanupHelper_` keeps: everything but the statistics of the
nodes. -/
structure Kept (s s1 : DualTreeBoruvka uf) : Prop where
  connections : s1.connections = s.connections
  number : s1.number_of_edges = s.number_of_edges
  edges : s1.edges = s.edges
  total : s1.total_dist = s.total_dist
  distances : s1.neighbors_distances = s.neighbors_distances
  ins : s1.neighbors_in_component = s.neighbors_in_component
  outs : s1.neighbors_out_component = s.neighbors_out_component

/-- The statistic of a node after `CleanupHelper_`: the distance is reset,
and the membership is non-negative exactly when the points of the node are
in one component, which it then names. -/
def NodeClean (s : DualTreeBoruvka uf) (N : Tree B) : Prop :=
  (s.stat N.id).max_neighbor_distance = DBL_MAX ∧
    (0 ≤ (s.stat N.id).component_membership →
      ∀ i, N.Contains i → ((comp s i : Nat) : Int) = (s.stat N.id).component_membership) ∧
    ((∀ i j, N.Contains i → N.Contains j → comp s i = comp s j) →
      0 ≤ (s.stat N.id).component_membership)

/-- The states of the loop of `ComputeMST` on the two far points: no edge,
every point its own component, the neighbour arrays and the candidate
distances as `Init` left them. -/
def Stuck (s : DualTreeBoruvka quickFind) : Prop :=
  s.number_of_edges = 0 ∧ (∀ i, comp s i = i) ∧
    (∀ c, s.neighbors_in_component c = 0) ∧ (∀ c, s.neighbors_out_component c = 0) ∧
    ∀ c, s.neighbors_distances c = DBL_MAX

end ProofDefs

end Dtb

/-! ## Ranges

A shallow embedding of `fastlib/branches/fastlib-stl/fastlib/math/range.cc`.
A method that changes the range returns the new range. -/

/-- The fields of the class `Range`. -/
structure Range where
  lo : ℚ
  hi : ℚ
  deriving DecidableEq

namespace Range

/-- The constructor `Range(double point)`. -/
def ofPoint (point : ℚ) : Range := ⟨point, point⟩

/-- The method `InitEmptySet`. -/
def InitEmptySet : Range := ⟨DBL_MAX, -DBL_MAX⟩

/-- The method `InitUniversalSet`. -/
def InitUniversalSet : Range := ⟨-DBL_MAX, DBL_MAX⟩

/-- The method `MaxWith(const Range&)`. -/
def MaxWith (r : Range) (range : Range) : Range :=
  let lo := if range.lo > r.lo then range.lo else r.lo
  let hi := if range.hi > r.hi then range.hi else r.hi
  ⟨lo, hi⟩

/-- The method `MinWith(const Range&)`. -/
def MinWith (r : Range) (range : Range) : Range :=
  let lo := if range.lo < r.lo then range.lo else r.lo
  let hi := if range.hi < r.hi then range.hi else r.hi
  ⟨lo, hi⟩

/-- The method `MaxWith(double)`. -/
def MaxWith_double (r : Range) (v : ℚ) : Range :=
  if v > r.lo then
    if v > r.hi then ⟨v, v⟩ else ⟨v, r.hi⟩
  else r

/-- The method `MinWith(double)`. -/
def MinWith_double (r : Range) (v : ℚ) : Range :=
  if v < r.hi then
    if v < r.lo then ⟨v, v⟩ else ⟨r.lo, v⟩
  else r

/-- The operator `|=`. -/
def or_assign (r : Range) (rhs : Range) : Range :=
  let lo := if rhs.lo < r.lo then rhs.lo else r.lo
  let hi := if rhs.hi > r.hi then rhs.hi else r.hi
  ⟨lo, hi⟩

/-- The operator `|`. -/
def or (r : Range) (rhs : Range) : Range :=
  ⟨if rhs.lo < r.lo then rhs.lo else r.lo, if rhs.hi > r.hi then rhs.hi else r.hi⟩

/-- The operator `&=`. -/
def and_assign (r : Range) (rhs : Range) : Range :=
  let lo := if rhs.lo > r.lo then rhs.lo else r.lo
  let hi := if rhs.hi < r.hi then rhs.hi else r.hi
  ⟨lo, hi⟩

/-- The operator `&`. -/
def and (r : Range) (rhs : Range) : Range :=
  ⟨if rhs.lo > r.lo then rhs.lo else r.lo, if rhs.hi < r.hi then rhs.hi else r.hi⟩

/-- The method `Contains`. -/
def Contains (r : Range) (d : ℚ) : Bool := decide (d ≥ r.lo) && decide (d ≤ r.hi)

end Range

/-! ## The kd-tree builder

A shallow embedding of parts of `fastlib/u/garryb/nbr/kdtree.h`.  An
`index_t` is an integer, and its arithmetic does not overflow; the division
of integers truncates. -/

namespace KdTreeHybridBuilder

/-- The local `goal_col` of `Build_(node_i)`: the block-rounded index of the
median split. -/
def goal_col (begin_col end_col chunk_size_ : Int) : Int :=
  ((begin_col + end_col + chunk_size_).tdiv chunk_size_).tdiv 2 * chunk_size_

/-- The range and the bound of a node (the template parameter `TNode`,
whose class is declared in `spnode.h`, which is not among the sources). -/
structure Node (Bound : Type) where
  begin_ : Int
  count_ : Int
  bound : Bound

namespace Node

variable {Bound : Type}

/-- Modelled from the spec: `set_range(begin, count)` is declared in
`spnode.h`, which is not among the sources.  It takes the first index and
the number of points, as at its call sites in `Build_(node_i)`. -/
def set_range (node : Node Bound) (begin count : Int) : Node Bound :=
  { node with begin_ := begin, count_ := count }

/-- The accessor `begin()`. -/
def begin (node : Node Bound) : Int := node.begin_

/-- The accessor `count()`. -/
def count (node : Node Bound) : Int := node.count_

/-- The accessor `end()`: `Build_(node_i)` uses `node->begin() +
node->count()` and `node->end()` for one index. -/
def end_ (node : Node Bound) : Int := node.begin_ + node.count_

end Node

/-- The indices that the loop `for (index_t i = count; i--; point.Next())`
of `FindBoundingBox_` visits, from `begin` on (none when `count` is not
positive in a run that ends). -/
def visited (begin count : Int) : List Int :=
  (List.range count.toNat).map (fun k => begin + (k : Int))

/-- The method `FindBoundingBox_`: the bound is extended, with the operator
`|=` of the bound type, by the points of `count` indices from `begin` on. -/
def FindBoundingBox_ {Point Bound : Type} (points_ : Int → Point)
    (extend : Bound → Point → Bound) (begin count : Int) (bound : Bound) : Bound :=
  (visited begin count).foldl (fun b i => extend b (points_ i)) bound

/-- The method `Build_()` up to its call of `Build_(node_i)`, which writes
the range and the bound of its children only: the root node. -/
def Build_ {Point Bound : Type} (points_ : Int → Point) (extend : Bound → Point → Bound)
    (begin_index_ end_index_ : Int) (node : Node Bound) : Node Bound :=
  let node1 := node.set_range begin_index_ end_index_
  { node1 with bound := FindBoundingBox_ points_ extend node1.begin node1.end_ node1.bound }

end KdTreeHybridBuilder

/-! ## Kernels

A shallow embedding of the two kernels of
`fastlib/branches/fastlib-stl/fastlib/math/kernel.h`.  The library function
`exp` is a parameter.  A quotient is taken in the rational numbers: the
embedding is right for a bandwidth that is not zero. -/

/-- The method `EpanKernel::RangeUnnormOnSq`. -/
def Example.EpanKernel.RangeUnnormOnSq (k : Example.EpanKernel) (range : DRange) : DRange :=
  ⟨k.EvalUnnormOnSq range.hi, k.EvalUnnormOnSq range.lo⟩

/-- The fields of `GaussianKernel`. -/
structure GaussianKernel where
  neg_inv_bandwidth_2sq : ℚ
  bandwidth_sq : ℚ

namespace GaussianKernel

/-- The method `GaussianKernel::Init`. -/
def Init (bandwidth_in : ℚ) : GaussianKernel :=
  { bandwidth_sq := bandwidth_in * bandwidth_in
    neg_inv_bandwidth_2sq := -1 / (2 * (bandwidth_in * bandwidth_in)) }

/-- The method `GaussianKernel::EvalUnnormOnSq`. -/
def EvalUnnormOnSq (exp : ℚ → ℚ) (k : GaussianKernel) (sqdist : ℚ) : ℚ :=
  exp (sqdist * k.neg_inv_bandwidth_2sq)

/-- The method `GaussianKernel::RangeUnnormOnSq`. -/
def RangeUnnormOnSq (exp : ℚ → ℚ) (k : GaussianKernel) (range : DRange) : DRange :=
  ⟨k.EvalUnnormOnSq exp range.hi, k.EvalUnnormOnSq exp range.lo⟩

end GaussianKernel

/-- What the kernels use of the library function `exp`: it does not
decrease, it is 1 at 0, and it is not negative. -/
structure ExpContract (exp : ℚ → ℚ) : Prop where
  mono : ∀ x y, x ≤ y → exp x ≤ exp y
  zero : exp 0 = 1
  nonneg : ∀ x, 0 ≤ exp x

/-- A function with the properties of `exp` on the rational numbers. -/
def Example.expModel (x : ℚ) : ℚ := if 0 ≤ x then 1 + x else 1 / (1 - x)

/-! ## The summary of the n-body simulator

A shallow embedding of the re-accumulation of `NbodySimulatorSummary` of
`physpack/nbody_simulator/nbody_simulator_tripletree.h`. -/

/-- Modelled from the spec: the class `core::math::Range` of the n-body
simulator is not among the sources.  Its operator `+` adds the lower bounds
and the upper bounds; its operator `|=` is taken to be that of `range.cc`,
and `Init(lo, hi)` sets the two bounds. -/
def Range.add (a b : Range) : Range := ⟨a.lo + b.lo, a.hi + b.hi⟩

/-- The fields of `NbodySimulatorPostponed`. -/
structure NbodySimulatorPostponed where
  negative_potential : Range
  positive_potential : Range
  pruned : ℚ
  used_error : ℚ
  deriving DecidableEq

/-- The fields of `NbodySimulatorSummary`. -/
structure NbodySimulatorSummary where
  negative_potential : Range
  positive_potential : Range
  pruned : ℚ
  used_error : ℚ
  deriving DecidableEq

namespace NbodySimulatorSummary

/-- The method `StartReaccumulateCommon_`. -/
def StartReaccumulateCommon_ (_ : NbodySimulatorSummary) : NbodySimulatorSummary :=
  { negative_potential := ⟨DBL_MAX, -DBL_MAX⟩
    positive_potential := ⟨DBL_MAX, -DBL_MAX⟩
    pruned := DBL_MAX
    used_error := 0 }

/-- The method `StartReaccumulate()`. -/
def StartReaccumulate (s : NbodySimulatorSummary) : NbodySimulatorSummary :=
  s.StartReaccumulateCommon_

/-- The method `Accumulate(global_in, summary_in, postponed_in)`; of
`global_in` it reads `total_num_tuples()`. -/
def Accumulate (s : NbodySimulatorSummary) (total_num_tuples : ℚ)
    (summary_in : NbodySimulatorSummary) (postponed_in : NbodySimulatorPostponed) :
    NbodySimulatorSummary :=
  if summary_in.pruned + postponed_in.pruned < total_num_tuples then
    { negative_potential :=
        s.negative_potential.or_assign
          (summary_in.negative_potential.add postponed_in.negative_potential)
      positive_potential := summary_in.positive_potential.add postponed_in.positive_potential
      pruned := min s.pruned (summary_in.pruned + postponed_in.pruned)
      used_error := max s.used_error (summary_in.used_error + postponed_in.used_error) }
  else s

/-- The re-accumulation of a parent from two children: `StartReaccumulate()`
and one `Accumulate` for each child. -/
def reaccumulate (s : NbodySimulatorSummary) (total_num_tuples : ℚ)
    (left_summary : NbodySimulatorSummary) (left_postponed : NbodySimulatorPostponed)
    (right_summary : NbodySimulatorSummary) (right_postponed : NbodySimulatorPostponed) :
    NbodySimulatorSummary :=
  (s.StartReaccumulate.Accumulate total_num_tuples left_summary left_postponed).Accumulate
    total_num_tuples right_summary right_postponed

end NbodySimulatorSummary

/-- The range `outer` contains the range `inner`. -/
def Range.Encloses (outer inner : Range) : Prop := outer.lo ≤ inner.lo ∧ inner.hi ≤ outer.hi

instance (outer inner : Range) : Decidable (outer.Encloses inner) := by
  unfold Range.Encloses; infer_instance

namespace Example

/-- A summary with the positive potential `[lo, hi]` and everything else 0. -/
def positiveSummary (lo hi : ℚ) : NbodySimulatorSummary :=
  ⟨⟨0, 0⟩, ⟨lo, hi⟩, 0, 0⟩

/-- The postponed contribution that is zero. -/
def zeroPostponed : NbodySimulatorPostponed := ⟨⟨0, 0⟩, ⟨0, 0⟩, 0, 0⟩

end Example

section PreProcessDefs

variable {B K : Type}

/-- The first nine assignments of `PreProcess`: the bounds and the
postponed fields of the statistic of the node. -/
def preProcessReset (env : Env B K) (s : VKdeStat K) : VKdeStat K :=
  { s with
    mass_l := 0
    mass_u := env.rset_weight_sum
    used_error := 0
    n_pruned := 0
    postponed_l := 0
    postponed_u := 0
    postponed_e := 0
    postponed_used_error := 0
    postponed_n_pruned := 0 }

/-- The body of the loop of `PreProcess` over the points of a leaf. -/
def preProcessPoint (env : Env B K) (s : VKdeStat K) (i : Nat) : VKdeStat K :=
  { s with
    min_bandwidth_kernel :=
      env.Init (min (env.sqrt (env.bandwidth_sq s.min_bandwidth_kernel))
        (env.sqrt (env.bandwidth_sq (env.kernels i))))
    max_bandwidth_kernel :=
      env.Init (max (env.sqrt (env.bandwidth_sq s.max_bandwidth_kernel))
        (env.sqrt (env.bandwidth_sq (env.kernels i))))
    weight_sum := s.weight_sum + env.rset_weights i }

/-- The method `PreProcess`. -/
def PreProcess (env : Env B K) : Tree B → Mem K → Mem K
  | .leaf id b c _, m =>
    let s1 := preProcessReset env (m.stat id)
    let s2 := { s1 with
      min_bandwidth_kernel := env.Init (env.sqrt DBL_MAX)
      max_bandwidth_kernel := env.Init 0
      weight_sum := 0 }
    m.setStat id ((List.range' b c).foldl (preProcessPoint env) s2)
  | .node id _ _ _ l r, m =>
    let m1 := m.setStat id (preProcessReset env (m.stat id))
    let m3 := PreProcess env r (PreProcess env l m1)
    m3.setStat id
      { m3.stat id with
        min_bandwidth_kernel :=
          env.Init (min (env.sqrt (env.bandwidth_sq (m3.stat l.id).min_bandwidth_kernel))
            (env.sqrt (env.bandwidth_sq (m3.stat r.id).min_bandwidth_kernel)))
        max_bandwidth_kernel :=
          env.Init (max (env.sqrt (env.bandwidth_sq (m3.stat l.id).max_bandwidth_kernel))
            (env.sqrt (env.bandwidth_sq (m3.stat r.id).max_bandwidth_kernel)))
        weight_sum := (m3.stat l.id).weight_sum + (m3.stat r.id).weight_sum }

/-- The bounds and the postponed fields of a statistic are as `PreProcess`
sets them. -/
def Fresh (env : Env B K) (s : VKdeStat K) : Prop :=
  s.mass_l = 0 ∧ s.mass_u = env.rset_weight_sum ∧ s.used_error = 0 ∧ s.n_pruned = 0 ∧
    s.postponed_l = 0 ∧ s.postponed_e = 0 ∧ s.postponed_u = 0 ∧
    s.postponed_used_error = 0 ∧ s.postponed_n_pruned = 0

/-- The value `x` is the least of the squared bandwidths of the kernels of
the points of `l`. -/
def LeastBandwidth (env : Env B K) (l : List Nat) (x : ℚ) : Prop :=
  (∀ i ∈ l, x ≤ env.bandwidth_sq (env.kernels i)) ∧
    ∃ i ∈ l, x = env.bandwidth_sq (env.kernels i)

/-- The value `x` is the greatest of the squared bandwidths of the kernels
of the points of `l`. -/
def GreatestBandwidth (env : Env B K) (l : List Nat) (x : ℚ) : Prop :=
  (∀ i ∈ l, env.bandwidth_sq (env.kernels i) ≤ x) ∧
    ∃ i ∈ l, x = env.bandwidth_sq (env.kernels i)

/-- The aggregates of the statistic of a node are those of its points. -/
def Aggregated (env : Env B K) (m : Mem K) (N : Tree B) : Prop :=
  (m.stat N.id).weight_sum = weightSumRange env N.begin N.count ∧
    LeastBandwidth env (List.range' N.begin N.count)
      (env.bandwidth_sq (m.stat N.id).min_bandwidth_kernel) ∧
    GreatestBandwidth env (List.range' N.begin N.count)
      (env.bandwidth_sq (m.stat N.id).max_bandwidth_kernel)

/-- The library function `sqrt` is exact at the squared bandwidth of the
kernel of the point `i`, which is at most the start value of the minimum. -/
def SqrtExactAt (env : Env B K) (i : Nat) : Prop :=
  0 ≤ env.sqrt (env.bandwidth_sq (env.kernels i)) ∧
    env.sqrt (env.bandwidth_sq (env.kernels i)) * env.sqrt (env.bandwidth_sq (env.kernels i)) =
      env.bandwidth_sq (env.kernels i) ∧
    env.sqrt (env.bandwidth_sq (env.kernels i)) ≤
      env.sqrt (env.bandwidth_sq (env.Init (env.sqrt DBL_MAX)))


/-- The state of the loop over the points of a leaf after the points of
`done`. -/
def LeafLoop (env : Env B K) (done : List Nat) (s : VKdeStat K) : Prop :=
  s.weight_sum = (done.map env.rset_weights).sum ∧
    (done = [] →
      env.bandwidth_sq s.min_bandwidth_kernel =
          env.bandwidth_sq (env.Init (env.sqrt DBL_MAX)) ∧
        env.bandwidth_sq s.max_bandwidth_kernel = 0) ∧
    (done ≠ [] →
      LeastBandwidth env done (env.bandwidth_sq s.min_bandwidth_kernel) ∧
        GreatestBandwidth env done (env.bandwidth_sq s.max_bandwidth_kernel))

end PreProcessDefs

namespace Example

/-- The square root on the values of the fourth instance. -/
def sqrtTable4 (x : ℚ) : ℚ :=
  if x = 4 then 2 else if x = 9 then 3 else if x = DBL_MAX then 2 ^ 512
  else if x = 2 ^ 1024 then 2 ^ 512 else x

/-- The fourth instance: the reference points of the first with the
bandwidths 1, 2 and 3 and the weights 1, 2 and 3; a kernel is its squared
bandwidth. -/
def env4 : Env Interval ℚ :=
  { env2 0 0 with
    sqrt := sqrtTable4
    kernels := fun i => if i = 0 then 1 else if i = 1 then 4 else 9
    rset_weights := fun i => if i = 0 then 1 else if i = 1 then 2 else 3
    rset_weight_sum := 6 }

/-- A memory whose statistics hold values of an earlier run. -/
def memStale : Mem ℚ :=
  { mem2 with
    stat := fun _ =>
      { mass_l := 5, mass_u := 7, used_error := 1, n_pruned := 2
        postponed_l := 1, postponed_e := 1, postponed_u := 1
        postponed_used_error := 1, postponed_n_pruned := 1
        min_bandwidth_kernel := 25
        max_bandwidth_kernel := 36
        weight_sum := 11 } }

end Example

instance {B K : Type} (env : Env B K) (i : Nat) : Decidable (SqrtExactAt env i) := by
  unfold SqrtExactAt; infer_instance

/-! ## The command line

A shallow embedding of `CLI::HyphenateString` of
`src/mlpack/core/util/cli.cpp`.  A `std::string` is the list of its
characters; a position that may be `std::string::npos` is an option; the
positions are natural numbers (the strings are shorter than `2 ^ 32`). -/

namespace CLI

/-- The character `'\n'`. -/
def newline : Char := Char.ofNat 10

/-- The character `' '`. -/
def space : Char := Char.ofNat 32

/-- The library function `std::string::find(c, pos)`: the first position
from `pos` on that holds `c`. -/
def find (str : List Char) (c : Char) (pos : Nat) : Option Nat :=
  if (str.drop pos).indexOf c < (str.drop pos).length then
    some (pos + (str.drop pos).indexOf c)
  else none

/-- The library function `std::string::rfind(c, pos)`: the last position up
to `pos` that holds `c`. -/
def rfind (str : List Char) (c : Char) (pos : Nat) : Option Nat :=
  ((List.range (min (pos + 1) str.length)).reverse).find?
    (fun i => decide (str.get? i = some c))

/-- The library function `std::string::substr(pos, n)`. -/
def substr (str : List Char) (pos n : Nat) : List Char := (str.drop pos).take n

/-- The library operator `str[pos]`, which for `pos` equal to the length
gives the null character. -/
def charAt (str : List Char) (pos : Nat) : Char := str.getD pos (Char.ofNat 0)

/-- The value of `splitpos` when no newline is near: the rest of the string
when it fits on a line, or the nearest space, or `pos + margin`. -/
def splitWithoutNewline (str : List Char) (margin pos : Nat) : Nat :=
  if str.length - pos < margin then str.length
  else
    match rfind str space (margin + pos) with
    | some splitpos => if splitpos ≤ pos then pos + margin else splitpos
    | none => pos + margin

/-- The value of `splitpos` in one round of the loop of `HyphenateString`. -/
def splitPosition (str : List Char) (margin pos : Nat) : Nat :=
  match find str newline pos with
  | some splitpos =>
    if splitpos > pos + margin then splitWithoutNewline str margin pos else splitpos
  | none => splitWithoutNewline str margin pos

/-- One round of the loop of `HyphenateString`, on `out` and `pos`. -/
def hyphenateStep (str : List Char) (padding margin : Nat) (a : List Char × Nat) :
    List Char × Nat :=
  let splitpos := splitPosition str margin a.2
  let out1 := a.1 ++ substr str a.2 (splitpos - a.2)
  let out2 :=
    if splitpos < str.length then out1 ++ newline :: List.replicate padding space else out1
  let pos1 := if charAt str splitpos = space ∨ charAt str splitpos = newline then splitpos + 1
    else splitpos
  (out2, pos1)

/-- The loop of `HyphenateString`, with a bound on the number of rounds:
`none` when the bound is reached with the loop condition still true. -/
def hyphenateLoop (str : List Char) (padding margin : Nat) :
    Nat → List Char × Nat → Option (List Char)
  | 0, a => if a.2 < str.length - 1 then none else some a.1
  | fuel + 1, a =>
    if a.2 < str.length - 1 then
      hyphenateLoop str padding margin fuel (hyphenateStep str padding margin a)
    else some a.1

/-- The local `margin` of `HyphenateString`: `80 - padding` as a `size_t`. -/
def marginOf (padding : Nat) : Nat := (2 ^ 64 + 80 - padding) % 2 ^ 64

/-- The method `CLI::HyphenateString`, with a bound on the rounds of its
loop. -/
def HyphenateString (str : List Char) (padding : Nat) (fuel : Nat) : Option (List Char) :=
  if str.length < marginOf padding then some str
  else hyphenateLoop str padding (marginOf padding) fuel ([], 0)


/-- A piece of text that `HyphenateString` puts on one line: at most
`margin` consecutive characters of the input, none of them a newline. -/
def Chunk (str : List Char) (margin : Nat) (c : List Char) : Prop :=
  c.length ≤ margin ∧ c <:+: str ∧ newline ∉ c

/-- The text `out` is the chunk `first` followed, for every chunk of
`later`, by a newline, `padding` spaces and the chunk. -/
def Laid (str : List Char) (padding margin : Nat) (first : List Char)
    (later : List (List Char)) (out : List Char) : Prop :=
  out = first ++ (later.map (fun c => newline :: (List.replicate padding space ++ c))).flatten ∧
    Chunk str margin first ∧ ∀ c ∈ later, Chunk str margin c

/-- The text `out` at the head of the loop: empty, or laid out with an empty
last chunk. -/
def Open (str : List Char) (padding margin : Nat) (out : List Char) : Prop :=
  out = [] ∨ ∃ first later, Laid str padding margin first (later ++ [[]]) out

end CLI

/-- A text of nineteen characters, for a padding of seventy. -/
def CLI.Example.text : List Char := "0123456789 12345678".toList

namespace Dtb

section MembershipDefs

variable {uf : UnionFind}

/-- What the search for neighbours keeps: the union-find and the
`component_membership` of every node. -/
def Quiet (s s1 : DualTreeBoruvka uf) : Prop :=
  s1.connections = s.connections ∧
    ∀ j, (s1.stat j).component_membership = (s.stat j).component_membership

end MembershipDefs

end Dtb

namespace Dtb

section CountDefs

variable {B : Type} {uf : UnionFind}

/-- The count of the edges: the components of the points and the stored
edges together number `n`, the stored edges are pairwise different and free
of cycles, and they are at most `n - 1`. -/
def Counted (cfg : Config B) (s : DualTreeBoruvka uf) : Prop :=
  (roots cfg.number_of_points s).card + s.number_of_edges = cfg.number_of_points ∧
    (edgeList s).Nodup ∧ Acyclic (edgeSet s) ∧ s.number_of_edges + 1 ≤ cfg.number_of_points

end CountDefs

end Dtb

namespace Dtb

section OrderDefs

variable {B : Type} {uf : UnionFind}

/-- What neither the search for neighbours nor `Cleanup_` writes: the edges
and their number. -/
def SameEdges (s s1 : DualTreeBoruvka uf) : Prop :=
  s1.number_of_edges = s.number_of_edges ∧ s1.edges = s.edges

/-- Every stored edge holds its lesser index first. -/
def EdgesOrdered (s : DualTreeBoruvka uf) : Prop :=
  ∀ k, k < s.number_of_edges → (s.edges k).lesser_index < (s.edges k).greater_index

namespace Example

/-- The instance of the four points in tree mode, with a permutation that
reverses the points. -/
def reversedConfig : Config VKde.Example.Interval :=
  { config false with old_from_new_permutation := fun i => 3 - i }

end Example

end OrderDefs

end Dtb

namespace CLI

/-- The rounds `rs` of the loop account for the text `out` and for the first
`pos` characters of `str`: a round is the chunk it copies, the character it
skips after the chunk (none, a space or a newline), and whether it breaks the
line; `out` holds the chunks with the line breaks and `str` the chunks with
the skipped characters. -/
def Traced (str : List Char) (padding : Nat) (rs : List (List Char × List Char × Bool))
    (out : List Char) (pos : Nat) : Prop :=
  out = (rs.map (fun r =>
      r.1 ++ (if r.2.2 then newline :: List.replicate padding space else []))).flatten ∧
    str.take pos = (rs.map (fun r => r.1 ++ r.2.1)).flatten ∧
    ∀ r ∈ rs, r.2.1 = [] ∨ r.2.1 = [space] ∨ r.2.1 = [newline]

/-- A text of eleven characters without a space, for a padding of seventy. -/
def Example.word : List Char := "0123456789a".toList

end CLI

/-! ## The quantiles of the summary of the n-body simulator

The methods `StartReaccumulate(global)`, `Accumulate(global, results,
q_index)` and `PostAccumulate(global)` of `NbodySimulatorSummary`, with the
members of `NbodySimulatorGlobal` and `NbodySimulatorResult` they use.  A
`std::vector` written by `push_back` is a list; `std::sort` gives the sorted
list, here by insertion; reading a vector outside its bounds gives no
result. -/

/-- The members of `NbodySimulatorGlobal` that the summary uses. -/
structure NbodySimulatorGlobal where
  total_num_tuples : ℚ
  summary_compute_quantile : ℚ
  sort_negative_potential_hi : List ℚ
  sort_positive_potential_lo : List ℚ
  sort_used_error : List ℚ
  sort_pruned : List ℚ

/-- The members of `NbodySimulatorResult` that the summary uses. -/
structure NbodySimulatorResult where
  negative_potential : Nat → Range
  positive_potential : Nat → Range
  pruned : Nat → ℚ
  used_error : Nat → ℚ

namespace NbodySimulatorSummary

/-- The method `StartReaccumulate(global)`. -/
def StartReaccumulateGlobal (s : NbodySimulatorSummary) (global : NbodySimulatorGlobal) :
    NbodySimulatorSummary × NbodySimulatorGlobal :=
  (s.StartReaccumulateCommon_,
    { global with
      sort_negative_potential_hi := []
      sort_positive_potential_lo := []
      sort_used_error := []
      sort_pruned := [] })

/-- The method `Accumulate(global, results, q_index)`. -/
def AccumulateResult (s : NbodySimulatorSummary) (global : NbodySimulatorGlobal)
    (results : NbodySimulatorResult) (q_index : Nat) :
    NbodySimulatorSummary × NbodySimulatorGlobal :=
  if results.pruned q_index < global.total_num_tuples then
    ({ s with
        negative_potential :=
          ⟨min s.negative_potential.lo (results.negative_potential q_index).lo,
            s.negative_potential.hi⟩
        positive_potential :=
          ⟨s.positive_potential.lo,
            max s.positive_potential.hi (results.positive_potential q_index).hi⟩ },
      { global with
        sort_negative_potential_hi :=
          global.sort_negative_potential_hi ++ [(results.negative_potential q_index).hi]
        sort_positive_potential_lo :=
          global.sort_positive_potential_lo ++ [(results.positive_potential q_index).lo]
        sort_pruned := global.sort_pruned ++ [results.pruned q_index]
        sort_used_error := global.sort_used_error ++ [results.used_error q_index] })
  else (s, global)

/-- The element of a vector at an index of type `int`, when the index is
within the bounds. -/
def readAt (v : List ℚ) (index : Int) : Option ℚ :=
  if 0 ≤ index then v[index.toNat]? else none

/-- The local `index` of `PostAccumulate`, for vectors of the size `size`. -/
def quantileIndex (size : Nat) (summary_compute_quantile : ℚ) : Int :=
  ⌊(size : ℚ) * summary_compute_quantile⌋

/-- The method `PostAccumulate(global)`: no result when it reads a vector
outside its bounds. -/
def PostAccumulate (s : NbodySimulatorSummary) (global : NbodySimulatorGlobal) :
    Option (NbodySimulatorSummary × NbodySimulatorGlobal) :=
  if global.sort_pruned.length > 0 then
    let g1 : NbodySimulatorGlobal :=
      { global with
        sort_negative_potential_hi :=
          global.sort_negative_potential_hi.insertionSort (fun x y => x ≥ y)
        sort_positive_potential_lo :=
          global.sort_positive_potential_lo.insertionSort (fun x y => x ≤ y)
        sort_used_error := global.sort_used_error.insertionSort (fun x y => x ≥ y)
        sort_pruned := global.sort_pruned.insertionSort (fun x y => x ≤ y) }
    let index := quantileIndex g1.sort_negative_potential_hi.length
      g1.summary_compute_quantile
    match readAt g1.sort_negative_potential_hi index, readAt g1.sort_positive_potential_lo index,
      readAt g1.sort_used_error index, readAt g1.sort_pruned index with
    | some nh, some pl, some ue, some pr =>
      some ({ negative_potential := ⟨s.negative_potential.lo, nh⟩
              positive_potential := ⟨pl, s.positive_potential.hi⟩
              pruned := pr
              used_error := ue }, g1)
    | _, _, _, _ => none
  else some (s, global)

/-- The accumulation of the query points `qs`: `StartReaccumulate(global)`
and one `Accumulate(global, results, q_index)` for each. -/
def accumulateAll (s : NbodySimulatorSummary) (global : NbodySimulatorGlobal)
    (results : NbodySimulatorResult) (qs : List Nat) :
    NbodySimulatorSummary × NbodySimulatorGlobal :=
  qs.foldl (fun a q => AccumulateResult a.1 a.2 results q) (StartReaccumulateGlobal s global)

end NbodySimulatorSummary

namespace Example

/-- The results of three query points. -/
def results3 : NbodySimulatorResult where
  negative_potential := fun i => ⟨-(i : ℚ) - 5, -(i : ℚ) - 1⟩
  positive_potential := fun i => ⟨(i : ℚ) + 1, (i : ℚ) + 5⟩
  pruned := fun i => if i = 1 then 4 else 2
  used_error := fun i => (i : ℚ) / 8

/-- A global object of ten tuples with the quantile `q`. -/
def global3 (q : ℚ) : NbodySimulatorGlobal := ⟨10, q, [9], [], [], []⟩

end Example

/-! ## The coverage probability `OuterConfidenceInterval`

The methods `OuterConfidenceInterval` and `BinomialCoefficientHelper_` of
`dualtree_vkde_impl.h` on exact numbers.  Every divisor of
`BinomialCoefficientHelper_` is at least 1 once its test of the arguments has
passed, so the division is that of the rational numbers. -/

/-- The loop `for(i = lo; i <= hi; i += 1.0)` on exact numbers: the body runs
for `i = lo, lo + 1, ...` as long as `i <= hi`, which is `floor(hi - lo) + 1`
times when `lo <= hi` and not at all otherwise. -/
def forLoop {σ : Type} (lo hi : ℚ) (body : ℚ → σ → σ) (s : σ) : σ :=
  (List.range (⌊hi - lo⌋ + 1).toNat).foldl (fun s (k : Nat) => body (lo + (k : ℚ)) s) s

/-- The exchange of `k` and `n - k` that `BinomialCoefficientHelper_` makes
when `k < n - k`: the new `k` and the new `n - k`. -/
def largerHalf (n k : ℚ) : ℚ × ℚ :=
  if k < n - k then (n - k, n - (n - k)) else (k, n - k)

/-- The method `BinomialCoefficientHelper_`. -/
def BinomialCoefficientHelper_ (n3 k3 n1 k1 n2 k2 : ℚ) : ℚ :=
  if k3 > n3 ∨ k3 < 0 ∨ k1 > n1 ∨ k1 < 0 ∨ k2 > n2 ∨ k2 < 0 then 0
  else
    let h3 := largerHalf n3 k3
    let h1 := largerHalf n1 k1
    let h2 := largerHalf n2 k2
    let n_k3 := h3.2
    let n_k1 := h1.2
    let n_k2 := h2.2
    let min_index := min n_k1 n_k2
    let max_index := max n_k1 n_k2
    -- the state of the first two loops: `k1`, `k2` and `nchsk`
    let s1 : ℚ × ℚ × ℚ := forLoop 1 min_index
      (fun _ s => (s.1 + 1, s.2.1 + 1, s.2.2 * (s.1 + 1) / (s.2.1 + 1))) (h1.1, h2.1, 1)
    let s2 : ℚ × ℚ × ℚ := forLoop (min_index + 1) max_index
      (fun i s =>
        if n_k1 < n_k2 then (s.1, s.2.1 + 1, s.2.2 * i / (s.2.1 + 1))
        else (s.1 + 1, s.2.1, s.2.2 * (s.1 + 1) / i)) s1
    -- the state of the third loop: `k3` and `nchsk`
    let s3 : ℚ × ℚ := forLoop 1 n_k3 (fun i s => (s.1 + 1, s.2 * (s.1 + 1) / i)) (h3.1, s2.2.2)
    s3.2

/-- The method `OuterConfidenceInterval`. -/
def OuterConfidenceInterval (population_size sample_size sample_order_statistics_min_index
    population_order_statistics_min_index : ℚ) : ℚ :=
  let total_probability := forLoop sample_order_statistics_min_index
    (min population_order_statistics_min_index sample_size)
    (fun r_star total_probability =>
      if r_star > population_order_statistics_min_index ∨ sample_size - r_star < 0 ∨
          population_size - population_order_statistics_min_index < 0 ∨
          sample_size - r_star > population_size - population_order_statistics_min_index then
        total_probability
      else
        total_probability +
          BinomialCoefficientHelper_ population_order_statistics_min_index r_star
            (population_size - population_order_statistics_min_index) (sample_size - r_star)
            population_size sample_size) 0
  max (min total_probability 1) 0

/-- The hypergeometric tail of the spec: the sum, over `r` from `r0` to
`min(K, n)` with `n - r <= N - K`, of `C(K, r) * C(N - K, n - r) / C(N, n)`. -/
def hypergeometricTail (N n r0 K : Nat) : ℚ :=
  ∑ r ∈ (Finset.Icc r0 (min K n)).filter (fun r => n - r ≤ N - K),
    ((K.choose r : ℚ) * ((N - K).choose (n - r) : ℚ)) / (N.choose n : ℚ)

namespace KdTreeHybridBuilder

/-- The locals of `Partition_` with the array `points_` and the two bounds
it extends. -/
structure PartitionState (Point Bound : Type) where
  points_ : Int → Point
  left_i : Int
  right_i : Int
  left_bound : Bound
  right_bound : Bound

section PartitionDefs

variable {Point Bound : Type}

/-- The method `Swap` of the array of points. -/
def Swap (points_ : Int → Point) (a b : Int) : Int → Point :=
  fun i => if i = a then points_ b else if i = b then points_ a else points_ i

/-- The first inner loop of `Partition_`, with a bound on its rounds: the
state and whether the loop ends with `return left_i` (and not with
`break`). -/
def leftScan (get : Point → Int → ℚ) (extend : Bound → Point → Bound) (split_dim : Int)
    (splitvalue : ℚ) : Nat → PartitionState Point Bound → Option (PartitionState Point Bound × Bool)
  | 0, _ => none
  | fuel + 1, s =>
    if s.left_i > s.right_i then some (s, true)
    else if get (s.points_ s.left_i) split_dim ≥ splitvalue then
      some ({ s with right_bound := extend s.right_bound (s.points_ s.left_i) }, false)
    else
      leftScan get extend split_dim splitvalue fuel
        { s with
          left_bound := extend s.left_bound (s.points_ s.left_i)
          left_i := s.left_i + 1 }

/-- The second inner loop of `Partition_`, with a bound on its rounds: the
state and whether the loop ends with `return left_i`. -/
def rightScan (get : Point → Int → ℚ) (extend : Bound → Point → Bound) (split_dim : Int)
    (splitvalue : ℚ) : Nat → PartitionState Point Bound → Option (PartitionState Point Bound × Bool)
  | 0, _ => none
  | fuel + 1, s =>
    if s.left_i > s.right_i then some (s, true)
    else if get (s.points_ s.right_i) split_dim < splitvalue then
      some ({ s with left_bound := extend s.left_bound (s.points_ s.right_i) }, false)
    else
      rightScan get extend split_dim splitvalue fuel
        { s with
          right_bound := extend s.right_bound (s.points_ s.right_i)
          right_i := s.right_i - 1 }

/-- The outer loop of `Partition_`, with a bound on the rounds of each of
its loops: the value returned and the state. -/
def partitionLoop (get : Point → Int → ℚ) (extend : Bound → Point → Bound) (split_dim : Int)
    (splitvalue : ℚ) : Nat → PartitionState Point Bound → Option (Int × PartitionState Point Bound)
  | 0, _ => none
  | fuel + 1, s =>
    match leftScan get extend split_dim splitvalue (fuel + 1) s with
    | none => none
    | some (s1, true) => some (s1.left_i, s1)
    | some (s1, false) =>
      match rightScan get extend split_dim splitvalue (fuel + 1) s1 with
      | none => none
      | some (s2, true) => some (s2.left_i, s2)
      | some (s2, false) =>
        partitionLoop get extend split_dim splitvalue fuel
          { s2 with
            points_ := Swap s2.points_ s2.left_i s2.right_i
            right_i := s2.right_i - 1 }

/-- The method `Partition_`, with a bound on the rounds of its loops: the
index it returns, the array of points, and the two bounds.  The coordinate
`vec().get(d)` of a point and the operator `|=` of the bound type are
parameters. -/
def Partition_ (get : Point → Int → ℚ) (extend : Bound → Point → Bound) (fuel : Nat)
    (points_ : Int → Point) (split_dim : Int) (splitvalue : ℚ) (begin count : Int)
    (left_bound right_bound : Bound) : Option (Int × (Int → Point) × Bound × Bound) :=
  (partitionLoop get extend split_dim splitvalue fuel
    ⟨points_, begin, begin + count - 1, left_bound, right_bound⟩).map
    (fun r => (r.1, r.2.points_, r.2.left_bound, r.2.right_bound))

/-- The invariant of the loops of `Partition_`: the indices before `left_i`
hold points below the split value that `left_bound` includes, the indices
after `right_i` hold points not below it that `right_bound` includes, and
the array is a rearrangement, within the range, of the array `points0` of
the start. -/
structure PartitionInv (get : Point → Int → ℚ) (Includes : Bound → Point → Prop)
    (points0 : Int → Point) (split_dim : Int) (splitvalue : ℚ) (begin count : Int)
    (s : PartitionState Point Bound) : Prop where
  lo : begin ≤ s.left_i
  hi : s.right_i < begin + count
  order : s.left_i ≤ s.right_i + 1
  left : ∀ i, begin ≤ i → i < s.left_i →
    get (s.points_ i) split_dim < splitvalue ∧ Includes s.left_bound (s.points_ i)
  right : ∀ i, s.right_i < i → i < begin + count →
    splitvalue ≤ get (s.points_ i) split_dim ∧ Includes s.right_bound (s.points_ i)
  perm : ∃ σ : Equiv.Perm Int, (∀ i, i < begin ∨ begin + count ≤ i → σ i = i) ∧
    ∀ i, s.points_ i = points0 (σ i)

end PartitionDefs

namespace Example

/-- Five points on the line. -/
def line5 (i : Int) : ℚ :=
  if i = 0 then 4 else if i = 1 then 1 else if i = 2 then 3 else if i = 3 then 0 else 2

/-- The interval bound extended by a point. -/
def extendInterval (b : ℚ × ℚ) (p : ℚ) : ℚ × ℚ := (min b.1 p, max b.2 p)

end Example

end KdTreeHybridBuilder

/-- The instance with the floor `threshold_ = 1 / 100` and one coverage
probability, so that one sample is enough for every confidence. -/
def Example.envSampling : Env Example.Interval Example.EpanKernel :=
  { Example.env (1 / 100) with coverage_probabilities := [1], sample_multiple := 1 }

/-! ## Theorems -/

section PrunableRule

variable {B K : Type}

theorem Prunable_dl (env : Env B K) (m : Mem K) (qnode rnode : Tree B) (p : ℚ) :
    (Prunable_ env m qnode rnode p).dl =
      specVLo env m qnode rnode * (m.stat rnode.id).weight_sum := rfl

theorem Prunable_used_error (env : Env B K) (m : Mem K) (qnode rnode : Tree B) (p : ℚ) :
    (Prunable_ env m qnode rnode p).used_error = specUsedError env m qnode rnode := rfl

theorem Prunable_allowed_err (env : Env B K) (m : Mem K) (qnode rnode : Tree B) (p : ℚ) :
    (Prunable_ env m qnode rnode p).allowed_err = specAllowedErr env m qnode rnode := rfl

theorem Prunable_result (env : Env B K) (m : Mem K) (qnode rnode : Tree B) (p : ℚ) :
    (Prunable_ env m qnode rnode p).result =
      (!(Prunable_ env m qnode rnode p).allowed_err.isnan &&
        Ext.le (Prunable_ env m qnode rnode p).used_error
          (Prunable_ env m qnode rnode p).allowed_err) := rfl

/-- C3. `Prunable_` returns true exactly when the allowed error of the spec
is not NaN and the used error of the spec is at most the allowed error. -/
theorem C3_prunable_decision_rule (env : Env B K) (m : Mem K) (qnode rnode : Tree B)
    (probability : ℚ) :
    (Prunable_ env m qnode rnode probability).result = true ↔
      (specAllowedErr env m qnode rnode).isnan = false ∧
        Ext.le (specUsedError env m qnode rnode) (specAllowedErr env m qnode rnode) = true := by
  rw [Prunable_result, Prunable_allowed_err, Prunable_used_error]
  simp

/-- C10. The amounts `Prunable_` hands back: with `v_lo`, `v_hi` the kernel
values of the spec and `w` the weight sum of the reference node,
`dl = v_lo * w`, `de = 0.5 * (v_lo + v_hi) * w`,
`used_error = 0.5 * (v_hi - v_lo) * w`, `n_pruned = w` and
`du = (v_hi - 1) * w = v_hi * w - w`. -/
theorem C10_prunable_deltas (env : Env B K) (m : Mem K) (qnode rnode : Tree B)
    (probability : ℚ) :
    let v_lo := env.EvalUnnormOnSq (m.stat rnode.id).min_bandwidth_kernel
      (env.MaxDistanceSq qnode.bound rnode.bound)
    let v_hi := env.EvalUnnormOnSq (m.stat rnode.id).max_bandwidth_kernel
      (env.MinDistanceSq qnode.bound rnode.bound)
    let w := (m.stat rnode.id).weight_sum
    let out := Prunable_ env m qnode rnode probability
    out.dl = v_lo * w ∧ out.de = 0.5 * (v_lo + v_hi) * w ∧
      out.used_error = 0.5 * (v_hi - v_lo) * w ∧ out.n_pruned = w ∧
      out.du = (v_hi - 1) * w ∧ out.du = v_hi * w - w ∧
      out.kernel_value_range.lo = v_lo ∧ out.kernel_value_range.hi = v_hi := by
  intro v_lo v_hi w out
  refine ⟨rfl, ?_, rfl, rfl, rfl, ?_, rfl, rfl⟩ <;>
    simp only [out, Prunable_, v_lo, v_hi, w] <;> ring

/-- C4, the claim as stated fails: with the whole reference weight already
counted as pruned on the query node and a positive numerator the allowed
error is `+∞`, and `Prunable_` approves the prune. -/
theorem C4_counterexample :
    (Prunable_ (Example.env 1) Example.memAllPruned Example.qroot Example.rleaf 1).allowed_err
        = Ext.pinf ∧
      (Prunable_ (Example.env 1) Example.memAllPruned Example.qroot Example.rleaf 1).result
        = true ∧
      (pruneAttempt (Example.env 1) Example.qroot Example.rleaf 1
        ⟨Example.memAllPruned, []⟩).1 = some true := by
  decide!

/-- C4, amended.  `Prunable_` returns false whenever the allowed error is NaN
or `-∞`, and the traversal then does not take the finite-difference branch
for the pair; an allowed error of `+∞` does not disable the prune.  With zero
remaining weight the allowed error is NaN when the numerator is zero. -/
theorem C4_invalid_allowed_err (env : Env B K) (m : Mem K) (qnode rnode : Tree B)
    (probability : ℚ) :
    (((Prunable_ env m qnode rnode probability).allowed_err.isnan = true ∨
        (Prunable_ env m qnode rnode probability).allowed_err = Ext.ninf) →
      (Prunable_ env m qnode rnode probability).result = false ∧
        ∀ trace, (pruneAttempt env qnode rnode probability ⟨m, trace⟩).1 ≠ some true) ∧
    ((Prunable_ env m qnode rnode probability).allowed_err = Ext.pinf →
      (Prunable_ env m qnode rnode probability).result = true) ∧
    ((m.stat env.rroot).weight_sum -
          ((m.stat qnode.id).n_pruned + (m.stat qnode.id).postponed_n_pruned) = 0 →
        (Prunable_ env m qnode rnode probability).allowed_err.isnan = true ∨
          (Prunable_ env m qnode rnode probability).allowed_err.isinf = true) := by
  refine ⟨?_, ?_, ?_⟩
  · intro h
    have hr : (Prunable_ env m qnode rnode probability).result = false := by
      rw [Prunable_result]
      rcases h with h | h
      · simp [h]
      · simp [h, Ext.le]
    refine ⟨hr, ?_⟩
    intro trace
    unfold pruneAttempt
    simp only [hr, Bool.false_eq_true, if_false]
    split_ifs <;> simp
  · intro h
    rw [Prunable_result, h]
    rfl
  · intro h
    rw [Prunable_allowed_err]
    unfold specAllowedErr Ext.div
    rw [if_pos h]
    split_ifs <;> simp [Ext.isnan, Ext.isinf]

/-- C4, amended, at concrete inputs: a NaN allowed error refuses the prune of
the instance, an allowed error `+∞` approves it. -/
theorem C4_invalid_allowed_err_witness :
    (Prunable_ (Example.env 0) Example.memAllPruned Example.qroot Example.rleaf 1).result
        = false ∧
      (Prunable_ (Example.env 1) Example.memAllPruned Example.qroot Example.rleaf 1).result
        = true :=
  ⟨((C4_invalid_allowed_err (Example.env 0) Example.memAllPruned Example.qroot Example.rleaf
      1).1 (Or.inl (by decide!))).1,
    (C4_invalid_allowed_err (Example.env 1) Example.memAllPruned Example.qroot Example.rleaf
      1).2.1 (by decide!)⟩

end PrunableRule

section Induct
variable {B K : Type}

theorem BestNodePartners_probability1 (env : Env B K) (nd nd1 nd2 : Tree B) (p : ℚ) :
    (BestNodePartners env nd nd1 nd2 p).probability1 = env.sqrt p := by
  unfold BestNodePartners; dsimp only; split_ifs <;> rfl

theorem BestNodePartners_probability2 (env : Env B K) (nd nd1 nd2 : Tree B) (p : ℚ) :
    (BestNodePartners env nd nd1 nd2 p).probability2 = env.sqrt p := by
  unfold BestNodePartners; dsimp only; split_ifs <;> rfl

theorem canonical_induct (env : Env B K)
    (P : Tree B → Tree B → ℚ → State K → State K × Bool → Prop)
    (h_some : ∀ q r p st b st1,
      pruneAttempt env q r p (st.step (.call q.id r.id p) id) = (some b, st1) → P q r p st (st1, b))
    (h_none : ∀ q r p st st1 res,
      pruneAttempt env q r p (st.step (.call q.id r.id p) id) = (none, st1) →
        P q r p st1 res → P q r p st res)
    (h_base : ∀ q r p st, q.is_leaf = true → r.is_leaf = true →
      P q r p st (st.step (.baseCase q.id r.id) (DualtreeVKdeBase_ env q r p), true))
    (h_split_r : ∀ q rid rb rc rbd rl rr p st a b res1 res2, IsOrder a b rl rr →
      P q a (env.sqrt p) st res1 →
      P q b (if res1.2 then Sqr (env.sqrt p) else env.sqrt p) res1.1 res2 →
      P q (.node rid rb rc rbd rl rr) p st (res2.1, res1.2 && res2.2))
    (h_split_q : ∀ qid qb qc qbd ql qr r p st a b res1 res2, IsOrder a b ql qr →
      P a r p (st.step (.pushDown qid) (pushDown qid ql.id qr.id)) res1 →
      P b r p res1.1 res2 →
      P (.node qid qb qc qbd ql qr) r p st
        (res2.1.step (.refine qid) (refine qid ql.id qr.id), res1.2 && res2.2)) :
    ∀ q r p st, P q r p st (DualtreeVKdeCanonical_ env q r p st) := by
  have leafCase : ∀ (q : Tree B), q.is_leaf = true → ∀ r p st,
      P q r p st (canonicalLeaf env q r p st) := by
    intro q hq r
    induction r with
    | leaf rid rb rc rbd =>
      intro p st
      rcases h : pruneAttempt env q (.leaf rid rb rc rbd) p
        (st.step (.call q.id (Tree.leaf rid rb rc rbd).id p) id) with ⟨_ | b, st1⟩
      · simp only [canonicalLeaf, h]
        exact h_none _ _ _ _ _ _ h (h_base _ _ _ _ hq rfl)
      · simp only [canonicalLeaf, h]
        exact h_some _ _ _ _ _ _ h
    | node rid rb rc rbd rl rr ihl ihr =>
      intro p st
      rcases h : pruneAttempt env q (.node rid rb rc rbd rl rr) p
        (st.step (.call q.id (Tree.node rid rb rc rbd rl rr).id p) id) with ⟨_ | b, st1⟩
      · simp only [canonicalLeaf, h, BestNodePartners_probability1, BestNodePartners_probability2]
        apply h_none _ _ _ _ _ _ h
        split_ifs
        · exact h_split_r _ _ _ _ _ _ _ _ _ _ _ _ _ (Or.inl ⟨rfl, rfl⟩) (ihl _ _) (ihr _ _)
        · exact h_split_r _ _ _ _ _ _ _ _ _ _ _ _ _ (Or.inr ⟨rfl, rfl⟩) (ihr _ _) (ihl _ _)
      · simp only [canonicalLeaf, h]
        exact h_some _ _ _ _ _ _ h
  have hvp : ∀ (q : Tree B), (∀ r p st, P q r p st (DualtreeVKdeCanonical_ env q r p st)) →
      ∀ rid rb rc rbd rl rr p st, P q (.node rid rb rc rbd rl rr) p st
        (if env.MinDistanceSq q.bound rl.bound ≤ env.MinDistanceSq q.bound rr.bound then
          visitPartners (DualtreeVKdeCanonical_ env q rl) (DualtreeVKdeCanonical_ env q rr)
            (env.sqrt p) (env.sqrt p) st
        else
          visitPartners (DualtreeVKdeCanonical_ env q rr) (DualtreeVKdeCanonical_ env q rl)
            (env.sqrt p) (env.sqrt p) st) := by
    intro q ih rid rb rc rbd rl rr p st
    split_ifs
    · exact h_split_r _ _ _ _ _ _ _ _ _ _ _ _ _ (Or.inl ⟨rfl, rfl⟩) (ih _ _ _) (ih _ _ _)
    · exact h_split_r _ _ _ _ _ _ _ _ _ _ _ _ _ (Or.inr ⟨rfl, rfl⟩) (ih _ _ _) (ih _ _ _)
  intro q
  induction q with
  | leaf qid qb qc qbd =>
    intro r p st
    simp only [DualtreeVKdeCanonical_]
    exact leafCase (.leaf qid qb qc qbd) rfl r p st
  | node qid qb qc qbd ql qr ihl ihr =>
    intro r p st
    rcases h : pruneAttempt env (.node qid qb qc qbd ql qr) r p
        (st.step (.call (Tree.node qid qb qc qbd ql qr).id r.id p) id) with ⟨_ | b, st1⟩
    · simp only [DualtreeVKdeCanonical_, h, BestNodePartners_probability1,
        BestNodePartners_probability2]
      apply h_none _ _ _ _ _ _ h
      cases r with
      | leaf rid rb rc rbd =>
        simp only
        split_ifs
        · exact h_split_q _ _ _ _ _ _ _ _ _ _ _ _ _ (Or.inl ⟨rfl, rfl⟩) (ihl _ _ _) (ihr _ _ _)
        · exact h_split_q _ _ _ _ _ _ _ _ _ _ _ _ _ (Or.inr ⟨rfl, rfl⟩) (ihr _ _ _) (ihl _ _ _)
      | node rid rb rc rbd rl rr =>
        simp only
        exact h_split_q _ _ _ _ _ _ _ _ _ _ _ _ _ (Or.inl ⟨rfl, rfl⟩)
          (hvp ql ihl _ _ _ _ _ _ _ _) (hvp qr ihr _ _ _ _ _ _ _ _)
    · simp only [DualtreeVKdeCanonical_, h]
      exact h_some _ _ _ _ _ _ h

end Induct

section PruneEffect

variable {B K : Type}

theorem canonical_of_attempt_some (env : Env B K) (q r : Tree B) (p : ℚ) (st st1 : State K)
    (b : Bool)
    (h : pruneAttempt env q r p (st.step (.call q.id r.id p) id) = (some b, st1)) :
    DualtreeVKdeCanonical_ env q r p st = (st1, b) := by
  cases q <;> cases r <;> simp only [DualtreeVKdeCanonical_, canonicalLeaf, h]

theorem pruneAttempt_of_prunable (env : Env B K) (q r : Tree B) (p : ℚ) (st : State K)
    (h : (Prunable_ env st.mem q r p).result = true) :
    pruneAttempt env q r p st =
      (some true, st.step (.finiteDifferencePrune q.id r.id)
        (finiteDifferencePrune q.id (Prunable_ env st.mem q r p).deltas)) := by
  unfold pruneAttempt
  simp only [h, if_true]

/-- C9. When `Prunable_` approves, `DualtreeVKdeCanonical_` returns true and
the memory it leaves is the old memory with the five amounts added to the
postponed fields of the query node and the count of finite-difference prunes
incremented; nothing else changes, and the history shows the call itself
followed by the prune, hence no recursive call. -/
theorem C9_finite_difference_prune_effect (env : Env B K) (qnode rnode : Tree B)
    (probability : ℚ) (st : State K)
    (h : (Prunable_ env st.mem qnode rnode probability).result = true) :
    let out := Prunable_ env st.mem qnode rnode probability
    let res := DualtreeVKdeCanonical_ env qnode rnode probability st
    res.2 = true ∧
      res.1.mem =
        { st.mem with
          stat := Function.update st.mem.stat qnode.id
            { st.mem.stat qnode.id with
              postponed_l := (st.mem.stat qnode.id).postponed_l + out.dl
              postponed_e := (st.mem.stat qnode.id).postponed_e + out.de
              postponed_u := (st.mem.stat qnode.id).postponed_u + out.du
              postponed_used_error :=
                (st.mem.stat qnode.id).postponed_used_error + out.used_error
              postponed_n_pruned := (st.mem.stat qnode.id).postponed_n_pruned + out.n_pruned }
          num_finite_difference_prunes := st.mem.num_finite_difference_prunes + 1 } ∧
      res.1.trace =
        (Event.finiteDifferencePrune qnode.id rnode.id, res.1.mem) ::
          (Event.call qnode.id rnode.id probability, st.mem) :: st.trace := by
  intro out res
  have h1 : res = (_, true) :=
    canonical_of_attempt_some env qnode rnode probability st _ true
      (pruneAttempt_of_prunable env qnode rnode probability _ h)
  rw [h1]
  exact ⟨rfl, rfl, rfl⟩

/-- C9 at a concrete input: the root pair of the instance with floor 1 is
pruned at once. -/
theorem C9_finite_difference_prune_effect_witness :
    (DualtreeVKdeCanonical_ (Example.env 1) Example.qroot Example.rleaf 1
      ⟨Example.mem0, []⟩).2 = true :=
  (C9_finite_difference_prune_effect (Example.env 1) Example.qroot Example.rleaf 1
    ⟨Example.mem0, []⟩ (by decide!)).1

end PruneEffect

section AttemptCases

variable {B K : Type}

theorem sampleOnce_mem (env : Env B K) (q r : Tree B) (s : SampleState K) :
    (sampleOnce env q r s).mem = { s.mem with rng_pos := s.mem.rng_pos + 2 } := rfl

theorem sample_iterate_mem (env : Env B K) (q r : Tree B) (n : Nat) (s : SampleState K) :
    ((sampleOnce env q r)^[n] s).mem = { s.mem with rng_pos := s.mem.rng_pos + 2 * n } := by
  induction n generalizing s with
  | zero => rfl
  | succ n ih =>
    rw [Function.iterate_succ_apply, ih, sampleOnce_mem]
    simp only [Mem.mk.injEq, true_and]
    ring

theorem monteCarlo_mem (env : Env B K) (m : Mem K) (q r : Tree B) (p : ℚ) (d : Deltas) :
    ∃ n, (MonteCarloPrunableByOrderStatistics_ env m q r p d).2.2 = { m with rng_pos := n } := by
  unfold MonteCarloPrunableByOrderStatistics_
  dsimp only
  split_ifs
  · exact ⟨m.rng_pos, rfl⟩
  · exact ⟨_, sample_iterate_mem env q r _ _⟩
  · exact ⟨_, sample_iterate_mem env q r _ _⟩

theorem monteCarlo_deltas (env : Env B K) (m : Mem K) (q r : Tree B) (p : ℚ) (d : Deltas) :
    (MonteCarloPrunableByOrderStatistics_ env m q r p d).2.1.n_pruned = d.n_pruned ∧
      (MonteCarloPrunableByOrderStatistics_ env m q r p d).2.1.du = d.du := by
  unfold MonteCarloPrunableByOrderStatistics_
  dsimp only
  split_ifs <;> exact ⟨rfl, rfl⟩

/-- The three ways in which the pruning attempts end. -/
theorem pruneAttempt_cases (env : Env B K) (q r : Tree B) (p : ℚ) (st : State K) :
    ((Prunable_ env st.mem q r p).result = true ∧
        pruneAttempt env q r p st =
          (some true, st.step (.finiteDifferencePrune q.id r.id)
            (finiteDifferencePrune q.id (Prunable_ env st.mem q r p).deltas))) ∨
      (∃ d n, p < 1 ∧ (Prunable_ env st.mem q r p).result = false ∧
        d.n_pruned = (Prunable_ env st.mem q r p).n_pruned ∧
        pruneAttempt env q r p st =
          (some false, State.step (.monteCarloPrune q.id r.id) (monteCarloPrune q.id d)
            ⟨{ st.mem with rng_pos := n }, st.trace⟩)) ∨
      (∃ n, (Prunable_ env st.mem q r p).result = false ∧
        pruneAttempt env q r p st = (none, ⟨{ st.mem with rng_pos := n }, st.trace⟩)) := by
  by_cases h : (Prunable_ env st.mem q r p).result = true
  · exact Or.inl ⟨h, pruneAttempt_of_prunable env q r p st h⟩
  · right
    have hf : (Prunable_ env st.mem q r p).result = false := by simpa using h
    obtain ⟨n, hn⟩ := monteCarlo_mem env st.mem q r p (Prunable_ env st.mem q r p).deltas
    by_cases hp : p < 1
    · by_cases hmc : (MonteCarloPrunableByOrderStatistics_ env st.mem q r p
          (Prunable_ env st.mem q r p).deltas).1 = true
      · left
        refine ⟨(MonteCarloPrunableByOrderStatistics_ env st.mem q r p
          (Prunable_ env st.mem q r p).deltas).2.1, n, hp, hf,
          (monteCarlo_deltas env st.mem q r p _).1, ?_⟩
        unfold pruneAttempt
        simp only [hf, Bool.false_eq_true, if_false, hp, if_true, hmc, hn]
      · right
        refine ⟨n, hf, ?_⟩
        unfold pruneAttempt
        simp only [hf, Bool.false_eq_true, if_false, hp, if_true, hmc, hn]
    · right
      refine ⟨st.mem.rng_pos, hf, ?_⟩
      unfold pruneAttempt
      simp only [hf, Bool.false_eq_true, if_false, hp]

end AttemptCases

section Counters

variable {B K : Type}

theorem foldl_preserve {α β γ : Type} (f : α → β → α) (proj : α → γ)
    (h : ∀ a b, proj (f a b) = proj a) (l : List β) (a : α) :
    proj (l.foldl f a) = proj a := by
  induction l generalizing a with
  | nil => rfl
  | cons x xs ih => rw [List.foldl_cons, ih, h]

theorem baseQuery_num_monte_carlo_prunes (env : Env B K) (q r : Tree B) (m : Mem K) (x : Nat) :
    (baseQuery env q r m x).num_monte_carlo_prunes = m.num_monte_carlo_prunes := by
  unfold baseQuery
  exact foldl_preserve (baseReference env x) (fun m => m.num_monte_carlo_prunes)
    (fun _ _ => rfl) _ _

theorem base_num_monte_carlo_prunes (env : Env B K) (q r : Tree B) (p : ℚ) (m : Mem K) :
    (DualtreeVKdeBase_ env q r p m).num_monte_carlo_prunes = m.num_monte_carlo_prunes := by
  unfold DualtreeVKdeBase_
  exact foldl_preserve (baseQuery env q r) (fun m => m.num_monte_carlo_prunes)
    (baseQuery_num_monte_carlo_prunes env q r) _ _

theorem monteCarloCount_append (a b : List (Event × Mem K)) :
    monteCarloCount (a ++ b) = monteCarloCount a + monteCarloCount b := by
  unfold monteCarloCount
  exact List.countP_append _ _ _

theorem monteCarloCount_nil : monteCarloCount ([] : List (Event × Mem K)) = 0 := rfl

theorem monteCarloCount_cons (x : Event × Mem K) (l : List (Event × Mem K)) :
    monteCarloCount (x :: l) = (if x.1.isMonteCarloPrune = true then 1 else 0) + monteCarloCount l := by
  unfold monteCarloCount
  rw [List.countP_cons]
  omega

/-- The method `DualtreeVKdeCanonical_` returns true exactly when no Monte
Carlo prune is recorded among the steps of the call, equivalently when
`num_monte_carlo_prunes_` is unchanged; the counter grows by the number of
Monte Carlo prunes of the call. -/
theorem canonical_monteCarloCount (env : Env B K) (qnode rnode : Tree B) (probability : ℚ)
    (st : State K) :
    ∃ new, (DualtreeVKdeCanonical_ env qnode rnode probability st).1.trace = new ++ st.trace ∧
      (DualtreeVKdeCanonical_ env qnode rnode probability st).1.mem.num_monte_carlo_prunes =
        st.mem.num_monte_carlo_prunes + monteCarloCount new ∧
      ((DualtreeVKdeCanonical_ env qnode rnode probability st).2 = true ↔
        monteCarloCount new = 0) ∧
      ((DualtreeVKdeCanonical_ env qnode rnode probability st).2 = true ↔
        (DualtreeVKdeCanonical_ env qnode rnode probability st).1.mem.num_monte_carlo_prunes =
          st.mem.num_monte_carlo_prunes) := by
  have hmain := canonical_induct env
    (fun (_ _ : Tree B) (_ : ℚ) (st : State K) (res : State K × Bool) =>
      ∃ new, res.1.trace = new ++ st.trace ∧
        res.1.mem.num_monte_carlo_prunes = st.mem.num_monte_carlo_prunes + monteCarloCount new ∧
        (res.2 = true ↔ monteCarloCount new = 0)) ?_ ?_ ?_ ?_ ?_
  · obtain ⟨new, h1, h2, h3⟩ := hmain qnode rnode probability st
    refine ⟨new, h1, h2, h3, ?_⟩
    rw [h3, h2]
    omega
  · intro q r p st b st1 h
    rcases pruneAttempt_cases env q r p (st.step (.call q.id r.id p) id) with
      ⟨_, h1⟩ | ⟨d, n, _, _, _, h1⟩ | ⟨n, _, h1⟩
    · rw [h1] at h
      simp only [Prod.mk.injEq, Option.some.injEq] at h
      obtain ⟨rfl, rfl⟩ := h
      exact ⟨[_, _], rfl, rfl, by simp [monteCarloCount, Event.isMonteCarloPrune]⟩
    · rw [h1] at h
      simp only [Prod.mk.injEq, Option.some.injEq] at h
      obtain ⟨rfl, rfl⟩ := h
      exact ⟨[_, _], rfl, rfl, by simp [monteCarloCount, Event.isMonteCarloPrune]⟩
    · rw [h1] at h
      simp at h
  · intro q r p st st1 res h
    rcases pruneAttempt_cases env q r p (st.step (.call q.id r.id p) id) with
      ⟨_, h1⟩ | ⟨d, n, _, _, _, h1⟩ | ⟨n, _, h1⟩
    · rw [h1] at h; simp at h
    · rw [h1] at h; simp at h
    · rw [h1] at h
      obtain ⟨_, rfl⟩ := Prod.mk.inj h
      rintro ⟨new, h2, h3, h4⟩
      refine ⟨new ++ [(Event.call q.id r.id p, st.mem)], ?_, ?_, ?_⟩
      · rw [h2]; simp [State.step]
      · rw [h3, monteCarloCount_append]
        simp [monteCarloCount, Event.isMonteCarloPrune, State.step]
      · rw [h4, monteCarloCount_append]
        simp [monteCarloCount, Event.isMonteCarloPrune]
  · intro q r p st _ _
    refine ⟨[_], rfl, ?_, ?_⟩
    · simp [State.step, base_num_monte_carlo_prunes, monteCarloCount, Event.isMonteCarloPrune]
    · simp [monteCarloCount, Event.isMonteCarloPrune]
  · intro q rid rb rc rbd rl rr p st a b res1 res2 _
    rintro ⟨n1, h1, h2, h3⟩ ⟨n2, h4, h5, h6⟩
    refine ⟨n2 ++ n1, ?_, ?_, ?_⟩
    · simp [h4, h1]
    · simp only [h5, h2, monteCarloCount_append]; omega
    · simp only [Bool.and_eq_true, h3, h6, monteCarloCount_append]; omega
  · intro qid qb qc qbd ql qr r p st a b res1 res2 _
    rintro ⟨n1, h1, h2, h3⟩ ⟨n2, h4, h5, h6⟩
    refine ⟨(Event.refine qid, refine qid ql.id qr.id res2.1.mem) :: (n2 ++ (n1 ++
      [(Event.pushDown qid, pushDown qid ql.id qr.id st.mem)])), ?_, ?_, ?_⟩
    · simp [State.step, h4, h1]
    · have e1 : (State.step (Event.refine qid) (refine qid ql.id qr.id) res2.1).mem.num_monte_carlo_prunes
          = res2.1.mem.num_monte_carlo_prunes := rfl
      have e2 : (State.step (Event.pushDown qid) (pushDown qid ql.id qr.id) st).mem.num_monte_carlo_prunes
          = st.mem.num_monte_carlo_prunes := rfl
      rw [e1, h5, h2, e2, monteCarloCount_cons, monteCarloCount_append, monteCarloCount_append,
        monteCarloCount_cons]
      simp only [Event.isMonteCarloPrune, Bool.false_eq_true, if_false, monteCarloCount_nil]
      omega
    · rw [monteCarloCount_cons, monteCarloCount_append, monteCarloCount_append,
        monteCarloCount_cons]
      simp only [Bool.and_eq_true, h3, h6, Event.isMonteCarloPrune, Bool.false_eq_true, if_false,
        monteCarloCount_nil]
      omega

end Counters

section ConfidenceOne

variable {B K : Type}

/-- C7. With confidence 1 (and `sqrt(1) = 1`) `DualtreeVKdeCanonical_`
returns true, leaves `num_monte_carlo_prunes_` unchanged, records no Monte
Carlo prune, and every call it records, recursive calls included, is made
with confidence 1. -/
theorem C7_confidence_one (env : Env B K) (hsqrt : env.sqrt 1 = 1) (qnode rnode : Tree B)
    (st : State K) :
    (DualtreeVKdeCanonical_ env qnode rnode 1 st).2 = true ∧
      (DualtreeVKdeCanonical_ env qnode rnode 1 st).1.mem.num_monte_carlo_prunes =
        st.mem.num_monte_carlo_prunes ∧
      ∃ new, (DualtreeVKdeCanonical_ env qnode rnode 1 st).1.trace = new ++ st.trace ∧
        ∀ x ∈ new, x.1.isMonteCarloPrune = false ∧
          ∀ a b p, x.1 = Event.call a b p → p = 1 := by
  have hmain := canonical_induct env
    (fun (_ _ : Tree B) (p : ℚ) (st : State K) (res : State K × Bool) =>
      p = 1 → res.2 = true ∧
        res.1.mem.num_monte_carlo_prunes = st.mem.num_monte_carlo_prunes ∧
        ∃ new, res.1.trace = new ++ st.trace ∧
          ∀ x ∈ new, x.1.isMonteCarloPrune = false ∧
            ∀ a b p, x.1 = Event.call a b p → p = 1) ?_ ?_ ?_ ?_ ?_
  · exact hmain qnode rnode 1 st rfl
  · intro q r p st b st1 h hp
    subst hp
    rcases pruneAttempt_cases env q r 1 (st.step (.call q.id r.id 1) id) with
      ⟨_, h1⟩ | ⟨d, n, hlt, _, _, h1⟩ | ⟨n, _, h1⟩
    · rw [h1] at h
      simp only [Prod.mk.injEq, Option.some.injEq] at h
      obtain ⟨rfl, rfl⟩ := h
      refine ⟨rfl, rfl, [_, _], rfl, ?_⟩
      intro x hx
      simp only [List.mem_cons, List.mem_singleton, List.not_mem_nil, or_false] at hx
      rcases hx with rfl | rfl
      · exact ⟨rfl, fun a b p h => by cases h⟩
      · exact ⟨rfl, fun a b p h => by cases h; rfl⟩
    · exact absurd hlt (lt_irrefl 1)
    · rw [h1] at h
      simp at h
  · intro q r p st st1 res h ih hp
    subst hp
    rcases pruneAttempt_cases env q r 1 (st.step (.call q.id r.id 1) id) with
      ⟨_, h1⟩ | ⟨d, n, hlt, _, _, h1⟩ | ⟨n, _, h1⟩
    · rw [h1] at h; simp at h
    · exact absurd hlt (lt_irrefl 1)
    · rw [h1] at h
      obtain ⟨_, rfl⟩ := Prod.mk.inj h
      obtain ⟨h2, h3, new, h4, h5⟩ := ih rfl
      refine ⟨h2, h3, new ++ [(Event.call q.id r.id 1, st.mem)], ?_, ?_⟩
      · rw [h4]; simp [State.step]
      · intro x hx
        rcases List.mem_append.1 hx with hx | hx
        · exact h5 x hx
        · rw [List.mem_singleton] at hx
          subst hx
          exact ⟨rfl, fun a b p h => by cases h; rfl⟩
  · intro q r p st _ _ _
    refine ⟨rfl, ?_, [_], rfl, ?_⟩
    · simp [State.step, base_num_monte_carlo_prunes]
    · intro x hx
      rw [List.mem_singleton] at hx
      subst hx
      exact ⟨rfl, fun a b p h => by cases h⟩
  · intro q rid rb rc rbd rl rr p st a b res1 res2 _ ih1 ih2 hp
    subst hp
    rw [hsqrt] at ih1 ih2
    obtain ⟨h1, h2, n1, h3, h4⟩ := ih1 rfl
    have hp2 : (if res1.2 = true then Sqr (1 : ℚ) else 1) = 1 := by
      simp [h1, Sqr]
    obtain ⟨h5, h6, n2, h7, h8⟩ := ih2 hp2
    refine ⟨by simp [h1, h5], by rw [h6, h2], n2 ++ n1, by simp [h7, h3], ?_⟩
    intro x hx
    rcases List.mem_append.1 hx with hx | hx
    · exact h8 x hx
    · exact h4 x hx
  · intro qid qb qc qbd ql qr r p st a b res1 res2 _ ih1 ih2 hp
    obtain ⟨h1, h2, n1, h3, h4⟩ := ih1 hp
    obtain ⟨h5, h6, n2, h7, h8⟩ := ih2 hp
    refine ⟨by simp [h1, h5], ?_, (Event.refine qid, refine qid ql.id qr.id res2.1.mem) ::
      (n2 ++ (n1 ++ [(Event.pushDown qid, pushDown qid ql.id qr.id st.mem)])), ?_, ?_⟩
    · show res2.1.mem.num_monte_carlo_prunes = st.mem.num_monte_carlo_prunes
      rw [h6, h2]
      rfl
    · simp [State.step, h7, h3]
    · intro x hx
      simp only [List.mem_cons, List.mem_append, List.mem_singleton, List.not_mem_nil,
        or_false] at hx
      rcases hx with rfl | hx | hx | rfl
      · exact ⟨rfl, fun a b p h => by cases h⟩
      · exact h8 x hx
      · exact h4 x hx
      · exact ⟨rfl, fun a b p h => by cases h⟩

/-- C7 at a concrete input: the run of the instance at confidence 1 returns
true. -/
theorem C7_confidence_one_witness :
    (DualtreeVKdeCanonical_ (Example.env 0) Example.qroot Example.rroot 1
      ⟨Example.mem0, []⟩).2 = true :=
  (C7_confidence_one (Example.env 0) (by decide!) Example.qroot Example.rroot
    ⟨Example.mem0, []⟩).1

end ConfidenceOne

namespace Deltas

@[ext] theorem ext {a b : Deltas} (h1 : a.dl = b.dl) (h2 : a.de = b.de) (h3 : a.du = b.du)
    (h4 : a.used_error = b.used_error) (h5 : a.n_pruned = b.n_pruned) : a = b := by
  cases a; cases b; simp_all

@[simp] theorem zero_dl : (0 : Deltas).dl = 0 := rfl
@[simp] theorem zero_de : (0 : Deltas).de = 0 := rfl
@[simp] theorem zero_du : (0 : Deltas).du = 0 := rfl
@[simp] theorem zero_used_error : (0 : Deltas).used_error = 0 := rfl
@[simp] theorem zero_n_pruned : (0 : Deltas).n_pruned = 0 := rfl
@[simp] theorem add_dl (a b : Deltas) : (a + b).dl = a.dl + b.dl := rfl
@[simp] theorem add_de (a b : Deltas) : (a + b).de = a.de + b.de := rfl
@[simp] theorem add_du (a b : Deltas) : (a + b).du = a.du + b.du := rfl
@[simp] theorem add_used_error (a b : Deltas) :
    (a + b).used_error = a.used_error + b.used_error := rfl
@[simp] theorem add_n_pruned (a b : Deltas) : (a + b).n_pruned = a.n_pruned + b.n_pruned := rfl
@[simp] theorem sub_dl (a b : Deltas) : (a - b).dl = a.dl - b.dl := rfl
@[simp] theorem sub_de (a b : Deltas) : (a - b).de = a.de - b.de := rfl
@[simp] theorem sub_du (a b : Deltas) : (a - b).du = a.du - b.du := rfl
@[simp] theorem sub_used_error (a b : Deltas) :
    (a - b).used_error = a.used_error - b.used_error := rfl
@[simp] theorem sub_n_pruned (a b : Deltas) : (a - b).n_pruned = a.n_pruned - b.n_pruned := rfl

theorem add_sub_cancel_left (a b : Deltas) : a + b - a = b := by
  ext <;> simp

theorem sub_self (a : Deltas) : a - a = 0 := by
  ext <;> simp

theorem add_zero (a : Deltas) : a + 0 = a := by
  ext <;> simp

theorem zero_add (a : Deltas) : 0 + a = a := by
  ext <;> simp

theorem sub_add_sub (a b c : Deltas) : (b - a) + (c - b) = c - a := by
  ext <;> simp

end Deltas

section EffectiveLemmas

variable {B K : Type}

theorem Prunable_deltas_eq (env : Env B K) (m : Mem K) (q r : Tree B) (p : ℚ) :
    (Prunable_ env m q r p).deltas = pruneDeltas env m.view q r := rfl

theorem Tree.contains_iff (t : Tree B) (x : Nat) :
    t.Contains x ↔ t.begin ≤ x ∧ x < t.begin + t.count := Iff.rfl

theorem pending_of_not_contains (m : Mem K) (t : Tree B) (x : Nat) (h : ¬ t.Contains x) :
    pending m t x = 0 := by
  cases t with
  | leaf i b c bd =>
    have h1 : ¬ (b ≤ x ∧ x < b + c) := h
    simp only [pending, h1, if_false]
  | node i b c bd l r =>
    have h1 : ¬ (b ≤ x ∧ x < b + c) := h
    simp only [pending, h1, if_false]

theorem pending_congr (m m1 : Mem K) (t : Tree B) (x : Nat)
    (h : ∀ i ∈ t.ids, (m1.stat i).postponed = (m.stat i).postponed) :
    pending m1 t x = pending m t x := by
  induction t with
  | leaf i b c bd =>
    simp only [pending, h i (by simp [Tree.ids])]
  | node i b c bd l r ihl ihr =>
    simp only [pending, h i (by simp [Tree.ids]),
      ihl (fun j hj => h j (by simp [Tree.ids, hj])),
      ihr (fun j hj => h j (by simp [Tree.ids, hj]))]

theorem Tree.id_mem_ids (t : Tree B) : t.id ∈ t.ids := by
  cases t <;> simp [Tree.id, Tree.ids]

@[simp] theorem Tree.begin_node (i b c : Nat) (bd : B) (l r : Tree B) :
    (Tree.node i b c bd l r).begin = b := rfl

@[simp] theorem Tree.count_node (i b c : Nat) (bd : B) (l r : Tree B) :
    (Tree.node i b c bd l r).count = c := rfl

@[simp] theorem Tree.id_node (i b c : Nat) (bd : B) (l r : Tree B) :
    (Tree.node i b c bd l r).id = i := rfl

@[simp] theorem Tree.begin_leaf (i b c : Nat) (bd : B) : (Tree.leaf i b c bd).begin = b := rfl

@[simp] theorem Tree.count_leaf (i b c : Nat) (bd : B) : (Tree.leaf i b c bd).count = c := rfl

@[simp] theorem Tree.id_leaf (i b c : Nat) (bd : B) : (Tree.leaf i b c bd).id = i := rfl

/-- The two children of a partitioned node contain disjoint parts of its range. -/
theorem Tree.contains_node (i b c : Nat) (bd : B) (l r : Tree B)
    (h : (Tree.node i b c bd l r).Partitioned) (x : Nat) :
    ((Tree.node i b c bd l r).Contains x ↔ l.Contains x ∨ r.Contains x) ∧
      ¬ (l.Contains x ∧ r.Contains x) := by
  obtain ⟨h1, h2, h3, _, _⟩ := h
  simp only [Tree.Contains, Tree.end_, Tree.begin_node, Tree.count_node]
  constructor
  · constructor
    · rintro ⟨ha, hb⟩
      by_cases hx : x < b + l.count
      · left; omega
      · right; omega
    · rintro (⟨ha, hb⟩ | ⟨ha, hb⟩) <;> omega
  · rintro ⟨⟨ha, hb⟩, ⟨hc, hd⟩⟩
    omega

end EffectiveLemmas

section FrameLemmas

variable {B K : Type}

theorem Frame.refl (t : Tree B) (m : Mem K) : Frame t m m :=
  ⟨fun _ _ => rfl, fun _ _ => rfl, rfl⟩

theorem Frame.trans {t : Tree B} {m0 m1 m2 : Mem K} (h1 : Frame t m0 m1) (h2 : Frame t m1 m2) :
    Frame t m0 m2 :=
  ⟨fun i hi => (h2.stat i hi).trans (h1.stat i hi),
    fun x hx => (h2.point x hx).trans (h1.point x hx), h2.view.trans h1.view⟩

theorem Frame.mono {c t : Tree B} {m0 m : Mem K} (h : Frame c m0 m)
    (hids : ∀ i ∈ c.ids, i ∈ t.ids) (hc : ∀ x, c.Contains x → t.Contains x) : Frame t m0 m :=
  ⟨fun i hi => h.stat i (fun hci => hi (hids i hci)),
    fun x hx => h.point x (fun hcx => hx (hc x hcx)), h.view⟩

theorem Mem.setStat_stat_self (m : Mem K) (i : Nat) (s : VKdeStat K) :
    (m.setStat i s).stat i = s := by
  simp [Mem.setStat]

theorem Mem.setStat_stat_ne (m : Mem K) (i j : Nat) (s : VKdeStat K) (h : j ≠ i) :
    (m.setStat i s).stat j = m.stat j := by
  simp [Mem.setStat, Function.update_noteq h]

theorem Mem.setStat_point (m : Mem K) (i : Nat) (s : VKdeStat K) :
    (m.setStat i s).point = m.point := rfl

theorem Mem.setStat_view (m : Mem K) (i : Nat) (s : VKdeStat K) (h : s.view = (m.stat i).view) :
    (m.setStat i s).view = m.view := by
  funext j
  by_cases hj : j = i
  · subst hj; simp [Mem.view, Mem.setStat_stat_self, h]
  · simp [Mem.view, Mem.setStat_stat_ne m i j s hj]

/-- Writing the statistic of a node of the tree without touching its
read-only fields stays within the frame of the tree. -/
theorem Frame.setStat (t : Tree B) (m : Mem K) (i : Nat) (s : VKdeStat K) (hi : i ∈ t.ids)
    (h : s.view = (m.stat i).view) : Frame t m (m.setStat i s) :=
  ⟨fun j hj => Mem.setStat_stat_ne m i j s (fun e => hj (e ▸ hi)), fun _ _ => rfl,
    Mem.setStat_view m i s h⟩

theorem Tree.Distinct.of_left {i b c : Nat} {bd : B} {l r : Tree B}
    (h : (Tree.node i b c bd l r).Distinct) : l.Distinct := by
  unfold Tree.Distinct at *
  simp only [Tree.ids, List.nodup_cons, List.nodup_append] at h
  exact h.2.1

theorem Tree.Distinct.of_right {i b c : Nat} {bd : B} {l r : Tree B}
    (h : (Tree.node i b c bd l r).Distinct) : r.Distinct := by
  unfold Tree.Distinct at *
  simp only [Tree.ids, List.nodup_cons, List.nodup_append] at h
  exact h.2.2.1

theorem Tree.Distinct.not_mem_left {i b c : Nat} {bd : B} {l r : Tree B}
    (h : (Tree.node i b c bd l r).Distinct) : i ∉ l.ids := by
  unfold Tree.Distinct at *
  simp only [Tree.ids, List.nodup_cons, List.mem_append, not_or] at h
  exact h.1.1

theorem Tree.Distinct.not_mem_right {i b c : Nat} {bd : B} {l r : Tree B}
    (h : (Tree.node i b c bd l r).Distinct) : i ∉ r.ids := by
  unfold Tree.Distinct at *
  simp only [Tree.ids, List.nodup_cons, List.mem_append, not_or] at h
  exact h.1.2

theorem Tree.Distinct.disjoint {i b c : Nat} {bd : B} {l r : Tree B}
    (h : (Tree.node i b c bd l r).Distinct) : ∀ j, j ∈ l.ids → j ∉ r.ids := by
  unfold Tree.Distinct at *
  simp only [Tree.ids, List.nodup_cons, List.nodup_append] at h
  intro j hl hr
  exact h.2.2.2 hl hr

theorem Tree.Partitioned.left {i b c : Nat} {bd : B} {l r : Tree B}
    (h : (Tree.node i b c bd l r).Partitioned) : l.Partitioned := h.2.2.2.1

theorem Tree.Partitioned.right {i b c : Nat} {bd : B} {l r : Tree B}
    (h : (Tree.node i b c bd l r).Partitioned) : r.Partitioned := h.2.2.2.2

theorem Tree.mem_ids_left {i b c : Nat} {bd : B} {l r : Tree B} {j : Nat} (h : j ∈ l.ids) :
    j ∈ (Tree.node i b c bd l r).ids := by
  simp [Tree.ids, h]

theorem Tree.mem_ids_right {i b c : Nat} {bd : B} {l r : Tree B} {j : Nat} (h : j ∈ r.ids) :
    j ∈ (Tree.node i b c bd l r).ids := by
  simp [Tree.ids, h]

/-- Writing the statistic of the root of a tree changes what is pending on a
point of the tree by the change of the postponed fields. -/
theorem pending_setStat_top (m : Mem K) (t : Tree B) (s : VKdeStat K) (x : Nat)
    (hd : t.Distinct) (hx : t.Contains x) :
    pending (m.setStat t.id s) t x = pending m t x + (s.postponed - (m.stat t.id).postponed) := by
  cases t with
  | leaf i b c bd =>
    have h1 : b ≤ x ∧ x < b + c := hx
    simp only [pending, h1, and_self, if_true, Tree.id_leaf, Mem.setStat_stat_self]
    ext <;> simp
  | node i b c bd l r =>
    have h1 : b ≤ x ∧ x < b + c := hx
    have hl : pending (m.setStat i s) l x = pending m l x :=
      pending_congr _ _ _ _ (fun j hj => by
        rw [Mem.setStat_stat_ne]
        rintro rfl
        exact hd.not_mem_left hj)
    have hr : pending (m.setStat i s) r x = pending m r x :=
      pending_congr _ _ _ _ (fun j hj => by
        rw [Mem.setStat_stat_ne]
        rintro rfl
        exact hd.not_mem_right hj)
    simp only [pending, h1, and_self, if_true, Tree.id_node, Mem.setStat_stat_self, hl, hr]
    ext <;> simp <;> ring

/-- What is pending on a point of the left child, seen from the parent. -/
theorem pending_node_left (m : Mem K) {i b c : Nat} {bd : B} {l r : Tree B}
    (hp : (Tree.node i b c bd l r).Partitioned) {x : Nat} (hx : l.Contains x) :
    pending m (Tree.node i b c bd l r) x = (m.stat i).postponed + pending m l x := by
  have h := Tree.contains_node i b c bd l r hp x
  have h1 : b ≤ x ∧ x < b + c := h.1.2 (Or.inl hx)
  have h2 : pending m r x = 0 := pending_of_not_contains m r x (fun hr => h.2 ⟨hx, hr⟩)
  simp only [pending, h1, and_self, if_true, h2]
  ext <;> simp

/-- What is pending on a point of the right child, seen from the parent. -/
theorem pending_node_right (m : Mem K) {i b c : Nat} {bd : B} {l r : Tree B}
    (hp : (Tree.node i b c bd l r).Partitioned) {x : Nat} (hx : r.Contains x) :
    pending m (Tree.node i b c bd l r) x = (m.stat i).postponed + pending m r x := by
  have h := Tree.contains_node i b c bd l r hp x
  have h1 : b ≤ x ∧ x < b + c := h.1.2 (Or.inr hx)
  have h2 : pending m l x = 0 := pending_of_not_contains m l x (fun hl => h.2 ⟨hl, hx⟩)
  simp only [pending, h1, and_self, if_true, h2]
  ext <;> simp

/-- A memory within the frame of a tree leaves what is pending on another
tree with disjoint addresses unchanged. -/
theorem pending_of_frame_disjoint {c t : Tree B} {m0 m : Mem K} (h : Frame c m0 m)
    (hdis : ∀ j, j ∈ t.ids → j ∉ c.ids) (x : Nat) : pending m t x = pending m0 t x :=
  pending_congr _ _ _ _ (fun j hj => by rw [h.stat j (hdis j hj)])

end FrameLemmas

section PrimitiveEffects

variable {B K : Type}

theorem Tree.Distinct.id_not_mem_children {i b c : Nat} {bd : B} {l r : Tree B}
    (h : (Tree.node i b c bd l r).Distinct) : i ≠ l.id ∧ i ≠ r.id ∧ l.id ≠ r.id :=
  ⟨fun e => h.not_mem_left (e ▸ l.id_mem_ids), fun e => h.not_mem_right (e ▸ r.id_mem_ids),
    fun e => h.disjoint l.id l.id_mem_ids (e ▸ r.id_mem_ids)⟩

/-- If only the statistic of the root of a tree changes its postponed
fields, what is pending on a point of the tree changes by the same amount. -/
theorem pending_top_change (m m1 : Mem K) (t : Tree B) (x : Nat) (hx : t.Contains x)
    (hother : ∀ j ∈ t.ids, j ≠ t.id → (m1.stat j).postponed = (m.stat j).postponed)
    (hd : t.Distinct) :
    pending m1 t x = pending m t x + ((m1.stat t.id).postponed - (m.stat t.id).postponed) := by
  cases t with
  | leaf i b c bd =>
    have h1 : b ≤ x ∧ x < b + c := hx
    simp only [pending, h1, and_self, if_true, Tree.id_leaf]
    ext <;> simp
  | node i b c bd l r =>
    have h1 : b ≤ x ∧ x < b + c := hx
    have hl : pending m1 l x = pending m l x :=
      pending_congr _ _ _ _ (fun j hj => hother j (Tree.mem_ids_left hj) (by
        rintro rfl
        exact hd.not_mem_left hj))
    have hr : pending m1 r x = pending m r x :=
      pending_congr _ _ _ _ (fun j hj => hother j (Tree.mem_ids_right hj) (by
        rintro rfl
        exact hd.not_mem_right hj))
    simp only [pending, h1, and_self, if_true, Tree.id_node, hl, hr]
    ext <;> simp <;> ring

theorem addDeltas_stat_self (m : Mem K) (i : Nat) (d : Deltas) :
    ((addDeltas i d m).stat i).postponed = (m.stat i).postponed + d := by
  simp [addDeltas, Mem.setStat_stat_self, VKdeStat.postponed]
  rfl

theorem addDeltas_stat_ne (m : Mem K) (i j : Nat) (d : Deltas) (h : j ≠ i) :
    (addDeltas i d m).stat j = m.stat j := Mem.setStat_stat_ne _ _ _ _ h

/-- The effect of the five `+=` of a prune on the effective bounds. -/
theorem addDeltas_effect (m : Mem K) (t : Tree B) (d : Deltas) (hd : t.Distinct) :
    Frame t m (addDeltas t.id d m) ∧
      ∀ x, t.Contains x → effective (addDeltas t.id d m) t x = effective m t x + d := by
  refine ⟨Frame.setStat t m t.id _ t.id_mem_ids rfl, ?_⟩
  intro x hx
  unfold effective
  rw [pending_top_change m (addDeltas t.id d m) t x hx
    (fun j _ hj => by rw [addDeltas_stat_ne m t.id j d hj]) hd, addDeltas_stat_self]
  have : (addDeltas t.id d m).point x = m.point x := rfl
  rw [this]
  ext <;> simp <;> ring

theorem finiteDifferencePrune_effect (m : Mem K) (t : Tree B) (d : Deltas) (hd : t.Distinct) :
    Frame t m (finiteDifferencePrune t.id d m) ∧
      ∀ x, t.Contains x →
        effective (finiteDifferencePrune t.id d m) t x = effective m t x + d := by
  have h := addDeltas_effect m t d hd
  refine ⟨⟨h.1.stat, h.1.point, h.1.view⟩, fun x hx => ?_⟩
  rw [← h.2 x hx]
  unfold effective
  rw [pending_congr (addDeltas t.id d m) (finiteDifferencePrune t.id d m) t x (fun _ _ => rfl)]
  rfl

theorem monteCarloPrune_effect (m : Mem K) (t : Tree B) (d : Deltas) (hd : t.Distinct) :
    Frame t m (monteCarloPrune t.id d m) ∧
      ∀ x, t.Contains x → effective (monteCarloPrune t.id d m) t x = effective m t x + d := by
  have h := addDeltas_effect m t d hd
  refine ⟨⟨h.1.stat, h.1.point, h.1.view⟩, fun x hx => ?_⟩
  rw [← h.2 x hx]
  unfold effective
  rw [pending_congr (addDeltas t.id d m) (monteCarloPrune t.id d m) t x (fun _ _ => rfl)]
  rfl

/-- Advancing the generator changes no bound. -/
theorem rng_effect (m : Mem K) (t : Tree B) (n : Nat) :
    Frame t m { m with rng_pos := n } ∧
      ∀ x, effective ({ m with rng_pos := n } : Mem K) t x = effective m t x :=
  ⟨⟨fun _ _ => rfl, fun _ _ => rfl, rfl⟩, fun x => by
    unfold effective
    rw [pending_congr m { m with rng_pos := n } t x (fun _ _ => rfl)]
    rfl⟩

/-- The statistics after the push-down at a node with distinct addresses. -/
theorem pushDown_stat (m : Mem K) {i b c : Nat} {bd : B} {l r : Tree B}
    (hd : (Tree.node i b c bd l r).Distinct) :
    (pushDown i l.id r.id m).stat i = (m.stat i).ClearPostponed ∧
      (pushDown i l.id r.id m).stat l.id = (m.stat l.id).AddPostponed (m.stat i) ∧
      (pushDown i l.id r.id m).stat r.id = (m.stat r.id).AddPostponed (m.stat i) ∧
      ∀ j, j ≠ i → j ≠ l.id → j ≠ r.id → (pushDown i l.id r.id m).stat j = m.stat j := by
  obtain ⟨h1, h2, h3⟩ := hd.id_not_mem_children
  unfold pushDown
  simp only [Mem.setStat, Function.update_same, Function.update_noteq h1,
    Function.update_noteq h2, Function.update_noteq h3, Function.update_noteq h1.symm,
    Function.update_noteq h2.symm, Function.update_noteq h3.symm, ne_eq, not_false_eq_true]
  refine ⟨trivial, trivial, trivial, ?_⟩
  intro j ha hb hc
  simp only [Function.update_noteq ha, Function.update_noteq hb, Function.update_noteq hc]

theorem AddPostponed_postponed (s p : VKdeStat K) :
    (s.AddPostponed p).postponed = s.postponed + p.postponed := rfl

theorem ClearPostponed_postponed (s : VKdeStat K) : s.ClearPostponed.postponed = 0 := rfl

/-- The push-down keeps the effective bounds of every point, seen from the
node and seen from the child that contains the point. -/
theorem pushDown_effect (m : Mem K) {i b c : Nat} {bd : B} {l r : Tree B}
    (hd : (Tree.node i b c bd l r).Distinct) (hp : (Tree.node i b c bd l r).Partitioned) :
    Frame (Tree.node i b c bd l r) m (pushDown i l.id r.id m) ∧
      (∀ x, l.Contains x →
        effective (pushDown i l.id r.id m) l x = effective m (Tree.node i b c bd l r) x) ∧
      (∀ x, r.Contains x →
        effective (pushDown i l.id r.id m) r x = effective m (Tree.node i b c bd l r) x) ∧
      ∀ x, effective (pushDown i l.id r.id m) (Tree.node i b c bd l r) x =
        effective m (Tree.node i b c bd l r) x := by
  obtain ⟨s1, s2, s3, s4⟩ := pushDown_stat m hd
  obtain ⟨n1, n2, n3⟩ := hd.id_not_mem_children
  have hpoint : (pushDown i l.id r.id m).point = m.point := rfl
  have hl : ∀ x, l.Contains x →
      pending (pushDown i l.id r.id m) l x = pending m l x + (m.stat i).postponed := by
    intro x hx
    rw [pending_top_change m _ l x hx ?_ hd.of_left, s2, AddPostponed_postponed]
    · ext <;> simp
    · intro j hj hne
      rw [s4 j (fun e => hd.not_mem_left (e ▸ hj)) hne
        (fun e => hd.disjoint j hj (e ▸ r.id_mem_ids))]
  have hr : ∀ x, r.Contains x →
      pending (pushDown i l.id r.id m) r x = pending m r x + (m.stat i).postponed := by
    intro x hx
    rw [pending_top_change m _ r x hx ?_ hd.of_right, s3, AddPostponed_postponed]
    · ext <;> simp
    · intro j hj hne
      rw [s4 j (fun e => hd.not_mem_right (e ▸ hj))
        (fun e => hd.disjoint l.id l.id_mem_ids (e ▸ hj)) hne]
  have hL : ∀ x, l.Contains x →
      effective (pushDown i l.id r.id m) l x = effective m (Tree.node i b c bd l r) x := by
    intro x hx
    unfold effective
    rw [hl x hx, pending_node_left m hp hx, hpoint]
    ext <;> simp <;> ring
  have hR : ∀ x, r.Contains x →
      effective (pushDown i l.id r.id m) r x = effective m (Tree.node i b c bd l r) x := by
    intro x hx
    unfold effective
    rw [hr x hx, pending_node_right m hp hx, hpoint]
    ext <;> simp <;> ring
  refine ⟨⟨?_, fun _ _ => rfl, ?_⟩, hL, hR, ?_⟩
  · intro j hj
    simp only [Tree.ids, List.mem_cons, List.mem_append, not_or] at hj
    exact s4 j hj.1 (fun e => hj.2.1 (e ▸ l.id_mem_ids)) (fun e => hj.2.2 (e ▸ r.id_mem_ids))
  · funext j
    by_cases h1 : j = i
    · subst h1; simp only [Mem.view, s1]; rfl
    · by_cases h2 : j = l.id
      · subst h2; simp only [Mem.view, s2]; rfl
      · by_cases h3 : j = r.id
        · subst h3; simp only [Mem.view, s3]; rfl
        · simp only [Mem.view, s4 j h1 h2 h3]
  · intro x
    have hc := Tree.contains_node i b c bd l r hp x
    by_cases hx : (Tree.node i b c bd l r).Contains x
    · rcases hc.1.1 hx with h | h
      · have e := hL x h
        unfold effective at e ⊢
        rw [pending_node_left _ hp h, s1, ClearPostponed_postponed, Deltas.zero_add]
        exact e
      · have e := hR x h
        unfold effective at e ⊢
        rw [pending_node_right _ hp h, s1, ClearPostponed_postponed, Deltas.zero_add]
        exact e
    · unfold effective
      rw [pending_of_not_contains _ _ _ hx, pending_of_not_contains _ _ _ hx, hpoint]

/-- The re-accumulation of the summary statistics changes no effective bound. -/
theorem refine_effect (m : Mem K) (t : Tree B) (i a b : Nat) (hi : i ∈ t.ids) :
    Frame t m (refine i a b m) ∧
      ∀ (s : Tree B) (x : Nat), effective (refine i a b m) s x = effective m s x := by
  refine ⟨Frame.setStat t m i _ hi rfl, ?_⟩
  intro s x
  unfold effective
  have hpoint : (refine i a b m).point = m.point := rfl
  rw [hpoint, pending_congr m (refine i a b m) s x]
  intro j _
  unfold refine
  by_cases hj : j = i
  · subst hj; rw [Mem.setStat_stat_self]; rfl
  · rw [Mem.setStat_stat_ne _ _ _ _ hj]

end PrimitiveEffects

section BaseCase

variable {B K : Type}

theorem baseReference_fold (env : Env B K) (x : Nat) (l : List Nat) (m : Mem K) :
    l.foldl (baseReference env x) m =
      { m with
        densities_l := Function.update m.densities_l x
          (m.densities_l x + (l.map (kernelValue env x)).sum)
        densities_e := Function.update m.densities_e x
          (m.densities_e x + (l.map (kernelValue env x)).sum)
        densities_u := Function.update m.densities_u x
          (m.densities_u x + (l.map (kernelValue env x)).sum) } := by
  induction l generalizing m with
  | nil => simp
  | cons a l ih =>
    rw [List.foldl_cons, ih]
    simp only [baseReference, kernelValue, Function.update_same, Function.update_idem,
      List.map_cons, List.sum_cons, add_assoc]

theorem baseQuery_point_self (env : Env B K) (q r : Tree B) (m : Mem K) (x : Nat) :
    (baseQuery env q r m x).point x =
      m.point x + (m.stat q.id).postponed + baseDeltas env m.view x r := by
  unfold baseQuery
  simp only [baseReference_fold]
  ext <;>
    simp [Mem.point, RefineBoundStatistics_, Mem.setStat, AddPostponed_, baseDeltas, kernelSum,
      kernelSumRange, VKdeStat.postponed, Mem.view, VKdeStat.view] <;> ring

theorem baseQuery_point_ne (env : Env B K) (q r : Tree B) (m : Mem K) (x y : Nat) (h : y ≠ x) :
    (baseQuery env q r m x).point y = m.point y := by
  unfold baseQuery
  simp only [baseReference_fold]
  ext <;>
    simp [Mem.point, RefineBoundStatistics_, Mem.setStat, AddPostponed_, Function.update_noteq h]

theorem baseQuery_stat_ne (env : Env B K) (q r : Tree B) (m : Mem K) (x j : Nat)
    (h : j ≠ q.id) : (baseQuery env q r m x).stat j = m.stat j := by
  unfold baseQuery
  simp only [baseReference_fold]
  simp [RefineBoundStatistics_, Mem.setStat, AddPostponed_, Function.update_noteq h]

theorem baseQuery_stat_self (env : Env B K) (q r : Tree B) (m : Mem K) (x : Nat) :
    (baseQuery env q r m x).stat q.id =
      { m.stat q.id with
        mass_l := min (m.stat q.id).mass_l ((baseQuery env q r m x).densities_l x)
        mass_u := max (m.stat q.id).mass_u ((baseQuery env q r m x).densities_u x)
        used_error := max (m.stat q.id).used_error ((baseQuery env q r m x).used_error x)
        n_pruned := min (m.stat q.id).n_pruned ((baseQuery env q r m x).n_pruned x) } := by
  unfold baseQuery
  simp only [baseReference_fold]
  simp [RefineBoundStatistics_, Mem.setStat, AddPostponed_]

/-- The state of the loop of the base case after the query points `xs`. -/
theorem baseQuery_fold (env : Env B K) (q r : Tree B) (xs : List Nat) (hn : xs.Nodup)
    (m : Mem K) :
    (∀ j, j ≠ q.id → (xs.foldl (baseQuery env q r) m).stat j = m.stat j) ∧
      ((xs.foldl (baseQuery env q r) m).stat q.id).postponed = (m.stat q.id).postponed ∧
      (xs.foldl (baseQuery env q r) m).view = m.view ∧
      (∀ y, y ∉ xs → (xs.foldl (baseQuery env q r) m).point y = m.point y) ∧
      (∀ y ∈ xs, (xs.foldl (baseQuery env q r) m).point y =
        m.point y + (m.stat q.id).postponed + baseDeltas env m.view y r) ∧
      ((xs.foldl (baseQuery env q r) m).stat q.id).mass_l ≤ (m.stat q.id).mass_l ∧
      (m.stat q.id).used_error ≤ ((xs.foldl (baseQuery env q r) m).stat q.id).used_error ∧
      ((xs.foldl (baseQuery env q r) m).stat q.id).n_pruned ≤ (m.stat q.id).n_pruned ∧
      ∀ y ∈ xs,
        ((xs.foldl (baseQuery env q r) m).stat q.id).mass_l ≤
            (xs.foldl (baseQuery env q r) m).densities_l y ∧
          (xs.foldl (baseQuery env q r) m).used_error y ≤
            ((xs.foldl (baseQuery env q r) m).stat q.id).used_error ∧
          ((xs.foldl (baseQuery env q r) m).stat q.id).n_pruned ≤
            (xs.foldl (baseQuery env q r) m).n_pruned y := by
  induction xs generalizing m with
  | nil => simp
  | cons x xs ih =>
    rw [List.nodup_cons] at hn
    obtain ⟨h1, h2, h3, h4, h5, h6, h7, h8, h9⟩ := ih hn.2 (baseQuery env q r m x)
    have hs := baseQuery_stat_self env q r m x
    have hpost : ((baseQuery env q r m x).stat q.id).postponed = (m.stat q.id).postponed := by
      rw [hs]; rfl
    have hview : (baseQuery env q r m x).view = m.view := by
      funext j
      by_cases hj : j = q.id
      · subst hj; simp only [Mem.view, hs]; rfl
      · simp only [Mem.view, baseQuery_stat_ne env q r m x j hj]
    have hx : (xs.foldl (baseQuery env q r) (baseQuery env q r m x)).point x =
        (baseQuery env q r m x).point x := h4 x hn.1
    have hxl := congrArg Deltas.dl hx
    have hxe := congrArg Deltas.used_error hx
    have hxn := congrArg Deltas.n_pruned hx
    simp only [Mem.point] at hxl hxe hxn
    have hml : ((baseQuery env q r m x).stat q.id).mass_l =
        min (m.stat q.id).mass_l ((baseQuery env q r m x).densities_l x) := by rw [hs]
    have hme : ((baseQuery env q r m x).stat q.id).used_error =
        max (m.stat q.id).used_error ((baseQuery env q r m x).used_error x) := by rw [hs]
    have hmn : ((baseQuery env q r m x).stat q.id).n_pruned =
        min (m.stat q.id).n_pruned ((baseQuery env q r m x).n_pruned x) := by rw [hs]
    simp only [List.foldl_cons]
    refine ⟨fun j hj => (h1 j hj).trans (baseQuery_stat_ne env q r m x j hj),
      h2.trans hpost, h3.trans hview, ?_, ?_, ?_, ?_, ?_, ?_⟩
    · intro y hy
      rw [List.mem_cons, not_or] at hy
      rw [h4 y hy.2, baseQuery_point_ne env q r m x y hy.1]
    · intro y hy
      rcases List.mem_cons.1 hy with rfl | hy
      · rw [hx, baseQuery_point_self]
      · have hne : y ≠ x := fun e => hn.1 (e ▸ hy)
        rw [h5 y hy, baseQuery_point_ne env q r m x y hne, hpost, hview]
    · exact h6.trans (hml ▸ min_le_left _ _)
    · exact le_trans (hme ▸ le_max_left _ _) h7
    · exact h8.trans (hmn ▸ min_le_left _ _)
    · intro y hy
      rcases List.mem_cons.1 hy with rfl | hy
      · refine ⟨?_, ?_, ?_⟩
        · rw [hxl]; exact h6.trans (hml ▸ min_le_right _ _)
        · rw [hxe]; exact le_trans (hme ▸ le_max_right _ _) h7
        · rw [hxn]; exact h8.trans (hmn ▸ min_le_right _ _)
      · exact h9 y hy

end BaseCase

section BaseEffect

variable {B K : Type}

/-- The effect of the base case on a leaf query node: every point of the
leaf receives what was postponed on the leaf and the exact contribution of
the reference node, the postponed fields are cleared, and the refreshed
statistic bounds the accumulators of the points. -/
theorem base_effect (env : Env B K) (i b c : Nat) (bd : B) (r : Tree B) (p : ℚ) (m : Mem K) :
    Frame (Tree.leaf i b c bd) m (DualtreeVKdeBase_ env (Tree.leaf i b c bd) r p m) ∧
      (∀ x, (Tree.leaf i b c bd).Contains x →
        effective (DualtreeVKdeBase_ env (Tree.leaf i b c bd) r p m) (Tree.leaf i b c bd) x =
          effective m (Tree.leaf i b c bd) x + baseDeltas env m.view x r) ∧
      ((DualtreeVKdeBase_ env (Tree.leaf i b c bd) r p m).stat i).postponed = 0 ∧
      ∀ x, (Tree.leaf i b c bd).Contains x →
        ((DualtreeVKdeBase_ env (Tree.leaf i b c bd) r p m).stat i).mass_l ≤
            (DualtreeVKdeBase_ env (Tree.leaf i b c bd) r p m).densities_l x ∧
          (DualtreeVKdeBase_ env (Tree.leaf i b c bd) r p m).used_error x ≤
            ((DualtreeVKdeBase_ env (Tree.leaf i b c bd) r p m).stat i).used_error ∧
          ((DualtreeVKdeBase_ env (Tree.leaf i b c bd) r p m).stat i).n_pruned ≤
            (DualtreeVKdeBase_ env (Tree.leaf i b c bd) r p m).n_pruned x := by
  set m1 := m.setStat i ((m.stat i).ResetBoundStatistics env.rset_weight_sum) with hm1
  have hfold := baseQuery_fold env (Tree.leaf i b c bd) r (List.range' b c)
    (List.nodup_range' b c) m1
  simp only [Tree.id_leaf] at hfold
  obtain ⟨h1, h2, h3, h4, h5, _, _, _, h9⟩ := hfold
  set m2 := (List.range' b c).foldl (baseQuery env (Tree.leaf i b c bd) r) m1 with hm2
  have hres : DualtreeVKdeBase_ env (Tree.leaf i b c bd) r p m =
      m2.setStat i (m2.stat i).ClearPostponed := rfl
  rw [hres]
  have hview1 : m1.view = m.view :=
    Mem.setStat_view m i ((m.stat i).ResetBoundStatistics env.rset_weight_sum) rfl
  have hpost1 : (m1.stat i).postponed = (m.stat i).postponed := by
    rw [hm1, Mem.setStat_stat_self]; rfl
  have hmem : ∀ x, x ∈ List.range' b c ↔ (Tree.leaf i b c bd).Contains x := by
    intro x
    rw [List.mem_range'_1]
    rfl
  refine ⟨⟨?_, ?_, ?_⟩, ?_, ?_, ?_⟩
  · intro j hj
    have hji : j ≠ i := by simpa [Tree.ids] using hj
    rw [Mem.setStat_stat_ne _ _ _ _ hji, h1 j hji, hm1, Mem.setStat_stat_ne _ _ _ _ hji]
  · intro x hx
    rw [Mem.setStat_point, h4 x (fun h => hx ((hmem x).1 h))]
    rfl
  · exact (Mem.setStat_view m2 i (m2.stat i).ClearPostponed rfl).trans (h3.trans hview1)
  · intro x hx
    have e := h5 x ((hmem x).2 hx)
    have hb : b ≤ x ∧ x < b + c := hx
    unfold effective
    simp only [pending, hb, and_self, if_true, Mem.setStat_stat_self, ClearPostponed_postponed,
      Mem.setStat_point, e, hpost1, hview1]
    have : m1.point x = m.point x := rfl
    rw [this]
    ext <;> simp
  · rw [Mem.setStat_stat_self]; rfl
  · intro x hx
    have e := h9 x ((hmem x).2 hx)
    rw [Mem.setStat_stat_self]
    exact e

end BaseEffect

section Lifting

variable {B K : Type}

theorem IsOrder.swap {a s l r : Tree B} (h : IsOrder a s l r) : IsOrder s a l r := by
  rcases h with ⟨rfl, rfl⟩ | ⟨rfl, rfl⟩
  · exact Or.inr ⟨rfl, rfl⟩
  · exact Or.inl ⟨rfl, rfl⟩

theorem IsOrder.partitioned {a s l r : Tree B} {i b c : Nat} {bd : B} (h : IsOrder a s l r)
    (hp : (Tree.node i b c bd l r).Partitioned) : a.Partitioned := by
  rcases h with ⟨rfl, rfl⟩ | ⟨rfl, rfl⟩
  · exact hp.left
  · exact hp.right

theorem IsOrder.distinct {a s l r : Tree B} {i b c : Nat} {bd : B} (h : IsOrder a s l r)
    (hd : (Tree.node i b c bd l r).Distinct) : a.Distinct := by
  rcases h with ⟨rfl, rfl⟩ | ⟨rfl, rfl⟩
  · exact hd.of_left
  · exact hd.of_right

theorem IsOrder.contains {a s l r : Tree B} {i b c : Nat} {bd : B} (h : IsOrder a s l r)
    (hp : (Tree.node i b c bd l r).Partitioned) (x : Nat) :
    ((Tree.node i b c bd l r).Contains x ↔ a.Contains x ∨ s.Contains x) ∧
      ¬ (a.Contains x ∧ s.Contains x) := by
  have hc := Tree.contains_node i b c bd l r hp x
  rcases h with ⟨rfl, rfl⟩ | ⟨rfl, rfl⟩
  · exact hc
  · exact ⟨hc.1.trans or_comm, fun hh => hc.2 ⟨hh.2, hh.1⟩⟩

theorem IsOrder.mem_ids {a s l r : Tree B} {i b c : Nat} {bd : B} (h : IsOrder a s l r)
    {j : Nat} (hj : j ∈ a.ids) : j ∈ (Tree.node i b c bd l r).ids := by
  rcases h with ⟨rfl, rfl⟩ | ⟨rfl, rfl⟩
  · exact Tree.mem_ids_left hj
  · exact Tree.mem_ids_right hj

/-- A change within the frame of a child, seen from the parent: the
effective bounds of the points of the child change by the same amount, those
of the points of the sibling do not change. -/
theorem lift_child {i b c : Nat} {bd : B} {l r a s : Tree B}
    (hd : (Tree.node i b c bd l r).Distinct) (hp : (Tree.node i b c bd l r).Partitioned)
    (ho : IsOrder a s l r) {m0 m : Mem K} (hf : Frame a m0 m) :
    Frame (Tree.node i b c bd l r) m0 m ∧
      (∀ x, a.Contains x →
        effective m (Tree.node i b c bd l r) x - effective m0 (Tree.node i b c bd l r) x =
          effective m a x - effective m0 a x) ∧
      (∀ x, s.Contains x →
        effective m (Tree.node i b c bd l r) x = effective m0 (Tree.node i b c bd l r) x) ∧
      m.stat i = m0.stat i := by
  have hframe : Frame (Tree.node i b c bd l r) m0 m :=
    hf.mono (fun j hj => ho.mem_ids hj) (fun x hx => ((ho.contains hp x).1).2 (Or.inl hx))
  rcases ho with ⟨rfl, rfl⟩ | ⟨rfl, rfl⟩
  · have hi : m.stat i = m0.stat i := hf.stat i hd.not_mem_left
    refine ⟨hframe, ?_, ?_, hi⟩
    · intro x hx
      unfold effective
      rw [pending_node_left m hp hx, pending_node_left m0 hp hx, hi]
      ext <;> simp <;> ring
    · intro x hx
      have hnl : ¬ a.Contains x := fun h => (Tree.contains_node i b c bd a s hp x).2 ⟨h, hx⟩
      unfold effective
      rw [pending_node_right m hp hx, pending_node_right m0 hp hx, hi, hf.point x hnl,
        pending_of_frame_disjoint hf (fun j hj hj2 => hd.disjoint j hj2 hj) x]
  · have hi : m.stat i = m0.stat i := hf.stat i hd.not_mem_right
    refine ⟨hframe, ?_, ?_, hi⟩
    · intro x hx
      unfold effective
      rw [pending_node_right m hp hx, pending_node_right m0 hp hx, hi]
      ext <;> simp <;> ring
    · intro x hx
      have hnl : ¬ a.Contains x := fun h => (Tree.contains_node i b c bd s a hp x).2 ⟨hx, h⟩
      unfold effective
      rw [pending_node_left m hp hx, pending_node_left m0 hp hx, hi, hf.point x hnl,
        pending_of_frame_disjoint hf (fun j hj hj2 => hd.disjoint j hj hj2) x]

end Lifting

section EffectRules

variable {B K : Type}

theorem within_of_add {G : (Nat → RefView K) → Tree B → Nat → Deltas → Prop} {q r : Tree B}
    {m0 m : Mem K} (d : Nat → Deltas) (hf : Frame q m0 m)
    (he : ∀ x, q.Contains x → effective m q x = effective m0 q x + d x)
    (hg : ∀ x, q.Contains x → G m0.view r x (d x)) : Within G q r m0 m :=
  ⟨hf, fun x hx => by rw [he x hx, Deltas.add_sub_cancel_left]; exact hg x hx⟩

theorem within_refl {G : (Nat → RefView K) → Tree B → Nat → Deltas → Prop} {q r : Tree B}
    {m : Mem K} (hg : ∀ x, q.Contains x → G m.view r x 0) : Within G q r m m :=
  ⟨Frame.refl q m, fun x hx => by rw [Deltas.sub_self]; exact hg x hx⟩

theorem within_of_rng {G : (Nat → RefView K) → Tree B → Nat → Deltas → Prop} {q r : Tree B}
    {m0 m : Mem K} {n : Nat} (h : Within G q r { m0 with rng_pos := n } m) :
    Within G q r m0 m := by
  refine ⟨⟨h.1.stat, h.1.point, h.1.view⟩, fun x hx => ?_⟩
  have e := h.2 x hx
  rw [(rng_effect m0 q n).2 x] at e
  exact e

theorem effect_some {env : Env B K} {D : EffectData B K} (S : EffectLaws env D) (q r : Tree B) (p : ℚ)
    (st st1 : State K) (b : Bool)
    (h : pruneAttempt env q r p (st.step (.call q.id r.id p) id) = (some b, st1)) :
    EffectMotive D q r p st (st1, b) := by
  intro _ hd hc hpp
  have hzero : Within D.Mid q r st.mem st.mem :=
    within_refl (fun x hx => S.mid_zero q r _ x hc hx)
  rcases pruneAttempt_cases env q r p (st.step (.call q.id r.id p) id) with
    ⟨_, h1⟩ | ⟨d, n, hlt, _, hdn, h1⟩ | ⟨n, _, h1⟩
  · rw [h1] at h
    simp only [Prod.mk.injEq, Option.some.injEq] at h
    obtain ⟨rfl, rfl⟩ := h
    obtain ⟨hf, he⟩ := finiteDifferencePrune_effect st.mem q (pruneDeltas env st.mem.view q r) hd
    have hw : Within D.Good q r st.mem
        (finiteDifferencePrune q.id (pruneDeltas env st.mem.view q r) st.mem) :=
      within_of_add (fun _ => pruneDeltas env st.mem.view q r) hf he
        (fun x hx => S.good_fd q r _ x hc hx)
    refine ⟨hw, [_, _], rfl, ?_⟩
    intro y hy
    simp only [List.mem_cons, List.mem_singleton, List.not_mem_nil, or_false] at hy
    rcases hy with rfl | rfl
    · exact ⟨hw.1, fun x hx => S.mid_good q r _ x _ hc hx (hw.2 x hx)⟩
    · exact hzero
  · rw [h1] at h
    simp only [Prod.mk.injEq, Option.some.injEq] at h
    obtain ⟨rfl, rfl⟩ := h
    obtain ⟨hf, he⟩ := monteCarloPrune_effect { st.mem with rng_pos := n } q d hd
    have hw : Within D.Good q r st.mem (monteCarloPrune q.id d { st.mem with rng_pos := n }) :=
      within_of_rng (within_of_add (fun _ => d) hf he
        (fun x hx => S.good_mc q r _ x p d hc hpp hlt hx hdn))
    refine ⟨hw, [_, _], rfl, ?_⟩
    intro y hy
    simp only [List.mem_cons, List.mem_singleton, List.not_mem_nil, or_false] at hy
    rcases hy with rfl | rfl
    · exact ⟨hw.1, fun x hx => S.mid_good q r _ x _ hc hx (hw.2 x hx)⟩
    · exact hzero
  · rw [h1] at h
    simp at h

theorem effect_none {env : Env B K} {D : EffectData B K} (S : EffectLaws env D) (q r : Tree B) (p : ℚ)
    (st st1 : State K) (res : State K × Bool)
    (h : pruneAttempt env q r p (st.step (.call q.id r.id p) id) = (none, st1))
    (ih : EffectMotive D q r p st1 res) : EffectMotive D q r p st res := by
  intro hp hd hc hpp
  rcases pruneAttempt_cases env q r p (st.step (.call q.id r.id p) id) with
    ⟨_, h1⟩ | ⟨d, n, hlt, _, hdn, h1⟩ | ⟨n, _, h1⟩
  · rw [h1] at h; simp at h
  · rw [h1] at h; simp at h
  · rw [h1] at h
    obtain ⟨_, rfl⟩ := Prod.mk.inj h
    obtain ⟨hw, new, ht, hmid⟩ := ih hp hd hc hpp
    refine ⟨within_of_rng hw, new ++ [(Event.call q.id r.id p, st.mem)], ?_, ?_⟩
    · rw [ht]; simp [State.step]
    · intro y hy
      rcases List.mem_append.1 hy with hy | hy
      · exact within_of_rng (hmid y hy)
      · rw [List.mem_singleton] at hy
        subst hy
        exact within_refl (fun x hx => S.mid_zero q r _ x hc hx)

theorem effect_base {env : Env B K} {D : EffectData B K} (S : EffectLaws env D) (q r : Tree B) (p : ℚ) (st : State K)
    (hq : q.is_leaf = true) (hr : r.is_leaf = true) :
    EffectMotive D q r p st
      (st.step (.baseCase q.id r.id) (DualtreeVKdeBase_ env q r p), true) := by
  intro _ _ hc _
  cases q with
  | node i b c bd l r => simp [Tree.is_leaf] at hq
  | leaf i b c bd =>
    obtain ⟨hf, he, _, _⟩ := base_effect env i b c bd r p st.mem
    have hw : Within D.Good (Tree.leaf i b c bd) r st.mem
        (DualtreeVKdeBase_ env (Tree.leaf i b c bd) r p st.mem) :=
      within_of_add (fun x => baseDeltas env st.mem.view x r) hf he
        (fun x hx => S.good_base _ r _ x hc hq hr hx)
    refine ⟨hw, [_], rfl, ?_⟩
    intro y hy
    rw [List.mem_singleton] at hy
    subst hy
    exact ⟨hw.1, fun x hx => S.mid_good _ r _ x _ hc hx (hw.2 x hx)⟩

end EffectRules

section EffectSplit

variable {B K : Type}

theorem effect_split_r {env : Env B K} {D : EffectData B K} (S : EffectLaws env D) (q : Tree B) (rid rb rc : Nat)
    (rbd : B) (rl rr : Tree B) (p : ℚ) (st : State K) (a s : Tree B)
    (res1 res2 : State K × Bool) (ho : IsOrder a s rl rr)
    (ih1 : EffectMotive D q a (env.sqrt p) st res1)
    (ih2 : EffectMotive D q s (if res1.2 then Sqr (env.sqrt p) else env.sqrt p) res1.1 res2) :
    EffectMotive D q (.node rid rb rc rbd rl rr) p st (res2.1, res1.2 && res2.2) := by
  intro hp hd hc hpp
  have hcr := S.ctx_r q rid rb rc rbd rl rr _ hc
  have hca : D.Ctx q a st.mem.view := by
    rcases ho with ⟨rfl, rfl⟩ | ⟨rfl, rfl⟩
    · exact hcr.1
    · exact hcr.2
  have hcs : D.Ctx q s st.mem.view := by
    rcases ho with ⟨rfl, rfl⟩ | ⟨rfl, rfl⟩
    · exact hcr.2
    · exact hcr.1
  obtain ⟨hw1, n1, ht1, hm1⟩ := ih1 hp hd hca (S.pp_sqrt p hpp).1
  have hv : res1.1.mem.view = st.mem.view := hw1.1.view
  have hpp2 : D.Pp (if res1.2 then Sqr (env.sqrt p) else env.sqrt p) := by
    split_ifs
    · exact (S.pp_sqrt p hpp).2
    · exact (S.pp_sqrt p hpp).1
  obtain ⟨⟨hw2f, hw2g⟩, n2, ht2, hm2⟩ := ih2 hp hd (hv ▸ hcs) hpp2
  rw [hv] at hw2g
  refine ⟨⟨hw1.1.trans hw2f, fun x hx => ?_⟩, n2 ++ n1, ?_, ?_⟩
  · rw [← Deltas.sub_add_sub (effective st.mem q x) (effective res1.1.mem q x)]
    exact S.good_add q rid rb rc rbd rl rr _ x a s _ _ hc hx ho (hw1.2 x hx) (hw2g x hx)
  · simp [ht2, ht1]
  · intro y hy
    rcases List.mem_append.1 hy with hy | hy
    · obtain ⟨hf, hg⟩ := hm2 y hy
      rw [hv] at hg
      refine ⟨hw1.1.trans hf, fun x hx => ?_⟩
      rw [← Deltas.sub_add_sub (effective st.mem q x) (effective res1.1.mem q x)]
      exact S.mid_second q rid rb rc rbd rl rr _ x a s _ _ hc hx ho (hw1.2 x hx) (hg x hx)
    · have h := hm1 y hy
      exact ⟨h.1, fun x hx => S.mid_first q rid rb rc rbd rl rr _ x a s _ hc hx ho (h.2 x hx)⟩

theorem effect_split_q {env : Env B K} {D : EffectData B K} (S : EffectLaws env D) (qid qb qc : Nat) (qbd : B)
    (ql qr r : Tree B) (p : ℚ) (st : State K) (a s : Tree B) (res1 res2 : State K × Bool)
    (ho : IsOrder a s ql qr)
    (ih1 : EffectMotive D a r p (st.step (.pushDown qid) (pushDown qid ql.id qr.id)) res1)
    (ih2 : EffectMotive D s r p res1.1 res2) :
    EffectMotive D (.node qid qb qc qbd ql qr) r p st
      (res2.1.step (.refine qid) (refine qid ql.id qr.id), res1.2 && res2.2) := by
  intro hp hd hc hpp
  have hcq := S.ctx_q qid qb qc qbd ql qr r _ hc
  have hca : D.Ctx a r st.mem.view := by
    rcases ho with ⟨rfl, rfl⟩ | ⟨rfl, rfl⟩
    · exact hcq.1
    · exact hcq.2
  have hcs : D.Ctx s r st.mem.view := by
    rcases ho with ⟨rfl, rfl⟩ | ⟨rfl, rfl⟩
    · exact hcq.2
    · exact hcq.1
  obtain ⟨hf0, hel, her, he0⟩ := pushDown_effect st.mem hd hp
  have hea : ∀ x, a.Contains x →
      effective (pushDown qid ql.id qr.id st.mem) a x =
        effective st.mem (Tree.node qid qb qc qbd ql qr) x := by
    rcases ho with ⟨rfl, rfl⟩ | ⟨rfl, rfl⟩
    · exact hel
    · exact her
  have hes : ∀ x, s.Contains x →
      effective (pushDown qid ql.id qr.id st.mem) s x =
        effective st.mem (Tree.node qid qb qc qbd ql qr) x := by
    rcases ho with ⟨rfl, rfl⟩ | ⟨rfl, rfl⟩
    · exact her
    · exact hel
  have hv0 : (pushDown qid ql.id qr.id st.mem).view = st.mem.view := hf0.view
  obtain ⟨⟨hw1f, hw1g⟩, n1, ht1, hm1⟩ := ih1 (ho.partitioned hp) (ho.distinct hd)
    (hv0 ▸ hca) hpp
  change Frame a (pushDown qid ql.id qr.id st.mem) res1.1.mem at hw1f
  change ∀ x, a.Contains x → D.Good (pushDown qid ql.id qr.id st.mem).view r x
    (effective res1.1.mem a x - effective (pushDown qid ql.id qr.id st.mem) a x) at hw1g
  have hv1 : res1.1.mem.view = st.mem.view := hw1f.view.trans hv0
  obtain ⟨⟨hw2f, hw2g⟩, n2, ht2, hm2⟩ := ih2 (ho.swap.partitioned hp) (ho.swap.distinct hd)
    (hv1 ▸ hcs) hpp
  rw [hv0] at hw1g
  rw [hv1] at hw2g
  obtain ⟨hf3, he3⟩ := refine_effect res2.1.mem (Tree.node qid qb qc qbd ql qr) qid ql.id qr.id
    (by simp [Tree.ids])
  -- the change seen from the node, for any memory within the frame of the first child
  have key1 : ∀ m, Frame a (pushDown qid ql.id qr.id st.mem) m →
      Frame (Tree.node qid qb qc qbd ql qr) st.mem m ∧
      (∀ x, a.Contains x →
        effective m (Tree.node qid qb qc qbd ql qr) x -
            effective st.mem (Tree.node qid qb qc qbd ql qr) x =
          effective m a x - effective (pushDown qid ql.id qr.id st.mem) a x) ∧
      (∀ x, s.Contains x →
        effective m (Tree.node qid qb qc qbd ql qr) x =
          effective st.mem (Tree.node qid qb qc qbd ql qr) x ∧
        effective m s x = effective (pushDown qid ql.id qr.id st.mem) s x) := by
    intro m hf
    obtain ⟨g1, g2, g3, _⟩ := lift_child hd hp ho hf
    refine ⟨hf0.trans g1, fun x hx => ?_, fun x hx => ⟨?_, ?_⟩⟩
    · rw [← g2 x hx, he0 x]
    · rw [g3 x hx, he0 x]
    · have hna : ¬ a.Contains x := fun h => (ho.contains hp x).2 ⟨h, hx⟩
      unfold effective
      rw [hf.point x hna, pending_of_frame_disjoint hf (fun j hj hj2 => by
        rcases ho with ⟨rfl, rfl⟩ | ⟨rfl, rfl⟩
        · exact hd.disjoint j hj2 hj
        · exact hd.disjoint j hj hj2) x]
  obtain ⟨k1f, k1a, k1s⟩ := key1 res1.1.mem hw1f
  -- the change seen from the node, for any memory within the frame of the second child
  have key2 : ∀ m, Frame s res1.1.mem m →
      Frame (Tree.node qid qb qc qbd ql qr) st.mem m ∧
      (∀ x, s.Contains x →
        effective m (Tree.node qid qb qc qbd ql qr) x -
            effective st.mem (Tree.node qid qb qc qbd ql qr) x =
          effective m s x - effective res1.1.mem s x) ∧
      (∀ x, a.Contains x →
        effective m (Tree.node qid qb qc qbd ql qr) x -
            effective st.mem (Tree.node qid qb qc qbd ql qr) x =
          effective res1.1.mem a x - effective (pushDown qid ql.id qr.id st.mem) a x) := by
    intro m hf
    obtain ⟨g1, g2, g3, _⟩ := lift_child hd hp ho.swap hf
    refine ⟨k1f.trans g1, fun x hx => ?_, fun x hx => ?_⟩
    · rw [← g2 x hx, (k1s x hx).1]
    · rw [g3 x hx, k1a x hx]
  have hgood : ∀ m, Frame s res1.1.mem m →
      (∀ x, s.Contains x → D.Good st.mem.view r x (effective m s x - effective res1.1.mem s x)) →
      ∀ x, (Tree.node qid qb qc qbd ql qr).Contains x →
        D.Good st.mem.view r x (effective m (Tree.node qid qb qc qbd ql qr) x -
          effective st.mem (Tree.node qid qb qc qbd ql qr) x) := by
    intro m hf hg x hx
    obtain ⟨_, k2s, k2a⟩ := key2 m hf
    rcases ((ho.contains hp x).1).1 hx with h | h
    · rw [k2a x h]; exact hw1g x h
    · rw [k2s x h]; exact hg x h
  have hfinal : Within D.Good (Tree.node qid qb qc qbd ql qr) r st.mem
      (refine qid ql.id qr.id res2.1.mem) := by
    refine ⟨(key2 res2.1.mem hw2f).1.trans hf3, fun x hx => ?_⟩
    rw [he3]
    exact hgood res2.1.mem hw2f hw2g x hx
  refine ⟨hfinal, (Event.refine qid, refine qid ql.id qr.id res2.1.mem) ::
    (n2 ++ (n1 ++ [(Event.pushDown qid, pushDown qid ql.id qr.id st.mem)])), ?_, ?_⟩
  · simp [State.step, ht2, ht1]
  · intro y hy
    simp only [List.mem_cons, List.mem_append, List.mem_singleton, List.not_mem_nil,
      or_false] at hy
    rcases hy with rfl | hy | hy | rfl
    · exact ⟨hfinal.1, fun x hx => S.mid_good _ r _ x _ hc hx (hfinal.2 x hx)⟩
    · obtain ⟨hf, hg⟩ := hm2 y hy
      rw [hv1] at hg
      obtain ⟨k2f, k2s, k2a⟩ := key2 y.2 hf
      refine ⟨k2f, fun x hx => ?_⟩
      rcases ((ho.contains hp x).1).1 hx with hxa | hxs
      · rw [k2a x hxa]
        exact S.mid_good _ r _ x _ hc hx (hw1g x hxa)
      · rw [k2s x hxs]
        exact hg x hxs
    · obtain ⟨hf, hg⟩ := hm1 y hy
      change Frame a (pushDown qid ql.id qr.id st.mem) y.2 at hf
      change ∀ x, a.Contains x → D.Mid (pushDown qid ql.id qr.id st.mem).view r x
        (effective y.2 a x - effective (pushDown qid ql.id qr.id st.mem) a x) at hg
      rw [hv0] at hg
      obtain ⟨kf, ka, ks⟩ := key1 y.2 hf
      refine ⟨kf, fun x hx => ?_⟩
      rcases ((ho.contains hp x).1).1 hx with hxa | hxs
      · rw [ka x hxa]
        exact hg x hxa
      · rw [(ks x hxs).1, Deltas.sub_self]
        exact S.mid_zero _ r _ x hc hx
    · refine ⟨hf0, fun x hx => ?_⟩
      rw [he0 x, Deltas.sub_self]
      exact S.mid_zero _ r _ x hc hx

/-- The effect of `DualtreeVKdeCanonical_` under an effect description. -/
theorem canonical_effect {env : Env B K} {D : EffectData B K} (S : EffectLaws env D) (q r : Tree B) (p : ℚ)
    (st : State K) : EffectMotive D q r p st (DualtreeVKdeCanonical_ env q r p st) :=
  canonical_induct env (EffectMotive D) (fun q r p st b st1 => effect_some S q r p st st1 b)
    (effect_none S) (effect_base S)
    (effect_split_r S) (effect_split_q S) q r p st

end EffectSplit

section PostProcessLemmas

variable {B K : Type}

theorem postQuery_point_self (env : Env B K) (i : Nat) (m : Mem K) (x : Nat) :
    (postQuery env i m x).point x = normalize env (m.point x + (m.stat i).postponed) := by
  unfold postQuery
  ext <;>
    simp [Mem.point, RefineBoundStatistics_, Mem.setStat, AddPostponed_, normalize,
      VKdeStat.postponed]

theorem postQuery_point_ne (env : Env B K) (i : Nat) (m : Mem K) (x y : Nat) (h : y ≠ x) :
    (postQuery env i m x).point y = m.point y := by
  unfold postQuery
  ext <;>
    simp [Mem.point, RefineBoundStatistics_, Mem.setStat, AddPostponed_, Function.update_noteq h]

theorem postQuery_stat_ne (env : Env B K) (i : Nat) (m : Mem K) (x j : Nat) (h : j ≠ i) :
    (postQuery env i m x).stat j = m.stat j := by
  unfold postQuery
  simp [RefineBoundStatistics_, Mem.setStat, AddPostponed_, Function.update_noteq h]

theorem postQuery_stat_self (env : Env B K) (i : Nat) (m : Mem K) (x : Nat) :
    ((postQuery env i m x).stat i).postponed = (m.stat i).postponed ∧
      ((postQuery env i m x).stat i).view = (m.stat i).view := by
  unfold postQuery
  simp [RefineBoundStatistics_, Mem.setStat, AddPostponed_, VKdeStat.postponed, VKdeStat.view]

theorem postQuery_fold (env : Env B K) (i : Nat) (xs : List Nat) (hn : xs.Nodup) (m : Mem K) :
    (∀ j, j ≠ i → (xs.foldl (postQuery env i) m).stat j = m.stat j) ∧
      ((xs.foldl (postQuery env i) m).stat i).postponed = (m.stat i).postponed ∧
      (xs.foldl (postQuery env i) m).view = m.view ∧
      (∀ y, y ∉ xs → (xs.foldl (postQuery env i) m).point y = m.point y) ∧
      ∀ y ∈ xs, (xs.foldl (postQuery env i) m).point y =
        normalize env (m.point y + (m.stat i).postponed) := by
  induction xs generalizing m with
  | nil => simp
  | cons x xs ih =>
    rw [List.nodup_cons] at hn
    obtain ⟨h1, h2, h3, h4, h5⟩ := ih hn.2 (postQuery env i m x)
    obtain ⟨hpost, hv⟩ := postQuery_stat_self env i m x
    have hview : (postQuery env i m x).view = m.view := by
      funext j
      by_cases hj : j = i
      · subst hj; exact hv
      · simp only [Mem.view, postQuery_stat_ne env i m x j hj]
    simp only [List.foldl_cons]
    refine ⟨fun j hj => (h1 j hj).trans (postQuery_stat_ne env i m x j hj),
      h2.trans hpost, h3.trans hview, ?_, ?_⟩
    · intro y hy
      rw [List.mem_cons, not_or] at hy
      rw [h4 y hy.2, postQuery_point_ne env i m x y hy.1]
    · intro y hy
      rcases List.mem_cons.1 hy with rfl | hy
      · rw [h4 y hn.1, postQuery_point_self]
      · have hne : y ≠ x := fun e => hn.1 (e ▸ hy)
        rw [h5 y hy, postQuery_point_ne env i m x y hne, hpost]

/-- The effect of `PostProcess`: every point of the tree holds its
effective bounds, normalised, and nothing is postponed any more. -/
theorem postProcess_effect (env : Env B K) (q : Tree B) (m : Mem K) (hp : q.Partitioned)
    (hd : q.Distinct) :
    Frame q m (PostProcess env q m) ∧
      (∀ x, q.Contains x → (PostProcess env q m).point x = normalize env (effective m q x)) ∧
      ∀ i ∈ q.ids, ((PostProcess env q m).stat i).postponed = 0 := by
  induction q generalizing m with
  | leaf i b c bd =>
    set m1 := m.setStat i ((m.stat i).ResetBoundStatistics env.rset_weight_sum) with hm1
    obtain ⟨h1, h2, h3, h4, h5⟩ := postQuery_fold env i (List.range' b c)
      (List.nodup_range' b c) m1
    set m2 := (List.range' b c).foldl (postQuery env i) m1 with hm2
    have hres : PostProcess env (Tree.leaf i b c bd) m =
        m2.setStat i (m2.stat i).ClearPostponed := rfl
    rw [hres]
    have hview1 : m1.view = m.view :=
      Mem.setStat_view m i ((m.stat i).ResetBoundStatistics env.rset_weight_sum) rfl
    have hpost1 : (m1.stat i).postponed = (m.stat i).postponed := by
      rw [hm1, Mem.setStat_stat_self]; rfl
    have hmem : ∀ x, x ∈ List.range' b c ↔ (Tree.leaf i b c bd).Contains x := by
      intro x
      rw [List.mem_range'_1]
      rfl
    refine ⟨⟨?_, ?_, ?_⟩, ?_, ?_⟩
    · intro j hj
      have hji : j ≠ i := by simpa [Tree.ids] using hj
      rw [Mem.setStat_stat_ne _ _ _ _ hji, h1 j hji, hm1, Mem.setStat_stat_ne _ _ _ _ hji]
    · intro x hx
      rw [Mem.setStat_point, h4 x (fun h => hx ((hmem x).1 h))]
      rfl
    · exact (Mem.setStat_view m2 i (m2.stat i).ClearPostponed rfl).trans (h3.trans hview1)
    · intro x hx
      have hb : b ≤ x ∧ x < b + c := hx
      rw [Mem.setStat_point, h5 x ((hmem x).2 hx), hpost1]
      unfold effective
      simp only [pending, hb, and_self, if_true]
      rfl
    · intro j hj
      have hji : j = i := by simpa [Tree.ids] using hj
      subst hji
      rw [Mem.setStat_stat_self]
      rfl
  | node i b c bd l r ihl ihr =>
    obtain ⟨hf0, hel, her, _⟩ := pushDown_effect m hd hp
    obtain ⟨s1, _, _, _⟩ := pushDown_stat m hd
    set m1 := pushDown i l.id r.id m with hm1
    obtain ⟨hf1, hp1, hz1⟩ := ihl m1 hp.left hd.of_left
    set m2 := PostProcess env l m1 with hm2
    obtain ⟨hf2, hp2, hz2⟩ := ihr m2 hp.right hd.of_right
    set m3 := PostProcess env r m2 with hm3
    have hres : PostProcess env (Tree.node i b c bd l r) m = refine i l.id r.id m3 := rfl
    rw [hres]
    obtain ⟨g1, _, g3, gi1⟩ := lift_child hd hp (Or.inl ⟨rfl, rfl⟩) hf1
    obtain ⟨k1, _, k3, gi2⟩ := lift_child hd hp (Or.inr ⟨rfl, rfl⟩) hf2
    obtain ⟨hf3, _⟩ := refine_effect m3 (Tree.node i b c bd l r) i l.id r.id
      (by simp [Tree.ids])
    have hpoint3 : (refine i l.id r.id m3).point = m3.point := rfl
    have hc := fun x => Tree.contains_node i b c bd l r hp x
    refine ⟨((hf0.trans g1).trans k1).trans hf3, ?_, ?_⟩
    · intro x hx
      rw [hpoint3]
      rcases (hc x).1.1 hx with h | h
      · have hnr : ¬ r.Contains x := fun h2 => (hc x).2 ⟨h, h2⟩
        rw [hf2.point x hnr, hp1 x h, hel x h]
      · have hnl : ¬ l.Contains x := fun h2 => (hc x).2 ⟨h2, h⟩
        rw [hp2 x h]
        have e : effective m2 r x = effective m1 r x := by
          unfold effective
          rw [hf1.point x hnl,
            pending_of_frame_disjoint hf1 (fun j hj hj2 => hd.disjoint j hj2 hj) x]
        rw [e, her x h]
    · intro j hj
      have hstat : ∀ k, k ≠ i → (refine i l.id r.id m3).stat k = m3.stat k :=
        fun k hk => Mem.setStat_stat_ne _ _ _ _ hk
      simp only [Tree.ids, List.mem_cons, List.mem_append] at hj
      rcases hj with rfl | hj | hj
      · have e : ((refine j l.id r.id m3).stat j).postponed = (m3.stat j).postponed := by
          unfold refine
          rw [Mem.setStat_stat_self]
          rfl
        rw [e, gi2, gi1, s1]
        rfl
      · rw [hstat j (fun e => hd.not_mem_left (e ▸ hj)),
          hf2.stat j (hd.disjoint j hj)]
        exact hz1 j hj
      · rw [hstat j (fun e => hd.not_mem_right (e ▸ hj))]
        exact hz2 j hj

end PostProcessLemmas

section PrunedWeight

variable {B K : Type}

theorem WeightAdditive.children {v : Nat → RefView K} {i b c : Nat} {bd : B} {l r : Tree B}
    (h : WeightAdditive v (Tree.node i b c bd l r)) :
    (v i).weight_sum = (v l.id).weight_sum + (v r.id).weight_sum ∧
      WeightAdditive v l ∧ WeightAdditive v r := h

theorem prunedWeightLaws (env : Env B K) : EffectLaws env (prunedWeightData B K) where
  ctx_r := by
    intro q i b c bd l r v h
    have h2 : WeightAdditive v (Tree.node i b c bd l r) := h
    exact ⟨h2.children.2.1, h2.children.2.2⟩
  ctx_q := fun _ _ _ _ _ _ _ _ h => ⟨h, h⟩
  pp_sqrt := fun _ _ => ⟨trivial, trivial⟩
  good_fd := fun _ _ _ _ _ _ => rfl
  good_mc := fun _ _ _ _ _ _ _ _ _ _ h => h
  good_base := fun _ _ _ _ _ _ _ _ => rfl
  good_add := by
    intro q i b c bd l r v x a s d1 d2 hc _ ho h1 h2
    have hc2 : WeightAdditive v (Tree.node i b c bd l r) := hc
    have hw := hc2.children.1
    have e1 : d1.n_pruned = (v a.id).weight_sum := h1
    have e2 : d2.n_pruned = (v s.id).weight_sum := h2
    show (d1 + d2).n_pruned = (v i).weight_sum
    rcases ho with ⟨rfl, rfl⟩ | ⟨rfl, rfl⟩
    · rw [Deltas.add_n_pruned, e1, e2, hw]
    · rw [Deltas.add_n_pruned, e1, e2, hw, add_comm]
  mid_zero := fun _ _ _ _ _ _ => trivial
  mid_good := fun _ _ _ _ _ _ _ _ => trivial
  mid_first := fun _ _ _ _ _ _ _ _ _ _ _ _ _ _ _ _ => trivial
  mid_second := fun _ _ _ _ _ _ _ _ _ _ _ _ _ _ _ _ _ _ => trivial

theorem pending_n_pruned_zero (m : Mem K) (t : Tree B) (x : Nat)
    (h : ∀ i ∈ t.ids, (m.stat i).postponed_n_pruned = 0) : (pending m t x).n_pruned = 0 := by
  induction t with
  | leaf i b c bd =>
    simp only [pending]
    split_ifs
    · exact h i (by simp [Tree.ids])
    · rfl
  | node i b c bd l r ihl ihr =>
    simp only [pending]
    split_ifs
    · have h1 : ((m.stat i).postponed).n_pruned = 0 := h i (by simp [Tree.ids])
      simp only [Deltas.add_n_pruned, h1, ihl (fun j hj => h j (Tree.mem_ids_left hj)),
        ihr (fun j hj => h j (Tree.mem_ids_right hj)), add_zero]
    · rfl

/-- C5. Pruned-weight accounting: for trees whose children partition the
range of their parent, weight sums as `PreProcess` leaves them (the weight
sum of a node is the sum of those of its children), every confidence and
every stream of random numbers, if the pruned weights of the query points and
the postponed pruned weights of the query nodes start at zero, then after
`DualtreeVKdeCanonical_` on the root pair followed by `PostProcess` the
pruned weight of every query point is the weight sum of the reference root. -/
theorem C5_pruned_weight_accounting (env : Env B K) (qroot rroot : Tree B) (probability : ℚ)
    (st : State K) (hp : qroot.Partitioned) (hd : qroot.Distinct)
    (hw : WeightAdditive st.mem.view rroot)
    (h0 : ∀ x, qroot.Contains x → st.mem.n_pruned x = 0)
    (hpost : ∀ i ∈ qroot.ids, (st.mem.stat i).postponed_n_pruned = 0) :
    ∀ x, qroot.Contains x →
      (PostProcess env qroot
        (DualtreeVKdeCanonical_ env qroot rroot probability st).1.mem).n_pruned x =
        (st.mem.stat rroot.id).weight_sum := by
  intro x hx
  obtain ⟨⟨_, hg⟩, _⟩ :=
    canonical_effect (prunedWeightLaws env) qroot rroot probability st hp hd hw trivial
  have h1 := hg x hx
  obtain ⟨_, hpt, _⟩ := postProcess_effect env qroot
    (DualtreeVKdeCanonical_ env qroot rroot probability st).1.mem hp hd
  have h2 := congrArg Deltas.n_pruned (hpt x hx)
  have h3 : (effective st.mem qroot x).n_pruned = 0 := by
    unfold effective
    rw [Deltas.add_n_pruned, pending_n_pruned_zero st.mem qroot x hpost]
    simp [Mem.point, h0 x hx]
  have h4 : (effective (DualtreeVKdeCanonical_ env qroot rroot probability st).1.mem qroot
      x).n_pruned = (st.mem.stat rroot.id).weight_sum := by
    have h5 : (effective (DualtreeVKdeCanonical_ env qroot rroot probability st).1.mem qroot
        x).n_pruned - (effective st.mem qroot x).n_pruned =
        (st.mem.stat rroot.id).weight_sum := h1
    rw [h3, sub_zero] at h5
    exact h5
  exact h2.trans h4

/-- C5 at a concrete input: the run of the instance leaves the pruned weight
3 on the query point. -/
theorem C5_pruned_weight_accounting_witness :
    (PostProcess (Example.env 0) Example.qroot
      (DualtreeVKdeCanonical_ (Example.env 0) Example.qroot Example.rroot 1
        ⟨Example.mem0, []⟩).1.mem).n_pruned 0 = 3 :=
  C5_pruned_weight_accounting (Example.env 0) Example.qroot Example.rroot 1 ⟨Example.mem0, []⟩
    trivial (by decide) ⟨by decide!, trivial, trivial⟩ (fun _ _ => rfl)
    (fun i hi => by
      have : i = 0 := by simpa [Example.qroot, Tree.ids] using hi
      subst this
      rfl) 0 (by decide)

end PrunedWeight

section SoundLemmas

variable {B K : Type}

theorem Tree.self_mem_subtrees (t : Tree B) : t ∈ t.subtrees := by
  cases t <;> simp [Tree.subtrees]

theorem Tree.subtrees_left {i b c : Nat} {bd : B} {l r t : Tree B} (h : t ∈ l.subtrees) :
    t ∈ (Tree.node i b c bd l r).subtrees := by
  simp [Tree.subtrees, h]

theorem Tree.subtrees_right {i b c : Nat} {bd : B} {l r t : Tree B} (h : t ∈ r.subtrees) :
    t ∈ (Tree.node i b c bd l r).subtrees := by
  simp [Tree.subtrees, h]

theorem sum_bracket (l : List Nat) (w k : Nat → ℚ) (lo hi : ℚ)
    (h : ∀ i ∈ l, 0 ≤ w i ∧ lo ≤ k i ∧ k i ≤ hi) :
    0 ≤ (l.map w).sum ∧ lo * (l.map w).sum ≤ (l.map (fun i => w i * k i)).sum ∧
      (l.map (fun i => w i * k i)).sum ≤ hi * (l.map w).sum := by
  induction l with
  | nil => simp
  | cons a l ih =>
    obtain ⟨h1, h2, h3⟩ := ih (fun i hi => h i (List.mem_cons_of_mem a hi))
    obtain ⟨g1, g2, g3⟩ := h a (List.mem_cons_self a l)
    simp only [List.map_cons, List.sum_cons]
    refine ⟨by positivity, ?_, ?_⟩
    · nlinarith [mul_nonneg g1 (sub_nonneg.2 g2)]
    · nlinarith [mul_nonneg g1 (sub_nonneg.2 g3)]

theorem kernelSum_eq (env : Env B K) (x : Nat) (r : Tree B) :
    kernelSum env x r =
      ((List.range' r.begin r.count).map
        (fun i => env.rset_weights i * kernelAt env x i)).sum := rfl

/-- The exact contribution of a reference node lies between the two kernel
values of the pair times the weight sum, and between 0 and the weight sum. -/
theorem SoundLocal.sum_bounds {env : Env B K} {v : Nat → RefView K} {q r : Tree B}
    (h : SoundLocal env v q r) {x : Nat} (hx : q.Contains x) :
    0 ≤ (v r.id).weight_sum ∧
      0 ≤ kernelSum env x r ∧ kernelSum env x r ≤ (v r.id).weight_sum ∧
      vLo env v q r * (v r.id).weight_sum ≤ kernelSum env x r ∧
      kernelSum env x r ≤ vHi env v q r * (v r.id).weight_sum := by
  have hm : ∀ i, i ∈ List.range' r.begin r.count → r.Contains i := by
    intro i hi
    rw [List.mem_range'_1] at hi
    exact hi
  obtain ⟨a1, a2, a3⟩ := sum_bracket (List.range' r.begin r.count) env.rset_weights
    (kernelAt env x) 0 1
    (fun i hi => ⟨h.weight_nonneg i (hm i hi), h.kernel_unit x i hx (hm i hi)⟩)
  obtain ⟨_, b2, b3⟩ := sum_bracket (List.range' r.begin r.count) env.rset_weights
    (kernelAt env x) (vLo env v q r) (vHi env v q r)
    (fun i hi => ⟨h.weight_nonneg i (hm i hi), h.bracket x i hx (hm i hi)⟩)
  rw [h.weight_sum, kernelSum_eq]
  unfold weightSumRange
  refine ⟨a1, ?_, ?_, b2, b3⟩
  · simpa using a2
  · simpa using a3

theorem range_split {i b c : Nat} {bd : B} {l r : Tree B}
    (hp : (Tree.node i b c bd l r).Partitioned) :
    List.range' b c = List.range' l.begin l.count ++ List.range' r.begin r.count := by
  obtain ⟨h1, h2, h3, _, _⟩ := hp
  rw [h1, h2, List.range'_append_1, ← h3, Nat.add_comm]

theorem kernelSum_node (env : Env B K) (x : Nat) {i b c : Nat} {bd : B} {l r : Tree B}
    (hp : (Tree.node i b c bd l r).Partitioned) :
    kernelSum env x (Tree.node i b c bd l r) = kernelSum env x l + kernelSum env x r := by
  unfold kernelSum kernelSumRange
  rw [Tree.begin_node, Tree.count_node, range_split hp, List.map_append, List.sum_append]

theorem weightSumRange_node (env : Env B K) {i b c : Nat} {bd : B} {l r : Tree B}
    (hp : (Tree.node i b c bd l r).Partitioned) :
    weightSumRange env b c =
      weightSumRange env l.begin l.count + weightSumRange env r.begin r.count := by
  unfold weightSumRange
  rw [range_split hp, List.map_append, List.sum_append]

theorem SoundCtx.local {env : Env B K} {v : Nat → RefView K} {q r : Tree B}
    (h : SoundCtx env q r v) : SoundLocal env v q r :=
  h.2 q q.self_mem_subtrees r r.self_mem_subtrees

theorem SoundCtx.children_r {env : Env B K} {v : Nat → RefView K} {q : Tree B} {i b c : Nat}
    {bd : B} {l r : Tree B} (h : SoundCtx env q (Tree.node i b c bd l r) v) :
    SoundCtx env q l v ∧ SoundCtx env q r v :=
  ⟨⟨h.1.left, fun q1 hq r1 hr => h.2 q1 hq r1 (Tree.subtrees_left hr)⟩,
    ⟨h.1.right, fun q1 hq r1 hr => h.2 q1 hq r1 (Tree.subtrees_right hr)⟩⟩

theorem SoundCtx.children_q {env : Env B K} {v : Nat → RefView K} {rn : Tree B} {i b c : Nat}
    {bd : B} {l r : Tree B} (h : SoundCtx env (Tree.node i b c bd l r) rn v) :
    SoundCtx env l rn v ∧ SoundCtx env r rn v :=
  ⟨⟨h.1, fun q1 hq r1 hr => h.2 q1 (Tree.subtrees_left hq) r1 hr⟩,
    ⟨h.1, fun q1 hq r1 hr => h.2 q1 (Tree.subtrees_right hq) r1 hr⟩⟩

/-- The weight sum and the exact contribution of a reference node are the
sums of those of its two children, in either order. -/
theorem SoundCtx.split {env : Env B K} {v : Nat → RefView K} {q : Tree B} {i b c : Nat}
    {bd : B} {l r a s : Tree B} (h : SoundCtx env q (Tree.node i b c bd l r) v)
    (ho : IsOrder a s l r) (x : Nat) :
    (v i).weight_sum = (v a.id).weight_sum + (v s.id).weight_sum ∧
      kernelSum env x (Tree.node i b c bd l r) = kernelSum env x a + kernelSum env x s := by
  have h0 := h.local.weight_sum
  have hl := h.children_r.1.local.weight_sum
  have hr := h.children_r.2.local.weight_sum
  simp only [Tree.id_node, Tree.begin_node, Tree.count_node] at h0
  have hw : (v i).weight_sum = (v l.id).weight_sum + (v r.id).weight_sum := by
    rw [h0, hl, hr, weightSumRange_node env h.1]
  rcases ho with ⟨rfl, rfl⟩ | ⟨rfl, rfl⟩
  · exact ⟨hw, kernelSum_node env x h.1⟩
  · exact ⟨hw.trans (add_comm _ _), (kernelSum_node env x h.1).trans (add_comm _ _)⟩

end SoundLemmas

section SoundLaws

variable {B K : Type}

theorem soundGood_prune {env : Env B K} {v : Nat → RefView K} {q r : Tree B}
    (h : SoundLocal env v q r) {x : Nat} (hx : q.Contains x) :
    SoundGood env v r x (pruneDeltas env v q r) := by
  obtain ⟨w0, _, _, s3, s4⟩ := h.sum_bounds hx
  have hlo := h.lo_nonneg
  have hhi := h.hi_le_one
  unfold vLo at hlo s3
  unfold vHi at hhi s4
  refine ⟨⟨?_, ?_, ?_, ?_⟩, ?_, ?_, rfl⟩ <;> simp only [pruneDeltas]
  · exact mul_nonneg hlo w0
  · exact s3
  · linarith
  · exact mul_nonpos_of_nonpos_of_nonneg (by linarith) w0
  · linarith
  · linarith

theorem soundGood_base {env : Env B K} {v : Nat → RefView K} {q r : Tree B}
    (h : SoundLocal env v q r) {x : Nat} (hx : q.Contains x) :
    SoundGood env v r x (baseDeltas env v x r) := by
  obtain ⟨_, s1, s2, _, _⟩ := h.sum_bounds hx
  refine ⟨⟨?_, ?_, ?_, ?_⟩, ?_, ?_, rfl⟩ <;> simp only [baseDeltas]
  · exact s1
  · exact le_refl _
  · exact le_refl _
  · linarith
  · linarith
  · linarith

theorem soundMid_zero {env : Env B K} {v : Nat → RefView K} {q r : Tree B}
    (h : SoundLocal env v q r) {x : Nat} (hx : q.Contains x) : SoundMid env v r x 0 := by
  obtain ⟨_, s1, s2, _, _⟩ := h.sum_bounds hx
  refine ⟨?_, ?_, ?_, ?_⟩ <;> simp only [Deltas.zero_dl, Deltas.zero_du]
  · exact le_refl _
  · exact s1
  · linarith
  · exact le_refl _

/-- The laws of the effect description of bound soundness. -/
theorem soundLaws (env : Env B K) (hsqrt : env.sqrt 1 = 1) : EffectLaws env (soundData env) where
  ctx_r := by
    intro q i b c bd l r v h
    have h2 : SoundCtx env q (Tree.node i b c bd l r) v := h
    exact h2.children_r
  ctx_q := by
    intro i b c bd l r rn v h
    have h2 : SoundCtx env (Tree.node i b c bd l r) rn v := h
    exact h2.children_q
  pp_sqrt := by
    intro p hp
    have hp1 : p = 1 := hp
    subst hp1
    constructor
    · exact hsqrt
    · show Sqr (env.sqrt 1) = 1
      rw [hsqrt]
      simp [Sqr]
  good_fd := by
    intro q r v x h hx
    have h2 : SoundCtx env q r v := h
    exact soundGood_prune h2.local hx
  good_mc := by
    intro q r v x p d _ hp hlt _ _
    have hp1 : p = 1 := hp
    subst hp1
    exact absurd hlt (lt_irrefl 1)
  good_base := by
    intro q r v x h _ _ hx
    have h2 : SoundCtx env q r v := h
    exact soundGood_base h2.local hx
  good_add := by
    intro q i b c bd l r v x a s d1 d2 h _ ho h1 h2
    have hc : SoundCtx env q (Tree.node i b c bd l r) v := h
    have g1 : SoundGood env v a x d1 := h1
    have g2 : SoundGood env v s x d2 := h2
    obtain ⟨hw, hk⟩ := hc.split ho x
    have e1 := g1.n_pruned_eq
    have e2 := g2.n_pruned_eq
    show SoundGood env v (Tree.node i b c bd l r) x (d1 + d2)
    refine ⟨⟨?_, ?_, ?_, ?_⟩, ?_, ?_, ?_⟩ <;>
      simp only [Deltas.add_dl, Deltas.add_du, Deltas.add_de, Deltas.add_used_error,
        Deltas.add_n_pruned, Tree.id_node, hk, hw]
    · linarith [g1.dl_nonneg, g2.dl_nonneg]
    · linarith [g1.dl_le, g2.dl_le]
    · linarith [g1.du_ge, g2.du_ge]
    · linarith [g1.du_nonpos, g2.du_nonpos]
    · linarith [g1.de_le, g2.de_le]
    · linarith [g1.de_ge, g2.de_ge]
    · rw [e1, e2]
  mid_zero := by
    intro q r v x h hx
    have h2 : SoundCtx env q r v := h
    exact soundMid_zero h2.local hx
  mid_good := by
    intro q r v x d _ _ h
    have g : SoundGood env v r x d := h
    exact g.toSoundMid
  mid_first := by
    intro q i b c bd l r v x a s d h hx ho h1
    have hc : SoundCtx env q (Tree.node i b c bd l r) v := h
    have g1 : SoundMid env v a x d := h1
    obtain ⟨hw, hk⟩ := hc.split ho x
    have hcs : SoundCtx env q s v := by
      rcases ho with ⟨rfl, rfl⟩ | ⟨rfl, rfl⟩
      · exact hc.children_r.2
      · exact hc.children_r.1
    obtain ⟨_, s1, s2, _, _⟩ := hcs.local.sum_bounds hx
    show SoundMid env v (Tree.node i b c bd l r) x d
    refine ⟨g1.dl_nonneg, ?_, ?_, g1.du_nonpos⟩ <;> simp only [Tree.id_node, hk, hw]
    · linarith [g1.dl_le]
    · linarith [g1.du_ge]
  mid_second := by
    intro q i b c bd l r v x a s d1 d2 h _ ho h1 h2
    have hc : SoundCtx env q (Tree.node i b c bd l r) v := h
    have g1 : SoundGood env v a x d1 := h1
    have g2 : SoundMid env v s x d2 := h2
    obtain ⟨hw, hk⟩ := hc.split ho x
    show SoundMid env v (Tree.node i b c bd l r) x (d1 + d2)
    refine ⟨?_, ?_, ?_, ?_⟩ <;>
      simp only [Deltas.add_dl, Deltas.add_du, Tree.id_node, hk, hw]
    · linarith [g1.dl_nonneg, g2.dl_nonneg]
    · linarith [g1.dl_le, g2.dl_le]
    · linarith [g1.du_ge, g2.du_ge]
    · linarith [g1.du_nonpos, g2.du_nonpos]

end SoundLaws

section SoundTheorem

variable {B K : Type}

theorem DistanceSqEuclidean_nonneg (a b : List ℚ) : 0 ≤ DistanceSqEuclidean a b := by
  unfold DistanceSqEuclidean
  induction a generalizing b with
  | nil => simp
  | cons x xs ih =>
    cases b with
    | nil => simp
    | cons y ys =>
      simp only [List.zipWith_cons_cons, List.sum_cons]
      exact add_nonneg (mul_self_nonneg _) (ih ys)

/-- The assumptions of the claims imply the assumptions of the effect
description of bound soundness. -/
theorem soundCtx_of_contract (env : Env B K) (qroot rroot : Tree B) (v : Nat → RefView K)
    (hrp : rroot.Partitioned) (hw : ∀ i, 0 ≤ env.rset_weights i) (hk : KernelContract env)
    (hb : BoundsEnclose env qroot rroot) (hpre : RefPreprocessed env v rroot) :
    SoundCtx env qroot rroot v := by
  refine ⟨hrp, fun q hq r hr => ?_⟩
  obtain ⟨b1, b2, b3⟩ := hb q hq r hr
  obtain ⟨p1, p2⟩ := hpre r hr
  have hmem : ∀ (t : Tree B) (i : Nat), t.Contains i → i ∈ List.range' t.begin t.count := by
    intro t i hi
    rw [List.mem_range'_1]
    exact hi
  refine ⟨fun i _ => hw i, ?_, ?_, ?_, ?_, p1⟩
  · intro x i _ _
    exact hk.unit _ _ (DistanceSqEuclidean_nonneg _ _)
  · intro x i hx hi
    obtain ⟨d1, d2⟩ := b3 x (hmem q x hx) i (hmem r i hi)
    obtain ⟨w1, w2⟩ := p2 i (hmem r i hi)
    have hd0 := DistanceSqEuclidean_nonneg (env.qset x) (env.rset i)
    constructor
    · exact (hk.mono_dist _ _ _ hd0 d2).trans (hk.mono_bandwidth _ _ _ hd0 w1)
    · exact (hk.mono_bandwidth _ _ _ hd0 w2).trans (hk.mono_dist _ _ _ b1 d1)
  · exact (hk.unit _ _ (b1.trans b2)).1
  · exact (hk.unit _ _ b1).2

theorem pending_zero_of (m : Mem K) (t : Tree B) (x : Nat) (f : Deltas → ℚ)
    (hf0 : f 0 = 0) (hadd : ∀ a b, f (a + b) = f a + f b)
    (h : ∀ i ∈ t.ids, f (m.stat i).postponed = 0) : f (pending m t x) = 0 := by
  induction t with
  | leaf i b c bd =>
    simp only [pending]
    split_ifs
    · exact h i (by simp [Tree.ids])
    · exact hf0
  | node i b c bd l r ihl ihr =>
    simp only [pending]
    split_ifs
    · rw [hadd, hadd, h i (by simp [Tree.ids]), ihl (fun j hj => h j (Tree.mem_ids_left hj)),
        ihr (fun j hj => h j (Tree.mem_ids_right hj))]
      simp
    · exact hf0

/-- C1. Bound soundness at confidence 1.  Assume non-negative reference
weights, the kernel contract, bounds that enclose the true distances,
reference statistics as `PreProcess` leaves them, and per-point accumulators
with lower bound 0 and upper bound the total reference weight (nothing
postponed).  Then after `DualtreeVKdeCanonical_(qroot, rroot, 1)`, after
every step recorded during it, and after the flush of `PostProcess` (whose
result is the flushed value times `mult_const_`), the effective lower bound
of every query point is at most the exact sum and the effective upper bound
is at least the exact sum. -/
theorem C1_bound_soundness (env : Env B K) (qroot rroot : Tree B) (st : State K)
    (hsqrt : env.sqrt 1 = 1) (hqp : qroot.Partitioned) (hqd : qroot.Distinct)
    (hrp : rroot.Partitioned) (hw : ∀ i, 0 ≤ env.rset_weights i) (hk : KernelContract env)
    (hb : BoundsEnclose env qroot rroot) (hpre : RefPreprocessed env st.mem.view rroot)
    (hpoints : ∀ x, qroot.Contains x →
      st.mem.densities_l x = 0 ∧
        st.mem.densities_u x = weightSumRange env rroot.begin rroot.count)
    (hpost : ∀ i ∈ qroot.ids,
      (st.mem.stat i).postponed_l = 0 ∧ (st.mem.stat i).postponed_u = 0) :
    (∀ x, qroot.Contains x →
      (effective (DualtreeVKdeCanonical_ env qroot rroot 1 st).1.mem qroot x).dl ≤
          kernelSum env x rroot ∧
        kernelSum env x rroot ≤
          (effective (DualtreeVKdeCanonical_ env qroot rroot 1 st).1.mem qroot x).du) ∧
      (∃ new, (DualtreeVKdeCanonical_ env qroot rroot 1 st).1.trace = new ++ st.trace ∧
        ∀ y ∈ new, ∀ x, qroot.Contains x →
          (effective y.2 qroot x).dl ≤ kernelSum env x rroot ∧
            kernelSum env x rroot ≤ (effective y.2 qroot x).du) ∧
      ∀ x, qroot.Contains x →
        (PostProcess env qroot (DualtreeVKdeCanonical_ env qroot rroot 1 st).1.mem).densities_l x =
            (effective (DualtreeVKdeCanonical_ env qroot rroot 1 st).1.mem qroot x).dl *
              env.mult_const ∧
          (PostProcess env qroot
              (DualtreeVKdeCanonical_ env qroot rroot 1 st).1.mem).densities_u x =
            (effective (DualtreeVKdeCanonical_ env qroot rroot 1 st).1.mem qroot x).du *
              env.mult_const := by
  have hc : SoundCtx env qroot rroot st.mem.view :=
    soundCtx_of_contract env qroot rroot _ hrp hw hk hb hpre
  obtain ⟨⟨_, hg⟩, new, ht, hmid⟩ :=
    canonical_effect (soundLaws env hsqrt) qroot rroot 1 st hqp hqd hc rfl
  have hW := hc.local.weight_sum
  have h0 : ∀ x, qroot.Contains x →
      (effective st.mem qroot x).dl = 0 ∧
        (effective st.mem qroot x).du = (st.mem.view rroot.id).weight_sum := by
    intro x hx
    unfold effective
    rw [Deltas.add_dl, Deltas.add_du,
      pending_zero_of st.mem qroot x Deltas.dl rfl (fun _ _ => rfl) (fun i hi => (hpost i hi).1),
      pending_zero_of st.mem qroot x Deltas.du rfl (fun _ _ => rfl) (fun i hi => (hpost i hi).2),
      hW]
    simp [Mem.point, (hpoints x hx).1, (hpoints x hx).2]
  have hsound : ∀ (m : Mem K) (x : Nat), qroot.Contains x →
      SoundMid env st.mem.view rroot x (effective m qroot x - effective st.mem qroot x) →
      (effective m qroot x).dl ≤ kernelSum env x rroot ∧
        kernelSum env x rroot ≤ (effective m qroot x).du := by
    intro m x hx g
    have g1 := g.dl_le
    have g2 := g.du_ge
    rw [Deltas.sub_dl, (h0 x hx).1] at g1
    rw [Deltas.sub_du, (h0 x hx).2] at g2
    constructor <;> linarith
  refine ⟨fun x hx => hsound _ x hx (hg x hx).toSoundMid, ⟨new, ht, fun y hy x hx =>
    hsound _ x hx ((hmid y hy).2 x hx)⟩, fun x hx => ?_⟩
  obtain ⟨_, hpt, _⟩ := postProcess_effect env qroot
    (DualtreeVKdeCanonical_ env qroot rroot 1 st).1.mem hqp hqd
  exact ⟨congrArg Deltas.dl (hpt x hx), congrArg Deltas.du (hpt x hx)⟩

end SoundTheorem

namespace Example

theorem epan_contract (tau threshold : ℚ) : KernelContract (env2 tau threshold) where
  unit := by
    intro k d hd
    show 0 ≤ epanOnSq k d ∧ epanOnSq k d ≤ 1
    unfold epanOnSq
    split_ifs with h
    · have hk : 0 < k := lt_of_le_of_lt hd h
      have h1 : 0 ≤ d / k := div_nonneg hd hk.le
      have h2 : d / k ≤ 1 := (div_le_one hk).2 h.le
      constructor <;> linarith
    · exact ⟨le_refl _, zero_le_one⟩
  mono_dist := by
    intro k d1 d2 hd1 h12
    show epanOnSq k d2 ≤ epanOnSq k d1
    unfold epanOnSq
    split_ifs with h2 h1 h1
    · have hk : 0 < k := lt_of_le_of_lt (hd1.trans h12) h2
      have : d1 / k ≤ d2 / k := div_le_div_of_nonneg_right h12 hk.le
      linarith
    · exact absurd (lt_of_le_of_lt h12 h2) h1
    · have hk : 0 < k := lt_of_le_of_lt hd1 h1
      have h3 : d1 / k ≤ 1 := (div_le_one hk).2 h1.le
      linarith
    · exact le_refl _
  mono_bandwidth := by
    intro k1 k2 d hd h12
    show epanOnSq k1 d ≤ epanOnSq k2 d
    have h12 : k1 ≤ k2 := h12
    unfold epanOnSq
    split_ifs with h1 h2 h2
    · have hk1 : 0 < k1 := lt_of_le_of_lt hd h1
      have : d / k2 ≤ d / k1 := div_le_div_of_nonneg_left hd hk1 h12
      linarith
    · exact absurd (lt_of_lt_of_le h1 h12) h2
    · have hk : 0 < k2 := lt_of_le_of_lt hd h2
      have h3 : d / k2 ≤ 1 := (div_le_one hk).2 h2.le
      linarith
    · exact le_refl _

theorem qroot2_contains (x : Nat) (h : qroot2.Contains x) : x = 0 ∨ x = 1 := by
  obtain ⟨h1, h2⟩ := h
  have h3 : x < 0 + 2 := h2
  omega

theorem qroot2_ids (i : Nat) (h : i ∈ qroot2.ids) : i = 10 ∨ i = 11 ∨ i = 12 := by
  simpa [qroot2, Tree.ids] using h

theorem qroot2_partitioned : qroot2.Partitioned := ⟨rfl, rfl, rfl, trivial, trivial⟩

theorem rroot2_partitioned : rroot2.Partitioned := ⟨rfl, rfl, rfl, trivial, trivial⟩

end Example

section SoundWitness

/-- C1 at a concrete input: in the run of the second instance with
`tau_ = 1/10` the bounds of the query point 0 enclose its exact sum. -/
theorem C1_bound_soundness_witness :
    (effective (DualtreeVKdeCanonical_ (Example.env2 (1 / 10) 0) Example.qroot2 Example.rroot2 1
        ⟨Example.mem2, []⟩).1.mem Example.qroot2 0).dl ≤
        kernelSum (Example.env2 (1 / 10) 0) 0 Example.rroot2 ∧
      kernelSum (Example.env2 (1 / 10) 0) 0 Example.rroot2 ≤
        (effective (DualtreeVKdeCanonical_ (Example.env2 (1 / 10) 0) Example.qroot2
          Example.rroot2 1 ⟨Example.mem2, []⟩).1.mem Example.qroot2 0).du :=
  (C1_bound_soundness (Example.env2 (1 / 10) 0) Example.qroot2 Example.rroot2
    ⟨Example.mem2, []⟩ (by decide!) Example.qroot2_partitioned (by decide)
    Example.rroot2_partitioned (fun _ => zero_le_one) (Example.epan_contract _ _)
    (by decide!) (by decide!)
    (fun x hx => by
      rcases Example.qroot2_contains x hx with rfl | rfl <;> exact ⟨rfl, by decide!⟩)
    (fun i hi => by
      rcases Example.qroot2_ids i hi with rfl | rfl | rfl <;> exact ⟨rfl, rfl⟩)).1 0
    (by decide)

end SoundWitness

section BudgetLemmas

variable {B K : Type}

theorem StatOK.node {m : Mem K} {t : Tree B} (h : StatOK m t) : NodeOK m t := by
  cases t with
  | leaf i b c bd => exact h
  | node i b c bd l r => exact h.1

theorem effective_congr (m m1 : Mem K) (t : Tree B) (x : Nat)
    (hs : ∀ i ∈ t.ids, m1.stat i = m.stat i) (hx : m1.point x = m.point x) :
    effective m1 t x = effective m t x := by
  unfold effective
  rw [hx, pending_congr m m1 t x (fun i hi => by rw [hs i hi])]

theorem NodeOK_congr {m m1 : Mem K} {n : Tree B} (hs : ∀ i ∈ n.ids, m1.stat i = m.stat i)
    (hx : ∀ x, n.Contains x → m1.point x = m.point x) (h : NodeOK m n) : NodeOK m1 n := by
  intro x hc
  rw [effective_congr m m1 n x hs (hx x hc), hs n.id n.id_mem_ids]
  exact h x hc

theorem StatOK_congr {m m1 : Mem K} {t : Tree B} (hp : t.Partitioned)
    (hs : ∀ i ∈ t.ids, m1.stat i = m.stat i)
    (hx : ∀ x, t.Contains x → m1.point x = m.point x) (h : StatOK m t) : StatOK m1 t := by
  induction t with
  | leaf i b c bd => exact NodeOK_congr hs hx h
  | node i b c bd l r ihl ihr =>
    have hc := fun x => (Tree.contains_node i b c bd l r hp x).1
    exact ⟨NodeOK_congr hs hx h.1,
      ihl hp.left (fun j hj => hs j (Tree.mem_ids_left hj))
        (fun x hxl => hx x ((hc x).2 (Or.inl hxl))) h.2.1,
      ihr hp.right (fun j hj => hs j (Tree.mem_ids_right hj))
        (fun x hxr => hx x ((hc x).2 (Or.inr hxr))) h.2.2⟩

/-- A memory within the frame of a tree with disjoint addresses and points
keeps the worst-case statistics of another tree. -/
theorem StatOK_of_frame {m m1 : Mem K} {c t : Tree B} (hp : t.Partitioned)
    (hf : Frame c m m1) (hdis : ∀ j, j ∈ t.ids → j ∉ c.ids)
    (hpt : ∀ x, t.Contains x → ¬ c.Contains x) (h : StatOK m t) : StatOK m1 t :=
  StatOK_congr hp (fun i hi => hf.stat i (hdis i hi)) (fun x hx => hf.point x (hpt x hx)) h

/-- The three ways a division result can make `Prunable_` return true. -/
theorem Ext.approve_cases (x a b : ℚ)
    (h : (!(Ext.div a b).isnan && Ext.le x (Ext.div a b)) = true) :
    (b = 0 ∧ 0 < a) ∨ (b ≠ 0 ∧ x ≤ a / b) := by
  unfold Ext.div at h
  by_cases hb : b = 0
  · left
    rw [if_pos hb] at h
    by_cases ha : a = 0
    · rw [if_pos ha] at h
      simp [Ext.isnan] at h
    · rw [if_neg ha] at h
      by_cases hpos : 0 < a
      · exact ⟨hb, hpos⟩
      · rw [if_neg hpos] at h
        simp [Ext.isnan, Ext.le] at h
  · right
    rw [if_neg hb] at h
    simp only [Ext.isnan, Ext.le, Bool.not_false, Bool.true_and, decide_eq_true_eq] at h
    exact ⟨hb, h⟩

/-- The numeric core of the error budget: a prune approved by `Prunable_`
keeps the used error of every point of the query node within its budget. -/
theorem prune_budget (env : Env B K) (m : Mem K) (q r : Tree B) (p : ℚ) (total : Nat → ℚ)
    (W : ℚ) (x : Nat) (hx : q.Contains x) (hloc : SoundLocal env m.view q r)
    (htau : 0 ≤ env.tau) (hW : (m.view env.rroot).weight_sum = W) (hnode : NodeOK m q)
    (herr : (effective m q x).used_error ≤ budget env (total x))
    (hlow : (effective m q x).dl + kernelSum env x r ≤ total x)
    (hpr : (effective m q x).n_pruned + (m.view r.id).weight_sum ≤ W)
    (hres : (Prunable_ env m q r p).result = true) :
    (effective m q x).used_error + (pruneDeltas env m.view q r).used_error ≤
      budget env (total x) := by
  obtain ⟨n1, n2, n3⟩ := hnode x hx
  obtain ⟨w0, _, _, _, _⟩ := hloc.sum_bounds hx
  have hg := soundGood_prune hloc hx
  have hu0 : 0 ≤ (pruneDeltas env m.view q r).used_error := by
    linarith [hg.de_le, hg.de_ge]
  have hdl := hg.dl_le
  -- the quantities of `Prunable_`
  set w := (m.view r.id).weight_sum with hw
  set used := (pruneDeltas env m.view q r).used_error with hused
  set M := max (env.tau * ((m.stat q.id).mass_l + (m.stat q.id).postponed_l +
    (pruneDeltas env m.view q r).dl)) env.threshold with hM
  set E := (m.stat q.id).used_error + (m.stat q.id).postponed_used_error with hE
  set den := (m.stat env.rroot).weight_sum -
    ((m.stat q.id).n_pruned + (m.stat q.id).postponed_n_pruned) with hden
  have hrule : (!(Ext.div ((M - E) * w) den).isnan &&
      Ext.le used (Ext.div ((M - E) * w) den)) = true := hres
  have hWeq : (m.stat env.rroot).weight_sum = W := hW
  have hden_ge : w ≤ den := by
    rw [hden, hWeq]
    linarith
  have hMB : M ≤ budget env (total x) := by
    unfold budget
    apply max_le_max _ (le_refl _)
    apply mul_le_mul_of_nonneg_left _ htau
    linarith
  rcases Ext.approve_cases used ((M - E) * w) den hrule with ⟨hd0, hpos⟩ | ⟨hdne, hle⟩
  · have hw0 : w = 0 := le_antisymm (hd0 ▸ hden_ge) w0
    rw [hw0, mul_zero] at hpos
    exact absurd hpos (lt_irrefl 0)
  · have hdpos : 0 < den := lt_of_le_of_ne (w0.trans hden_ge) (Ne.symm hdne)
    rw [le_div_iff₀ hdpos] at hle
    by_cases hw0 : w = 0
    · have : used = 0 := by
        rw [hused]
        simp only [pruneDeltas]
        rw [← hw, hw0, mul_zero]
      linarith
    · have hwpos : 0 < w := lt_of_le_of_ne w0 (Ne.symm hw0)
      have hME : 0 ≤ M - E := by
        by_contra hneg
        push_neg at hneg
        have h1 : (M - E) * w < 0 := mul_neg_of_neg_of_pos hneg hwpos
        have h2 : 0 ≤ used * den := mul_nonneg hu0 hdpos.le
        linarith
      have h3 : used * den ≤ (M - E) * den :=
        hle.trans (mul_le_mul_of_nonneg_left hden_ge hME)
      have h4 : used ≤ M - E := le_of_mul_le_mul_right h3 hdpos
      linarith

end BudgetLemmas

section StatLemmas

variable {B K : Type}

/-- If only the statistic of the root of a tree changed, the worst-case
statistics of the tree follow from that of the root. -/
theorem StatOK_top {m m1 : Mem K} {t : Tree B} (hp : t.Partitioned) (hd : t.Distinct)
    (hs : ∀ j ∈ t.ids, j ≠ t.id → m1.stat j = m.stat j)
    (hx : ∀ x, t.Contains x → m1.point x = m.point x) (h : StatOK m t) (hn : NodeOK m1 t) :
    StatOK m1 t := by
  cases t with
  | leaf i b c bd => exact hn
  | node i b c bd l r =>
    have hc := fun x => (Tree.contains_node i b c bd l r hp x).1
    refine ⟨hn, ?_, ?_⟩
    · exact StatOK_congr hp.left
        (fun j hj => hs j (Tree.mem_ids_left hj) (fun (e : j = i) => hd.not_mem_left (e ▸ hj)))
        (fun x hxl => hx x ((hc x).2 (Or.inl hxl))) h.2.1
    · exact StatOK_congr hp.right
        (fun j hj => hs j (Tree.mem_ids_right hj) (fun (e : j = i) => hd.not_mem_right (e ▸ hj)))
        (fun x hxr => hx x ((hc x).2 (Or.inr hxr))) h.2.2

theorem finiteDifferencePrune_stat_self (m : Mem K) (i : Nat) (d : Deltas) :
    ((finiteDifferencePrune i d m).stat i).mass_l = (m.stat i).mass_l ∧
      ((finiteDifferencePrune i d m).stat i).used_error = (m.stat i).used_error ∧
      ((finiteDifferencePrune i d m).stat i).n_pruned = (m.stat i).n_pruned ∧
      ((finiteDifferencePrune i d m).stat i).postponed_l = (m.stat i).postponed_l + d.dl ∧
      ((finiteDifferencePrune i d m).stat i).postponed_used_error =
        (m.stat i).postponed_used_error + d.used_error ∧
      ((finiteDifferencePrune i d m).stat i).postponed_n_pruned =
        (m.stat i).postponed_n_pruned + d.n_pruned := by
  simp [finiteDifferencePrune, addDeltas, Mem.setStat]

/-- A prune keeps the worst-case statistics of the query node. -/
theorem statOK_prune {m : Mem K} {q : Tree B} (d : Deltas) (hp : q.Partitioned)
    (hd : q.Distinct) (h : StatOK m q) : StatOK (finiteDifferencePrune q.id d m) q := by
  obtain ⟨_, he⟩ := finiteDifferencePrune_effect m q d hd
  obtain ⟨s1, s2, s3, s4, s5, s6⟩ := finiteDifferencePrune_stat_self m q.id d
  refine StatOK_top hp hd (fun j _ hj => Mem.setStat_stat_ne _ _ _ _ hj) (fun _ _ => rfl) h ?_
  intro x hx
  obtain ⟨n1, n2, n3⟩ := h.node x hx
  rw [he x hx, s1, s2, s3, s4, s5, s6, Deltas.add_dl, Deltas.add_used_error,
    Deltas.add_n_pruned]
  refine ⟨?_, ?_, ?_⟩ <;> linarith

/-- What is pending on a point of a child, seen from the parent. -/
theorem effective_node_child (m : Mem K) {i b c : Nat} {bd : B} {l r a s : Tree B}
    (hp : (Tree.node i b c bd l r).Partitioned) (ho : IsOrder a s l r) {x : Nat}
    (hx : a.Contains x) :
    effective m (Tree.node i b c bd l r) x = (m.stat i).postponed + effective m a x := by
  unfold effective
  rcases ho with ⟨rfl, rfl⟩ | ⟨rfl, rfl⟩
  · rw [pending_node_left m hp hx]
    ext <;> simp <;> ring
  · rw [pending_node_right m hp hx]
    ext <;> simp <;> ring

/-- The push-down keeps the worst-case statistics of the two children. -/
theorem statOK_pushDown (m : Mem K) {i b c : Nat} {bd : B} {l r a s : Tree B}
    (hd : (Tree.node i b c bd l r).Distinct) (hp : (Tree.node i b c bd l r).Partitioned)
    (ho : IsOrder a s l r) (h : StatOK m (Tree.node i b c bd l r)) :
    StatOK (pushDown i l.id r.id m) a := by
  obtain ⟨_, hel, her, _⟩ := pushDown_effect m hd hp
  obtain ⟨_, s2, s3, s4⟩ := pushDown_stat m hd
  have ha : StatOK m a := by
    rcases ho with ⟨rfl, rfl⟩ | ⟨rfl, rfl⟩
    · exact h.2.1
    · exact h.2.2
  have hstat : (pushDown i l.id r.id m).stat a.id = (m.stat a.id).AddPostponed (m.stat i) := by
    rcases ho with ⟨rfl, rfl⟩ | ⟨rfl, rfl⟩
    · exact s2
    · exact s3
  have heff : ∀ x, a.Contains x →
      effective (pushDown i l.id r.id m) a x = (m.stat i).postponed + effective m a x := by
    intro x hx
    rw [← effective_node_child m hp ho hx]
    rcases ho with ⟨rfl, rfl⟩ | ⟨rfl, rfl⟩
    · exact hel x hx
    · exact her x hx
  have hother : ∀ j ∈ a.ids, j ≠ a.id → (pushDown i l.id r.id m).stat j = m.stat j := by
    intro j hj hne
    rcases ho with ⟨rfl, rfl⟩ | ⟨rfl, rfl⟩
    · exact s4 j (fun e => hd.not_mem_left (e ▸ hj)) hne
        (fun e => hd.disjoint j hj (e ▸ s.id_mem_ids))
    · exact s4 j (fun e => hd.not_mem_right (e ▸ hj))
        (fun e => hd.disjoint s.id s.id_mem_ids (e ▸ hj)) hne
  refine StatOK_top (ho.partitioned hp) (ho.distinct hd) hother (fun _ _ => rfl) ha ?_
  intro x hx
  obtain ⟨n1, n2, n3⟩ := ha.node x hx
  rw [heff x hx, hstat]
  simp only [VKdeStat.AddPostponed, Deltas.add_dl, Deltas.add_used_error, Deltas.add_n_pruned,
    VKdeStat.postponed]
  refine ⟨?_, ?_, ?_⟩ <;> linarith

/-- The re-accumulation restores the worst-case statistic of a node whose
children have worst-case statistics and on which nothing is postponed. -/
theorem statOK_refine (m : Mem K) {i b c : Nat} {bd : B} {l r : Tree B}
    (hd : (Tree.node i b c bd l r).Distinct) (hp : (Tree.node i b c bd l r).Partitioned)
    (h0 : (m.stat i).postponed = 0) (hl : StatOK m l) (hr : StatOK m r) :
    StatOK (refine i l.id r.id m) (Tree.node i b c bd l r) := by
  obtain ⟨_, he⟩ := refine_effect m (Tree.node i b c bd l r) i l.id r.id (by simp [Tree.ids])
  have hstat : ∀ j, j ≠ i → (refine i l.id r.id m).stat j = m.stat j :=
    fun j hj => Mem.setStat_stat_ne _ _ _ _ hj
  have hself : (refine i l.id r.id m).stat i =
      (m.stat i).RefineBoundStatistics (m.stat l.id) (m.stat r.id) := Mem.setStat_stat_self _ _ _
  have hc := fun x => (Tree.contains_node i b c bd l r hp x).1
  have h0l : (m.stat i).postponed_l = 0 := congrArg Deltas.dl h0
  have h0e : (m.stat i).postponed_used_error = 0 := congrArg Deltas.used_error h0
  have h0n : (m.stat i).postponed_n_pruned = 0 := congrArg Deltas.n_pruned h0
  refine ⟨?_, ?_, ?_⟩
  · intro x hx
    rw [he, Tree.id_node, hself]
    simp only [VKdeStat.RefineBoundStatistics, h0l, h0e, h0n, add_zero]
    rcases (hc x).1 hx with hxl | hxr
    · obtain ⟨n1, n2, n3⟩ := hl.node x hxl
      rw [effective_node_child m hp (Or.inl ⟨rfl, rfl⟩) hxl, h0, Deltas.zero_add]
      exact ⟨(min_le_left _ _).trans n1, n2.trans (le_max_left _ _),
        (min_le_left _ _).trans n3⟩
    · obtain ⟨n1, n2, n3⟩ := hr.node x hxr
      rw [effective_node_child m hp (Or.inr ⟨rfl, rfl⟩) hxr, h0, Deltas.zero_add]
      exact ⟨(min_le_right _ _).trans n1, n2.trans (le_max_right _ _),
        (min_le_right _ _).trans n3⟩
  · exact StatOK_congr hp.left (fun j hj => hstat j (fun e => hd.not_mem_left (e ▸ hj)))
      (fun _ _ => rfl) hl
  · exact StatOK_congr hp.right (fun j hj => hstat j (fun e => hd.not_mem_right (e ▸ hj)))
      (fun _ _ => rfl) hr

end StatLemmas

section BudgetRules

variable {B K : Type}

theorem BudgetPre_rng {env : Env B K} {total : Nat → ℚ} {W : ℚ} {m : Mem K} {q r : Tree B}
    (n : Nat) (hp : q.Partitioned) (h : BudgetPre env total W m q r) :
    BudgetPre env total W { m with rng_pos := n } q r := by
  have he := (rng_effect m q n).2
  refine ⟨@StatOK_congr B K m _ q hp (fun _ _ => rfl) (fun _ _ => rfl) h.stat, ?_, ?_, ?_⟩
  · intro x hx; rw [he x]; exact h.err x hx
  · intro x hx; rw [he x]; exact h.low x hx
  · intro x hx; rw [he x]; exact h.pruned x hx

theorem budget_some (env : Env B K) (hsqrt : env.sqrt 1 = 1) (total : Nat → ℚ) (W : ℚ)
    (q r : Tree B) (p : ℚ) (st : State K) (b : Bool) (st1 : State K)
    (h : pruneAttempt env q r p (st.step (.call q.id r.id p) id) = (some b, st1)) :
    BudgetMotive env total W q r p st (st1, b) := by
  intro hp hd hc hp1 htau hW hpre
  refine ⟨effect_some (soundLaws env hsqrt) q r p st st1 b h hp hd hc hp1, ?_⟩
  rcases pruneAttempt_cases env q r p (st.step (.call q.id r.id p) id) with
    ⟨hres, h1⟩ | ⟨d, n, hlt, _, _, _⟩ | ⟨n, _, h1⟩
  · rw [h1] at h
    simp only [Prod.mk.injEq, Option.some.injEq] at h
    obtain ⟨rfl, rfl⟩ := h
    obtain ⟨_, he⟩ := finiteDifferencePrune_effect st.mem q (pruneDeltas env st.mem.view q r) hd
    refine ⟨statOK_prune _ hp hd hpre.stat, fun x hx => ?_⟩
    have e : (effective (finiteDifferencePrune q.id (pruneDeltas env st.mem.view q r) st.mem)
        q x) = effective st.mem q x + pruneDeltas env st.mem.view q r := he x hx
    have e2 := congrArg Deltas.used_error e
    rw [Deltas.add_used_error] at e2
    have hb := prune_budget env st.mem q r p total W x hx hc.local htau hW (hpre.stat.node)
      (hpre.err x hx) (hpre.low x hx) (hpre.pruned x hx) hres
    exact e2 ▸ hb
  · subst hp1
    exact absurd hlt (lt_irrefl 1)
  · rw [h1] at h
    simp at h

theorem budget_none (env : Env B K) (hsqrt : env.sqrt 1 = 1) (total : Nat → ℚ) (W : ℚ)
    (q r : Tree B) (p : ℚ) (st st1 : State K) (res : State K × Bool)
    (h : pruneAttempt env q r p (st.step (.call q.id r.id p) id) = (none, st1))
    (ih : BudgetMotive env total W q r p st1 res) :
    BudgetMotive env total W q r p st res := by
  intro hp hd hc hp1 htau hW hpre
  rcases pruneAttempt_cases env q r p (st.step (.call q.id r.id p) id) with
    ⟨_, h1⟩ | ⟨d, n, _, _, _, h1⟩ | ⟨n, _, h1⟩
  · rw [h1] at h; simp at h
  · rw [h1] at h; simp at h
  · have h2 := h
    rw [h1] at h2
    obtain ⟨_, e⟩ := Prod.mk.inj h2
    have hm : st1.mem = { st.mem with rng_pos := n } := by rw [← e]; rfl
    have hv : st1.mem.view = st.mem.view := by rw [hm]; rfl
    have hpre1 : BudgetPre env total W st1.mem q r := by
      rw [hm]; exact BudgetPre_rng n hp hpre
    obtain ⟨he, hs, hb⟩ := ih hp hd (hv ▸ hc) hp1 htau (hv ▸ hW) hpre1
    exact ⟨effect_none (soundLaws env hsqrt) q r p st st1 res h (fun _ _ _ _ => he) hp hd hc hp1,
      hs, hb⟩

theorem budget_base (env : Env B K) (hsqrt : env.sqrt 1 = 1) (total : Nat → ℚ) (W : ℚ)
    (q r : Tree B) (p : ℚ) (st : State K) (hq : q.is_leaf = true) (hr : r.is_leaf = true) :
    BudgetMotive env total W q r p st
      (st.step (.baseCase q.id r.id) (DualtreeVKdeBase_ env q r p), true) := by
  intro hp hd hc hp1 htau hW hpre
  refine ⟨effect_base (soundLaws env hsqrt) q r p st hq hr hp hd hc hp1, ?_⟩
  cases q with
  | node i b c bd l r => simp [Tree.is_leaf] at hq
  | leaf i b c bd =>
    obtain ⟨_, he, h0, hb⟩ := base_effect env i b c bd r p st.mem
    have heff : ∀ x, (Tree.leaf i b c bd).Contains x →
        effective (DualtreeVKdeBase_ env (Tree.leaf i b c bd) r p st.mem) (Tree.leaf i b c bd) x
          = (DualtreeVKdeBase_ env (Tree.leaf i b c bd) r p st.mem).point x := by
      intro x hx
      have hbx : b ≤ x ∧ x < b + c := hx
      unfold effective
      simp only [pending, hbx, and_self, if_true, h0, Deltas.add_zero]
    have h0l := congrArg Deltas.dl h0
    have h0e := congrArg Deltas.used_error h0
    have h0n := congrArg Deltas.n_pruned h0
    simp only [VKdeStat.postponed, Deltas.zero_dl, Deltas.zero_used_error,
      Deltas.zero_n_pruned] at h0l h0e h0n
    refine ⟨?_, ?_⟩
    · change NodeOK (DualtreeVKdeBase_ env (Tree.leaf i b c bd) r p st.mem) (Tree.leaf i b c bd)
      intro x hx
      obtain ⟨b1, b2, b3⟩ := hb x hx
      rw [heff x hx, Tree.id_leaf, h0l, h0e, h0n]
      simp only [add_zero, Mem.point]
      exact ⟨b1, b2, b3⟩
    · intro x hx
      have e := congrArg Deltas.used_error (he x hx)
      rw [Deltas.add_used_error] at e
      have hz : (baseDeltas env st.mem.view x r).used_error = 0 := rfl
      rw [hz, add_zero] at e
      show (effective (DualtreeVKdeBase_ env (Tree.leaf i b c bd) r p st.mem)
        (Tree.leaf i b c bd) x).used_error ≤ _
      rw [e]
      exact hpre.err x hx

theorem budget_split_r (env : Env B K) (hsqrt : env.sqrt 1 = 1) (total : Nat → ℚ) (W : ℚ)
    (q : Tree B) (rid rb rc : Nat) (rbd : B) (rl rr : Tree B) (p : ℚ) (st : State K)
    (a s : Tree B) (res1 res2 : State K × Bool) (ho : IsOrder a s rl rr)
    (ih1 : BudgetMotive env total W q a (env.sqrt p) st res1)
    (ih2 : BudgetMotive env total W q s
      (if res1.2 then Sqr (env.sqrt p) else env.sqrt p) res1.1 res2) :
    BudgetMotive env total W q (.node rid rb rc rbd rl rr) p st (res2.1, res1.2 && res2.2) := by
  intro hp hd hc hp1 htau hW hpre
  subst hp1
  have hca : SoundCtx env q a st.mem.view := by
    rcases ho with ⟨rfl, rfl⟩ | ⟨rfl, rfl⟩
    · exact hc.children_r.1
    · exact hc.children_r.2
  have hcs : SoundCtx env q s st.mem.view := by
    rcases ho with ⟨rfl, rfl⟩ | ⟨rfl, rfl⟩
    · exact hc.children_r.2
    · exact hc.children_r.1
  have hsplit := fun x => hc.split ho x
  simp only [Tree.id_node] at hsplit
  have hpre1 : BudgetPre env total W st.mem q a := by
    refine ⟨hpre.stat, hpre.err, ?_, ?_⟩
    · intro x hx
      obtain ⟨_, s1, _, _, _⟩ := hcs.local.sum_bounds hx
      have := hpre.low x hx
      rw [(hsplit x).2] at this
      linarith
    · intro x hx
      obtain ⟨w0, _, _, _, _⟩ := hcs.local.sum_bounds hx
      have := hpre.pruned x hx
      rw [Tree.id_node, (hsplit x).1] at this
      linarith
  obtain ⟨he1, hs1, hb1⟩ := ih1 hp hd hca hsqrt htau hW hpre1
  have hv : res1.1.mem.view = st.mem.view := he1.1.1.view
  have hp2 : (if res1.2 then Sqr (env.sqrt 1) else env.sqrt 1) = 1 := by
    rw [hsqrt]; split_ifs <;> simp [Sqr]
  have hpre2 : BudgetPre env total W res1.1.mem q s := by
    refine ⟨hs1, hb1, ?_, ?_⟩
    · intro x hx
      have g : SoundGood env st.mem.view a x _ := he1.1.2 x hx
      have g1 := g.dl_le
      rw [Deltas.sub_dl] at g1
      have := hpre.low x hx
      rw [(hsplit x).2] at this
      linarith
    · intro x hx
      have g : SoundGood env st.mem.view a x _ := he1.1.2 x hx
      have g1 := g.n_pruned_eq
      rw [Deltas.sub_n_pruned] at g1
      have := hpre.pruned x hx
      rw [Tree.id_node, (hsplit x).1] at this
      rw [hv]
      linarith
  obtain ⟨he2, hs2, hb2⟩ := ih2 hp hd (hv ▸ hcs) hp2 htau (hv ▸ hW) hpre2
  exact ⟨effect_split_r (soundLaws env hsqrt) q rid rb rc rbd rl rr 1 st a s res1 res2 ho
    (fun _ _ _ _ => he1) (fun _ _ _ _ => he2) hp hd hc rfl, hs2, hb2⟩

end BudgetRules

section BudgetSplitQ

variable {B K : Type}

theorem IsOrder.disjoint_ids {a s l r : Tree B} {i b c : Nat} {bd : B} (h : IsOrder a s l r)
    (hd : (Tree.node i b c bd l r).Distinct) : ∀ j, j ∈ s.ids → j ∉ a.ids := by
  intro j hs ha
  rcases h with ⟨rfl, rfl⟩ | ⟨rfl, rfl⟩
  · exact hd.disjoint j ha hs
  · exact hd.disjoint j hs ha

theorem IsOrder.id_not_mem {a s l r : Tree B} {i b c : Nat} {bd : B} (h : IsOrder a s l r)
    (hd : (Tree.node i b c bd l r).Distinct) : i ∉ a.ids := by
  rcases h with ⟨rfl, rfl⟩ | ⟨rfl, rfl⟩
  · exact hd.not_mem_left
  · exact hd.not_mem_right

theorem budget_split_q (env : Env B K) (hsqrt : env.sqrt 1 = 1) (total : Nat → ℚ) (W : ℚ)
    (qid qb qc : Nat) (qbd : B) (ql qr r : Tree B) (p : ℚ) (st : State K) (a s : Tree B)
    (res1 res2 : State K × Bool) (ho : IsOrder a s ql qr)
    (ih1 : BudgetMotive env total W a r p
      (st.step (.pushDown qid) (pushDown qid ql.id qr.id)) res1)
    (ih2 : BudgetMotive env total W s r p res1.1 res2) :
    BudgetMotive env total W (.node qid qb qc qbd ql qr) r p st
      (res2.1.step (.refine qid) (refine qid ql.id qr.id), res1.2 && res2.2) := by
  intro hp hd hc hp1 htau hW hpre
  have hca : SoundCtx env a r st.mem.view := by
    rcases ho with ⟨rfl, rfl⟩ | ⟨rfl, rfl⟩
    · exact hc.children_q.1
    · exact hc.children_q.2
  have hcs : SoundCtx env s r st.mem.view := by
    rcases ho with ⟨rfl, rfl⟩ | ⟨rfl, rfl⟩
    · exact hc.children_q.2
    · exact hc.children_q.1
  obtain ⟨hf0, hel, her, _⟩ := pushDown_effect st.mem hd hp
  obtain ⟨s1, _, _, _⟩ := pushDown_stat st.mem hd
  have hea : ∀ x, a.Contains x →
      effective (pushDown qid ql.id qr.id st.mem) a x =
        effective st.mem (Tree.node qid qb qc qbd ql qr) x := by
    rcases ho with ⟨rfl, rfl⟩ | ⟨rfl, rfl⟩
    · exact hel
    · exact her
  have hes : ∀ x, s.Contains x →
      effective (pushDown qid ql.id qr.id st.mem) s x =
        effective st.mem (Tree.node qid qb qc qbd ql qr) x := by
    rcases ho with ⟨rfl, rfl⟩ | ⟨rfl, rfl⟩
    · exact her
    · exact hel
  have hv0 : (pushDown qid ql.id qr.id st.mem).view = st.mem.view := hf0.view
  have hin : ∀ x, a.Contains x ∨ s.Contains x → (Tree.node qid qb qc qbd ql qr).Contains x :=
    fun x hx => ((ho.contains hp x).1).2 hx
  have hpre1 : BudgetPre env total W (pushDown qid ql.id qr.id st.mem) a r := by
    refine ⟨statOK_pushDown st.mem hd hp ho hpre.stat, ?_, ?_, ?_⟩
    · intro x hx; rw [hea x hx]; exact hpre.err x (hin x (Or.inl hx))
    · intro x hx; rw [hea x hx]; exact hpre.low x (hin x (Or.inl hx))
    · intro x hx; rw [hea x hx, hv0]; exact hpre.pruned x (hin x (Or.inl hx))
  obtain ⟨he1, hs1, hb1⟩ := ih1 (ho.partitioned hp) (ho.distinct hd) (hv0 ▸ hca) hp1 htau
    (hv0 ▸ hW) hpre1
  have hfa : Frame a (pushDown qid ql.id qr.id st.mem) res1.1.mem := he1.1.1
  have hv1 : res1.1.mem.view = st.mem.view := hfa.view.trans hv0
  have hsame1 : ∀ x, s.Contains x →
      effective res1.1.mem s x = effective (pushDown qid ql.id qr.id st.mem) s x := by
    intro x hx
    exact effective_congr _ _ s x (fun j hj => hfa.stat j (ho.disjoint_ids hd j hj))
      (hfa.point x (fun h => (ho.contains hp x).2 ⟨h, hx⟩))
  have hpre2 : BudgetPre env total W res1.1.mem s r := by
    refine ⟨?_, ?_, ?_, ?_⟩
    · exact StatOK_of_frame (ho.swap.partitioned hp) hfa (ho.disjoint_ids hd)
        (fun x hx h => (ho.contains hp x).2 ⟨h, hx⟩)
        (statOK_pushDown st.mem hd hp ho.swap hpre.stat)
    · intro x hx; rw [hsame1 x hx, hes x hx]; exact hpre.err x (hin x (Or.inr hx))
    · intro x hx; rw [hsame1 x hx, hes x hx]; exact hpre.low x (hin x (Or.inr hx))
    · intro x hx; rw [hsame1 x hx, hes x hx, hv1]; exact hpre.pruned x (hin x (Or.inr hx))
  obtain ⟨he2, hs2, hb2⟩ := ih2 (ho.swap.partitioned hp) (ho.swap.distinct hd) (hv1 ▸ hcs) hp1
    htau (hv1 ▸ hW) hpre2
  have hfs : Frame s res1.1.mem res2.1.mem := he2.1.1
  have hsame2 : ∀ x, a.Contains x → effective res2.1.mem a x = effective res1.1.mem a x := by
    intro x hx
    exact effective_congr _ _ a x (fun j hj => hfs.stat j (ho.swap.disjoint_ids hd j hj))
      (hfs.point x (fun h => (ho.contains hp x).2 ⟨hx, h⟩))
  have hsa : StatOK res2.1.mem a :=
    StatOK_of_frame (ho.partitioned hp) hfs (ho.swap.disjoint_ids hd)
      (fun x hx h => (ho.contains hp x).2 ⟨hx, h⟩) hs1
  have h0 : (res2.1.mem.stat qid).postponed = 0 := by
    rw [hfs.stat qid (ho.swap.id_not_mem hd), hfa.stat qid (ho.id_not_mem hd), s1]
    rfl
  obtain ⟨_, he3⟩ := refine_effect res2.1.mem (Tree.node qid qb qc qbd ql qr) qid ql.id qr.id
    (by simp [Tree.ids])
  refine ⟨effect_split_q (soundLaws env hsqrt) qid qb qc qbd ql qr r p st a s res1 res2 ho
    (fun _ _ _ _ => he1) (fun _ _ _ _ => he2) hp hd hc hp1, ?_, ?_⟩
  · change StatOK (refine qid ql.id qr.id res2.1.mem) (Tree.node qid qb qc qbd ql qr)
    rcases ho with ⟨rfl, rfl⟩ | ⟨rfl, rfl⟩
    · exact statOK_refine res2.1.mem hd hp h0 hsa hs2
    · exact statOK_refine res2.1.mem hd hp h0 hs2 hsa
  · intro x hx
    change (effective (refine qid ql.id qr.id res2.1.mem) (Tree.node qid qb qc qbd ql qr)
      x).used_error ≤ _
    rw [he3]
    rcases ((ho.contains hp x).1).1 hx with hxa | hxs
    · rw [effective_node_child res2.1.mem hp ho hxa, h0, Deltas.zero_add, hsame2 x hxa]
      exact hb1 x hxa
    · rw [effective_node_child res2.1.mem hp ho.swap hxs, h0, Deltas.zero_add]
      exact hb2 x hxs

/-- The error budget along `DualtreeVKdeCanonical_`. -/
theorem canonical_budget (env : Env B K) (hsqrt : env.sqrt 1 = 1) (total : Nat → ℚ) (W : ℚ)
    (q r : Tree B) (p : ℚ) (st : State K) :
    BudgetMotive env total W q r p st (DualtreeVKdeCanonical_ env q r p st) :=
  canonical_induct env (BudgetMotive env total W) (budget_some env hsqrt total W)
    (budget_none env hsqrt total W) (budget_base env hsqrt total W)
    (budget_split_r env hsqrt total W) (budget_split_q env hsqrt total W) q r p st

end BudgetSplitQ

section BudgetTheorem

variable {B K : Type}

theorem pending_zero (m : Mem K) (t : Tree B) (x : Nat)
    (h : ∀ i ∈ t.ids, (m.stat i).postponed = 0) : pending m t x = 0 := by
  induction t with
  | leaf i b c bd =>
    simp only [pending]
    split_ifs
    · exact h i (by simp [Tree.ids])
    · rfl
  | node i b c bd l r ihl ihr =>
    simp only [pending]
    split_ifs
    · rw [h i (by simp [Tree.ids]), ihl (fun j hj => h j (Tree.mem_ids_left hj)),
        ihr (fun j hj => h j (Tree.mem_ids_right hj)), Deltas.add_zero, Deltas.add_zero]
    · rfl

theorem statOK_init (m : Mem K) (t : Tree B) (hp : t.Partitioned)
    (hs : ∀ i ∈ t.ids,
      (m.stat i).mass_l = 0 ∧ (m.stat i).used_error = 0 ∧ (m.stat i).n_pruned = 0 ∧
        (m.stat i).postponed = 0)
    (hx : ∀ x, t.Contains x →
      m.densities_l x = 0 ∧ m.densities_e x = 0 ∧ m.used_error x = 0 ∧ m.n_pruned x = 0) :
    StatOK m t := by
  have hnode : ∀ n : Tree B, (∀ i ∈ n.ids, (m.stat i).mass_l = 0 ∧ (m.stat i).used_error = 0 ∧
      (m.stat i).n_pruned = 0 ∧ (m.stat i).postponed = 0) →
      (∀ x, n.Contains x → m.densities_l x = 0 ∧ m.densities_e x = 0 ∧ m.used_error x = 0 ∧
        m.n_pruned x = 0) → NodeOK m n := by
    intro n hs hx x hc
    obtain ⟨a1, a2, a3, a4⟩ := hs n.id n.id_mem_ids
    obtain ⟨b1, _, b3, b4⟩ := hx x hc
    have e : effective m n x = m.point x := by
      unfold effective
      rw [pending_zero m n x (fun i hi => (hs i hi).2.2.2), Deltas.add_zero]
    have a4l := congrArg Deltas.dl a4
    have a4e := congrArg Deltas.used_error a4
    have a4n := congrArg Deltas.n_pruned a4
    simp only [VKdeStat.postponed, Deltas.zero_dl, Deltas.zero_used_error,
      Deltas.zero_n_pruned] at a4l a4e a4n
    rw [e, a1, a2, a3, a4l, a4e, a4n]
    simp [Mem.point, b1, b3, b4]
  induction t with
  | leaf i b c bd => exact hnode _ hs hx
  | node i b c bd l r ihl ihr =>
    have hc := fun x => (Tree.contains_node i b c bd l r hp x).1
    exact ⟨hnode _ hs hx,
      ihl hp.left (fun j hj => hs j (Tree.mem_ids_left hj))
        (fun x hxl => hx x ((hc x).2 (Or.inl hxl))),
      ihr hp.right (fun j hj => hs j (Tree.mem_ids_right hj))
        (fun x hxr => hx x ((hc x).2 (Or.inr hxr)))⟩

/-- The deterministic error budget, before the normalisation: after the
traversal of the root pair at confidence 1 the effective estimate of every
query point differs from its exact sum by at most its effective used error,
which is at most `max(tau_ * S, threshold_)`. -/
theorem error_budget_core (env : Env B K) (qroot rroot : Tree B) (st : State K)
    (hsqrt : env.sqrt 1 = 1) (hqp : qroot.Partitioned) (hqd : qroot.Distinct)
    (hrp : rroot.Partitioned) (hroot : env.rroot = rroot.id) (htau : 0 ≤ env.tau)
    (hw : ∀ i, 0 ≤ env.rset_weights i) (hk : KernelContract env)
    (hb : BoundsEnclose env qroot rroot) (hpre : RefPreprocessed env st.mem.view rroot)
    (hinit : QueryInit st.mem qroot) :
    ∀ x, qroot.Contains x →
      (effective (DualtreeVKdeCanonical_ env qroot rroot 1 st).1.mem qroot x).de -
          kernelSum env x rroot ≤
        (effective (DualtreeVKdeCanonical_ env qroot rroot 1 st).1.mem qroot x).used_error ∧
      kernelSum env x rroot -
          (effective (DualtreeVKdeCanonical_ env qroot rroot 1 st).1.mem qroot x).de ≤
        (effective (DualtreeVKdeCanonical_ env qroot rroot 1 st).1.mem qroot x).used_error ∧
      (effective (DualtreeVKdeCanonical_ env qroot rroot 1 st).1.mem qroot x).used_error ≤
        max (env.tau * kernelSum env x rroot) env.threshold := by
  have hc : SoundCtx env qroot rroot st.mem.view :=
    soundCtx_of_contract env qroot rroot _ hrp hw hk hb hpre
  have h0 : ∀ x, qroot.Contains x →
      (effective st.mem qroot x).dl = 0 ∧ (effective st.mem qroot x).de = 0 ∧
        (effective st.mem qroot x).used_error = 0 ∧ (effective st.mem qroot x).n_pruned = 0 := by
    intro x hx
    obtain ⟨b1, b2, b3, b4⟩ := hinit.point x hx
    unfold effective
    rw [pending_zero st.mem qroot x (fun i hi => (hinit.stat i hi).2.2.2), Deltas.add_zero]
    exact ⟨b1, b2, b3, b4⟩
  have hpreB : BudgetPre env (fun x => kernelSum env x rroot)
      (st.mem.view env.rroot).weight_sum st.mem qroot rroot := by
    refine ⟨statOK_init st.mem qroot hqp hinit.stat hinit.point, ?_, ?_, ?_⟩
    · intro x hx
      obtain ⟨_, s1, _, _, _⟩ := hc.local.sum_bounds hx
      rw [(h0 x hx).2.2.1]
      exact le_max_of_le_left (mul_nonneg htau s1)
    · intro x hx
      rw [(h0 x hx).1]
      simp
    · intro x hx
      rw [(h0 x hx).2.2.2, hroot]
      simp
  obtain ⟨⟨⟨_, hg⟩, _⟩, _, hbud⟩ := canonical_budget env hsqrt (fun x => kernelSum env x rroot)
    (st.mem.view env.rroot).weight_sum qroot rroot 1 st hqp hqd hc rfl htau rfl hpreB
  intro x hx
  have g : SoundGood env st.mem.view rroot x _ := hg x hx
  have g1 := g.de_le
  have g2 := g.de_ge
  simp only [Deltas.sub_de, Deltas.sub_used_error, (h0 x hx).2.1, (h0 x hx).2.2.1,
    sub_zero] at g1 g2
  exact ⟨g1, g2, hbud x hx⟩

/-- C2. Deterministic error budget: with confidence 1, `tau_ >= 0`,
non-negative weights, the kernel contract, enclosing bounds and statistics
and accumulators as `PreProcess` leaves them, after the traversal from the
root pair and the flush of `PostProcess` the used error of every query point
is the flushed used error, its estimate is the flushed estimate times
`mult_const_`, the flushed (un-normalised) estimate differs from the exact
sum by at most the used error, and the used error is at most
`max(tau_ * S, threshold_)`. -/
theorem C2_deterministic_error_budget (env : Env B K) (qroot rroot : Tree B) (st : State K)
    (hsqrt : env.sqrt 1 = 1) (hqp : qroot.Partitioned) (hqd : qroot.Distinct)
    (hrp : rroot.Partitioned) (hroot : env.rroot = rroot.id) (htau : 0 ≤ env.tau)
    (hw : ∀ i, 0 ≤ env.rset_weights i) (hk : KernelContract env)
    (hb : BoundsEnclose env qroot rroot) (hpre : RefPreprocessed env st.mem.view rroot)
    (hinit : QueryInit st.mem qroot) :
    ∀ x, qroot.Contains x →
      (PostProcess env qroot (DualtreeVKdeCanonical_ env qroot rroot 1 st).1.mem).densities_e x =
          (effective (DualtreeVKdeCanonical_ env qroot rroot 1 st).1.mem qroot x).de *
            env.mult_const ∧
        |(effective (DualtreeVKdeCanonical_ env qroot rroot 1 st).1.mem qroot x).de -
            kernelSum env x rroot| ≤
          (PostProcess env qroot
            (DualtreeVKdeCanonical_ env qroot rroot 1 st).1.mem).used_error x ∧
        (PostProcess env qroot (DualtreeVKdeCanonical_ env qroot rroot 1 st).1.mem).used_error x ≤
          max (env.tau * kernelSum env x rroot) env.threshold := by
  intro x hx
  obtain ⟨h1, h2, h3⟩ := error_budget_core env qroot rroot st hsqrt hqp hqd hrp hroot htau hw hk
    hb hpre hinit x hx
  obtain ⟨_, hpt, _⟩ := postProcess_effect env qroot
    (DualtreeVKdeCanonical_ env qroot rroot 1 st).1.mem hqp hqd
  have e1 := congrArg Deltas.de (hpt x hx)
  have e2 : (PostProcess env qroot
      (DualtreeVKdeCanonical_ env qroot rroot 1 st).1.mem).used_error x =
      (effective (DualtreeVKdeCanonical_ env qroot rroot 1 st).1.mem qroot x).used_error :=
    congrArg Deltas.used_error (hpt x hx)
  refine ⟨e1, ?_, ?_⟩
  · rw [e2, abs_le]
    constructor <;> linarith
  · rw [e2]
    exact h3

/-- C2 at a concrete input: the run of the second instance with
`tau_ = 1` keeps the used error of the query point 0 within its budget. -/
theorem C2_deterministic_error_budget_witness :
    (PostProcess (Example.env2 1 0) Example.qroot2
      (DualtreeVKdeCanonical_ (Example.env2 1 0) Example.qroot2 Example.rroot2 1
        ⟨Example.mem2, []⟩).1.mem).used_error 0 ≤
      max ((Example.env2 1 0).tau * kernelSum (Example.env2 1 0) 0 Example.rroot2)
        (Example.env2 1 0).threshold :=
  (C2_deterministic_error_budget (Example.env2 1 0) Example.qroot2 Example.rroot2
    ⟨Example.mem2, []⟩ (by decide!) Example.qroot2_partitioned (by decide)
    Example.rroot2_partitioned rfl (by decide!) (fun _ => zero_le_one)
    (Example.epan_contract _ _) (by decide!) (by decide!)
    ⟨fun i hi => by
        rcases Example.qroot2_ids i hi with rfl | rfl | rfl <;> exact ⟨rfl, rfl, rfl, rfl⟩,
      fun x hx => by
        rcases Example.qroot2_contains x hx with rfl | rfl <;> exact ⟨rfl, rfl, rfl, rfl⟩⟩
    0 (by decide)).2.2

/-- C6, the claim as stated fails: with `tau_ = 0` and the floor
`threshold_ = 1` the root pair of the first instance is pruned at once and
the final estimate of the query point is 21/8, while `mult_const_` times the
exact sum is 11/4. -/
theorem C6_counterexample :
    (Example.env 1).tau = 0 ∧
      (PostProcess (Example.env 1) Example.qroot
        (DualtreeVKdeCanonical_ (Example.env 1) Example.qroot Example.rleaf 1
          ⟨Example.mem0, []⟩).1.mem).densities_e 0 = 21 / 8 ∧
      (Example.env 1).mult_const * kernelSum (Example.env 1) 0 Example.rleaf = 11 / 4 := by
  decide!

/-- C6, amended. Exactness at zero tolerance and zero floor: with
`tau_ = 0`, `threshold_ <= 0` and confidence 1 (and the assumptions of the
error budget), after the traversal from the root pair and `PostProcess` the
final estimate of every query point is the exact sum times `mult_const_`. -/
theorem C6_exact_at_zero_tolerance (env : Env B K) (qroot rroot : Tree B) (st : State K)
    (hsqrt : env.sqrt 1 = 1) (hqp : qroot.Partitioned) (hqd : qroot.Distinct)
    (hrp : rroot.Partitioned) (hroot : env.rroot = rroot.id) (htau : env.tau = 0)
    (hthr : env.threshold ≤ 0) (hw : ∀ i, 0 ≤ env.rset_weights i) (hk : KernelContract env)
    (hb : BoundsEnclose env qroot rroot) (hpre : RefPreprocessed env st.mem.view rroot)
    (hinit : QueryInit st.mem qroot) :
    ∀ x, qroot.Contains x →
      (PostProcess env qroot (DualtreeVKdeCanonical_ env qroot rroot 1 st).1.mem).densities_e x =
        env.mult_const * kernelSum env x rroot := by
  intro x hx
  obtain ⟨h1, h2, h3⟩ := error_budget_core env qroot rroot st hsqrt hqp hqd hrp hroot
    (le_of_eq htau.symm) hw hk hb hpre hinit x hx
  obtain ⟨_, hpt, _⟩ := postProcess_effect env qroot
    (DualtreeVKdeCanonical_ env qroot rroot 1 st).1.mem hqp hqd
  have e1 : (PostProcess env qroot
      (DualtreeVKdeCanonical_ env qroot rroot 1 st).1.mem).densities_e x =
      (effective (DualtreeVKdeCanonical_ env qroot rroot 1 st).1.mem qroot x).de *
        env.mult_const := congrArg Deltas.de (hpt x hx)
  rw [htau, zero_mul, max_eq_left hthr] at h3
  have e2 : (effective (DualtreeVKdeCanonical_ env qroot rroot 1 st).1.mem qroot x).de =
      kernelSum env x rroot := by linarith
  rw [e1, e2, mul_comm]

/-- C6, amended, at a concrete input: the run of the second instance with
`tau_ = 0` and `threshold_ = 0` ends with the exact sum 7/4 of the query
point 0, times `mult_const_ = 1/2`. -/
theorem C6_exact_at_zero_tolerance_witness :
    (PostProcess (Example.env2 0 0) Example.qroot2
      (DualtreeVKdeCanonical_ (Example.env2 0 0) Example.qroot2 Example.rroot2 1
        ⟨Example.mem2, []⟩).1.mem).densities_e 0 =
      (Example.env2 0 0).mult_const * kernelSum (Example.env2 0 0) 0 Example.rroot2 :=
  C6_exact_at_zero_tolerance (Example.env2 0 0) Example.qroot2 Example.rroot2
    ⟨Example.mem2, []⟩ (by decide!) Example.qroot2_partitioned (by decide)
    Example.rroot2_partitioned rfl rfl (le_refl _) (fun _ => zero_le_one)
    (Example.epan_contract _ _) (by decide!) (by decide!)
    ⟨fun i hi => by
        rcases Example.qroot2_ids i hi with rfl | rfl | rfl <;> exact ⟨rfl, rfl, rfl, rfl⟩,
      fun x hx => by
        rcases Example.qroot2_contains x hx with rfl | rfl <;> exact ⟨rfl, rfl, rfl, rfl⟩⟩
    0 (by decide)

end BudgetTheorem

section BaseCaseClaims

variable {B K : Type}

theorem Tree.mem_range_iff (t : Tree B) (x : Nat) :
    x ∈ List.range' t.begin t.count ↔ t.Contains x := by
  rw [List.mem_range'_1]
  rfl

/-- The statistic of the query node after the loop of the base case over the
query points `xs`, in terms of the accumulators the loop leaves. -/
theorem baseQuery_fold_stat (env : Env B K) (q r : Tree B) (xs : List Nat) (hn : xs.Nodup)
    (m : Mem K) :
    ((xs.foldl (baseQuery env q r) m).stat q.id).mass_l =
        xs.foldl (fun a y => min a ((xs.foldl (baseQuery env q r) m).densities_l y))
          (m.stat q.id).mass_l ∧
      ((xs.foldl (baseQuery env q r) m).stat q.id).mass_u =
        xs.foldl (fun a y => max a ((xs.foldl (baseQuery env q r) m).densities_u y))
          (m.stat q.id).mass_u ∧
      ((xs.foldl (baseQuery env q r) m).stat q.id).used_error =
        xs.foldl (fun a y => max a ((xs.foldl (baseQuery env q r) m).used_error y))
          (m.stat q.id).used_error ∧
      ((xs.foldl (baseQuery env q r) m).stat q.id).n_pruned =
        xs.foldl (fun a y => min a ((xs.foldl (baseQuery env q r) m).n_pruned y))
          (m.stat q.id).n_pruned := by
  induction xs generalizing m with
  | nil => exact ⟨rfl, rfl, rfl, rfl⟩
  | cons x xs ih =>
    rw [List.nodup_cons] at hn
    obtain ⟨i1, i2, i3, i4⟩ := ih hn.2 (baseQuery env q r m x)
    obtain ⟨_, _, _, h4, _⟩ := baseQuery_fold env q r xs hn.2 (baseQuery env q r m x)
    have hx := h4 x hn.1
    have hxl : (xs.foldl (baseQuery env q r) (baseQuery env q r m x)).densities_l x =
        (baseQuery env q r m x).densities_l x := congrArg Deltas.dl hx
    have hxu : (xs.foldl (baseQuery env q r) (baseQuery env q r m x)).densities_u x =
        (baseQuery env q r m x).densities_u x := congrArg Deltas.du hx
    have hxe : (xs.foldl (baseQuery env q r) (baseQuery env q r m x)).used_error x =
        (baseQuery env q r m x).used_error x := congrArg Deltas.used_error hx
    have hxn : (xs.foldl (baseQuery env q r) (baseQuery env q r m x)).n_pruned x =
        (baseQuery env q r m x).n_pruned x := congrArg Deltas.n_pruned hx
    have hs := baseQuery_stat_self env q r m x
    simp only [List.foldl_cons]
    refine ⟨?_, ?_, ?_, ?_⟩
    · rw [i1, hxl, hs]
    · rw [i2, hxu, hs]
    · rw [i3, hxe, hs]
    · rw [i4, hxn, hs]

/-- C11. Base case per-point effect: `DualtreeVKdeBase_(qnode, rnode)` adds,
for every query index `q` of `qnode`, `postponed_l_ + S` to `densities_l_[q]`
and `postponed_e_ + S` to `densities_e_[q]`, where `S` is the sum over the
reference points of `rnode` of the weighted kernel values,
`postponed_u_ + S - rnode.weight_sum` to `densities_u_[q]`,
`postponed_used_error_` to `used_error_[q]` and
`postponed_n_pruned_ + rnode.weight_sum` to `n_pruned_[q]`; the accumulators
of the indices outside the range of `qnode` are unchanged, and the postponed
fields of `qnode` are zero afterwards. -/
theorem C11_base_case_point_effect (env : Env B K) (qnode rnode : Tree B) (probability : ℚ)
    (m : Mem K) :
    (∀ q, qnode.Contains q →
      (DualtreeVKdeBase_ env qnode rnode probability m).densities_l q =
          m.densities_l q + ((m.stat qnode.id).postponed_l + kernelSum env q rnode) ∧
        (DualtreeVKdeBase_ env qnode rnode probability m).densities_e q =
          m.densities_e q + ((m.stat qnode.id).postponed_e + kernelSum env q rnode) ∧
        (DualtreeVKdeBase_ env qnode rnode probability m).densities_u q =
          m.densities_u q + ((m.stat qnode.id).postponed_u + kernelSum env q rnode -
            (m.stat rnode.id).weight_sum) ∧
        (DualtreeVKdeBase_ env qnode rnode probability m).used_error q =
          m.used_error q + (m.stat qnode.id).postponed_used_error ∧
        (DualtreeVKdeBase_ env qnode rnode probability m).n_pruned q =
          m.n_pruned q + ((m.stat qnode.id).postponed_n_pruned +
            (m.stat rnode.id).weight_sum)) ∧
      (∀ q, ¬ qnode.Contains q →
        (DualtreeVKdeBase_ env qnode rnode probability m).densities_l q = m.densities_l q ∧
          (DualtreeVKdeBase_ env qnode rnode probability m).densities_e q = m.densities_e q ∧
          (DualtreeVKdeBase_ env qnode rnode probability m).densities_u q = m.densities_u q ∧
          (DualtreeVKdeBase_ env qnode rnode probability m).used_error q = m.used_error q ∧
          (DualtreeVKdeBase_ env qnode rnode probability m).n_pruned q = m.n_pruned q) ∧
      ((DualtreeVKdeBase_ env qnode rnode probability m).stat qnode.id).postponed_l = 0 ∧
      ((DualtreeVKdeBase_ env qnode rnode probability m).stat qnode.id).postponed_e = 0 ∧
      ((DualtreeVKdeBase_ env qnode rnode probability m).stat qnode.id).postponed_u = 0 ∧
      ((DualtreeVKdeBase_ env qnode rnode probability m).stat qnode.id).postponed_used_error = 0 ∧
      ((DualtreeVKdeBase_ env qnode rnode probability m).stat qnode.id).postponed_n_pruned = 0 := by
  set m1 := m.setStat qnode.id ((m.stat qnode.id).ResetBoundStatistics env.rset_weight_sum)
    with hm1
  obtain ⟨_, _, _, h4, h5, _⟩ := baseQuery_fold env qnode rnode
    (List.range' qnode.begin qnode.count) (List.nodup_range' _ _) m1
  set m2 := (List.range' qnode.begin qnode.count).foldl (baseQuery env qnode rnode) m1 with hm2
  have hres : DualtreeVKdeBase_ env qnode rnode probability m =
      m2.setStat qnode.id (m2.stat qnode.id).ClearPostponed := rfl
  rw [hres]
  have hview1 : m1.view = m.view :=
    Mem.setStat_view m qnode.id ((m.stat qnode.id).ResetBoundStatistics env.rset_weight_sum) rfl
  have hpost1 : (m1.stat qnode.id).postponed = (m.stat qnode.id).postponed := by
    rw [hm1, Mem.setStat_stat_self]; rfl
  have hpoint1 : m1.point = m.point := rfl
  refine ⟨?_, ?_, ?_⟩
  · intro x hx
    have e := h5 x ((qnode.mem_range_iff x).2 hx)
    rw [hpost1, hview1, hpoint1] at e
    have el := congrArg Deltas.dl e
    have ee := congrArg Deltas.de e
    have eu := congrArg Deltas.du e
    have er := congrArg Deltas.used_error e
    have en := congrArg Deltas.n_pruned e
    simp only [Deltas.add_dl, Deltas.add_de, Deltas.add_du, Deltas.add_used_error,
      Deltas.add_n_pruned, Mem.point, VKdeStat.postponed, baseDeltas, Mem.view,
      VKdeStat.view] at el ee eu er en
    refine ⟨?_, ?_, ?_, ?_, ?_⟩
    · change m2.densities_l x = _
      rw [el]; ring
    · change m2.densities_e x = _
      rw [ee]; ring
    · change m2.densities_u x = _
      rw [eu]; ring
    · change m2.used_error x = _
      rw [er]; ring
    · change m2.n_pruned x = _
      rw [en]; ring
  · intro x hx
    have e := h4 x (fun h => hx ((qnode.mem_range_iff x).1 h))
    rw [hpoint1] at e
    exact ⟨congrArg Deltas.dl e, congrArg Deltas.de e, congrArg Deltas.du e,
      congrArg Deltas.used_error e, congrArg Deltas.n_pruned e⟩
  · rw [Mem.setStat_stat_self]
    exact ⟨rfl, rfl, rfl, rfl, rfl⟩

/-- C12, the claim as stated fails: on the first instance the query leaf
holds the single point 0, whose lower bound after the base case is 11/4 and
whose pruned weight is 3, while the refreshed statistic has `mass_l_ = 0`
and `n_pruned_ = 0`. -/
theorem C12_counterexample :
    List.range' Example.qroot.begin Example.qroot.count = [0] ∧
      (DualtreeVKdeBase_ (Example.env 1) Example.qroot Example.rleaf 1
        Example.mem0).densities_l 0 = 11 / 4 ∧
      ((DualtreeVKdeBase_ (Example.env 1) Example.qroot Example.rleaf 1
        Example.mem0).stat Example.qroot.id).mass_l = 0 ∧
      (DualtreeVKdeBase_ (Example.env 1) Example.qroot Example.rleaf 1
        Example.mem0).n_pruned 0 = 3 ∧
      ((DualtreeVKdeBase_ (Example.env 1) Example.qroot Example.rleaf 1
        Example.mem0).stat Example.qroot.id).n_pruned = 0 := by
  decide!

/-- C12, amended. The base case refreshes the node statistic from the reset
values and its points: after `DualtreeVKdeBase_(qnode, rnode)`, `mass_l_` of
`qnode` is the minimum of 0 and the `densities_l_[q]`, `mass_u_` the maximum
of the total reference weight and the `densities_u_[q]`, `used_error_` the
maximum of 0 and the `used_error_[q]` and `n_pruned_` the minimum of 0 and
the `n_pruned_[q]`, each taken over the query points `q` of `qnode`. -/
theorem C12_base_case_refreshes_statistic (env : Env B K) (qnode rnode : Tree B)
    (probability : ℚ) (m : Mem K) :
    ((DualtreeVKdeBase_ env qnode rnode probability m).stat qnode.id).mass_l =
        (List.range' qnode.begin qnode.count).foldl
          (fun a q => min a ((DualtreeVKdeBase_ env qnode rnode probability m).densities_l q))
          0 ∧
      ((DualtreeVKdeBase_ env qnode rnode probability m).stat qnode.id).mass_u =
        (List.range' qnode.begin qnode.count).foldl
          (fun a q => max a ((DualtreeVKdeBase_ env qnode rnode probability m).densities_u q))
          env.rset_weight_sum ∧
      ((DualtreeVKdeBase_ env qnode rnode probability m).stat qnode.id).used_error =
        (List.range' qnode.begin qnode.count).foldl
          (fun a q => max a ((DualtreeVKdeBase_ env qnode rnode probability m).used_error q))
          0 ∧
      ((DualtreeVKdeBase_ env qnode rnode probability m).stat qnode.id).n_pruned =
        (List.range' qnode.begin qnode.count).foldl
          (fun a q => min a ((DualtreeVKdeBase_ env qnode rnode probability m).n_pruned q))
          0 := by
  set m1 := m.setStat qnode.id ((m.stat qnode.id).ResetBoundStatistics env.rset_weight_sum)
    with hm1
  obtain ⟨s1, s2, s3, s4⟩ := baseQuery_fold_stat env qnode rnode
    (List.range' qnode.begin qnode.count) (List.nodup_range' _ _) m1
  set m2 := (List.range' qnode.begin qnode.count).foldl (baseQuery env qnode rnode) m1 with hm2
  have hres : DualtreeVKdeBase_ env qnode rnode probability m =
      m2.setStat qnode.id (m2.stat qnode.id).ClearPostponed := rfl
  have hreset : m1.stat qnode.id =
      (m.stat qnode.id).ResetBoundStatistics env.rset_weight_sum := by
    rw [hm1, Mem.setStat_stat_self]
  rw [hreset] at s1 s2 s3 s4
  rw [hres, Mem.setStat_stat_self]
  exact ⟨s1, s2, s3, s4⟩

end BaseCaseClaims

section PostProcessClaim

variable {B K : Type}

/-- In a tree whose children split the ranges, what is pending on a point of
the tree is what is postponed along its path. -/
theorem pending_eq_pathPostponed (m : Mem K) (t : Tree B) (hp : t.Partitioned) (x : Nat)
    (hx : t.Contains x) : pending m t x = pathPostponed m t x := by
  induction t with
  | leaf i b c bd =>
    have hb : b ≤ x ∧ x < b + c := hx
    simp only [pending, pathPostponed, hb, and_self, if_true]
  | node i b c bd l r ihl ihr =>
    have hc := Tree.contains_node i b c bd l r hp x
    by_cases hl : l.Contains x
    · rw [pending_node_left m hp hl, ihl hp.left hl]
      simp only [pathPostponed, hl, if_true]
    · have hr : r.Contains x := (hc.1.1 hx).resolve_left hl
      rw [pending_node_right m hp hr, ihr hp.right hr]
      simp only [pathPostponed, hl, if_false]

/-- C13. `PostProcess` flushes, normalises and clears: for every query tree
whose children split the index ranges and whose nodes are distinct, after
`PostProcess(root)` every query point `q` of the tree has `densities_x_[q]`
equal to `mult_const_` times the old `densities_x_[q]` plus the old
`postponed_x_` of the nodes on the path from the root to the leaf of `q`,
for x in l, e, u; `used_error_[q]` and `n_pruned_[q]` have grown by the
postponed sums along that path, not normalised; and every node of the tree
has its five postponed fields equal to zero. -/
theorem C13_post_process_flush (env : Env B K) (root : Tree B) (m : Mem K)
    (hp : root.Partitioned) (hd : root.Distinct) :
    (∀ q, root.Contains q →
      (PostProcess env root m).densities_l q =
          env.mult_const * (m.densities_l q + (pathPostponed m root q).dl) ∧
        (PostProcess env root m).densities_e q =
          env.mult_const * (m.densities_e q + (pathPostponed m root q).de) ∧
        (PostProcess env root m).densities_u q =
          env.mult_const * (m.densities_u q + (pathPostponed m root q).du) ∧
        (PostProcess env root m).used_error q =
          m.used_error q + (pathPostponed m root q).used_error ∧
        (PostProcess env root m).n_pruned q =
          m.n_pruned q + (pathPostponed m root q).n_pruned) ∧
      ∀ i ∈ root.ids,
        ((PostProcess env root m).stat i).postponed_l = 0 ∧
          ((PostProcess env root m).stat i).postponed_e = 0 ∧
          ((PostProcess env root m).stat i).postponed_u = 0 ∧
          ((PostProcess env root m).stat i).postponed_used_error = 0 ∧
          ((PostProcess env root m).stat i).postponed_n_pruned = 0 := by
  obtain ⟨_, hpt, hz⟩ := postProcess_effect env root m hp hd
  refine ⟨fun q hq => ?_, fun i hi => ?_⟩
  · have e := hpt q hq
    unfold effective at e
    rw [pending_eq_pathPostponed m root hp q hq] at e
    have el := congrArg Deltas.dl e
    have ee := congrArg Deltas.de e
    have eu := congrArg Deltas.du e
    have er := congrArg Deltas.used_error e
    have en := congrArg Deltas.n_pruned e
    simp only [normalize, Deltas.add_dl, Deltas.add_de, Deltas.add_du, Deltas.add_used_error,
      Deltas.add_n_pruned, Mem.point] at el ee eu er en
    refine ⟨?_, ?_, ?_, er, en⟩
    · rw [el]; ring
    · rw [ee]; ring
    · rw [eu]; ring
  · have e := hz i hi
    exact ⟨congrArg Deltas.dl e, congrArg Deltas.de e, congrArg Deltas.du e,
      congrArg Deltas.used_error e, congrArg Deltas.n_pruned e⟩

/-- C13 at a concrete input: after the traversal of the second instance
with `tau_ = 1`, `PostProcess` leaves the query point 1 with its old lower
bound plus what was postponed along its path, times `mult_const_`. -/
theorem C13_post_process_flush_witness :
    (PostProcess (Example.env2 1 0) Example.qroot2
      (DualtreeVKdeCanonical_ (Example.env2 1 0) Example.qroot2 Example.rroot2 1
        ⟨Example.mem2, []⟩).1.mem).densities_l 1 =
      (Example.env2 1 0).mult_const *
        ((DualtreeVKdeCanonical_ (Example.env2 1 0) Example.qroot2 Example.rroot2 1
          ⟨Example.mem2, []⟩).1.mem.densities_l 1 +
          (pathPostponed (DualtreeVKdeCanonical_ (Example.env2 1 0) Example.qroot2
            Example.rroot2 1 ⟨Example.mem2, []⟩).1.mem Example.qroot2 1).dl) :=
  ((C13_post_process_flush (Example.env2 1 0) Example.qroot2
    (DualtreeVKdeCanonical_ (Example.env2 1 0) Example.qroot2 Example.rroot2 1
      ⟨Example.mem2, []⟩).1.mem Example.qroot2_partitioned (by decide)).1 1 (by decide)).1

end PostProcessClaim

section Expansion

variable {B K : Type}

theorem BestNodePartners_partners (env : Env B K) (nd nd1 nd2 : Tree B) (p : ℚ) :
    (env.MinDistanceSq nd.bound nd1.bound ≤ env.MinDistanceSq nd.bound nd2.bound →
        (BestNodePartners env nd nd1 nd2 p).partner1 = nd1 ∧
          (BestNodePartners env nd nd1 nd2 p).partner2 = nd2) ∧
      (¬ env.MinDistanceSq nd.bound nd1.bound ≤ env.MinDistanceSq nd.bound nd2.bound →
        (BestNodePartners env nd nd1 nd2 p).partner1 = nd2 ∧
          (BestNodePartners env nd nd1 nd2 p).partner2 = nd1) := by
  unfold BestNodePartners
  dsimp only
  constructor
  · intro h
    rw [if_pos h]
    exact ⟨rfl, rfl⟩
  · intro h
    rw [if_neg h]
    exact ⟨rfl, rfl⟩

/-- The choice of `DualtreeVKdeCanonical_` between the two orders of the
children is the choice `BestNodePartners` makes. -/
theorem visitPartners_partners (env : Env B K) (q rl rr : Tree B) (p : ℚ) (st : State K) :
    (if env.MinDistanceSq q.bound rl.bound ≤ env.MinDistanceSq q.bound rr.bound then
        visitPartners (DualtreeVKdeCanonical_ env q rl) (DualtreeVKdeCanonical_ env q rr)
          (BestNodePartners env q rl rr p).probability1
          (BestNodePartners env q rl rr p).probability2 st
      else
        visitPartners (DualtreeVKdeCanonical_ env q rr) (DualtreeVKdeCanonical_ env q rl)
          (BestNodePartners env q rl rr p).probability1
          (BestNodePartners env q rl rr p).probability2 st) =
      visitPartners (DualtreeVKdeCanonical_ env q (BestNodePartners env q rl rr p).partner1)
        (DualtreeVKdeCanonical_ env q (BestNodePartners env q rl rr p).partner2)
        (BestNodePartners env q rl rr p).probability1
        (BestNodePartners env q rl rr p).probability2 st := by
  by_cases h : env.MinDistanceSq q.bound rl.bound ≤ env.MinDistanceSq q.bound rr.bound
  · rw [if_pos h, ((BestNodePartners_partners env q rl rr p).1 h).1,
      ((BestNodePartners_partners env q rl rr p).1 h).2]
  · rw [if_neg h, ((BestNodePartners_partners env q rl rr p).2 h).1,
      ((BestNodePartners_partners env q rl rr p).2 h).2]

theorem canonicalLeaf_eq (env : Env B K) (qid qb qc : Nat) (qbd : B) (r : Tree B) :
    canonicalLeaf env (.leaf qid qb qc qbd) r =
      DualtreeVKdeCanonical_ env (.leaf qid qb qc qbd) r := by
  funext p st
  simp only [DualtreeVKdeCanonical_]

/-- The expansion of the reference node under a leaf query node. -/
theorem canonical_leaf_node (env : Env B K) (qid qb qc : Nat) (qbd : B) (rid rb rc : Nat)
    (rbd : B) (rl rr : Tree B) (p : ℚ) (st : State K)
    (h : (pruneAttempt env (.leaf qid qb qc qbd) (.node rid rb rc rbd rl rr) p
      (st.step (.call qid rid p) id)).1 = none) :
    DualtreeVKdeCanonical_ env (.leaf qid qb qc qbd) (.node rid rb rc rbd rl rr) p st =
      visitPartners
        (DualtreeVKdeCanonical_ env (.leaf qid qb qc qbd)
          (BestNodePartners env (.leaf qid qb qc qbd) rl rr p).partner1)
        (DualtreeVKdeCanonical_ env (.leaf qid qb qc qbd)
          (BestNodePartners env (.leaf qid qb qc qbd) rl rr p).partner2)
        (BestNodePartners env (.leaf qid qb qc qbd) rl rr p).probability1
        (BestNodePartners env (.leaf qid qb qc qbd) rl rr p).probability2
        (pruneAttempt env (.leaf qid qb qc qbd) (.node rid rb rc rbd rl rr) p
          (st.step (.call qid rid p) id)).2 := by
  rw [← visitPartners_partners]
  simp only [← canonicalLeaf_eq]
  simp only [canonicalLeaf, Tree.id, h]

/-- The expansion of the query node over a leaf reference node. -/
theorem canonical_node_leaf (env : Env B K) (qid qb qc : Nat) (qbd : B) (ql qr : Tree B)
    (rid rb rc : Nat) (rbd : B) (p : ℚ) (st : State K)
    (h : (pruneAttempt env (.node qid qb qc qbd ql qr) (.leaf rid rb rc rbd) p
      (st.step (.call qid rid p) id)).1 = none) :
    DualtreeVKdeCanonical_ env (.node qid qb qc qbd ql qr) (.leaf rid rb rc rbd) p st =
      ((visitChildren
          (DualtreeVKdeCanonical_ env
            (BestNodePartners env (.leaf rid rb rc rbd) ql qr p).partner1 (.leaf rid rb rc rbd))
          (DualtreeVKdeCanonical_ env
            (BestNodePartners env (.leaf rid rb rc rbd) ql qr p).partner2 (.leaf rid rb rc rbd))
          p
          ((pruneAttempt env (.node qid qb qc qbd ql qr) (.leaf rid rb rc rbd) p
            (st.step (.call qid rid p) id)).2.step (.pushDown qid)
              (pushDown qid ql.id qr.id))).1.step (.refine qid) (refine qid ql.id qr.id),
        (visitChildren
          (DualtreeVKdeCanonical_ env
            (BestNodePartners env (.leaf rid rb rc rbd) ql qr p).partner1 (.leaf rid rb rc rbd))
          (DualtreeVKdeCanonical_ env
            (BestNodePartners env (.leaf rid rb rc rbd) ql qr p).partner2 (.leaf rid rb rc rbd))
          p
          ((pruneAttempt env (.node qid qb qc qbd ql qr) (.leaf rid rb rc rbd) p
            (st.step (.call qid rid p) id)).2.step (.pushDown qid)
              (pushDown qid ql.id qr.id))).2) := by
  by_cases hd : env.MinDistanceSq (Tree.leaf rid rb rc rbd).bound ql.bound ≤
      env.MinDistanceSq (Tree.leaf rid rb rc rbd).bound qr.bound
  · rw [((BestNodePartners_partners env (.leaf rid rb rc rbd) ql qr p).1 hd).1,
      ((BestNodePartners_partners env (.leaf rid rb rc rbd) ql qr p).1 hd).2]
    simp only [DualtreeVKdeCanonical_, Tree.id, h, if_pos hd]
  · rw [((BestNodePartners_partners env (.leaf rid rb rc rbd) ql qr p).2 hd).1,
      ((BestNodePartners_partners env (.leaf rid rb rc rbd) ql qr p).2 hd).2]
    simp only [DualtreeVKdeCanonical_, Tree.id, h, if_neg hd]

/-- The expansion of both nodes. -/
theorem canonical_node_node (env : Env B K) (qid qb qc : Nat) (qbd : B) (ql qr : Tree B)
    (rid rb rc : Nat) (rbd : B) (rl rr : Tree B) (p : ℚ) (st : State K)
    (h : (pruneAttempt env (.node qid qb qc qbd ql qr) (.node rid rb rc rbd rl rr) p
      (st.step (.call qid rid p) id)).1 = none) :
    DualtreeVKdeCanonical_ env (.node qid qb qc qbd ql qr) (.node rid rb rc rbd rl rr) p st =
      ((visitPartners
          (DualtreeVKdeCanonical_ env qr (BestNodePartners env qr rl rr p).partner1)
          (DualtreeVKdeCanonical_ env qr (BestNodePartners env qr rl rr p).partner2)
          (BestNodePartners env qr rl rr p).probability1
          (BestNodePartners env qr rl rr p).probability2
          (visitPartners
            (DualtreeVKdeCanonical_ env ql (BestNodePartners env ql rl rr p).partner1)
            (DualtreeVKdeCanonical_ env ql (BestNodePartners env ql rl rr p).partner2)
            (BestNodePartners env ql rl rr p).probability1
            (BestNodePartners env ql rl rr p).probability2
            ((pruneAttempt env (.node qid qb qc qbd ql qr) (.node rid rb rc rbd rl rr) p
              (st.step (.call qid rid p) id)).2.step (.pushDown qid)
                (pushDown qid ql.id qr.id))).1).1.step (.refine qid) (refine qid ql.id qr.id),
        (visitPartners
            (DualtreeVKdeCanonical_ env ql (BestNodePartners env ql rl rr p).partner1)
            (DualtreeVKdeCanonical_ env ql (BestNodePartners env ql rl rr p).partner2)
            (BestNodePartners env ql rl rr p).probability1
            (BestNodePartners env ql rl rr p).probability2
            ((pruneAttempt env (.node qid qb qc qbd ql qr) (.node rid rb rc rbd rl rr) p
              (st.step (.call qid rid p) id)).2.step (.pushDown qid)
                (pushDown qid ql.id qr.id))).2 &&
          (visitPartners
            (DualtreeVKdeCanonical_ env qr (BestNodePartners env qr rl rr p).partner1)
            (DualtreeVKdeCanonical_ env qr (BestNodePartners env qr rl rr p).partner2)
            (BestNodePartners env qr rl rr p).probability1
            (BestNodePartners env qr rl rr p).probability2
            (visitPartners
              (DualtreeVKdeCanonical_ env ql (BestNodePartners env ql rl rr p).partner1)
              (DualtreeVKdeCanonical_ env ql (BestNodePartners env ql rl rr p).partner2)
              (BestNodePartners env ql rl rr p).probability1
              (BestNodePartners env ql rl rr p).probability2
              ((pruneAttempt env (.node qid qb qc qbd ql qr) (.node rid rb rc rbd rl rr) p
                (st.step (.call qid rid p) id)).2.step (.pushDown qid)
                  (pushDown qid ql.id qr.id))).1).2) := by
  simp only [← visitPartners_partners]
  simp only [DualtreeVKdeCanonical_, Tree.id, h]

theorem visitPartners_eq_siblingVisit (env : Env B K) (q nd1 nd2 : Tree B) (p : ℚ)
    (st : State K) :
    visitPartners (DualtreeVKdeCanonical_ env q (BestNodePartners env q nd1 nd2 p).partner1)
        (DualtreeVKdeCanonical_ env q (BestNodePartners env q nd1 nd2 p).partner2)
        (BestNodePartners env q nd1 nd2 p).probability1
        (BestNodePartners env q nd1 nd2 p).probability2 st =
      siblingVisit env q (BestNodePartners env q nd1 nd2 p).partner1
        (BestNodePartners env q nd1 nd2 p).partner2 p st := by
  rw [BestNodePartners_probability1, BestNodePartners_probability2]
  rfl

end Expansion

section SiblingClaims

variable {B K : Type}

/-- C14. Relaxed confidence only after an exact first sibling: whenever
`DualtreeVKdeCanonical_` pairs a query node with the two children of a
reference node under confidence `p` (a leaf query node, and each child of
the query node when both nodes are non-leaf), the visit is the sibling visit
of the spec: the first reference child is visited with `sqrt(p)`, the second
with `Sqr(sqrt(p))` if the first call returned true and with `sqrt(p)` if it
returned false, and the visit of the right query child starts from the state
the left one leaves and decides from its own first call.  `Sqr(sqrt(p))` is
`p` when the square root is exact at `p`. -/
theorem C14_relaxed_confidence (env : Env B K) (rid rb rc : Nat) (rbd : B) (rl rr : Tree B)
    (p : ℚ) :
    (∀ qid qb qc qbd st,
      (pruneAttempt env (.leaf qid qb qc qbd) (.node rid rb rc rbd rl rr) p
        (st.step (.call qid rid p) id)).1 = none →
      DualtreeVKdeCanonical_ env (.leaf qid qb qc qbd) (.node rid rb rc rbd rl rr) p st =
        siblingVisit env (.leaf qid qb qc qbd)
          (BestNodePartners env (.leaf qid qb qc qbd) rl rr p).partner1
          (BestNodePartners env (.leaf qid qb qc qbd) rl rr p).partner2 p
          (pruneAttempt env (.leaf qid qb qc qbd) (.node rid rb rc rbd rl rr) p
            (st.step (.call qid rid p) id)).2) ∧
      (∀ qid qb qc qbd ql qr st,
        (pruneAttempt env (.node qid qb qc qbd ql qr) (.node rid rb rc rbd rl rr) p
          (st.step (.call qid rid p) id)).1 = none →
        DualtreeVKdeCanonical_ env (.node qid qb qc qbd ql qr) (.node rid rb rc rbd rl rr) p
            st =
          ((siblingVisit env qr (BestNodePartners env qr rl rr p).partner1
              (BestNodePartners env qr rl rr p).partner2 p
              (siblingVisit env ql (BestNodePartners env ql rl rr p).partner1
                (BestNodePartners env ql rl rr p).partner2 p
                ((pruneAttempt env (.node qid qb qc qbd ql qr) (.node rid rb rc rbd rl rr) p
                  (st.step (.call qid rid p) id)).2.step (.pushDown qid)
                    (pushDown qid ql.id qr.id))).1).1.step (.refine qid)
                (refine qid ql.id qr.id),
            (siblingVisit env ql (BestNodePartners env ql rl rr p).partner1
                (BestNodePartners env ql rl rr p).partner2 p
                ((pruneAttempt env (.node qid qb qc qbd ql qr) (.node rid rb rc rbd rl rr) p
                  (st.step (.call qid rid p) id)).2.step (.pushDown qid)
                    (pushDown qid ql.id qr.id))).2 &&
              (siblingVisit env qr (BestNodePartners env qr rl rr p).partner1
                (BestNodePartners env qr rl rr p).partner2 p
                (siblingVisit env ql (BestNodePartners env ql rl rr p).partner1
                  (BestNodePartners env ql rl rr p).partner2 p
                  ((pruneAttempt env (.node qid qb qc qbd ql qr) (.node rid rb rc rbd rl rr) p
                    (st.step (.call qid rid p) id)).2.step (.pushDown qid)
                      (pushDown qid ql.id qr.id))).1).2)) ∧
      (env.sqrt p * env.sqrt p = p → Sqr (env.sqrt p) = p) := by
  refine ⟨?_, ?_, fun h => h⟩
  · intro qid qb qc qbd st h
    rw [canonical_leaf_node env qid qb qc qbd rid rb rc rbd rl rr p st h,
      visitPartners_eq_siblingVisit]
  · intro qid qb qc qbd ql qr st h
    rw [canonical_node_node env qid qb qc qbd ql qr rid rb rc rbd rl rr p st h]
    simp only [visitPartners_eq_siblingVisit]

/-- C14 at a concrete input: on the first instance with `threshold_ = 0` the
root pair is not pruned, and the run is the sibling visit of the two
children of the reference root. -/
theorem C14_relaxed_confidence_witness :
    DualtreeVKdeCanonical_ (Example.env 0) Example.qroot Example.rroot 1 ⟨Example.mem0, []⟩ =
      siblingVisit (Example.env 0) Example.qroot
        (BestNodePartners (Example.env 0) Example.qroot (.leaf 2 0 2 (0, 0))
          (.leaf 3 2 1 (1 / 2, 1 / 2)) 1).partner1
        (BestNodePartners (Example.env 0) Example.qroot (.leaf 2 0 2 (0, 0))
          (.leaf 3 2 1 (1 / 2, 1 / 2)) 1).partner2 1
        (pruneAttempt (Example.env 0) Example.qroot Example.rroot 1
          (State.step (.call 0 1 1) id ⟨Example.mem0, []⟩)).2 :=
  (C14_relaxed_confidence (Example.env 0) 1 0 3 (0, 1 / 2) (.leaf 2 0 2 (0, 0))
    (.leaf 3 2 1 (1 / 2, 1 / 2)) 1).1 0 0 1 (0, 0) ⟨Example.mem0, []⟩ (by decide!)

/-- C16. Nearer child first: `BestNodePartners` returns the two candidates
in one of the two orders, the first partner being at most as far from the
node as the second (least squared distance of the bounds) and being `nd1`
on a tie; and `DualtreeVKdeCanonical_`, in each of its three expansions,
calls itself on the first partner and then, from the state that call leaves,
on the second partner. -/
theorem C16_nearer_child_first (env : Env B K) (p : ℚ) :
    (∀ nd nd1 nd2 : Tree B,
      (((BestNodePartners env nd nd1 nd2 p).partner1 = nd1 ∧
          (BestNodePartners env nd nd1 nd2 p).partner2 = nd2) ∨
        ((BestNodePartners env nd nd1 nd2 p).partner1 = nd2 ∧
          (BestNodePartners env nd nd1 nd2 p).partner2 = nd1)) ∧
      env.MinDistanceSq nd.bound (BestNodePartners env nd nd1 nd2 p).partner1.bound ≤
        env.MinDistanceSq nd.bound (BestNodePartners env nd nd1 nd2 p).partner2.bound ∧
      (env.MinDistanceSq nd.bound nd1.bound = env.MinDistanceSq nd.bound nd2.bound →
        (BestNodePartners env nd nd1 nd2 p).partner1 = nd1)) ∧
    (∀ qid qb qc qbd rid rb rc rbd rl rr st,
      (pruneAttempt env (.leaf qid qb qc qbd) (.node rid rb rc rbd rl rr) p
        (st.step (.call qid rid p) id)).1 = none →
      DualtreeVKdeCanonical_ env (.leaf qid qb qc qbd) (.node rid rb rc rbd rl rr) p st =
        visitPartners
          (DualtreeVKdeCanonical_ env (.leaf qid qb qc qbd)
            (BestNodePartners env (.leaf qid qb qc qbd) rl rr p).partner1)
          (DualtreeVKdeCanonical_ env (.leaf qid qb qc qbd)
            (BestNodePartners env (.leaf qid qb qc qbd) rl rr p).partner2)
          (BestNodePartners env (.leaf qid qb qc qbd) rl rr p).probability1
          (BestNodePartners env (.leaf qid qb qc qbd) rl rr p).probability2
          (pruneAttempt env (.leaf qid qb qc qbd) (.node rid rb rc rbd rl rr) p
            (st.step (.call qid rid p) id)).2) ∧
    (∀ qid qb qc qbd ql qr rid rb rc rbd st,
      (pruneAttempt env (.node qid qb qc qbd ql qr) (.leaf rid rb rc rbd) p
        (st.step (.call qid rid p) id)).1 = none →
      (DualtreeVKdeCanonical_ env (.node qid qb qc qbd ql qr) (.leaf rid rb rc rbd) p st).2 =
        (visitChildren
          (DualtreeVKdeCanonical_ env
            (BestNodePartners env (.leaf rid rb rc rbd) ql qr p).partner1 (.leaf rid rb rc rbd))
          (DualtreeVKdeCanonical_ env
            (BestNodePartners env (.leaf rid rb rc rbd) ql qr p).partner2 (.leaf rid rb rc rbd))
          p
          ((pruneAttempt env (.node qid qb qc qbd ql qr) (.leaf rid rb rc rbd) p
            (st.step (.call qid rid p) id)).2.step (.pushDown qid)
              (pushDown qid ql.id qr.id))).2 ∧
        (DualtreeVKdeCanonical_ env (.node qid qb qc qbd ql qr) (.leaf rid rb rc rbd) p st).1 =
          (visitChildren
            (DualtreeVKdeCanonical_ env
              (BestNodePartners env (.leaf rid rb rc rbd) ql qr p).partner1
              (.leaf rid rb rc rbd))
            (DualtreeVKdeCanonical_ env
              (BestNodePartners env (.leaf rid rb rc rbd) ql qr p).partner2
              (.leaf rid rb rc rbd))
            p
            ((pruneAttempt env (.node qid qb qc qbd ql qr) (.leaf rid rb rc rbd) p
              (st.step (.call qid rid p) id)).2.step (.pushDown qid)
                (pushDown qid ql.id qr.id))).1.step (.refine qid) (refine qid ql.id qr.id)) ∧
    (∀ qid qb qc qbd ql qr rid rb rc rbd rl rr st,
      (pruneAttempt env (.node qid qb qc qbd ql qr) (.node rid rb rc rbd rl rr) p
        (st.step (.call qid rid p) id)).1 = none →
      (DualtreeVKdeCanonical_ env (.node qid qb qc qbd ql qr) (.node rid rb rc rbd rl rr) p
          st).1 =
        (visitPartners
          (DualtreeVKdeCanonical_ env qr (BestNodePartners env qr rl rr p).partner1)
          (DualtreeVKdeCanonical_ env qr (BestNodePartners env qr rl rr p).partner2)
          (BestNodePartners env qr rl rr p).probability1
          (BestNodePartners env qr rl rr p).probability2
          (visitPartners
            (DualtreeVKdeCanonical_ env ql (BestNodePartners env ql rl rr p).partner1)
            (DualtreeVKdeCanonical_ env ql (BestNodePartners env ql rl rr p).partner2)
            (BestNodePartners env ql rl rr p).probability1
            (BestNodePartners env ql rl rr p).probability2
            ((pruneAttempt env (.node qid qb qc qbd ql qr) (.node rid rb rc rbd rl rr) p
              (st.step (.call qid rid p) id)).2.step (.pushDown qid)
                (pushDown qid ql.id qr.id))).1).1.step (.refine qid)
            (refine qid ql.id qr.id)) := by
  refine ⟨?_, ?_, ?_, ?_⟩
  · intro nd nd1 nd2
    have hb := BestNodePartners_partners env nd nd1 nd2 p
    by_cases h : env.MinDistanceSq nd.bound nd1.bound ≤ env.MinDistanceSq nd.bound nd2.bound
    · obtain ⟨h1, h2⟩ := hb.1 h
      rw [h1, h2]
      exact ⟨Or.inl ⟨rfl, rfl⟩, h, fun _ => rfl⟩
    · obtain ⟨h1, h2⟩ := hb.2 h
      rw [h1, h2]
      exact ⟨Or.inr ⟨rfl, rfl⟩, le_of_lt (not_le.1 h), fun e => absurd (le_of_eq e) h⟩
  · intro qid qb qc qbd rid rb rc rbd rl rr st h
    exact canonical_leaf_node env qid qb qc qbd rid rb rc rbd rl rr p st h
  · intro qid qb qc qbd ql qr rid rb rc rbd st h
    rw [canonical_node_leaf env qid qb qc qbd ql qr rid rb rc rbd p st h]
    exact ⟨rfl, rfl⟩
  · intro qid qb qc qbd ql qr rid rb rc rbd rl rr st h
    rw [canonical_node_node env qid qb qc qbd ql qr rid rb rc rbd rl rr p st h]

/-- C16 at a concrete input: on the second instance with `tau_ = 0` the
root pair is not pruned; the left query child is paired with the two
reference children, the nearer one first, and then the right query child. -/
theorem C16_nearer_child_first_witness :
    (DualtreeVKdeCanonical_ (Example.env2 0 0) Example.qroot2 Example.rroot2 1
        ⟨Example.mem2, []⟩).1 =
      (visitPartners
        (DualtreeVKdeCanonical_ (Example.env2 0 0) (.leaf 12 1 1 (1, 1))
          (BestNodePartners (Example.env2 0 0) (.leaf 12 1 1 (1, 1))
            (.leaf 21 0 2 (0, 1 / 2)) (.leaf 22 2 1 (2, 2)) 1).partner1)
        (DualtreeVKdeCanonical_ (Example.env2 0 0) (.leaf 12 1 1 (1, 1))
          (BestNodePartners (Example.env2 0 0) (.leaf 12 1 1 (1, 1))
            (.leaf 21 0 2 (0, 1 / 2)) (.leaf 22 2 1 (2, 2)) 1).partner2)
        (BestNodePartners (Example.env2 0 0) (.leaf 12 1 1 (1, 1))
          (.leaf 21 0 2 (0, 1 / 2)) (.leaf 22 2 1 (2, 2)) 1).probability1
        (BestNodePartners (Example.env2 0 0) (.leaf 12 1 1 (1, 1))
          (.leaf 21 0 2 (0, 1 / 2)) (.leaf 22 2 1 (2, 2)) 1).probability2
        (visitPartners
          (DualtreeVKdeCanonical_ (Example.env2 0 0) (.leaf 11 0 1 (0, 0))
            (BestNodePartners (Example.env2 0 0) (.leaf 11 0 1 (0, 0))
              (.leaf 21 0 2 (0, 1 / 2)) (.leaf 22 2 1 (2, 2)) 1).partner1)
          (DualtreeVKdeCanonical_ (Example.env2 0 0) (.leaf 11 0 1 (0, 0))
            (BestNodePartners (Example.env2 0 0) (.leaf 11 0 1 (0, 0))
              (.leaf 21 0 2 (0, 1 / 2)) (.leaf 22 2 1 (2, 2)) 1).partner2)
          (BestNodePartners (Example.env2 0 0) (.leaf 11 0 1 (0, 0))
            (.leaf 21 0 2 (0, 1 / 2)) (.leaf 22 2 1 (2, 2)) 1).probability1
          (BestNodePartners (Example.env2 0 0) (.leaf 11 0 1 (0, 0))
            (.leaf 21 0 2 (0, 1 / 2)) (.leaf 22 2 1 (2, 2)) 1).probability2
          ((pruneAttempt (Example.env2 0 0) Example.qroot2 Example.rroot2 1
            (State.step (.call 10 20 1) id ⟨Example.mem2, []⟩)).2.step (.pushDown 10)
              (pushDown 10 11 12))).1).1.step (.refine 10) (refine 10 11 12) :=
  (C16_nearer_child_first (Example.env2 0 0) 1).2.2.2 10 0 2 (0, 1) (.leaf 11 0 1 (0, 0))
    (.leaf 12 1 1 (1, 1)) 20 0 3 (0, 2) (.leaf 21 0 2 (0, 1 / 2)) (.leaf 22 2 1 (2, 2))
    ⟨Example.mem2, []⟩ (by decide!)

end SiblingClaims

section MonoRules

variable {B K : Type}

theorem Seg.single {R : Mem K → Mem K → Prop} {m0 m1 : Mem K} (e : Event) (h : R m0 m1)
    (h1 : R m1 m1) : Seg R m0 [(e, m1)] m1 := by
  refine ⟨h, fun y hy => ?_, List.pairwise_singleton _ _⟩
  rw [List.mem_singleton] at hy
  subst hy
  exact ⟨h, h1⟩

theorem Seg.append {R : Mem K → Mem K → Prop} (ht : ∀ a b c, R a b → R b c → R a c)
    {m0 m1 m2 : Mem K} {n1 n2 : List (Event × Mem K)} (h1 : Seg R m0 n1 m1)
    (h2 : Seg R m1 n2 m2) : Seg R m0 (n2 ++ n1) m2 := by
  obtain ⟨a1, b1, c1⟩ := h1
  obtain ⟨a2, b2, c2⟩ := h2
  refine ⟨ht _ _ _ a1 a2, fun y hy => ?_, ?_⟩
  · rcases List.mem_append.1 hy with hy | hy
    · exact ⟨ht _ _ _ a1 (b2 y hy).1, (b2 y hy).2⟩
    · exact ⟨(b1 y hy).1, ht _ _ _ (b1 y hy).2 a2⟩
  · rw [List.pairwise_append]
    exact ⟨c2, c1, fun a ha b hb => ht _ _ _ (b1 b hb).2 (b2 a ha).1⟩

theorem Seg.from {R : Mem K → Mem K → Prop} (ht : ∀ a b c, R a b → R b c → R a c)
    {m0 m0a m1 : Mem K} {n : List (Event × Mem K)} (h0 : R m0 m0a) (h : Seg R m0a n m1) :
    Seg R m0 n m1 :=
  ⟨ht _ _ _ h0 h.1, fun y hy => ⟨ht _ _ _ h0 (h.2.1 y hy).1, (h.2.1 y hy).2⟩, h.2.2⟩

theorem Seg.weaken {R S : Mem K → Mem K → Prop} (hs : ∀ a b, R a b → S a b)
    {m0 m1 : Mem K} {n : List (Event × Mem K)} (h : Seg R m0 n m1) : Seg S m0 n m1 :=
  ⟨hs _ _ h.1, fun y hy => ⟨hs _ _ (h.2.1 y hy).1, hs _ _ (h.2.1 y hy).2⟩,
    h.2.2.imp (fun hab => hs _ _ hab)⟩

theorem MonoStep.same (q : Tree B) (m : Mem K) : MonoStep q m m :=
  ⟨Frame.refl q m, fun _ _ => ⟨le_refl _, le_refl _⟩⟩

theorem MonoStep.chain {q : Tree B} (a b c : Mem K) (h1 : MonoStep q a b)
    (h2 : MonoStep q b c) : MonoStep q a c :=
  ⟨h1.1.trans h2.1, fun x hx =>
    ⟨le_trans (h1.2 x hx).1 (h2.2 x hx).1, le_trans (h2.2 x hx).2 (h1.2 x hx).2⟩⟩

/-- A step that adds non-negative amounts to the lower bounds and
non-positive amounts to the upper bounds. -/
theorem MonoStep.of_add {q : Tree B} {m m1 : Mem K} (d : Nat → Deltas) (hf : Frame q m m1)
    (he : ∀ x, q.Contains x → effective m1 q x = effective m q x + d x)
    (hd : ∀ x, q.Contains x → 0 ≤ (d x).dl ∧ (d x).du ≤ 0) : MonoStep q m m1 := by
  refine ⟨hf, fun x hx => ?_⟩
  rw [he x hx, Deltas.add_dl, Deltas.add_du]
  obtain ⟨h1, h2⟩ := hd x hx
  constructor <;> linarith

/-- A step that keeps the effective bounds. -/
theorem MonoStep.of_eq {q : Tree B} {m m1 : Mem K} (hf : Frame q m m1)
    (he : ∀ x, q.Contains x → effective m1 q x = effective m q x) : MonoStep q m m1 := by
  refine ⟨hf, fun x hx => ?_⟩
  rw [he x hx]
  exact ⟨le_refl _, le_refl _⟩

/-- A step within a child is a step of the parent. -/
theorem MonoStep.lift {i b c : Nat} {bd : B} {l r a s : Tree B}
    (hd : (Tree.node i b c bd l r).Distinct) (hp : (Tree.node i b c bd l r).Partitioned)
    (ho : IsOrder a s l r) (m0 m : Mem K) (h : MonoStep a m0 m) :
    MonoStep (Tree.node i b c bd l r) m0 m := by
  obtain ⟨g1, g2, g3, _⟩ := lift_child hd hp ho h.1
  refine ⟨g1, fun x hx => ?_⟩
  rcases ((ho.contains hp x).1).1 hx with hxa | hxs
  · have e := g2 x hxa
    have el := congrArg Deltas.dl e
    have eu := congrArg Deltas.du e
    simp only [Deltas.sub_dl, Deltas.sub_du] at el eu
    obtain ⟨h1, h2⟩ := h.2 x hxa
    constructor <;> linarith
  · rw [g3 x hxs]
    exact ⟨le_refl _, le_refl _⟩

theorem pruneDeltas_mono {env : Env B K} {v : Nat → RefView K} {q r : Tree B}
    (h : SoundLocal env v q r) {x : Nat} (hx : q.Contains x) :
    0 ≤ (pruneDeltas env v q r).dl ∧ (pruneDeltas env v q r).du ≤ 0 := by
  obtain ⟨hw, _⟩ := h.sum_bounds hx
  have h1 : 0 ≤ vLo env v q r := h.lo_nonneg
  have h2 : vHi env v q r ≤ 1 := h.hi_le_one
  constructor
  · exact mul_nonneg h1 hw
  · exact mul_nonpos_of_nonpos_of_nonneg (by unfold vHi at h2; linarith) hw

theorem baseDeltas_mono {env : Env B K} {v : Nat → RefView K} {q r : Tree B}
    (h : SoundLocal env v q r) {x : Nat} (hx : q.Contains x) :
    0 ≤ (baseDeltas env v x r).dl ∧ (baseDeltas env v x r).du ≤ 0 := by
  obtain ⟨_, h1, h2, _⟩ := h.sum_bounds hx
  constructor
  · exact h1
  · change kernelSum env x r - (v r.id).weight_sum ≤ 0
    linarith

theorem DBL_MAX_nonneg : (0 : ℚ) ≤ DBL_MAX := by
  unfold DBL_MAX
  exact Nat.cast_nonneg _

theorem sample_iterate_min_nonneg (env : Env B K) (hk : KernelContract env) (q r : Tree B)
    (n : Nat) (s : SampleState K) (h : 0 ≤ s.min_kernel_value) :
    0 ≤ ((sampleOnce env q r)^[n] s).min_kernel_value := by
  induction n generalizing s with
  | zero => exact h
  | succ n ih =>
    rw [Function.iterate_succ_apply]
    apply ih
    unfold sampleOnce
    dsimp only
    exact le_min h ((hk.unit _ _ (DistanceSqEuclidean_nonneg _ _)).1)

/-- The lower-bound amount of an approved Monte Carlo prune is not negative
when the weight sum of the reference node is not. -/
theorem monteCarlo_dl_nonneg (env : Env B K) (hk : KernelContract env) (m : Mem K)
    (q r : Tree B) (p : ℚ) (d : Deltas) (hw : 0 ≤ (m.stat r.id).weight_sum)
    (hd : 0 ≤ d.dl) :
    0 ≤ (MonteCarloPrunableByOrderStatistics_ env m q r p d).2.1.dl := by
  unfold MonteCarloPrunableByOrderStatistics_
  dsimp only
  split_ifs
  · exact hd
  · exact mul_nonneg hw (sample_iterate_min_nonneg env hk q r _ _ DBL_MAX_nonneg)
  · exact mul_nonneg hw (sample_iterate_min_nonneg env hk q r _ _ DBL_MAX_nonneg)

/-- The state a successful Monte Carlo attempt leaves. -/
theorem pruneAttempt_some_false (env : Env B K) (q r : Tree B) (p : ℚ) (st st1 : State K)
    (h : pruneAttempt env q r p st = (some false, st1)) :
    st1 = State.step (.monteCarloPrune q.id r.id)
      (monteCarloPrune q.id (MonteCarloPrunableByOrderStatistics_ env st.mem q r p
        (Prunable_ env st.mem q r p).deltas).2.1)
      ⟨(MonteCarloPrunableByOrderStatistics_ env st.mem q r p
        (Prunable_ env st.mem q r p).deltas).2.2, st.trace⟩ := by
  unfold pruneAttempt at h
  dsimp only at h
  split_ifs at h
  · simp at h
  · exact (Prod.mk.inj h).2.symm
  · simp at h
  · simp at h

theorem mono_some (env : Env B K) (hk : KernelContract env) (q r : Tree B) (p : ℚ)
    (st : State K) (b : Bool) (st1 : State K)
    (h : pruneAttempt env q r p (st.step (.call q.id r.id p) id) = (some b, st1)) :
    MonoMotive env q r p st (st1, b) := by
  intro _ hd hc
  have hcall : Seg (MonoStep q) st.mem [(Event.call q.id r.id p, st.mem)] st.mem :=
    Seg.single _ (MonoStep.same q st.mem) (MonoStep.same q st.mem)
  rcases pruneAttempt_cases env q r p (st.step (.call q.id r.id p) id) with
    ⟨_, h1⟩ | ⟨d, n, _, _, _, h1⟩ | ⟨n, _, h1⟩
  · rw [h1] at h
    simp only [Prod.mk.injEq, Option.some.injEq] at h
    obtain ⟨rfl, rfl⟩ := h
    obtain ⟨hf, he⟩ := finiteDifferencePrune_effect st.mem q (pruneDeltas env st.mem.view q r) hd
    have hstep : MonoStep q st.mem
        (finiteDifferencePrune q.id (pruneDeltas env st.mem.view q r) st.mem) :=
      MonoStep.of_add (fun _ => pruneDeltas env st.mem.view q r) hf he
        (fun x hx => pruneDeltas_mono hc.local hx)
    exact ⟨[_, _], rfl, Seg.append MonoStep.chain hcall
      (Seg.single _ hstep (MonoStep.same q _))⟩
  · have h2 := h
    rw [h1] at h2
    simp only [Prod.mk.injEq, Option.some.injEq] at h2
    obtain ⟨rfl, _⟩ := h2
    have e := pruneAttempt_some_false env q r p _ st1 h
    obtain ⟨k, hk2⟩ := monteCarlo_mem env st.mem q r p (Prunable_ env st.mem q r p).deltas
    have hm : (State.step (Event.call q.id r.id p) id st).mem = st.mem := rfl
    rw [hm] at e
    rw [hk2] at e
    set dmc := (MonteCarloPrunableByOrderStatistics_ env st.mem q r p
      (Prunable_ env st.mem q r p).deltas).2.1 with hdmc
    obtain ⟨hf, he⟩ := monteCarloPrune_effect { st.mem with rng_pos := k } q dmc hd
    obtain ⟨hf0, he0⟩ := rng_effect st.mem q k
    have hstep : MonoStep q st.mem (monteCarloPrune q.id dmc { st.mem with rng_pos := k }) := by
      refine MonoStep.of_add (fun _ => dmc) (hf0.trans hf)
        (fun x hx => by rw [he x hx, he0 x]) (fun x hx => ?_)
      obtain ⟨hw, _⟩ := hc.local.sum_bounds hx
      have hp0 := pruneDeltas_mono hc.local hx
      constructor
      · exact monteCarlo_dl_nonneg env hk st.mem q r p _ hw hp0.1
      · rw [hdmc, (monteCarlo_deltas env st.mem q r p _).2]
        exact hp0.2
    subst e
    exact ⟨[_, _], rfl, Seg.append MonoStep.chain hcall
      (Seg.single _ hstep (MonoStep.same q _))⟩
  · rw [h1] at h
    simp at h

theorem mono_none (env : Env B K) (q r : Tree B) (p : ℚ) (st st1 : State K)
    (res : State K × Bool)
    (h : pruneAttempt env q r p (st.step (.call q.id r.id p) id) = (none, st1))
    (ih : MonoMotive env q r p st1 res) : MonoMotive env q r p st res := by
  intro hp hd hc
  have hcall : Seg (MonoStep q) st.mem [(Event.call q.id r.id p, st.mem)] st.mem :=
    Seg.single _ (MonoStep.same q st.mem) (MonoStep.same q st.mem)
  rcases pruneAttempt_cases env q r p (st.step (.call q.id r.id p) id) with
    ⟨_, h1⟩ | ⟨d, n, _, _, _, h1⟩ | ⟨n, _, h1⟩
  · rw [h1] at h; simp at h
  · rw [h1] at h; simp at h
  · rw [h1] at h
    obtain ⟨_, rfl⟩ := Prod.mk.inj h
    obtain ⟨hf0, he0⟩ := rng_effect st.mem q n
    obtain ⟨new, ht, hseg⟩ := ih hp hd hc
    have h0 : MonoStep q st.mem { st.mem with rng_pos := n } :=
      MonoStep.of_eq hf0 (fun x _ => he0 x)
    refine ⟨new ++ [(Event.call q.id r.id p, st.mem)], ?_,
      Seg.append MonoStep.chain hcall (Seg.from MonoStep.chain h0 hseg)⟩
    rw [ht]
    simp [State.step]

theorem mono_base (env : Env B K) (q r : Tree B) (p : ℚ) (st : State K)
    (hq : q.is_leaf = true) (_hr : r.is_leaf = true) :
    MonoMotive env q r p st
      (st.step (.baseCase q.id r.id) (DualtreeVKdeBase_ env q r p), true) := by
  intro _ _ hc
  cases q with
  | node i b c bd l r => simp [Tree.is_leaf] at hq
  | leaf i b c bd =>
    obtain ⟨hf, he, _, _⟩ := base_effect env i b c bd r p st.mem
    have hstep : MonoStep (Tree.leaf i b c bd) st.mem
        (DualtreeVKdeBase_ env (Tree.leaf i b c bd) r p st.mem) :=
      MonoStep.of_add (fun x => baseDeltas env st.mem.view x r) hf he
        (fun x hx => baseDeltas_mono hc.local hx)
    exact ⟨[_], rfl, Seg.single _ hstep (MonoStep.same _ _)⟩

theorem mono_split_r (env : Env B K) (q : Tree B) (rid rb rc : Nat)
    (rbd : B) (rl rr : Tree B) (p : ℚ) (st : State K) (a s : Tree B)
    (res1 res2 : State K × Bool) (ho : IsOrder a s rl rr)
    (ih1 : MonoMotive env q a (env.sqrt p) st res1)
    (ih2 : MonoMotive env q s (if res1.2 then Sqr (env.sqrt p) else env.sqrt p) res1.1 res2) :
    MonoMotive env q (.node rid rb rc rbd rl rr) p st (res2.1, res1.2 && res2.2) := by
  intro hp hd hc
  have hcr := hc.children_r
  have hca : SoundCtx env q a st.mem.view := by
    rcases ho with ⟨rfl, rfl⟩ | ⟨rfl, rfl⟩
    · exact hcr.1
    · exact hcr.2
  have hcs : SoundCtx env q s st.mem.view := by
    rcases ho with ⟨rfl, rfl⟩ | ⟨rfl, rfl⟩
    · exact hcr.2
    · exact hcr.1
  obtain ⟨n1, ht1, hs1⟩ := ih1 hp hd hca
  have hv : res1.1.mem.view = st.mem.view := hs1.1.1.view
  obtain ⟨n2, ht2, hs2⟩ := ih2 hp hd (hv ▸ hcs)
  refine ⟨n2 ++ n1, ?_, Seg.append MonoStep.chain hs1 hs2⟩
  simp [ht2, ht1]

theorem mono_split_q (env : Env B K) (qid qb qc : Nat) (qbd : B)
    (ql qr r : Tree B) (p : ℚ) (st : State K) (a s : Tree B) (res1 res2 : State K × Bool)
    (ho : IsOrder a s ql qr)
    (ih1 : MonoMotive env a r p (st.step (.pushDown qid) (pushDown qid ql.id qr.id)) res1)
    (ih2 : MonoMotive env s r p res1.1 res2) :
    MonoMotive env (.node qid qb qc qbd ql qr) r p st
      (res2.1.step (.refine qid) (refine qid ql.id qr.id), res1.2 && res2.2) := by
  intro hp hd hc
  have hcq := hc.children_q
  have hca : SoundCtx env a r st.mem.view := by
    rcases ho with ⟨rfl, rfl⟩ | ⟨rfl, rfl⟩
    · exact hcq.1
    · exact hcq.2
  have hcs : SoundCtx env s r st.mem.view := by
    rcases ho with ⟨rfl, rfl⟩ | ⟨rfl, rfl⟩
    · exact hcq.2
    · exact hcq.1
  obtain ⟨hf0, _, _, he0⟩ := pushDown_effect st.mem hd hp
  have hv0 : (pushDown qid ql.id qr.id st.mem).view = st.mem.view := hf0.view
  have hpush : MonoStep (Tree.node qid qb qc qbd ql qr) st.mem
      (pushDown qid ql.id qr.id st.mem) := MonoStep.of_eq hf0 (fun x _ => he0 x)
  obtain ⟨n1, ht1, hs1⟩ := ih1 (ho.partitioned hp) (ho.distinct hd) (hv0 ▸ hca)
  change Seg (MonoStep a) (pushDown qid ql.id qr.id st.mem) n1 res1.1.mem at hs1
  have hv1 : res1.1.mem.view = st.mem.view := hs1.1.1.view.trans hv0
  obtain ⟨n2, ht2, hs2⟩ := ih2 (ho.swap.partitioned hp) (ho.swap.distinct hd) (hv1 ▸ hcs)
  obtain ⟨hf3, he3⟩ := refine_effect res2.1.mem (Tree.node qid qb qc qbd ql qr) qid ql.id qr.id
    (by simp [Tree.ids])
  have hrefine : MonoStep (Tree.node qid qb qc qbd ql qr) res2.1.mem
      (refine qid ql.id qr.id res2.1.mem) := MonoStep.of_eq hf3 (fun x _ => he3 _ x)
  have l1 : Seg (MonoStep (Tree.node qid qb qc qbd ql qr)) (pushDown qid ql.id qr.id st.mem)
      n1 res1.1.mem := Seg.weaken (MonoStep.lift hd hp ho) hs1
  have l2 : Seg (MonoStep (Tree.node qid qb qc qbd ql qr)) res1.1.mem n2 res2.1.mem :=
    Seg.weaken (MonoStep.lift hd hp ho.swap) hs2
  have hall := Seg.append MonoStep.chain
    (Seg.append MonoStep.chain
      (Seg.append MonoStep.chain (Seg.single (Event.pushDown qid) hpush (MonoStep.same _ _)) l1)
      l2)
    (Seg.single (Event.refine qid) hrefine (MonoStep.same _ _))
  refine ⟨_, ?_, hall⟩
  simp [State.step, ht2, ht1]

theorem canonical_mono (env : Env B K) (hk : KernelContract env) (q r : Tree B) (p : ℚ)
    (st : State K) : MonoMotive env q r p st (DualtreeVKdeCanonical_ env q r p st) :=
  canonical_induct env (MonoMotive env) (fun q r p st b st1 => mono_some env hk q r p st b st1)
    (mono_none env) (mono_base env) (mono_split_r env) (mono_split_q env) q r p st

end MonoRules

section MonoClaim

variable {B K : Type}

/-- C17. Monotone convergence: under non-negative weights, the kernel
contract, enclosing bounds and reference statistics as `PreProcess` leaves
them, for every confidence, every step recorded during
`DualtreeVKdeCanonical_` leaves the effective lower bound of every query
point at least as large and its effective upper bound at most as large as
every earlier step and as the start, so upper - lower does not grow along
the traversal; the amounts of a finite-difference prune are
`dl = v_lo * w >= 0` and `du = (v_hi - 1) * w <= 0`, those of a base case
`S >= 0` and `S - w <= 0`. -/
theorem C17_monotone_convergence (env : Env B K) (qroot rroot : Tree B) (p : ℚ)
    (st : State K) (hqp : qroot.Partitioned) (hqd : qroot.Distinct) (hrp : rroot.Partitioned)
    (hw : ∀ i, 0 ≤ env.rset_weights i) (hk : KernelContract env)
    (hb : BoundsEnclose env qroot rroot) (hpre : RefPreprocessed env st.mem.view rroot) :
    (∃ new, (DualtreeVKdeCanonical_ env qroot rroot p st).1.trace = new ++ st.trace ∧
      (∀ y ∈ new, ∀ x, qroot.Contains x →
        (effective st.mem qroot x).dl ≤ (effective y.2 qroot x).dl ∧
          (effective y.2 qroot x).du ≤ (effective st.mem qroot x).du) ∧
      new.Pairwise (fun a b => ∀ x, qroot.Contains x →
        (effective b.2 qroot x).dl ≤ (effective a.2 qroot x).dl ∧
          (effective a.2 qroot x).du ≤ (effective b.2 qroot x).du ∧
          (effective a.2 qroot x).du - (effective a.2 qroot x).dl ≤
            (effective b.2 qroot x).du - (effective b.2 qroot x).dl)) ∧
      (∀ x, qroot.Contains x →
        (effective (DualtreeVKdeCanonical_ env qroot rroot p st).1.mem qroot x).du -
            (effective (DualtreeVKdeCanonical_ env qroot rroot p st).1.mem qroot x).dl ≤
          (effective st.mem qroot x).du - (effective st.mem qroot x).dl) ∧
      ∀ q ∈ qroot.subtrees, ∀ r ∈ rroot.subtrees, ∀ x, q.Contains x →
        (pruneDeltas env st.mem.view q r).dl =
            vLo env st.mem.view q r * (st.mem.view r.id).weight_sum ∧
          0 ≤ (pruneDeltas env st.mem.view q r).dl ∧
          (pruneDeltas env st.mem.view q r).du =
            (vHi env st.mem.view q r - 1) * (st.mem.view r.id).weight_sum ∧
          (pruneDeltas env st.mem.view q r).du ≤ 0 ∧
          (baseDeltas env st.mem.view x r).dl = kernelSum env x r ∧
          0 ≤ (baseDeltas env st.mem.view x r).dl ∧
          (baseDeltas env st.mem.view x r).du =
            kernelSum env x r - (st.mem.view r.id).weight_sum ∧
          (baseDeltas env st.mem.view x r).du ≤ 0 := by
  have hc : SoundCtx env qroot rroot st.mem.view :=
    soundCtx_of_contract env qroot rroot _ hrp hw hk hb hpre
  obtain ⟨new, ht, h0, hall, hpair⟩ := canonical_mono env hk qroot rroot p st hqp hqd hc
  refine ⟨⟨new, ht, fun y hy x hx => ((hall y hy).1).2 x hx, ?_⟩, ?_, ?_⟩
  · refine hpair.imp ?_
    intro a b hab x hx
    obtain ⟨h1, h2⟩ := hab.2 x hx
    exact ⟨h1, h2, by linarith⟩
  · intro x hx
    obtain ⟨h1, h2⟩ := h0.2 x hx
    linarith
  · intro q hq r hr x hx
    have hl : SoundLocal env st.mem.view q r := hc.2 q hq r hr
    exact ⟨rfl, (pruneDeltas_mono hl hx).1, rfl, (pruneDeltas_mono hl hx).2, rfl,
      (baseDeltas_mono hl hx).1, rfl, (baseDeltas_mono hl hx).2⟩

/-- C17 at a concrete input: in the run of the second instance with
`tau_ = 1/10` the gap between the bounds of the query point 0 does not
grow. -/
theorem C17_monotone_convergence_witness :
    (effective (DualtreeVKdeCanonical_ (Example.env2 (1 / 10) 0) Example.qroot2 Example.rroot2 1
        ⟨Example.mem2, []⟩).1.mem Example.qroot2 0).du -
      (effective (DualtreeVKdeCanonical_ (Example.env2 (1 / 10) 0) Example.qroot2
        Example.rroot2 1 ⟨Example.mem2, []⟩).1.mem Example.qroot2 0).dl ≤
      (effective Example.mem2 Example.qroot2 0).du -
        (effective Example.mem2 Example.qroot2 0).dl :=
  (C17_monotone_convergence (Example.env2 (1 / 10) 0) Example.qroot2 Example.rroot2 1
    ⟨Example.mem2, []⟩ Example.qroot2_partitioned (by decide)
    Example.rroot2_partitioned (fun _ => zero_le_one) (Example.epan_contract _ _)
    (by decide!) (by decide!)).2.1 0 (by decide)

end MonoClaim

section Termination

variable {B K : Type}

/-- Functional induction for `DualtreeVKdeCanonical_` with one motive for a
call and one for the expansion of a pair whose pruning attempts failed. -/
theorem canonical_induct_two (env : Env B K)
    (P Q : Tree B → Tree B → ℚ → State K → State K × Bool → Prop)
    (h_some : ∀ q r p st b st1,
      pruneAttempt env q r p (st.step (.call q.id r.id p) id) = (some b, st1) → P q r p st (st1, b))
    (h_none : ∀ q r p st st1 res,
      pruneAttempt env q r p (st.step (.call q.id r.id p) id) = (none, st1) →
        Q q r p st1 res → P q r p st res)
    (h_base : ∀ q r p st, q.is_leaf = true → r.is_leaf = true →
      Q q r p st (st.step (.baseCase q.id r.id) (DualtreeVKdeBase_ env q r p), true))
    (h_split_r : ∀ q rid rb rc rbd rl rr p st a b res1 res2, IsOrder a b rl rr →
      P q a (env.sqrt p) st res1 →
      P q b (if res1.2 then Sqr (env.sqrt p) else env.sqrt p) res1.1 res2 →
      Q q (.node rid rb rc rbd rl rr) p st (res2.1, res1.2 && res2.2))
    (h_split_q_leaf : ∀ qid qb qc qbd ql qr rid rb rc rbd p st a b res1 res2, IsOrder a b ql qr →
      P a (.leaf rid rb rc rbd) p (st.step (.pushDown qid) (pushDown qid ql.id qr.id)) res1 →
      P b (.leaf rid rb rc rbd) p res1.1 res2 →
      Q (.node qid qb qc qbd ql qr) (.leaf rid rb rc rbd) p st
        (res2.1.step (.refine qid) (refine qid ql.id qr.id), res1.2 && res2.2))
    (h_split_q_node : ∀ qid qb qc qbd ql qr rid rb rc rbd rl rr p st res1 res2,
      Q ql (.node rid rb rc rbd rl rr) p (st.step (.pushDown qid) (pushDown qid ql.id qr.id))
        res1 →
      Q qr (.node rid rb rc rbd rl rr) p res1.1 res2 →
      Q (.node qid qb qc qbd ql qr) (.node rid rb rc rbd rl rr) p st
        (res2.1.step (.refine qid) (refine qid ql.id qr.id), res1.2 && res2.2)) :
    ∀ q r p st, P q r p st (DualtreeVKdeCanonical_ env q r p st) := by
  have leafCase : ∀ (q : Tree B), q.is_leaf = true → ∀ r p st,
      P q r p st (canonicalLeaf env q r p st) := by
    intro q hq r
    induction r with
    | leaf rid rb rc rbd =>
      intro p st
      rcases h : pruneAttempt env q (.leaf rid rb rc rbd) p
        (st.step (.call q.id (Tree.leaf rid rb rc rbd).id p) id) with ⟨_ | b, st1⟩
      · simp only [canonicalLeaf, h]
        exact h_none _ _ _ _ _ _ h (h_base _ _ _ _ hq rfl)
      · simp only [canonicalLeaf, h]
        exact h_some _ _ _ _ _ _ h
    | node rid rb rc rbd rl rr ihl ihr =>
      intro p st
      rcases h : pruneAttempt env q (.node rid rb rc rbd rl rr) p
        (st.step (.call q.id (Tree.node rid rb rc rbd rl rr).id p) id) with ⟨_ | b, st1⟩
      · simp only [canonicalLeaf, h, BestNodePartners_probability1, BestNodePartners_probability2]
        apply h_none _ _ _ _ _ _ h
        split_ifs
        · exact h_split_r _ _ _ _ _ _ _ _ _ _ _ _ _ (Or.inl ⟨rfl, rfl⟩) (ihl _ _) (ihr _ _)
        · exact h_split_r _ _ _ _ _ _ _ _ _ _ _ _ _ (Or.inr ⟨rfl, rfl⟩) (ihr _ _) (ihl _ _)
      · simp only [canonicalLeaf, h]
        exact h_some _ _ _ _ _ _ h
  have hvp : ∀ (q : Tree B), (∀ r p st, P q r p st (DualtreeVKdeCanonical_ env q r p st)) →
      ∀ rid rb rc rbd rl rr p st, Q q (.node rid rb rc rbd rl rr) p st
        (if env.MinDistanceSq q.bound rl.bound ≤ env.MinDistanceSq q.bound rr.bound then
          visitPartners (DualtreeVKdeCanonical_ env q rl) (DualtreeVKdeCanonical_ env q rr)
            (env.sqrt p) (env.sqrt p) st
        else
          visitPartners (DualtreeVKdeCanonical_ env q rr) (DualtreeVKdeCanonical_ env q rl)
            (env.sqrt p) (env.sqrt p) st) := by
    intro q ih rid rb rc rbd rl rr p st
    split_ifs
    · exact h_split_r _ _ _ _ _ _ _ _ _ _ _ _ _ (Or.inl ⟨rfl, rfl⟩) (ih _ _ _) (ih _ _ _)
    · exact h_split_r _ _ _ _ _ _ _ _ _ _ _ _ _ (Or.inr ⟨rfl, rfl⟩) (ih _ _ _) (ih _ _ _)
  intro q
  induction q with
  | leaf qid qb qc qbd =>
    intro r p st
    simp only [DualtreeVKdeCanonical_]
    exact leafCase (.leaf qid qb qc qbd) rfl r p st
  | node qid qb qc qbd ql qr ihl ihr =>
    intro r p st
    rcases h : pruneAttempt env (.node qid qb qc qbd ql qr) r p
        (st.step (.call (Tree.node qid qb qc qbd ql qr).id r.id p) id) with ⟨_ | b, st1⟩
    · simp only [DualtreeVKdeCanonical_, h, BestNodePartners_probability1,
        BestNodePartners_probability2]
      apply h_none _ _ _ _ _ _ h
      cases r with
      | leaf rid rb rc rbd =>
        simp only
        split_ifs
        · exact h_split_q_leaf _ _ _ _ _ _ _ _ _ _ _ _ _ _ _ _ (Or.inl ⟨rfl, rfl⟩)
            (ihl _ _ _) (ihr _ _ _)
        · exact h_split_q_leaf _ _ _ _ _ _ _ _ _ _ _ _ _ _ _ _ (Or.inr ⟨rfl, rfl⟩)
            (ihr _ _ _) (ihl _ _ _)
      | node rid rb rc rbd rl rr =>
        simp only
        exact h_split_q_node _ _ _ _ _ _ _ _ _ _ _ _ _ _ _ _
          (hvp ql ihl _ _ _ _ _ _ _ _) (hvp qr ihr _ _ _ _ _ _ _ _)
    · simp only [DualtreeVKdeCanonical_, h]
      exact h_some _ _ _ _ _ _ h

theorem callCount_append (a b : List (Event × Mem K)) :
    callCount (a ++ b) = callCount a + callCount b := by
  unfold callCount
  exact List.countP_append _ _ _

theorem callCount_cons (x : Event × Mem K) (l : List (Event × Mem K)) :
    callCount (x :: l) = (if x.1.isCall = true then 1 else 0) + callCount l := by
  unfold callCount
  rw [List.countP_cons]
  omega

theorem callCount_nil : callCount ([] : List (Event × Mem K)) = 0 := rfl

theorem Tree.height_left (i b c : Nat) (bd : B) (l r : Tree B) :
    l.height + 1 ≤ (Tree.node i b c bd l r).height := by
  simp only [Tree.height]
  omega

theorem Tree.height_right (i b c : Nat) (bd : B) (l r : Tree B) :
    r.height + 1 ≤ (Tree.node i b c bd l r).height := by
  simp only [Tree.height]
  omega

theorem Tree.height_order {a s l r : Tree B} (i b c : Nat) (bd : B) (h : IsOrder a s l r) :
    a.height + 1 ≤ (Tree.node i b c bd l r).height ∧
      s.height + 1 ≤ (Tree.node i b c bd l r).height := by
  rcases h with ⟨rfl, rfl⟩ | ⟨rfl, rfl⟩
  · exact ⟨Tree.height_left _ _ _ _ _ _, Tree.height_right _ _ _ _ _ _⟩
  · exact ⟨Tree.height_right _ _ _ _ _ _, Tree.height_left _ _ _ _ _ _⟩

/-- The calls recorded by a call of `DualtreeVKdeCanonical_` on a pair of
trees of heights `hq` and `hr` number less than `2 ^ (hq + hr + 1)`. -/
theorem canonical_callCount (env : Env B K) (q r : Tree B) (p : ℚ) (st : State K) :
    ∃ new, (DualtreeVKdeCanonical_ env q r p st).1.trace = new ++ st.trace ∧
      callCount new + 1 ≤ 2 ^ (q.height + r.height + 1) := by
  refine canonical_induct_two env
    (fun q r _ st res => ∃ new, res.1.trace = new ++ st.trace ∧
      callCount new + 1 ≤ 2 ^ (q.height + r.height + 1))
    (fun q r _ st res => ∃ new, res.1.trace = new ++ st.trace ∧
      callCount new + 2 ≤ 2 ^ (q.height + r.height + 1))
    ?_ ?_ ?_ ?_ ?_ ?_ q r p st
  · intro q r p st b st1 h
    have hpos : 2 ≤ 2 ^ (q.height + r.height + 1) := by
      calc 2 = 2 ^ 1 := rfl
        _ ≤ 2 ^ (q.height + r.height + 1) := Nat.pow_le_pow_right (by norm_num) (by omega)
    rcases pruneAttempt_cases env q r p (st.step (.call q.id r.id p) id) with
      ⟨_, h1⟩ | ⟨d, n, _, _, _, h1⟩ | ⟨n, _, h1⟩
    · rw [h1] at h
      obtain ⟨_, rfl⟩ := Prod.mk.inj h
      exact ⟨[_, _], rfl, by simp [callCount_cons, callCount_nil, Event.isCall]; omega⟩
    · rw [h1] at h
      obtain ⟨_, rfl⟩ := Prod.mk.inj h
      exact ⟨[_, _], rfl, by simp [callCount_cons, callCount_nil, Event.isCall]; omega⟩
    · rw [h1] at h
      simp at h
  · intro q r p st st1 res h ih
    rcases pruneAttempt_cases env q r p (st.step (.call q.id r.id p) id) with
      ⟨_, h1⟩ | ⟨d, n, _, _, _, h1⟩ | ⟨n, _, h1⟩
    · rw [h1] at h; simp at h
    · rw [h1] at h; simp at h
    · rw [h1] at h
      obtain ⟨_, rfl⟩ := Prod.mk.inj h
      obtain ⟨new, ht, hn⟩ := ih
      refine ⟨new ++ [(Event.call q.id r.id p, st.mem)], ?_, ?_⟩
      · rw [ht]; simp [State.step]
      · rw [callCount_append, callCount_cons, callCount_nil]
        simp only [Event.isCall, if_true]
        omega
  · intro q r p st hq hr
    refine ⟨[_], rfl, ?_⟩
    have : 2 ^ 1 ≤ 2 ^ (q.height + r.height + 1) :=
      Nat.pow_le_pow_right (by norm_num) (by omega)
    simp only [callCount_cons, callCount_nil, Event.isCall]
    simpa using this
  · intro q rid rb rc rbd rl rr p st a b res1 res2 ho ih1 ih2
    obtain ⟨n1, ht1, hn1⟩ := ih1
    obtain ⟨n2, ht2, hn2⟩ := ih2
    obtain ⟨ha, hb⟩ := Tree.height_order rid rb rc rbd ho
    have e1 := Nat.pow_le_pow_right (n := 2) (by norm_num)
      (show q.height + a.height + 1 ≤ q.height + (Tree.node rid rb rc rbd rl rr).height by omega)
    have e2 := Nat.pow_le_pow_right (n := 2) (by norm_num)
      (show q.height + b.height + 1 ≤ q.height + (Tree.node rid rb rc rbd rl rr).height by omega)
    refine ⟨n2 ++ n1, by simp [ht2, ht1], ?_⟩
    rw [callCount_append, pow_succ]
    omega
  · intro qid qb qc qbd ql qr rid rb rc rbd p st a b res1 res2 ho ih1 ih2
    obtain ⟨n1, ht1, hn1⟩ := ih1
    obtain ⟨n2, ht2, hn2⟩ := ih2
    obtain ⟨ha, hb⟩ := Tree.height_order qid qb qc qbd ho
    have e1 := Nat.pow_le_pow_right (n := 2) (by norm_num)
      (show a.height + (Tree.leaf rid rb rc rbd).height + 1 ≤
        (Tree.node qid qb qc qbd ql qr).height + (Tree.leaf rid rb rc rbd).height by omega)
    have e2 := Nat.pow_le_pow_right (n := 2) (by norm_num)
      (show b.height + (Tree.leaf rid rb rc rbd).height + 1 ≤
        (Tree.node qid qb qc qbd ql qr).height + (Tree.leaf rid rb rc rbd).height by omega)
    refine ⟨(Event.refine qid, refine qid ql.id qr.id res2.1.mem) ::
        (n2 ++ (n1 ++ [(Event.pushDown qid, pushDown qid ql.id qr.id st.mem)])),
      by simp [State.step, ht2, ht1], ?_⟩
    rw [callCount_cons, callCount_append, callCount_append, callCount_cons, callCount_nil,
      pow_succ]
    simp only [Event.isCall, Bool.false_eq_true, if_false]
    omega
  · intro qid qb qc qbd ql qr rid rb rc rbd rl rr p st res1 res2 ih1 ih2
    obtain ⟨n1, ht1, hn1⟩ := ih1
    obtain ⟨n2, ht2, hn2⟩ := ih2
    have ha := Tree.height_left qid qb qc qbd ql qr
    have hb := Tree.height_right qid qb qc qbd ql qr
    have e1 := Nat.pow_le_pow_right (n := 2) (by norm_num)
      (show ql.height + (Tree.node rid rb rc rbd rl rr).height + 1 ≤
        (Tree.node qid qb qc qbd ql qr).height + (Tree.node rid rb rc rbd rl rr).height by omega)
    have e2 := Nat.pow_le_pow_right (n := 2) (by norm_num)
      (show qr.height + (Tree.node rid rb rc rbd rl rr).height + 1 ≤
        (Tree.node qid qb qc qbd ql qr).height + (Tree.node rid rb rc rbd rl rr).height by omega)
    refine ⟨(Event.refine qid, refine qid ql.id qr.id res2.1.mem) ::
        (n2 ++ (n1 ++ [(Event.pushDown qid, pushDown qid ql.id qr.id st.mem)])),
      by simp [State.step, ht2, ht1], ?_⟩
    rw [callCount_cons, callCount_append, callCount_append, callCount_cons, callCount_nil,
      pow_succ]
    simp only [Event.isCall, Bool.false_eq_true, if_false]
    omega

/-- The sampling loop of `MonteCarloPrunableByOrderStatistics_` runs at most
`qnode.count * rnode.count` times, each iteration drawing two indices. -/
theorem monteCarlo_iterations (env : Env B K) (m : Mem K) (q r : Tree B) (p : ℚ) (d : Deltas) :
    ∃ n, n ≤ q.count * r.count ∧
      (MonteCarloPrunableByOrderStatistics_ env m q r p d).2.2 =
        { m with rng_pos := m.rng_pos + 2 * n } := by
  unfold MonteCarloPrunableByOrderStatistics_
  dsimp only
  split_ifs with h1 h2
  · exact ⟨0, Nat.zero_le _, rfl⟩
  · refine ⟨_, ?_, sample_iterate_mem env q r _ _⟩
    rw [not_or, not_lt] at h1
    have := h1.2
    omega
  · refine ⟨_, ?_, sample_iterate_mem env q r _ _⟩
    rw [not_or, not_lt] at h1
    have := h1.2
    omega

/-- C19. Termination of the traversal: for every pair of finite binary
trees and every confidence `DualtreeVKdeCanonical_` returns (the function is
total), having made fewer than `2 ^ (hq + hr + 1)` calls of itself, where
`hq` and `hr` are the heights of the two trees, since every recursive call
replaces the query node or the reference node by one of its children; and
every sampling loop runs at most `qnode.count * rnode.count` iterations. -/
theorem C19_traversal_terminates (env : Env B K) (qnode rnode : Tree B) (p : ℚ)
    (st : State K) :
    (∃ res new, DualtreeVKdeCanonical_ env qnode rnode p st = res ∧
      res.1.trace = new ++ st.trace ∧
      callCount new + 1 ≤ 2 ^ (qnode.height + rnode.height + 1)) ∧
    ∀ (m : Mem K) (q r : Tree B) (confidence : ℚ) (d : Deltas),
      ∃ n, n ≤ q.count * r.count ∧
        (MonteCarloPrunableByOrderStatistics_ env m q r confidence d).2.2 =
          { m with rng_pos := m.rng_pos + 2 * n } := by
  obtain ⟨new, ht, hn⟩ := canonical_callCount env qnode rnode p st
  exact ⟨⟨_, new, rfl, ht, hn⟩, fun m q r c d => monteCarlo_iterations env m q r c d⟩

end Termination

section MonteCarloClaim

variable {B K : Type}

theorem batchSample_mem (env : Env B K) (q r : Tree B) (s : BatchState K) :
    (batchSample env q r s).mem = { s.mem with rng_pos := s.mem.rng_pos + 2 } := rfl

theorem batch_iterate (env : Env B K) (q r : Tree B) (n : Nat) (s : BatchState K) :
    ((batchSample env q r)^[n] s).mem = { s.mem with rng_pos := s.mem.rng_pos + 2 * n } ∧
      ((batchSample env q r)^[n] s).total_samples = s.total_samples ∧
      ((batchSample env q r)^[n] s).flag = s.flag := by
  induction n generalizing s with
  | zero => exact ⟨rfl, rfl, rfl⟩
  | succ n ih =>
    rw [Function.iterate_succ_apply]
    obtain ⟨h1, h2, h3⟩ := ih (batchSample env q r s)
    refine ⟨?_, h2, h3⟩
    rw [h1, batchSample_mem]
    simp only [Mem.mk.injEq, true_and]
    ring

theorem monteCarloRound_leaves (env : Env B K) (cfg : MonteCarloConfig) (q r : Tree B) (p : ℚ)
    (d : Deltas) (s : BatchState K) : (monteCarloRound env cfg q r p d s).2 = true := by
  unfold monteCarloRound
  dsimp only
  split_ifs <;> rfl

theorem monteCarloRounds_succ (env : Env B K) (cfg : MonteCarloConfig) (q r : Tree B) (p : ℚ)
    (d : Deltas) (fuel : Nat) (s : BatchState K) :
    monteCarloRounds env cfg q r p d (fuel + 1) s =
      some (monteCarloRound env cfg q r p d s).1 := by
  simp only [monteCarloRounds, monteCarloRound_leaves, if_true]

theorem firstBatch_facts (env : Env B K) (q r : Tree B) (n : Int) (m : Mem K) :
    (firstBatch env q r n m).mem = { m with rng_pos := m.rng_pos + 2 * n.toNat } ∧
      (firstBatch env q r n m).total_samples = 0 ∧ (firstBatch env q r n m).flag = true :=
  batch_iterate env q r n.toNat ⟨m, .fin 0, 0, 0, .fin 0, true⟩

/-- The first round of the loop in terms of the mean, the half-width and the
budget of the spec. -/
theorem monteCarloRound_first (env : Env B K) (cfg : MonteCarloConfig) (q r : Tree B) (p : ℚ)
    (d : Deltas) (m : Mem K) :
    (monteCarloRound env cfg q r p d ⟨m, .fin 0, 0, 0, .fin 0, true⟩).1 =
      if Ext.ltE
          (specHalfWidth env cfg p
            (firstBatch env q r cfg.num_initial_samples_per_query m)
            cfg.num_initial_samples_per_query)
          (specBudget env cfg m q d) then
        { firstBatch env q r cfg.num_initial_samples_per_query m with
          total_samples := cfg.num_initial_samples_per_query
          kernel_sums := Ext.mul
            (specSampleMean (firstBatch env q r cfg.num_initial_samples_per_query m)
              cfg.num_initial_samples_per_query)
            (.fin (cfg.farfield_weight_sum r.id))
          max_used_error := Ext.mul
            (Ext.mul (.fin (cfg.farfield_weight_sum r.id))
              (.fin (cfg.inverse_normal_cdf (p + 0.5 * (1 - p)))))
            (Ext.sqrtE env.sqrt
              (specSampleVariance (firstBatch env q r cfg.num_initial_samples_per_query m)
                cfg.num_initial_samples_per_query)) }
      else
        { firstBatch env q r cfg.num_initial_samples_per_query m with
          total_samples := cfg.num_initial_samples_per_query
          flag := false } := by
  obtain ⟨h1, h2, _⟩ := firstBatch_facts env q r cfg.num_initial_samples_per_query m
  have hstat : (firstBatch env q r cfg.num_initial_samples_per_query m).mem.stat = m.stat := by
    rw [h1]
  unfold monteCarloRound specHalfWidth specSampleVariance specSampleMean specBudget
  dsimp only
  change (if Ext.ltE _ _ = true then _ else _ : BatchState K × Bool).1 = _
  have e : (firstBatch env q r cfg.num_initial_samples_per_query m).total_samples +
      cfg.num_initial_samples_per_query = cfg.num_initial_samples_per_query := by
    rw [h2, zero_add]
  unfold firstBatch at e hstat ⊢
  rw [e, hstat]
  split_ifs <;> rfl

/-- C20, the claim as stated fails: on the first instance with
`threshold_ = 1/8`, batches of two samples and the quantile 2, the half-width
1/16 after the first batch does not satisfy the budget 1/24; the prune is
refused with four numbers drawn, that is after the single batch of two
samples, although five rounds are allowed and the pair has three point
pairs. -/
theorem C20_counterexample :
    specHalfWidth (Example.env (1 / 8)) Example.mcConfig (1 / 2)
        (firstBatch (Example.env (1 / 8)) Example.qroot Example.rleaf 2 Example.mem0r) 2 =
        .fin (1 / 16) ∧
      specBudget (Example.env (1 / 8)) Example.mcConfig Example.mem0r Example.qroot
        (Prunable_ (Example.env (1 / 8)) Example.mem0r Example.qroot Example.rleaf
          (1 / 2)).deltas = .fin (1 / 24) ∧
      Example.qroot.count * Example.rleaf.count = 3 ∧
      (MonteCarloPrunable_ (Example.env (1 / 8)) Example.mcConfig 5 Example.mem0r Example.qroot
        Example.rleaf (1 / 2)
        (Prunable_ (Example.env (1 / 8)) Example.mem0r Example.qroot Example.rleaf
          (1 / 2)).deltas).map (fun res => (res.1, res.2.2.2.rng_pos)) = some (false, 4) := by
  decide!

/-- C20, amended. `MonteCarloPrunable_` draws a single batch: when
`qnode.count * rnode.count` is less than `num_initial_samples_per_query_` it
returns false at once; otherwise, for every bound of at least one round, it
returns after the first batch of `num_initial_samples_per_query_` samples
(two indices drawn for each): when the half-width
`z(confidence) * sample_stddev` is less than the error budget, the result is
true, `de` is the sample mean times the weight of the reference node and
`used_error` that weight times the quantile times the standard deviation;
when it is not, the prune is refused at once, with `de` and `used_error` as
they were. -/
theorem C20_single_batch (env : Env B K) (cfg : MonteCarloConfig) (fuel : Nat) (m : Mem K)
    (qnode rnode : Tree B) (probability : ℚ) (d : Deltas) :
    ((qnode.count : Int) * (rnode.count : Int) < cfg.num_initial_samples_per_query →
        MonteCarloPrunable_ env cfg (fuel + 1) m qnode rnode probability d =
          some (false, .fin d.de, .fin d.used_error, m)) ∧
      (¬ (qnode.count : Int) * (rnode.count : Int) < cfg.num_initial_samples_per_query →
        MonteCarloPrunable_ env cfg (fuel + 1) m qnode rnode probability d =
            some
              (if Ext.ltE
                  (specHalfWidth env cfg probability
                    (firstBatch env qnode rnode cfg.num_initial_samples_per_query m)
                    cfg.num_initial_samples_per_query)
                  (specBudget env cfg m qnode d) then
                (true,
                  Ext.mul
                    (specSampleMean
                      (firstBatch env qnode rnode cfg.num_initial_samples_per_query m)
                      cfg.num_initial_samples_per_query)
                    (.fin (cfg.farfield_weight_sum rnode.id)),
                  Ext.mul
                    (Ext.mul (.fin (cfg.farfield_weight_sum rnode.id))
                      (.fin (cfg.inverse_normal_cdf (probability + 0.5 * (1 - probability)))))
                    (Ext.sqrtE env.sqrt
                      (specSampleVariance
                        (firstBatch env qnode rnode cfg.num_initial_samples_per_query m)
                        cfg.num_initial_samples_per_query)),
                  (firstBatch env qnode rnode cfg.num_initial_samples_per_query m).mem)
              else
                (false, .fin d.de, .fin d.used_error,
                  (firstBatch env qnode rnode cfg.num_initial_samples_per_query m).mem)) ∧
          (firstBatch env qnode rnode cfg.num_initial_samples_per_query m).mem =
            { m with
              rng_pos := m.rng_pos + 2 * cfg.num_initial_samples_per_query.toNat }) := by
  constructor
  · intro h
    unfold MonteCarloPrunable_
    rw [if_pos h]
  · intro h
    obtain ⟨h1, _, h3⟩ := firstBatch_facts env qnode rnode cfg.num_initial_samples_per_query m
    refine ⟨?_, h1⟩
    unfold MonteCarloPrunable_
    rw [if_neg h, monteCarloRounds_succ, monteCarloRound_first]
    by_cases hc : Ext.ltE
        (specHalfWidth env cfg probability
          (firstBatch env qnode rnode cfg.num_initial_samples_per_query m)
          cfg.num_initial_samples_per_query)
        (specBudget env cfg m qnode d) = true
    · rw [if_pos hc, if_pos hc]
      dsimp only
      rw [if_pos h3]
    · rw [if_neg hc, if_neg hc]
      dsimp only
      rw [if_neg (by simp)]

/-- C20, amended, at a concrete input: with `threshold_ = 1` the half-width
1/16 of the first batch is within the budget 1/3 and the prune is approved
after that batch. -/
theorem C20_single_batch_witness :
    (firstBatch (Example.env 1) Example.qroot Example.rleaf
        Example.mcConfig.num_initial_samples_per_query Example.mem0r).mem =
      { Example.mem0r with
        rng_pos := Example.mem0r.rng_pos +
          2 * Example.mcConfig.num_initial_samples_per_query.toNat } :=
  ((C20_single_batch (Example.env 1) Example.mcConfig 4 Example.mem0r Example.qroot
    Example.rleaf (1 / 2)
    (Prunable_ (Example.env 1) Example.mem0r Example.qroot Example.rleaf (1 / 2)).deltas).2
    (by decide)).2

end MonteCarloClaim

namespace Dtb

section GraphLemmas

theorem Joined.here (E : Finset (Nat × Nat)) (a : Nat) : Joined E a a :=
  Relation.EqvGen.refl a

theorem Joined.symm {E : Finset (Nat × Nat)} {a b : Nat} (h : Joined E a b) : Joined E b a :=
  Relation.EqvGen.symm _ _ h

theorem Joined.follow {E : Finset (Nat × Nat)} {a b c : Nat} (h1 : Joined E a b)
    (h2 : Joined E b c) : Joined E a c :=
  Relation.EqvGen.trans _ _ _ h1 h2

theorem Joined.edge {E : Finset (Nat × Nat)} {a b : Nat} (h : (a, b) ∈ E) : Joined E a b :=
  Relation.EqvGen.rel _ _ h

/-- A property that every edge preserves is preserved along a chain. -/
theorem Joined.invariant {E : Finset (Nat × Nat)} (P : Nat → Prop)
    (h : ∀ x y, (x, y) ∈ E → (P x ↔ P y)) {a b : Nat} (hab : Joined E a b) : P a ↔ P b := by
  induction hab with
  | rel x y hxy => exact h x y hxy
  | refl x => exact Iff.rfl
  | symm x y _ ih => exact ih.symm
  | trans x y z _ _ ih1 ih2 => exact ih1.trans ih2

theorem Joined.subset {E E1 : Finset (Nat × Nat)} (h : E ⊆ E1) {a b : Nat} (hab : Joined E a b) :
    Joined E1 a b := by
  induction hab with
  | rel x y hxy => exact Joined.edge (h hxy)
  | refl x => exact Joined.here _ _
  | symm x y _ ih => exact ih.symm
  | trans x y z _ _ ih1 ih2 => exact ih1.follow ih2

/-- A chain in an edge set with one more edge either avoids the new edge or
passes through it. -/
theorem Joined.insert_iff (E : Finset (Nat × Nat)) (u v a b : Nat) :
    Joined (insert (u, v) E) a b ↔
      Joined E a b ∨ (Joined E a u ∧ Joined E v b) ∨ (Joined E a v ∧ Joined E u b) := by
  constructor
  · intro h
    -- the class of `a` in `E`, closed under the new edge
    have key : ∀ x y, Joined (insert (u, v) E) x y →
        ∀ c, (Joined E c x ∨ (Joined E c u ∧ Joined E v x) ∨ (Joined E c v ∧ Joined E u x)) ↔
          (Joined E c y ∨ (Joined E c u ∧ Joined E v y) ∨ (Joined E c v ∧ Joined E u y)) := by
      intro x y hxy c
      refine Joined.invariant
        (fun z => Joined E c z ∨ (Joined E c u ∧ Joined E v z) ∨ (Joined E c v ∧ Joined E u z))
        ?_ hxy
      intro x y hxy
      rw [Finset.mem_insert] at hxy
      rcases hxy with hxy | hxy
      · obtain ⟨rfl, rfl⟩ := Prod.mk.inj hxy
        constructor
        · rintro (h1 | ⟨h1, _⟩ | ⟨h1, _⟩)
          · exact Or.inr (Or.inl ⟨h1, Joined.here _ _⟩)
          · exact Or.inr (Or.inl ⟨h1, Joined.here _ _⟩)
          · exact Or.inl h1
        · rintro (h1 | ⟨h1, _⟩ | ⟨h1, _⟩)
          · exact Or.inr (Or.inr ⟨h1, Joined.here _ _⟩)
          · exact Or.inl h1
          · exact Or.inr (Or.inr ⟨h1, Joined.here _ _⟩)
      · have e : Joined E x y := Joined.edge hxy
        constructor
        · rintro (h1 | ⟨h1, h2⟩ | ⟨h1, h2⟩)
          · exact Or.inl (h1.follow e)
          · exact Or.inr (Or.inl ⟨h1, h2.follow e⟩)
          · exact Or.inr (Or.inr ⟨h1, h2.follow e⟩)
        · rintro (h1 | ⟨h1, h2⟩ | ⟨h1, h2⟩)
          · exact Or.inl (h1.follow e.symm)
          · exact Or.inr (Or.inl ⟨h1, h2.follow e.symm⟩)
          · exact Or.inr (Or.inr ⟨h1, h2.follow e.symm⟩)
    exact (key a b h a).1 (Or.inl (Joined.here _ _))
  · have hm : E ⊆ insert (u, v) E := Finset.subset_insert _ _
    have he : Joined (insert (u, v) E) u v := Joined.edge (Finset.mem_insert_self _ _)
    rintro (h1 | ⟨h1, h2⟩ | ⟨h1, h2⟩)
    · exact h1.subset hm
    · exact ((h1.subset hm).follow he).follow (h2.subset hm)
    · exact ((h1.subset hm).follow he.symm).follow (h2.subset hm)

theorem Joined.empty_iff (a b : Nat) : Joined ∅ a b ↔ a = b := by
  constructor
  · intro h
    have := Joined.invariant (E := ∅) (fun z => a = z) (fun x y hxy => by simp at hxy) h
    exact this.1 rfl
  · rintro rfl
    exact Joined.here _ _

/-- The order of the two indices of an edge does not matter for joining. -/
theorem Joined.insert_swap (E : Finset (Nat × Nat)) (u v a b : Nat) :
    Joined (insert (u, v) E) a b ↔ Joined (insert (v, u) E) a b := by
  rw [Joined.insert_iff, Joined.insert_iff]
  constructor
  · rintro (h | h | h)
    · exact Or.inl h
    · exact Or.inr (Or.inr h)
    · exact Or.inr (Or.inl h)
  · rintro (h | h | h)
    · exact Or.inl h
    · exact Or.inr (Or.inr h)
    · exact Or.inr (Or.inl h)

theorem Joined.insert_ordered (E : Finset (Nat × Nat)) (u v a b : Nat) :
    Joined (insert (ordered u v) E) a b ↔
      Joined E a b ∨ (Joined E a u ∧ Joined E v b) ∨ (Joined E a v ∧ Joined E u b) := by
  unfold ordered
  split_ifs
  · exact Joined.insert_iff E u v a b
  · rw [Joined.insert_swap]
    exact Joined.insert_iff E u v a b

end GraphLemmas

end Dtb

namespace Dtb

section Exchange

theorem Joined.of_rel {E E1 : Finset (Nat × Nat)}
    (h : ∀ x y, (x, y) ∈ E → Joined E1 x y) {a b : Nat} (hab : Joined E a b) : Joined E1 a b := by
  induction hab with
  | rel x y hxy => exact h x y hxy
  | refl x => exact Joined.here _ _
  | symm x y _ ih => exact ih.symm
  | trans x y z _ _ ih1 ih2 => exact ih1.follow ih2

theorem ordered_cases (u v : Nat) : ordered u v = (u, v) ∨ ordered u v = (v, u) := by
  unfold ordered
  split_ifs
  · exact Or.inl rfl
  · exact Or.inr rfl

theorem ordered_lt {u v : Nat} (h : u ≠ v) : (ordered u v).1 < (ordered u v).2 := by
  unfold ordered
  split_ifs with h1
  · exact h1
  · exact lt_of_le_of_ne (not_lt.1 h1) (Ne.symm h)

theorem ordered_snd_lt {u v n : Nat} (hu : u < n) (hv : v < n) : (ordered u v).2 < n := by
  unfold ordered
  split_ifs
  · exact hv
  · exact hu

theorem Joined.ordered_edge {E : Finset (Nat × Nat)} {u v : Nat} (h : ordered u v ∈ E) :
    Joined E u v := by
  rcases ordered_cases u v with e | e
  · rw [e] at h; exact Joined.edge h
  · rw [e] at h; exact (Joined.edge h).symm

/-- Adding an edge between two points that are not joined keeps the edge set
free of cycles. -/
theorem Acyclic.insert {E : Finset (Nat × Nat)} (hE : Acyclic E) {u v : Nat}
    (hne : ¬ Joined E u v) : Acyclic (insert (ordered u v) E) := by
  have hnot : ordered u v ∉ E := fun h => hne (Joined.ordered_edge h)
  intro f hf
  rw [Finset.mem_insert] at hf
  rcases hf with rfl | hf
  · rw [Finset.erase_insert hnot]
    rcases ordered_cases u v with e | e
    · rw [e]; exact hne
    · rw [e]; exact fun h => hne h.symm
  · have hfe : ordered u v ≠ f := fun e => hnot (e ▸ hf)
    rw [Finset.erase_insert_of_ne hfe, Joined.insert_ordered]
    have hsub : E.erase f ⊆ E := Finset.erase_subset _ _
    have hedge : Joined E f.1 f.2 := Joined.edge hf
    rintro (h | ⟨h1, h2⟩ | ⟨h1, h2⟩)
    · exact hE f hf h
    · exact hne (((h1.subset hsub).symm.follow hedge).follow (h2.subset hsub).symm)
    · exact hne ((h2.subset hsub).follow (hedge.symm.follow (h1.subset hsub)))

/-- The exchange step of the cut property: a connected edge set that
contains the forest `F` can be changed into one that also contains a least
edge leaving the class of `u`, without growing in weight. -/
theorem exchange (n : Nat) (w : Nat × Nat → ℚ) (F T : Finset (Nat × Nat)) (u v : Nat)
    (hFT : F ⊆ T) (hT : Spanning n T) (hu : u < n) (hv : v < n) (huv : ¬ Joined F u v)
    (hmin : ∀ g ∈ T, (Joined F g.1 u ∧ ¬ Joined F g.2 u) ∨ (¬ Joined F g.1 u ∧ Joined F g.2 u) →
      w (ordered u v) ≤ w g) :
    ∃ T1, Spanning n T1 ∧ insert (ordered u v) F ⊆ T1 ∧ ∑ e ∈ T1, w e ≤ ∑ e ∈ T, w e := by
  by_cases he : ordered u v ∈ T
  · exact ⟨T, hT, Finset.insert_subset he hFT, le_refl _⟩
  have hne : u ≠ v := fun e => huv (e ▸ Joined.here _ _)
  -- the chains that do not leave or enter the class of `u`
  let Rn : Nat → Nat → Prop := fun x y => (x, y) ∈ T ∧ (Joined F x u ↔ Joined F y u)
  let S : Nat → Prop := fun z => ¬ Joined F z u ∧ Relation.EqvGen Rn z v
  let C : Prop := ∃ g ∈ T, (Joined F g.1 u ∧ ¬ Joined F g.2 u ∧ Relation.EqvGen Rn g.2 v) ∨
    (¬ Joined F g.1 u ∧ Joined F g.2 u ∧ Relation.EqvGen Rn g.1 v)
  have hinv : ∀ x y, (x, y) ∈ T → ((S x ∨ C) ↔ (S y ∨ C)) := by
    intro x y hxy
    by_cases hc : C
    · exact ⟨fun _ => Or.inr hc, fun _ => Or.inr hc⟩
    · by_cases hcross : Joined F x u ↔ Joined F y u
      · have hr : Rn x y := ⟨hxy, hcross⟩
        constructor
        · rintro (⟨h1, h2⟩ | h)
          · exact Or.inl ⟨fun h => h1 (hcross.2 h),
              Relation.EqvGen.trans _ _ _ (Relation.EqvGen.symm _ _ (Relation.EqvGen.rel _ _ hr)) h2⟩
          · exact Or.inr h
        · rintro (⟨h1, h2⟩ | h)
          · exact Or.inl ⟨fun h => h1 (hcross.1 h),
              Relation.EqvGen.trans _ _ _ (Relation.EqvGen.rel _ _ hr) h2⟩
          · exact Or.inr h
      · constructor
        · rintro (⟨h1, h2⟩ | h)
          · have hy : Joined F y u := by
              by_contra hy
              exact hcross ⟨fun h => absurd h h1, fun h => absurd h hy⟩
            exact absurd ⟨(x, y), hxy, Or.inr ⟨h1, hy, h2⟩⟩ hc
          · exact Or.inr h
        · rintro (⟨h1, h2⟩ | h)
          · have hx : Joined F x u := by
              by_contra hx
              exact hcross ⟨fun h => absurd h hx, fun h => absurd h h1⟩
            exact absurd ⟨(x, y), hxy, Or.inl ⟨hx, h1, h2⟩⟩ hc
          · exact Or.inr h
  have hC : C := by
    have h := (Joined.invariant (fun z => S z ∨ C) hinv (hT.2 u v hu hv)).2
      (Or.inl ⟨fun h => huv h.symm, Relation.EqvGen.refl v⟩)
    rcases h with ⟨h1, _⟩ | h
    · exact absurd (Joined.here F u) h1
    · exact h
  obtain ⟨g, hgT, hg⟩ := hC
  have hcrossg : (Joined F g.1 u ∧ ¬ Joined F g.2 u) ∨ (¬ Joined F g.1 u ∧ Joined F g.2 u) := by
    rcases hg with ⟨h1, h2, _⟩ | ⟨h1, h2, _⟩
    · exact Or.inl ⟨h1, h2⟩
    · exact Or.inr ⟨h1, h2⟩
  have hgF : g ∉ F := by
    intro hgF
    have e : Joined F g.1 g.2 := Joined.edge hgF
    rcases hcrossg with ⟨h1, h2⟩ | ⟨h1, h2⟩
    · exact h2 (e.symm.follow h1)
    · exact h1 (e.follow h2)
  have hFsub : F ⊆ insert (ordered u v) (T.erase g) := by
    intro f hf
    exact Finset.mem_insert_of_mem (Finset.mem_erase.2 ⟨fun e => hgF (e ▸ hf), hFT hf⟩)
  have hRn : ∀ a b, Relation.EqvGen Rn a b → Joined (insert (ordered u v) (T.erase g)) a b := by
    intro a b hab
    induction hab with
    | rel x y hxy =>
      refine Joined.edge (Finset.mem_insert_of_mem (Finset.mem_erase.2 ⟨?_, hxy.1⟩))
      intro e
      rcases hcrossg with ⟨h1, h2⟩ | ⟨h1, h2⟩
      · rw [← e] at h1 h2; exact h2 (hxy.2.1 h1)
      · rw [← e] at h1 h2; exact h1 (hxy.2.2 h2)
    | refl x => exact Joined.here _ _
    | symm x y _ ih => exact ih.symm
    | trans x y z _ _ ih1 ih2 => exact ih1.follow ih2
  have huv1 : Joined (insert (ordered u v) (T.erase g)) u v :=
    Joined.ordered_edge (Finset.mem_insert_self _ _)
  have hg12 : Joined (insert (ordered u v) (T.erase g)) g.1 g.2 := by
    rcases hg with ⟨h1, _, h3⟩ | ⟨_, h2, h3⟩
    · exact ((h1.subset hFsub).follow huv1).follow (hRn _ _ h3).symm
    · exact ((hRn _ _ h3).follow huv1.symm).follow (h2.subset hFsub).symm
  refine ⟨insert (ordered u v) (T.erase g), ⟨?_, ?_⟩, ?_, ?_⟩
  · intro f hf
    rw [Finset.mem_insert] at hf
    rcases hf with rfl | hf
    · exact ⟨ordered_lt hne, ordered_snd_lt hu hv⟩
    · exact hT.1 f (Finset.mem_of_mem_erase hf)
  · intro a b ha hb
    refine Joined.of_rel ?_ (hT.2 a b ha hb)
    intro x y hxy
    by_cases e : (x, y) = g
    · have e1 : g.1 = x := by rw [← e]
      have e2 : g.2 = y := by rw [← e]
      rw [e1, e2] at hg12
      exact hg12
    · exact Joined.edge (Finset.mem_insert_of_mem (Finset.mem_erase.2 ⟨e, hxy⟩))
  · exact Finset.insert_subset (Finset.mem_insert_self _ _) hFsub
  · have hnot : ordered u v ∉ T.erase g := fun h => he (Finset.mem_of_mem_erase h)
    rw [Finset.sum_insert hnot, ← Finset.add_sum_erase T w hgT]
    have := hmin g hgT hcrossg
    linarith

end Exchange

end Dtb

namespace Dtb

section StepLemmas

variable {B : Type} {uf : UnionFind}

theorem DistanceSq_comm (a b : List ℚ) : DistanceSqEuclidean a b = DistanceSqEuclidean b a := by
  unfold DistanceSqEuclidean
  congr 1
  induction a generalizing b with
  | nil => cases b <;> rfl
  | cons x a ih =>
    cases b with
    | nil => rfl
    | cons y b =>
      simp only [List.zipWith_cons_cons, ih b]
      congr 1
      ring

theorem Config.dist_comm (cfg : Config B) (i j : Nat) : cfg.dist i j = cfg.dist j i :=
  DistanceSq_comm _ _

theorem Config.dist_nonneg (cfg : Config B) (i j : Nat) : 0 ≤ cfg.dist i j :=
  DistanceSqEuclidean_nonneg _ _

theorem Config.dist_ordered (cfg : Config B) (u v : Nat) :
    cfg.dist (ordered u v).1 (ordered u v).2 = cfg.dist u v := by
  rcases ordered_cases u v with e | e
  · rw [e]
  · rw [e]; exact cfg.dist_comm v u

/-- The object after an edge was added for the pair `(u, v)`. -/
theorem addEdge_edgeList (s : DualTreeBoruvka uf) (u v : Nat) (d : ℚ) (c : uf.Carrier) (t : ℚ) :
    edgeList ({ AddEdge_ u v d { s with total_dist := t } with connections := c } :
      DualTreeBoruvka uf) = edgeList s ++ [ordered u v] := by
  unfold edgeList AddEdge_ ordered
  by_cases h : u < v
  · simp only [h, if_true, List.range_succ, List.map_append, List.map_cons, List.map_nil,
      Function.update_same]
    congr 1
    apply List.map_congr_left
    intro k hk
    rw [List.mem_range] at hk
    rw [Function.update_noteq (Nat.ne_of_lt hk)]
  · simp only [h, if_false, List.range_succ, List.map_append, List.map_cons, List.map_nil,
      Function.update_same]
    congr 1
    apply List.map_congr_left
    intro k hk
    rw [List.mem_range] at hk
    rw [Function.update_noteq (Nat.ne_of_lt hk)]

end StepLemmas

end Dtb

namespace Dtb

section AddEdge

variable {B : Type} {uf : UnionFind}

theorem edgeSet_add (s : DualTreeBoruvka uf) (u v : Nat) (d : ℚ) (c : uf.Carrier) (t : ℚ) :
    edgeSet ({ AddEdge_ u v d { s with total_dist := t } with connections := c } :
      DualTreeBoruvka uf) = insert (ordered u v) (edgeSet s) := by
  unfold edgeSet
  rw [addEdge_edgeList]
  ext e
  simp only [List.toFinset_append, List.toFinset_cons, List.toFinset_nil, Finset.mem_union,
    List.mem_toFinset, Finset.mem_insert, Finset.mem_singleton, insert_emptyc_eq]
  tauto

theorem mem_edgeSet_iff (s : DualTreeBoruvka uf) (e : Nat × Nat) :
    e ∈ edgeSet s ↔ e ∈ edgeList s := List.mem_toFinset

/-- The components after `Union(u, v)`. -/
theorem comp_union (hl : uf.Lawful) (s : DualTreeBoruvka uf) (u v : Nat) (d : ℚ) (t : ℚ)
    (i : Nat) :
    comp ({ AddEdge_ u v d { s with total_dist := t } with
        connections := uf.Union s.connections u v } : DualTreeBoruvka uf) i =
      if comp s i = comp s u ∨ comp s i = comp s v then uf.Find (uf.Union s.connections u v) u
      else comp s i :=
  hl.find_union s.connections u v i

/-- Adding a least edge that leaves the component of `u` keeps the invariant
of the edges and the components. -/
theorem Forest.add_edge (hl : uf.Lawful) (cfg : Config B) (s : DualTreeBoruvka uf)
    (hF : Forest cfg s) (u v : Nat) (hu : u < cfg.number_of_points)
    (hv : v < cfg.number_of_points) (hne : comp s u ≠ comp s v)
    (hmin : ∀ a b, a < cfg.number_of_points → b < cfg.number_of_points →
      comp s a = comp s u → comp s b ≠ comp s u → cfg.dist u v ≤ cfg.dist a b) :
    Forest cfg ({ AddEdge_ u v (cfg.dist u v)
        { s with total_dist := s.total_dist + cfg.dist u v } with
      connections := uf.Union s.connections u v } : DualTreeBoruvka uf) := by
  set s1 : DualTreeBoruvka uf := { AddEdge_ u v (cfg.dist u v)
        { s with total_dist := s.total_dist + cfg.dist u v } with
      connections := uf.Union s.connections u v } with hs1
  have hcomp : ∀ i, comp s1 i =
      if comp s i = comp s u ∨ comp s i = comp s v then uf.Find (uf.Union s.connections u v) u
      else comp s i := fun i => comp_union hl s u v _ _ i
  have hset : edgeSet s1 = insert (ordered u v) (edgeSet s) := edgeSet_add s u v _ _ _
  have hlist : edgeList s1 = edgeList s ++ [ordered u v] := addEdge_edgeList s u v _ _ _
  have hroot := hl.union_root s.connections u v
  set rnew := uf.Find (uf.Union s.connections u v) u with hrnew
  have hcu : comp s (comp s u) = comp s u := hl.find_find _ _
  have hcv : comp s (comp s v) = comp s v := hl.find_find _ _
  have hnj : ¬ Joined (edgeSet s) u v := fun h => hne ((hF.joined u v).2 h)
  have hnot : ordered u v ∉ edgeSet s := fun h => hnj (Joined.ordered_edge h)
  have huv : u ≠ v := fun e => hne (e ▸ rfl)
  have hnoe : s1.number_of_edges = s.number_of_edges + 1 := by
    rw [hs1]; unfold AddEdge_; dsimp only; split_ifs <;> rfl
  have hroot' : rnew = comp s u ∨ rnew = comp s v := hroot
  refine ⟨?_, ?_, ?_, ?_, ?_, ?_, ?_, ?_⟩
  · intro i hi
    rw [hcomp]
    split_ifs
    · rcases hroot' with e | e
      · rw [e]; exact hF.root_lt u hu
      · rw [e]; exact hF.root_lt v hv
    · exact hF.root_lt i hi
  · intro i j
    rw [hset, Joined.insert_ordered, ← hF.joined, ← hF.joined, ← hF.joined, ← hF.joined,
      ← hF.joined, hcomp, hcomp]
    have hne' : comp s u ≠ comp s v := hne
    split_ifs with h1 h2 h2 <;> constructor <;> intro h <;> omega
  · intro k hk
    rw [hnoe] at hk
    have hedges : s1.edges = Function.update s.edges s.number_of_edges
        ⟨(ordered u v).1, (ordered u v).2, cfg.dist u v⟩ := by
      rw [hs1]; unfold AddEdge_ ordered; dsimp only; split_ifs <;> rfl
    rw [hedges]
    by_cases hk2 : k = s.number_of_edges
    · subst hk2
      rw [Function.update_same]
      exact ⟨ordered_lt huv, ordered_snd_lt hu hv, (cfg.dist_ordered u v).symm⟩
    · rw [Function.update_noteq hk2]
      exact hF.edge_ok k (by omega)
  · rw [hlist]
    refine List.Nodup.append hF.nodup (List.nodup_singleton _) ?_
    intro e he1 he2
    rw [List.mem_singleton] at he2
    subst he2
    exact hnot ((mem_edgeSet_iff s _).2 he1)
  · rw [hset]
    exact hF.acyclic.insert hnj
  · have ht : s1.total_dist = s.total_dist + cfg.dist u v := by
      rw [hs1]; unfold AddEdge_; dsimp only; split_ifs <;> rfl
    rw [ht, hset, hF.total]
    unfold weight
    rw [Finset.sum_insert hnot, cfg.dist_ordered]
    ring
  · rw [hnoe]
    have hloser : ∃ loser, (loser = comp s u ∨ loser = comp s v) ∧ loser ≠ rnew ∧
        ∀ x, (x = comp s u ∨ x = comp s v) → x = loser ∨ x = rnew := by
      rcases hroot' with e | e
      · exact ⟨comp s v, Or.inr rfl, fun h => hne (e.symm.trans h.symm), fun x hx => by
            rcases hx with hx | hx
            · exact Or.inr (hx.trans e.symm)
            · exact Or.inl hx⟩
      · exact ⟨comp s u, Or.inl rfl, fun h => hne (h.trans e), fun x hx => by
            rcases hx with hx | hx
            · exact Or.inl hx
            · exact Or.inr (hx.trans e.symm)⟩
    obtain ⟨loser, hl1, hl2, hl3⟩ := hloser
    have hloser_root : loser ∈ roots cfg.number_of_points s := by
      unfold roots
      rw [Finset.mem_filter, Finset.mem_range]
      rcases hl1 with e | e
      · rw [e]; exact ⟨hF.root_lt u hu, hcu⟩
      · rw [e]; exact ⟨hF.root_lt v hv, hcv⟩
    have hrn : comp s rnew = rnew := by
      rcases hroot' with e | e
      · rw [e]; exact hcu
      · rw [e]; exact hcv
    have heq : roots cfg.number_of_points s1 = (roots cfg.number_of_points s).erase loser := by
      ext i
      unfold roots
      simp only [Finset.mem_filter, Finset.mem_range, Finset.mem_erase]
      rw [hcomp]
      constructor
      · rintro ⟨hi, h⟩
        split_ifs at h with hm
        · have e : i = rnew := h.symm
          exact ⟨by rw [e]; exact fun h2 => hl2 h2.symm, hi, by rw [e]; exact hrn⟩
        · refine ⟨fun e => hm ?_, hi, h⟩
          rw [h, e]
          exact hl1
      · rintro ⟨hne2, hi, h⟩
        refine ⟨hi, ?_⟩
        split_ifs with hm
        · rw [h] at hm
          rcases hl3 i hm with e | e
          · exact absurd e hne2
          · exact e.symm
        · exact h
    rw [heq, Finset.card_erase_of_mem hloser_root]
    have hpos : 0 < (roots cfg.number_of_points s).card := Finset.card_pos.2 ⟨_, hloser_root⟩
    have := hF.count
    omega
  · intro T hT
    obtain ⟨T1, hT1, hsub, hw⟩ := hF.promising T hT
    obtain ⟨T2, hT2, hsub2, hw2⟩ := exchange cfg.number_of_points
      (fun e => cfg.dist e.1 e.2) (edgeSet s) T1 u v hsub hT1 hu hv hnj (by
        intro g hg hcross
        have hb := hT1.1 g hg
        show cfg.dist (ordered u v).1 (ordered u v).2 ≤ cfg.dist g.1 g.2
        rw [cfg.dist_ordered]
        rcases hcross with ⟨h1, h2⟩ | ⟨h1, h2⟩
        · exact hmin g.1 g.2 (by omega) hb.2 ((hF.joined _ _).2 h1)
            (fun h => h2 ((hF.joined _ _).1 h))
        · rw [cfg.dist_comm g.1 g.2]
          exact hmin g.2 g.1 hb.2 (by omega) ((hF.joined _ _).2 h2)
            (fun h => h1 ((hF.joined _ _).1 h)))
    refine ⟨T2, hT2, ?_, le_trans hw2 hw⟩
    rw [hset]
    exact hsub2

end AddEdge

end Dtb

namespace Dtb

section AddAll

variable {B : Type} {uf : UnionFind}

theorem addEdge_connections (s : DualTreeBoruvka uf) (u v : Nat) (d : ℚ) :
    (AddEdge_ u v d s).connections = s.connections := by
  unfold AddEdge_; dsimp only; split_ifs <;> rfl

theorem addEdge_number (s : DualTreeBoruvka uf) (u v : Nat) (d : ℚ) :
    (AddEdge_ u v d s).number_of_edges = s.number_of_edges + 1 := by
  unfold AddEdge_; dsimp only; split_ifs <;> rfl

theorem addEdge_arrays (s : DualTreeBoruvka uf) (u v : Nat) (d : ℚ) :
    (AddEdge_ u v d s).neighbors_in_component = s.neighbors_in_component ∧
      (AddEdge_ u v d s).neighbors_out_component = s.neighbors_out_component ∧
      (AddEdge_ u v d s).neighbors_distances = s.neighbors_distances ∧
      (AddEdge_ u v d s).stat = s.stat := by
  unfold AddEdge_; dsimp only; split_ifs <;> exact ⟨rfl, rfl, rfl, rfl⟩

/-- The step of `AddAllEdges_` when it adds an edge, in the form of
`Forest.add_edge`. -/
theorem addAllEdgesStep_add (s : DualTreeBoruvka uf) (i : Nat)
    (h : comp s (s.neighbors_in_component (comp s i)) ≠
      comp s (s.neighbors_out_component (comp s i))) :
    addAllEdgesStep s i =
      { AddEdge_ (s.neighbors_in_component (comp s i)) (s.neighbors_out_component (comp s i))
          (s.neighbors_distances (comp s i))
          { s with total_dist := s.total_dist + s.neighbors_distances (comp s i) } with
        connections := uf.Union s.connections (s.neighbors_in_component (comp s i))
          (s.neighbors_out_component (comp s i)) } := by
  unfold addAllEdgesStep
  have h1 : uf.Find s.connections (s.neighbors_in_component (uf.Find s.connections i)) ≠
      uf.Find s.connections (s.neighbors_out_component (uf.Find s.connections i)) := h
  simp only [h1, ne_eq, not_false_eq_true, if_true, addEdge_connections]
  rfl

theorem addAllEdgesStep_skip (s : DualTreeBoruvka uf) (i : Nat)
    (h : comp s (s.neighbors_in_component (comp s i)) =
      comp s (s.neighbors_out_component (comp s i))) :
    addAllEdgesStep s i = s := by
  unfold addAllEdgesStep
  have h1 : uf.Find s.connections (s.neighbors_in_component (uf.Find s.connections i)) =
      uf.Find s.connections (s.neighbors_out_component (uf.Find s.connections i)) := h
  simp only [h1, ne_eq, not_true_eq_false, if_false]

/-- The start of the loop of `AddAllEdges_`. -/
theorem Round.start (cfg : Config B) (hl : uf.Lawful) (s0 : DualTreeBoruvka uf)
    (hF : Forest cfg s0) (hS : Selected cfg s0) : Round cfg s0 s0 := by
  refine ⟨hF, rfl, rfl, rfl, rfl, fun _ _ h => h, fun i => hl.find_find _ _, ?_, le_refl _⟩
  rintro r ⟨i, hi, rfl⟩
  right
  intro y z hy hz hyr hzy
  have hroot : comp s0 (comp s0 i) = comp s0 i := hl.find_find _ _
  obtain ⟨_, _, _, _, _, hle⟩ := hS (comp s0 i) (hF.root_lt i hi) hroot
  exact hle y z hy hz hyr (fun e => hzy (e.trans hyr.symm))

/-- One step of the loop of `AddAllEdges_` keeps its invariant. -/
theorem Round.step (cfg : Config B) (hl : uf.Lawful) (s0 s : DualTreeBoruvka uf)
    (hS : Selected cfg s0) (hR : Round cfg s0 s) (i : Nat) (hi : i < cfg.number_of_points) :
    Round cfg s0 (addAllEdgesStep s i) ∧
      s.number_of_edges ≤ (addAllEdgesStep s i).number_of_edges ∧
      (comp s (s.neighbors_in_component (comp s i)) ≠
        comp s (s.neighbors_out_component (comp s i)) →
        (addAllEdgesStep s i).number_of_edges = s.number_of_edges + 1) := by
  by_cases hne : comp s (s.neighbors_in_component (comp s i)) =
      comp s (s.neighbors_out_component (comp s i))
  · rw [addAllEdgesStep_skip s i hne]
    exact ⟨hR, le_refl _, fun h => absurd hne h⟩
  rw [addAllEdgesStep_add s i hne]
  set r := comp s i with hr
  set u := s.neighbors_in_component r with hu0
  set v := s.neighbors_out_component r with hv0
  have hF := hR.forest
  have hr_lt : r < cfg.number_of_points := hF.root_lt i hi
  have hr_old : comp s0 r = r := hR.root_old i
  have hcr : comp s r = r := hl.find_find _ _
  have hu1 : u = s0.neighbors_in_component r := by rw [hu0, hR.same_in]
  have hv1 : v = s0.neighbors_out_component r := by rw [hv0, hR.same_out]
  obtain ⟨hu, hv, hcu0, hcv0, hnd, -⟩ := hS r hr_lt hr_old
  rw [← hu1] at hu hcu0 hnd
  rw [← hv1] at hv hcv0 hnd
  rw [← hR.same_dist] at hnd
  have hcu : comp s u = r := (hR.coarser u r (hcu0.trans hr_old.symm)).trans hcr
  have hcv : comp s v ≠ r := fun e => hne (hcu.trans e.symm)
  have hleast_r : ∀ y z, y < cfg.number_of_points → z < cfg.number_of_points → comp s y = r →
      comp s0 z ≠ comp s0 y → s.neighbors_distances r ≤ cfg.dist y z := by
    rcases hR.least r ⟨i, hi, rfl⟩ with h | h
    · exact absurd h hne
    · exact h
  have hmin : ∀ a b, a < cfg.number_of_points → b < cfg.number_of_points →
      comp s a = comp s u → comp s b ≠ comp s u → cfg.dist u v ≤ cfg.dist a b := by
    intro a b ha hb hca hcb
    rw [← hnd]
    exact hleast_r a b ha hb (hca.trans hcu) (fun e => hcb ((hR.coarser b a e).trans hca))
  rw [hnd]
  have hF1 := Forest.add_edge hl cfg s hF u v hu hv hne hmin
  set s1 : DualTreeBoruvka uf := { AddEdge_ u v (cfg.dist u v)
        { s with total_dist := s.total_dist + cfg.dist u v } with
      connections := uf.Union s.connections u v } with hs1
  have hcomp : ∀ x, comp s1 x =
      if comp s x = r ∨ comp s x = comp s v then uf.Find (uf.Union s.connections u v) u
      else comp s x := by
    intro x
    have := comp_union hl s u v (cfg.dist u v) (s.total_dist + cfg.dist u v) x
    rw [hcu] at this
    exact this
  have hroot : uf.Find (uf.Union s.connections u v) u = r ∨
      uf.Find (uf.Union s.connections u v) u = comp s v := by
    have := hl.union_root s.connections u v
    rcases this with e | e
    · exact Or.inl (e.trans hcu)
    · exact Or.inr e
  set rnew := uf.Find (uf.Union s.connections u v) u with hrnew
  set cv := comp s v with hcv1
  have harr := addEdge_arrays ({ s with total_dist := s.total_dist + cfg.dist u v })
    u v (cfg.dist u v)
  have hin : s1.neighbors_in_component = s.neighbors_in_component := harr.1
  have hout : s1.neighbors_out_component = s.neighbors_out_component := harr.2.1
  have hdist : s1.neighbors_distances = s.neighbors_distances := harr.2.2.1
  have hstat : s1.stat = s.stat := harr.2.2.2
  have hnum : s1.number_of_edges = s.number_of_edges + 1 :=
    addEdge_number ({ s with total_dist := s.total_dist + cfg.dist u v }) u v (cfg.dist u v)
  have hco : ∀ a b, comp s a = comp s b → comp s1 a = comp s1 b := by
    intro a b e
    rw [hcomp, hcomp, e]
  have hcvv : comp s cv = cv := hl.find_find _ _
  have hcv_old : comp s0 cv = cv := hR.root_old v
  refine ⟨⟨hF1, hin.trans hR.same_in, hout.trans hR.same_out, hdist.trans hR.same_dist,
    hstat.trans hR.same_stat, fun a b e => hco a b (hR.coarser a b e), ?_, ?_, ?_⟩,
    by omega, fun _ => hnum⟩
  · intro x
    rw [hcomp]
    split_ifs
    · rcases hroot with e | e
      · rw [e]; exact hr_old
      · rw [e]; exact hcv_old
    · exact hR.root_old x
  · rintro r1 ⟨j, hj, hj1⟩
    rw [hin, hout, hdist]
    by_cases hr1 : r1 = rnew
    · rcases hroot with e | e
      · left
        rw [hr1, e, ← hu0, ← hv0, hcomp, hcomp, if_pos (Or.inl hcu), if_pos (Or.inr rfl)]
      · rcases hR.least cv ⟨v, hv, rfl⟩ with h | h
        · left
          rw [hr1, e]
          exact hco _ _ h
        · right
          intro y z hy hz hcy hzy
          rw [hr1, e]
          have hy2 : comp s y = r ∨ comp s y = cv := by
            rw [hcomp] at hcy
            split_ifs at hcy with hm
            · exact hm
            · right
              rw [hcy, hr1, e]
          rcases hy2 with hy2 | hy2
          · have h1 : s.neighbors_distances cv ≤ cfg.dist v u :=
              h v u hv hu rfl (fun e2 => hcv0 (e2.symm.trans hcu0))
            have h2 : s.neighbors_distances r ≤ cfg.dist y z := hleast_r y z hy hz hy2 hzy
            rw [cfg.dist_comm v u, ← hnd] at h1
            exact le_trans h1 h2
          · exact h y z hy hz hy2 hzy
    · have hj2 : comp s j = r1 ∧ comp s j ≠ r ∧ comp s j ≠ cv := by
        rw [hcomp] at hj1
        split_ifs at hj1 with hm
        · exact absurd hj1.symm hr1
        · exact ⟨hj1, fun e => hm (Or.inl e), fun e => hm (Or.inr e)⟩
      rcases hR.least r1 ⟨j, hj, hj2.1⟩ with h | h
      · left
        exact hco _ _ h
      · right
        intro y z hy hz hcy hzy
        refine h y z hy hz ?_ hzy
        rw [hcomp] at hcy
        split_ifs at hcy with hm
        · exact absurd hcy.symm hr1
        · exact hcy
  · have := hR.edges_ge
    omega

end AddAll

end Dtb

namespace Dtb

section AddAllFold

variable {B : Type} {uf : UnionFind}

theorem Round.fold (cfg : Config B) (hl : uf.Lawful) (s0 : DualTreeBoruvka uf)
    (hS : Selected cfg s0) (l : List Nat) :
    ∀ s : DualTreeBoruvka uf, (∀ i ∈ l, i < cfg.number_of_points) → Round cfg s0 s →
      Round cfg s0 (l.foldl addAllEdgesStep s) ∧
        s.number_of_edges ≤ (l.foldl addAllEdgesStep s).number_of_edges := by
  induction l with
  | nil => intro s _ hR; exact ⟨hR, le_refl _⟩
  | cons i l ih =>
    intro s hlt hR
    obtain ⟨h1, h2, -⟩ := Round.step cfg hl s0 s hS hR i (hlt i (List.mem_cons_self _ _))
    obtain ⟨h3, h4⟩ := ih (addAllEdgesStep s i) (fun j hj => hlt j (List.mem_cons_of_mem _ hj)) h1
    exact ⟨h3, le_trans h2 h4⟩

/-- The method `AddAllEdges_` after a neighbour search: the invariant of the
edges holds, the neighbour arrays and the statistics are as they were, the
components have only merged, and at least one edge was added. -/
theorem addAllEdges_round (cfg : Config B) (hl : uf.Lawful) (s0 : DualTreeBoruvka uf)
    (hF : Forest cfg s0) (hS : Selected cfg s0) (hn : 0 < cfg.number_of_points) :
    Round cfg s0 (AddAllEdges_ cfg s0) ∧
      s0.number_of_edges + 1 ≤ (AddAllEdges_ cfg s0).number_of_edges := by
  unfold AddAllEdges_
  obtain ⟨n, hn1⟩ : ∃ n, cfg.number_of_points = n + 1 := ⟨cfg.number_of_points - 1, by omega⟩
  rw [hn1, List.range'_succ, List.foldl_cons]
  have hR0 := Round.start cfg hl s0 hF hS
  have h0 : 0 < cfg.number_of_points := hn
  obtain ⟨hu, hv, hcu, hcv, -, -⟩ := hS (comp s0 0) (hF.root_lt 0 h0) (hl.find_find _ _)
  obtain ⟨h1, -, h3⟩ := Round.step cfg hl s0 s0 hS hR0 0 h0
  have h4 := h3 (by rw [hcu]; exact fun e => hcv e.symm)
  obtain ⟨h5, h6⟩ := Round.fold cfg hl s0 hS (List.range' (0 + 1) n) (addAllEdgesStep s0 0)
    (by
      intro i hi
      rw [List.mem_range'] at hi
      obtain ⟨k, hk, rfl⟩ := hi
      omega) h1
  exact ⟨h5, by omega⟩

end AddAllFold

end Dtb

namespace Dtb

section BaseCase

variable {B : Type} {uf : UnionFind}

theorem comp_congr {s s1 : DualTreeBoruvka uf} (h : s1.connections = s.connections) (i : Nat) :
    comp s1 i = comp s i := by
  unfold comp; rw [h]

theorem Search.idle (cfg : Config B) (s : DualTreeBoruvka uf) : Search cfg s s :=
  ⟨rfl, rfl, rfl, rfl, fun _ => le_refl _, fun _ => rfl, fun h => h⟩

theorem Search.andThen {cfg : Config B} {s s1 s2 : DualTreeBoruvka uf} (h1 : Search cfg s s1)
    (h2 : Search cfg s1 s2) : Search cfg s s2 :=
  ⟨h2.connections.trans h1.connections, h2.number.trans h1.number, h2.edges.trans h1.edges,
    h2.total.trans h1.total, fun c => le_trans (h2.decreasing c) (h1.decreasing c),
    fun id => (h2.member id).trans (h1.member id), fun h => h2.cand (h1.cand h)⟩

theorem Search.comp_eq {cfg : Config B} {s s1 : DualTreeBoruvka uf} (h : Search cfg s s1)
    (i : Nat) : comp s1 i = comp s i := comp_congr h.connections i

theorem Covered.after {cfg : Config B} {s s1 : DualTreeBoruvka uf} (h : Search cfg s s1)
    {q r : Nat} (hc : Covered cfg s q r) : Covered cfg s1 q r := by
  unfold Covered at *
  rw [h.comp_eq, h.comp_eq]
  rcases hc with hc | hc
  · exact Or.inl hc
  · exact Or.inr (le_trans (h.decreasing _) hc)

/-- A change of fields that the search does not read or that it only counts
in. -/
theorem Search.of_fields (cfg : Config B) (s s1 : DualTreeBoruvka uf)
    (h1 : s1.connections = s.connections) (h2 : s1.number_of_edges = s.number_of_edges)
    (h3 : s1.edges = s.edges) (h4 : s1.total_dist = s.total_dist)
    (h5 : s1.neighbors_distances = s.neighbors_distances)
    (h6 : s1.neighbors_in_component = s.neighbors_in_component)
    (h7 : s1.neighbors_out_component = s.neighbors_out_component)
    (h8 : ∀ id, (s1.stat id).component_membership = (s.stat id).component_membership) :
    Search cfg s s1 := by
  refine ⟨h1, h2, h3, h4, fun c => by rw [h5], h8, ?_⟩
  intro hc c hcn
  have := hc c hcn
  rw [h5, h6, h7]
  simp only [comp_congr h1]
  exact this

theorem baseCaseReference_spec (cfg : Config B) (s : DualTreeBoruvka uf) (q r : Nat)
    (hq : q < cfg.number_of_points) (hr : r < cfg.number_of_points) :
    Search cfg s (baseCaseReference cfg q (comp s q) s r) ∧
      Covered cfg (baseCaseReference cfg q (comp s q) s r) q r ∧
      (baseCaseReference cfg q (comp s q) s r).stat = s.stat := by
  unfold baseCaseReference
  by_cases h1 : comp s q ≠ uf.Find s.connections r
  · rw [if_pos h1]
    by_cases h2 : cfg.dist q r < s.neighbors_distances (comp s q)
    · rw [if_pos h2]
      refine ⟨⟨rfl, rfl, rfl, rfl, ?_, fun _ => rfl, ?_⟩, ?_, rfl⟩
      · intro c
        dsimp only
        by_cases hc : c = comp s q
        · rw [hc, Function.update_same]; exact le_of_lt h2
        · rw [Function.update_noteq hc]
      · intro hC c hcn
        by_cases hc : c = comp s q
        · right
          subst hc
          dsimp only [comp]
          simp only [Function.update_same]
          exact ⟨hq, hr, trivial, fun e => h1 e.symm, trivial⟩
        · have := hC c hcn
          have hc1 : ¬ c = uf.Find s.connections q := hc
          dsimp only [comp] at this ⊢
          simp only [Function.update_noteq hc1]
          exact this
      · right
        show Function.update s.neighbors_distances (comp s q) (cfg.dist q r) (comp s q) ≤ _
        rw [Function.update_same]
    · rw [if_neg h2]
      exact ⟨Search.idle cfg s, Or.inr (le_of_not_lt h2), rfl⟩
  · rw [if_neg h1]
    exact ⟨Search.idle cfg s, Or.inl (not_not.1 h1), rfl⟩

theorem baseCaseInner_spec (cfg : Config B) (q : Nat) (hq : q < cfg.number_of_points)
    (l : List Nat) (hl : ∀ r ∈ l, r < cfg.number_of_points) :
    ∀ s : DualTreeBoruvka uf,
      Search cfg s (l.foldl (baseCaseReference cfg q (comp s q)) s) ∧
        (∀ r ∈ l, Covered cfg (l.foldl (baseCaseReference cfg q (comp s q)) s) q r) ∧
        (l.foldl (baseCaseReference cfg q (comp s q)) s).stat = s.stat := by
  induction l with
  | nil => intro s; exact ⟨Search.idle cfg s, fun r hr => absurd hr (List.not_mem_nil r), rfl⟩
  | cons r l ih =>
    intro s
    rw [List.foldl_cons]
    obtain ⟨h1, h2, h3⟩ := baseCaseReference_spec cfg s q r hq (hl r (List.mem_cons_self _ _))
    have hc : comp s q = comp (baseCaseReference cfg q (comp s q) s r) q := (h1.comp_eq q).symm
    obtain ⟨h4, h5, h6⟩ := ih (fun r hr => hl r (List.mem_cons_of_mem _ hr))
      (baseCaseReference cfg q (comp s q) s r)
    rw [← hc] at h4 h5 h6
    refine ⟨h1.andThen h4, ?_, h6.trans h3⟩
    intro r1 hr1
    rcases List.mem_cons.1 hr1 with e | e
    · rw [e]; exact h2.after h4
    · exact h5 r1 e

theorem baseCaseQuery_spec (cfg : Config B) (rs re : Nat) (hre : re ≤ cfg.number_of_points)
    (a : ℚ × DualTreeBoruvka uf) (q : Nat) (hq : q < cfg.number_of_points) :
    Search cfg a.2 (baseCaseQuery cfg rs re a q).2 ∧
      (∀ r, rs ≤ r → r < re → Covered cfg (baseCaseQuery cfg rs re a q).2 q r) ∧
      (baseCaseQuery cfg rs re a q).2.stat = a.2.stat ∧
      a.1 ≤ (baseCaseQuery cfg rs re a q).1 ∧
      (baseCaseQuery cfg rs re a q).2.neighbors_distances (comp a.2 q) ≤
        (baseCaseQuery cfg rs re a q).1 := by
  obtain ⟨h1, h2, h3⟩ := baseCaseInner_spec cfg q hq (List.range' rs (re - rs))
    (by
      intro r hr
      rw [List.mem_range'_1] at hr
      omega) a.2
  have hcov : ∀ r, rs ≤ r → r < re →
      Covered cfg ((List.range' rs (re - rs)).foldl (baseCaseReference cfg q (comp a.2 q)) a.2)
        q r := by
    intro r hr1 hr2
    exact h2 r (by rw [List.mem_range'_1]; omega)
  unfold baseCaseQuery
  dsimp only
  split_ifs with h
  · exact ⟨h1, hcov, h3, le_of_lt h, le_refl _⟩
  · exact ⟨h1, hcov, h3, le_refl _, le_of_not_lt h⟩

theorem baseCaseOuter_spec (cfg : Config B) (rs re : Nat) (hre : re ≤ cfg.number_of_points)
    (l : List Nat) (hl : ∀ q ∈ l, q < cfg.number_of_points) :
    ∀ a : ℚ × DualTreeBoruvka uf,
      Search cfg a.2 (l.foldl (baseCaseQuery cfg rs re) a).2 ∧
        (∀ q ∈ l, ∀ r, rs ≤ r → r < re →
          Covered cfg (l.foldl (baseCaseQuery cfg rs re) a).2 q r) ∧
        (l.foldl (baseCaseQuery cfg rs re) a).2.stat = a.2.stat ∧
        a.1 ≤ (l.foldl (baseCaseQuery cfg rs re) a).1 ∧
        ∀ q ∈ l, (l.foldl (baseCaseQuery cfg rs re) a).2.neighbors_distances (comp a.2 q) ≤
          (l.foldl (baseCaseQuery cfg rs re) a).1 := by
  induction l with
  | nil =>
    intro a
    exact ⟨Search.idle cfg _, fun q hq => absurd hq (List.not_mem_nil q), rfl, le_refl _,
      fun q hq => absurd hq (List.not_mem_nil q)⟩
  | cons q l ih =>
    intro a
    rw [List.foldl_cons]
    obtain ⟨h1, h2, h3, h4, h5⟩ := baseCaseQuery_spec cfg rs re hre a q
      (hl q (List.mem_cons_self _ _))
    obtain ⟨k1, k2, k3, k4, k5⟩ := ih (fun q hq => hl q (List.mem_cons_of_mem _ hq))
      (baseCaseQuery cfg rs re a q)
    refine ⟨h1.andThen k1, ?_, k3.trans h3, le_trans h4 k4, ?_⟩
    · intro q1 hq1 r hr1 hr2
      rcases List.mem_cons.1 hq1 with e | e
      · rw [e]; exact (h2 r hr1 hr2).after k1
      · exact k2 q1 e r hr1 hr2
    · intro q1 hq1
      rcases List.mem_cons.1 hq1 with e | e
      · rw [e]
        exact le_trans (k1.decreasing _) (le_trans h5 k4)
      · have := k5 q1 e
        rw [h1.comp_eq] at this
        exact this

/-- The method `ComputeBaseCase_`: every pair of a query point and a
reference point of the two ranges is accounted for, and the bound returned
is at least the candidate distance of the component of every query point. -/
theorem computeBaseCase_spec (cfg : Config B) (qs qe rs re : Nat)
    (hqe : qe ≤ cfg.number_of_points) (hre : re ≤ cfg.number_of_points)
    (s : DualTreeBoruvka uf) :
    Search cfg s (ComputeBaseCase_ cfg qs qe rs re s).2 ∧
      (∀ q r, qs ≤ q → q < qe → rs ≤ r → r < re →
        Covered cfg (ComputeBaseCase_ cfg qs qe rs re s).2 q r) ∧
      (ComputeBaseCase_ cfg qs qe rs re s).2.stat = s.stat ∧
      ∀ q, qs ≤ q → q < qe →
        (ComputeBaseCase_ cfg qs qe rs re s).2.neighbors_distances (comp s q) ≤
          (ComputeBaseCase_ cfg qs qe rs re s).1 := by
  unfold ComputeBaseCase_
  dsimp only
  obtain ⟨h1, h2, h3, -, h5⟩ := baseCaseOuter_spec cfg rs re hre (List.range' qs (qe - qs))
    (by
      intro q hq
      rw [List.mem_range'_1] at hq
      omega)
    ((-1 : ℚ), ({ s with number_leaf_computations := s.number_leaf_computations + 1 } :
      DualTreeBoruvka uf))
  have h0 : Search cfg s ({ s with number_leaf_computations := s.number_leaf_computations + 1 } :
      DualTreeBoruvka uf) := Search.of_fields cfg _ _ rfl rfl rfl rfl rfl rfl rfl (fun _ => rfl)
  refine ⟨h0.andThen h1, ?_, h3, ?_⟩
  · intro q r hq1 hq2 hr1 hr2
    exact h2 q (by rw [List.mem_range'_1]; omega) r hr1 hr2
  · intro q hq1 hq2
    exact h5 q (by rw [List.mem_range'_1]; omega)

end BaseCase

end Dtb

namespace Dtb

section TreeLemmas

variable {B : Type}

theorem subtrees_ids {t N : Tree B} (h : N ∈ t.subtrees) : ∀ j ∈ N.ids, j ∈ t.ids := by
  induction t with
  | leaf i b c bd =>
    simp only [Tree.subtrees, List.mem_singleton] at h
    subst h
    exact fun j hj => hj
  | node i b c bd l r ihl ihr =>
    simp only [Tree.subtrees, List.mem_cons, List.mem_append] at h
    rcases h with h | h | h
    · subst h
      exact fun j hj => hj
    · exact fun j hj => Tree.mem_ids_left (ihl h j hj)
    · exact fun j hj => Tree.mem_ids_right (ihr h j hj)

theorem subtrees_id_mem {t N : Tree B} (h : N ∈ t.subtrees) : N.id ∈ t.ids :=
  subtrees_ids h N.id N.id_mem_ids

theorem subtrees_subtrees {t M N : Tree B} (hM : M ∈ t.subtrees) (hN : N ∈ M.subtrees) :
    N ∈ t.subtrees := by
  induction t with
  | leaf i b c bd =>
    simp only [Tree.subtrees, List.mem_singleton] at hM
    subst hM
    exact hN
  | node i b c bd l r ihl ihr =>
    simp only [Tree.subtrees, List.mem_cons, List.mem_append] at hM
    rcases hM with h | h | h
    · subst h
      exact hN
    · exact Tree.subtrees_left (ihl h)
    · exact Tree.subtrees_right (ihr h)

theorem subtrees_partitioned {t N : Tree B} (hp : t.Partitioned) (h : N ∈ t.subtrees) :
    N.Partitioned := by
  induction t with
  | leaf i b c bd =>
    simp only [Tree.subtrees, List.mem_singleton] at h
    subst h
    exact hp
  | node i b c bd l r ihl ihr =>
    simp only [Tree.subtrees, List.mem_cons, List.mem_append] at h
    rcases h with h | h | h
    · subst h
      exact hp
    · exact ihl hp.left h
    · exact ihr hp.right h

theorem subtrees_contains {t N : Tree B} (hp : t.Partitioned) (h : N ∈ t.subtrees) (x : Nat)
    (hx : N.Contains x) : t.Contains x := by
  induction t with
  | leaf i b c bd =>
    simp only [Tree.subtrees, List.mem_singleton] at h
    subst h
    exact hx
  | node i b c bd l r ihl ihr =>
    simp only [Tree.subtrees, List.mem_cons, List.mem_append] at h
    rcases h with h | h | h
    · subst h
      exact hx
    · exact ((Tree.contains_node i b c bd l r hp x).1).2 (Or.inl (ihl hp.left h))
    · exact ((Tree.contains_node i b c bd l r hp x).1).2 (Or.inr (ihr hp.right h))

/-- Two nodes of a tree of distinct nodes with one address are one node. -/
theorem subtrees_inj {t M N : Tree B} (hd : t.Distinct) (hM : M ∈ t.subtrees)
    (hN : N ∈ t.subtrees) (h : M.id = N.id) : M = N := by
  induction t with
  | leaf i b c bd =>
    simp only [Tree.subtrees, List.mem_singleton] at hM hN
    rw [hM, hN]
  | node i b c bd l r ihl ihr =>
    simp only [Tree.subtrees, List.mem_cons, List.mem_append] at hM hN
    rcases hM with hM | hM | hM <;> rcases hN with hN | hN | hN
    · rw [hM, hN]
    · exfalso
      rw [hM] at h
      have h1 : i = N.id := h
      exact hd.not_mem_left (h1 ▸ subtrees_id_mem hN)
    · exfalso
      rw [hM] at h
      have h1 : i = N.id := h
      exact hd.not_mem_right (h1 ▸ subtrees_id_mem hN)
    · exfalso
      rw [hN] at h
      have h1 : M.id = i := h
      exact hd.not_mem_left (h1 ▸ subtrees_id_mem hM)
    · exact ihl hd.of_left hM hN
    · exfalso
      exact hd.disjoint _ (subtrees_id_mem hM) (h ▸ subtrees_id_mem hN)
    · exfalso
      rw [hN] at h
      have h1 : M.id = i := h
      exact hd.not_mem_right (h1 ▸ subtrees_id_mem hM)
    · exfalso
      exact hd.disjoint _ (subtrees_id_mem hN) (h ▸ subtrees_id_mem hM)
    · exact ihr hd.of_right hM hN

theorem subtrees_child_left {t : Tree B} {i b c : Nat} {bd : B} {l r : Tree B}
    (h : Tree.node i b c bd l r ∈ t.subtrees) : l ∈ t.subtrees :=
  subtrees_subtrees h (Tree.subtrees_left l.self_mem_subtrees)

theorem subtrees_child_right {t : Tree B} {i b c : Nat} {bd : B} {l r : Tree B}
    (h : Tree.node i b c bd l r ∈ t.subtrees) : r ∈ t.subtrees :=
  subtrees_subtrees h (Tree.subtrees_right r.self_mem_subtrees)

end TreeLemmas

end Dtb

namespace Dtb

section Recursion

variable {B : Type} {uf : UnionFind}

theorem MemberSound.search {cfg : Config B} {s s1 : DualTreeBoruvka uf} (h : Search cfg s s1)
    (hm : MemberSound cfg s) : MemberSound cfg s1 := by
  intro N hN h0 i hi
  rw [h.member] at h0 ⊢
  rw [h.comp_eq]
  exact hm N hN h0 i hi

theorem Covers.seq {cfg : Config B} {P P1 : Nat → Nat → Prop}
    {f g : DualTreeBoruvka uf → DualTreeBoruvka uf} (hf : Covers cfg P f)
    (hg : Covers cfg P1 g) : Covers cfg (fun q r => P q r ∨ P1 q r) (fun s => g (f s)) := by
  intro s hm hb
  obtain ⟨h1, h2, h3⟩ := hf s hm hb
  obtain ⟨k1, k2, k3⟩ := hg (f s) (hm.search h1) h2
  refine ⟨h1.andThen k1, k2, ?_⟩
  intro q r hqr
  rcases hqr with h | h
  · exact (h3 q r h).after k1
  · exact k3 q r h

theorem Covers.restrict {cfg : Config B} {P P1 : Nat → Nat → Prop}
    {f : DualTreeBoruvka uf → DualTreeBoruvka uf} (hf : Covers cfg P f)
    (h : ∀ q r, P1 q r → P q r) : Covers cfg P1 f := by
  intro s hm hb
  obtain ⟨h1, h2, h3⟩ := hf s hm hb
  exact ⟨h1, h2, fun q r hqr => h3 q r (h q r hqr)⟩

/-- A change that the search does not read keeps the bound. -/
theorem Bound.of_same {cfg : Config B} {s s1 : DualTreeBoruvka uf}
    (h1 : s1.connections = s.connections)
    (h5 : s1.neighbors_distances = s.neighbors_distances) (h6 : s1.stat = s.stat)
    (hb : Bound cfg s) : Bound cfg s1 := by
  intro N hN i hi
  rw [h5, h6, comp_congr h1]
  exact hb N hN i hi

theorem setMax_stat_self (node : Nat) (d : ℚ) (s : DualTreeBoruvka uf) :
    ((set_max_neighbor_distance node d s).stat node).max_neighbor_distance = d := by
  unfold set_max_neighbor_distance
  dsimp only
  rw [Function.update_same]

theorem setMax_stat_ne (node : Nat) (d : ℚ) (s : DualTreeBoruvka uf) (j : Nat) (h : j ≠ node) :
    (set_max_neighbor_distance node d s).stat j = s.stat j := by
  unfold set_max_neighbor_distance
  dsimp only
  rw [Function.update_noteq h]

theorem setMax_member (node : Nat) (d : ℚ) (s : DualTreeBoruvka uf) (j : Nat) :
    ((set_max_neighbor_distance node d s).stat j).component_membership =
      (s.stat j).component_membership := by
  by_cases h : j = node
  · subst h
    unfold set_max_neighbor_distance
    dsimp only
    rw [Function.update_same]
  · rw [setMax_stat_ne node d s j h]

theorem setMax_search (cfg : Config B) (node : Nat) (d : ℚ) (s : DualTreeBoruvka uf) :
    Search cfg s (set_max_neighbor_distance node d s) :=
  Search.of_fields cfg _ _ rfl rfl rfl rfl rfl rfl rfl (setMax_member node d s)

/-- Writing the `max_neighbor_distance` of a node keeps the bound when the
value written is at least the candidate distance of each of its points. -/
theorem setMax_bound (cfg : Config B) (hd : cfg.tree.Distinct) (Q : Tree B)
    (hQ : Q ∈ cfg.tree.subtrees) (d : ℚ) (s : DualTreeBoruvka uf) (hb : Bound cfg s)
    (h : ∀ i, Q.Contains i → s.neighbors_distances (comp s i) ≤ d) :
    Bound cfg (set_max_neighbor_distance Q.id d s) := by
  intro N hN i hi
  have hc : comp (set_max_neighbor_distance Q.id d s) i = comp s i := rfl
  have hn : (set_max_neighbor_distance Q.id d s).neighbors_distances =
      s.neighbors_distances := rfl
  rw [hc, hn]
  by_cases hid : N.id = Q.id
  · have hNQ : N = Q := subtrees_inj hd hN hQ hid
    rw [hid, setMax_stat_self]
    exact h i (hNQ ▸ hi)
  · rw [setMax_stat_ne _ _ _ _ hid]
    exact hb N hN i hi

theorem WellFormed.lt {cfg : Config B} (hwf : WellFormed cfg) {N : Tree B}
    (hN : N ∈ cfg.tree.subtrees) {i : Nat} (hi : N.Contains i) : i < cfg.number_of_points := by
  have h := subtrees_contains hwf.partitioned hN i hi
  have h1 := hwf.root_begin
  have h2 := hwf.root_count
  unfold Tree.Contains Tree.end_ at h
  omega

theorem WellFormed.end_le {cfg : Config B} (hwf : WellFormed cfg) {N : Tree B}
    (hN : N ∈ cfg.tree.subtrees) : N.end_ ≤ cfg.number_of_points := by
  have h0 := hwf.nonempty N hN
  have h : N.Contains (N.end_ - 1) := by
    unfold Tree.Contains Tree.end_
    omega
  have := hwf.lt hN h
  omega

/-- The two prunes of `ComputeNeighborsRecursion_` are right: the pairs of
a pruned pair of nodes are accounted for. -/
theorem neighborPrune_spec (cfg : Config B) (Q R : Tree B) (hQ : Q ∈ cfg.tree.subtrees)
    (hR : R ∈ cfg.tree.subtrees) (incoming : ℚ) (s s1 : DualTreeBoruvka uf)
    (hm : MemberSound cfg s) (hb : Bound cfg s)
    (hpre : (s.stat Q.id).max_neighbor_distance < incoming →
      ∀ q r, Q.Contains q → R.Contains r → incoming ≤ cfg.dist q r)
    (h : neighborPrune Q R incoming s = some s1) :
    Search cfg s s1 ∧ Bound cfg s1 ∧ ∀ q r, Q.Contains q → R.Contains r → Covered cfg s1 q r := by
  unfold neighborPrune at h
  split_ifs at h with h1 h2
  · have e := Option.some.inj h
    subst e
    refine ⟨Search.of_fields cfg _ _ rfl rfl rfl rfl rfl rfl rfl (fun _ => rfl),
      Bound.of_same rfl rfl rfl hb, ?_⟩
    intro q r hq hr
    right
    exact le_trans (hb Q hQ q hq) (le_trans (le_of_lt h1) (hpre h1 q r hq hr))
  · have e := Option.some.inj h
    subst e
    refine ⟨Search.of_fields cfg _ _ rfl rfl rfl rfl rfl rfl rfl (fun _ => rfl),
      Bound.of_same rfl rfl rfl hb, ?_⟩
    intro q r hq hr
    left
    have e1 := hm Q hQ h2.1 q hq
    have e2 := hm R hR (h2.2 ▸ h2.1) r hr
    have e3 : ((comp s q : Nat) : Int) = ((comp s r : Nat) : Int) := by rw [e1, e2, h2.2]
    exact Int.ofNat_inj.1 e3

/-- The base case of `ComputeNeighborsRecursion_` accounts for the pairs of
its two nodes. -/
theorem neighborBase_spec (cfg : Config B) (hwf : WellFormed cfg) (Q R : Tree B)
    (hQ : Q ∈ cfg.tree.subtrees) (hR : R ∈ cfg.tree.subtrees) :
    Covers cfg (fun q r => Q.Contains q ∧ R.Contains r)
      (neighborBase cfg Q R : DualTreeBoruvka uf → DualTreeBoruvka uf) := by
  intro s hm hb
  unfold neighborBase
  dsimp only
  obtain ⟨h1, h2, h3, h4⟩ := computeBaseCase_spec cfg Q.begin Q.end_ R.begin R.end_
    (hwf.end_le hQ) (hwf.end_le hR) s
  set a := ComputeBaseCase_ cfg Q.begin Q.end_ R.begin R.end_ s with ha
  have hb1 : Bound cfg a.2 := by
    intro N hN i hi
    rw [h3, h1.comp_eq]
    exact le_trans (h1.decreasing _) (hb N hN i hi)
  refine ⟨h1.andThen (setMax_search cfg _ _ _), ?_, ?_⟩
  · refine setMax_bound cfg hwf.distinct Q hQ _ _ hb1 ?_
    intro i hi
    rw [h1.comp_eq]
    exact h4 i hi.1 hi.2
  · rintro q r ⟨hq, hr⟩
    exact (h2 q r hq.1 hq.2 hr.1 hr.2).after (setMax_search cfg _ _ _)

theorem counter_covers (cfg : Config B) (f : DualTreeBoruvka uf → DualTreeBoruvka uf)
    (h : ∀ s, (f s).connections = s.connections ∧ (f s).number_of_edges = s.number_of_edges ∧
      (f s).edges = s.edges ∧ (f s).total_dist = s.total_dist ∧
      (f s).neighbors_distances = s.neighbors_distances ∧
      (f s).neighbors_in_component = s.neighbors_in_component ∧
      (f s).neighbors_out_component = s.neighbors_out_component ∧ (f s).stat = s.stat) :
    Covers cfg (fun _ _ => False) f := by
  intro s _ hb
  obtain ⟨h1, h2, h3, h4, h5, h6, h7, h8⟩ := h s
  exact ⟨Search.of_fields cfg _ _ h1 h2 h3 h4 h5 h6 h7 (fun id => by rw [h8]),
    Bound.of_same h1 h5 h8 hb, fun _ _ h => absurd h not_false⟩

end Recursion

end Dtb

namespace Dtb

section RecursionSpec

variable {B : Type} {uf : UnionFind}

theorem neighborsLeaf_leaf (cfg : Config B) (Q : Tree B) (rid rb rc : Nat) (rbd : B)
    (incoming : ℚ) (s : DualTreeBoruvka uf) :
    neighborsLeaf cfg Q (.leaf rid rb rc rbd) incoming s =
      match neighborPrune Q (.leaf rid rb rc rbd) incoming s with
      | some s1 => s1
      | none => neighborBase cfg Q (.leaf rid rb rc rbd) s := by
  rfl

theorem neighborsLeaf_node (cfg : Config B) (Q : Tree B) (rid rb rc : Nat) (rbd : B)
    (rl rr : Tree B) (incoming : ℚ) (s : DualTreeBoruvka uf) :
    neighborsLeaf cfg Q (.node rid rb rc rbd rl rr) incoming s =
      match neighborPrune Q (.node rid rb rc rbd rl rr) incoming s with
      | some s1 => s1
      | none =>
        if cfg.MinDistanceSq Q.bound rl.bound < cfg.MinDistanceSq Q.bound rr.bound then
          neighborsLeaf cfg Q rr (cfg.MinDistanceSq Q.bound rr.bound)
            (neighborsLeaf cfg Q rl (cfg.MinDistanceSq Q.bound rl.bound)
              { s with number_r_recursions := s.number_r_recursions + 1 })
        else
          neighborsLeaf cfg Q rl (cfg.MinDistanceSq Q.bound rl.bound)
            (neighborsLeaf cfg Q rr (cfg.MinDistanceSq Q.bound rr.bound)
              { s with number_r_recursions := s.number_r_recursions + 1 }) := by
  rfl

/-- The method `ComputeNeighborsRecursion_` for a leaf query node accounts
for the pairs of its two nodes. -/
theorem neighborsLeaf_spec (cfg : Config B) (hwf : WellFormed cfg) (Q : Tree B)
    (hQ : Q ∈ cfg.tree.subtrees) (R : Tree B) :
    ∀ (_ : R ∈ cfg.tree.subtrees) (incoming : ℚ) (s : DualTreeBoruvka uf),
      MemberSound cfg s → Bound cfg s →
      ((s.stat Q.id).max_neighbor_distance < incoming →
        ∀ q r, Q.Contains q → R.Contains r → incoming ≤ cfg.dist q r) →
      Search cfg s (neighborsLeaf cfg Q R incoming s) ∧
        Bound cfg (neighborsLeaf cfg Q R incoming s) ∧
        ∀ q r, Q.Contains q → R.Contains r →
          Covered cfg (neighborsLeaf cfg Q R incoming s) q r := by
  induction R with
  | leaf rid rb rc rbd =>
    intro hR incoming s hm hb hpre
    rw [neighborsLeaf_leaf]
    cases hp : neighborPrune Q (.leaf rid rb rc rbd) incoming s with
    | some s1 => exact neighborPrune_spec cfg Q _ hQ hR incoming s s1 hm hb hpre hp
    | none =>
      obtain ⟨h1, h2, h3⟩ := neighborBase_spec cfg hwf Q _ hQ hR s hm hb
      exact ⟨h1, h2, fun q r hq hr => h3 q r ⟨hq, hr⟩⟩
  | node rid rb rc rbd rl rr ihl ihr =>
    intro hR incoming s hm hb hpre
    rw [neighborsLeaf_node]
    cases hp : neighborPrune Q (.node rid rb rc rbd rl rr) incoming s with
    | some s1 => exact neighborPrune_spec cfg Q _ hQ hR incoming s s1 hm hb hpre hp
    | none =>
      have hrl : rl ∈ cfg.tree.subtrees := subtrees_child_left hR
      have hrr : rr ∈ cfg.tree.subtrees := subtrees_child_right hR
      have hRp := subtrees_partitioned hwf.partitioned hR
      have cl : Covers cfg (fun q r => Q.Contains q ∧ rl.Contains r)
          (neighborsLeaf cfg Q rl (cfg.MinDistanceSq Q.bound rl.bound) :
            DualTreeBoruvka uf → DualTreeBoruvka uf) := by
        intro t htm htb
        obtain ⟨h1, h2, h3⟩ := ihl hrl _ t htm htb
          (fun _ q r hq hr => hwf.bounds Q hQ rl hrl q r hq hr)
        exact ⟨h1, h2, fun q r h => h3 q r h.1 h.2⟩
      have cr : Covers cfg (fun q r => Q.Contains q ∧ rr.Contains r)
          (neighborsLeaf cfg Q rr (cfg.MinDistanceSq Q.bound rr.bound) :
            DualTreeBoruvka uf → DualTreeBoruvka uf) := by
        intro t htm htb
        obtain ⟨h1, h2, h3⟩ := ihr hrr _ t htm htb
          (fun _ q r hq hr => hwf.bounds Q hQ rr hrr q r hq hr)
        exact ⟨h1, h2, fun q r h => h3 q r h.1 h.2⟩
      have c0 : Covers cfg (fun _ _ => False)
          (fun t : DualTreeBoruvka uf =>
            { t with number_r_recursions := t.number_r_recursions + 1 }) :=
        counter_covers cfg _ (fun _ => ⟨rfl, rfl, rfl, rfl, rfl, rfl, rfl, rfl⟩)
      have hsplit : ∀ r, (Tree.node rid rb rc rbd rl rr).Contains r →
          rl.Contains r ∨ rr.Contains r :=
        fun r hr => ((Tree.contains_node rid rb rc rbd rl rr hRp r).1).1 hr
      dsimp only
      split_ifs with hlt
      · obtain ⟨h1, h2, h3⟩ := ((c0.seq cl).seq cr) s hm hb
        refine ⟨h1, h2, ?_⟩
        intro q r hq hr
        rcases hsplit r hr with h | h
        · exact h3 q r (Or.inl (Or.inr ⟨hq, h⟩))
        · exact h3 q r (Or.inr ⟨hq, h⟩)
      · obtain ⟨h1, h2, h3⟩ := ((c0.seq cr).seq cl) s hm hb
        refine ⟨h1, h2, ?_⟩
        intro q r hq hr
        rcases hsplit r hr with h | h
        · exact h3 q r (Or.inr ⟨hq, h⟩)
        · exact h3 q r (Or.inl (Or.inr ⟨hq, h⟩))

end RecursionSpec

end Dtb

namespace Dtb

section RecursionNode

variable {B : Type} {uf : UnionFind}

theorem computeNeighborsRecursion_leaf (cfg : Config B) (qid qb qc : Nat) (qbd : B)
    (R : Tree B) (incoming : ℚ) (s : DualTreeBoruvka uf) :
    ComputeNeighborsRecursion_ cfg (.leaf qid qb qc qbd) R incoming s =
      neighborsLeaf cfg (.leaf qid qb qc qbd) R incoming s := by
  rfl

theorem computeNeighborsRecursion_node (cfg : Config B) (qid qb qc : Nat) (qbd : B)
    (ql qr R : Tree B) (incoming : ℚ) (s : DualTreeBoruvka uf) :
    ComputeNeighborsRecursion_ cfg (.node qid qb qc qbd ql qr) R incoming s =
      match neighborPrune (.node qid qb qc qbd ql qr) R incoming s with
      | some s1 => s1
      | none =>
        set_max_neighbor_distance qid
          (max ((neighborsDescend cfg ql qr R s).stat ql.id).max_neighbor_distance
            ((neighborsDescend cfg ql qr R s).stat qr.id).max_neighbor_distance)
          (neighborsDescend cfg ql qr R s) := by
  cases R <;> rfl

end RecursionNode

end Dtb

namespace Dtb

section RecursionMain

variable {B : Type} {uf : UnionFind}

/-- The two calls for one query node and the two children of a reference
node, nearer child first. -/
theorem covers_children (cfg : Config B) (hwf : WellFormed cfg) (X : Tree B)
    (rid rb rc : Nat) (rbd : B) (rl rr : Tree B)
    (hR : Tree.node rid rb rc rbd rl rr ∈ cfg.tree.subtrees)
    (call : ∀ Y, Y ∈ cfg.tree.subtrees →
      Covers cfg (fun q r => X.Contains q ∧ Y.Contains r)
        (ComputeNeighborsRecursion_ cfg X Y (cfg.MinDistanceSq X.bound Y.bound) :
          DualTreeBoruvka uf → DualTreeBoruvka uf)) :
    Covers cfg (fun q r => X.Contains q ∧ (Tree.node rid rb rc rbd rl rr).Contains r)
      (fun s : DualTreeBoruvka uf =>
        if cfg.MinDistanceSq X.bound rl.bound < cfg.MinDistanceSq X.bound rr.bound then
          ComputeNeighborsRecursion_ cfg X rr (cfg.MinDistanceSq X.bound rr.bound)
            (ComputeNeighborsRecursion_ cfg X rl (cfg.MinDistanceSq X.bound rl.bound) s)
        else
          ComputeNeighborsRecursion_ cfg X rl (cfg.MinDistanceSq X.bound rl.bound)
            (ComputeNeighborsRecursion_ cfg X rr (cfg.MinDistanceSq X.bound rr.bound) s)) := by
  have hrl : rl ∈ cfg.tree.subtrees := subtrees_child_left hR
  have hrr : rr ∈ cfg.tree.subtrees := subtrees_child_right hR
  have hRp := subtrees_partitioned hwf.partitioned hR
  have hsplit : ∀ r, (Tree.node rid rb rc rbd rl rr).Contains r →
      rl.Contains r ∨ rr.Contains r :=
    fun r hr => ((Tree.contains_node rid rb rc rbd rl rr hRp r).1).1 hr
  intro s hm hb
  dsimp only
  split_ifs with h
  · obtain ⟨h1, h2, h3⟩ := ((call rl hrl).seq (call rr hrr)) s hm hb
    refine ⟨h1, h2, ?_⟩
    rintro q r ⟨hq, hr⟩
    rcases hsplit r hr with k | k
    · exact h3 q r (Or.inl ⟨hq, k⟩)
    · exact h3 q r (Or.inr ⟨hq, k⟩)
  · obtain ⟨h1, h2, h3⟩ := ((call rr hrr).seq (call rl hrl)) s hm hb
    refine ⟨h1, h2, ?_⟩
    rintro q r ⟨hq, hr⟩
    rcases hsplit r hr with k | k
    · exact h3 q r (Or.inr ⟨hq, k⟩)
    · exact h3 q r (Or.inl ⟨hq, k⟩)

/-- The recursive calls for a query node with children account for the
pairs of the query node and the reference node. -/
theorem neighborsDescend_spec (cfg : Config B) (hwf : WellFormed cfg)
    (qid qb qc : Nat) (qbd : B) (ql qr : Tree B)
    (hQ : Tree.node qid qb qc qbd ql qr ∈ cfg.tree.subtrees) (R : Tree B)
    (hR : R ∈ cfg.tree.subtrees)
    (calll : ∀ Y, Y ∈ cfg.tree.subtrees →
      Covers cfg (fun q r => ql.Contains q ∧ Y.Contains r)
        (ComputeNeighborsRecursion_ cfg ql Y (cfg.MinDistanceSq ql.bound Y.bound) :
          DualTreeBoruvka uf → DualTreeBoruvka uf))
    (callr : ∀ Y, Y ∈ cfg.tree.subtrees →
      Covers cfg (fun q r => qr.Contains q ∧ Y.Contains r)
        (ComputeNeighborsRecursion_ cfg qr Y (cfg.MinDistanceSq qr.bound Y.bound) :
          DualTreeBoruvka uf → DualTreeBoruvka uf)) :
    Covers cfg (fun q r => (Tree.node qid qb qc qbd ql qr).Contains q ∧ R.Contains r)
      (neighborsDescend cfg ql qr R : DualTreeBoruvka uf → DualTreeBoruvka uf) := by
  have hQp := subtrees_partitioned hwf.partitioned hQ
  have hsplit : ∀ q, (Tree.node qid qb qc qbd ql qr).Contains q →
      ql.Contains q ∨ qr.Contains q :=
    fun q hq => ((Tree.contains_node qid qb qc qbd ql qr hQp q).1).1 hq
  cases R with
  | leaf rid rb rc rbd =>
    have c0 : Covers cfg (fun _ _ => False)
        (fun t : DualTreeBoruvka uf =>
          { t with number_q_recursions := t.number_q_recursions + 1 }) :=
      counter_covers cfg _ (fun _ => ⟨rfl, rfl, rfl, rfl, rfl, rfl, rfl, rfl⟩)
    intro s hm hb
    obtain ⟨h1, h2, h3⟩ := ((c0.seq (calll _ hR)).seq (callr _ hR)) s hm hb
    refine ⟨h1, h2, ?_⟩
    rintro q r ⟨hq, hr⟩
    rcases hsplit q hq with k | k
    · exact h3 q r (Or.inl (Or.inr ⟨k, hr⟩))
    · exact h3 q r (Or.inr ⟨k, hr⟩)
  | node rid rb rc rbd rl rr =>
    have c0 : Covers cfg (fun _ _ => False)
        (fun t : DualTreeBoruvka uf =>
          { t with number_both_recursions := t.number_both_recursions + 1 }) :=
      counter_covers cfg _ (fun _ => ⟨rfl, rfl, rfl, rfl, rfl, rfl, rfl, rfl⟩)
    have cl := covers_children cfg hwf ql rid rb rc rbd rl rr hR calll
    have cr := covers_children cfg hwf qr rid rb rc rbd rl rr hR callr
    intro s hm hb
    obtain ⟨h1, h2, h3⟩ := ((c0.seq cl).seq cr) s hm hb
    refine ⟨h1, h2, ?_⟩
    rintro q r ⟨hq, hr⟩
    rcases hsplit q hq with k | k
    · exact h3 q r (Or.inl (Or.inr ⟨k, hr⟩))
    · exact h3 q r (Or.inr ⟨k, hr⟩)

/-- The method `ComputeNeighborsRecursion_` accounts for the pairs of its
two nodes, when the incoming distance is a lower bound of their squared
distances or the distance prune does not apply. -/
theorem computeNeighborsRecursion_spec (cfg : Config B) (hwf : WellFormed cfg) (Q : Tree B) :
    ∀ (_ : Q ∈ cfg.tree.subtrees) (R : Tree B) (_ : R ∈ cfg.tree.subtrees) (incoming : ℚ)
      (s : DualTreeBoruvka uf), MemberSound cfg s → Bound cfg s →
      ((s.stat Q.id).max_neighbor_distance < incoming →
        ∀ q r, Q.Contains q → R.Contains r → incoming ≤ cfg.dist q r) →
      Search cfg s (ComputeNeighborsRecursion_ cfg Q R incoming s) ∧
        Bound cfg (ComputeNeighborsRecursion_ cfg Q R incoming s) ∧
        ∀ q r, Q.Contains q → R.Contains r →
          Covered cfg (ComputeNeighborsRecursion_ cfg Q R incoming s) q r := by
  induction Q with
  | leaf qid qb qc qbd =>
    intro hQ R hR incoming s hm hb hpre
    rw [computeNeighborsRecursion_leaf]
    exact neighborsLeaf_spec cfg hwf _ hQ R hR incoming s hm hb hpre
  | node qid qb qc qbd ql qr ihl ihr =>
    intro hQ R hR incoming s hm hb hpre
    rw [computeNeighborsRecursion_node]
    cases hp : neighborPrune (.node qid qb qc qbd ql qr) R incoming s with
    | some s1 => exact neighborPrune_spec cfg _ R hQ hR incoming s s1 hm hb hpre hp
    | none =>
      have hql : ql ∈ cfg.tree.subtrees := subtrees_child_left hQ
      have hqr : qr ∈ cfg.tree.subtrees := subtrees_child_right hQ
      have hQp := subtrees_partitioned hwf.partitioned hQ
      have calll : ∀ Y, Y ∈ cfg.tree.subtrees →
          Covers cfg (fun q r => ql.Contains q ∧ Y.Contains r)
            (ComputeNeighborsRecursion_ cfg ql Y (cfg.MinDistanceSq ql.bound Y.bound) :
              DualTreeBoruvka uf → DualTreeBoruvka uf) := by
        intro Y hY t htm htb
        obtain ⟨h1, h2, h3⟩ := ihl hql Y hY _ t htm htb
          (fun _ q r hq hr => hwf.bounds ql hql Y hY q r hq hr)
        exact ⟨h1, h2, fun q r h => h3 q r h.1 h.2⟩
      have callr : ∀ Y, Y ∈ cfg.tree.subtrees →
          Covers cfg (fun q r => qr.Contains q ∧ Y.Contains r)
            (ComputeNeighborsRecursion_ cfg qr Y (cfg.MinDistanceSq qr.bound Y.bound) :
              DualTreeBoruvka uf → DualTreeBoruvka uf) := by
        intro Y hY t htm htb
        obtain ⟨h1, h2, h3⟩ := ihr hqr Y hY _ t htm htb
          (fun _ q r hq hr => hwf.bounds qr hqr Y hY q r hq hr)
        exact ⟨h1, h2, fun q r h => h3 q r h.1 h.2⟩
      obtain ⟨h1, h2, h3⟩ :=
        neighborsDescend_spec cfg hwf qid qb qc qbd ql qr hQ R hR calll callr s hm hb
      dsimp only
      set s4 := neighborsDescend cfg ql qr R s with hs4
      refine ⟨h1.andThen (setMax_search cfg _ _ _), ?_, ?_⟩
      · refine setMax_bound cfg hwf.distinct (.node qid qb qc qbd ql qr) hQ _ _ h2 ?_
        intro i hi
        rcases ((Tree.contains_node qid qb qc qbd ql qr hQp i).1).1 hi with k | k
        · exact le_trans (h2 ql hql i k) (le_max_left _ _)
        · exact le_trans (h2 qr hqr i k) (le_max_right _ _)
      · intro q r hq hr
        exact (h3 q r ⟨hq, hr⟩).after (setMax_search cfg _ _ _)

end RecursionMain

end Dtb

namespace Dtb

section NeighborsSpec

variable {B : Type} {uf : UnionFind}

theorem edgeList_congr {s s1 : DualTreeBoruvka uf} (h2 : s1.number_of_edges = s.number_of_edges)
    (h3 : s1.edges = s.edges) : edgeList s1 = edgeList s := by
  unfold edgeList; rw [h2, h3]

/-- The invariant of the edges reads only the edges, their number, the
components and `total_dist_`. -/
theorem Forest.of_kept {cfg : Config B} {s s1 : DualTreeBoruvka uf}
    (h1 : s1.connections = s.connections) (h2 : s1.number_of_edges = s.number_of_edges)
    (h3 : s1.edges = s.edges) (h4 : s1.total_dist = s.total_dist) (hF : Forest cfg s) :
    Forest cfg s1 := by
  have e1 : ∀ i, comp s1 i = comp s i := comp_congr h1
  have e2 : edgeList s1 = edgeList s := edgeList_congr h2 h3
  have e3 : edgeSet s1 = edgeSet s := by unfold edgeSet; rw [e2]
  have e4 : roots cfg.number_of_points s1 = roots cfg.number_of_points s := by
    unfold roots; simp only [e1]
  refine ⟨?_, ?_, ?_, ?_, ?_, ?_, ?_, ?_⟩
  · intro i hi; rw [e1]; exact hF.root_lt i hi
  · intro i j; rw [e1, e1, e3]; exact hF.joined i j
  · intro k hk; rw [h2] at hk; rw [h3]; exact hF.edge_ok k hk
  · rw [e2]; exact hF.nodup
  · rw [e3]; exact hF.acyclic
  · rw [h4, e3]; exact hF.total
  · rw [e4, h2]; exact hF.count
  · rw [e3]; exact hF.promising

theorem Forest.searched {cfg : Config B} {s s1 : DualTreeBoruvka uf} (h : Search cfg s s1)
    (hF : Forest cfg s) : Forest cfg s1 :=
  Forest.of_kept h.connections h.number h.edges h.total hF

/-- When every pair of points is accounted for and there are two components
or more, every component has its nearest outside neighbour selected. -/
theorem selected_of_covered (cfg : Config B) (s : DualTreeBoruvka uf)
    (hF : Forest cfg s) (hC : Cand cfg s)
    (hcov : ∀ q r, q < cfg.number_of_points → r < cfg.number_of_points → Covered cfg s q r)
    (hfar : ∀ i j, i < cfg.number_of_points → j < cfg.number_of_points →
      cfg.dist i j < DBL_MAX)
    (h2 : s.number_of_edges + 1 < cfg.number_of_points) : Selected cfg s := by
  intro c hc hroot
  have hcard : 1 < (roots cfg.number_of_points s).card := by
    have := hF.count
    omega
  obtain ⟨z, hz, hzc⟩ := Finset.exists_mem_ne hcard c
  unfold roots at hz
  rw [Finset.mem_filter, Finset.mem_range] at hz
  have h1 : s.neighbors_distances c ≤ cfg.dist c z := by
    rcases hcov c z hc hz.1 with h | h
    · exact absurd (hroot.symm.trans (h.trans hz.2)).symm hzc
    · rw [hroot] at h; exact h
  have h3 : s.neighbors_distances c ≠ DBL_MAX :=
    ne_of_lt (lt_of_le_of_lt h1 (hfar c z hc hz.1))
  rcases hC c hc with h | ⟨k1, k2, k3, k4, k5⟩
  · exact absurd h h3
  · refine ⟨k1, k2, k3, k4, k5, ?_⟩
    intro y w hy hw hyc hwc
    rcases hcov y w hy hw with h | h
    · exact absurd (h.symm.trans hyc) hwc
    · rw [hyc] at h; exact h

/-- The method `ComputeNeighbors_` from the state at the head of the loop:
with two components or more, it selects for every component its nearest
outside neighbour, and changes only what the search may change. -/
theorem computeNeighbors_spec (cfg : Config B)
    (hwf : cfg.do_naive = false → WellFormed cfg)
    (hfar : ∀ i j, i < cfg.number_of_points → j < cfg.number_of_points →
      cfg.dist i j < DBL_MAX)
    (s : DualTreeBoruvka uf) (hC : Clean cfg s)
    (h2 : s.number_of_edges + 1 < cfg.number_of_points) :
    Search cfg s (ComputeNeighbors_ cfg s) ∧ Forest cfg (ComputeNeighbors_ cfg s) ∧
      Selected cfg (ComputeNeighbors_ cfg s) := by
  have hcand : Cand cfg s := fun c hc => Or.inl (hC.dist_reset c hc)
  have key : Search cfg s (ComputeNeighbors_ cfg s) ∧
      ∀ q r, q < cfg.number_of_points → r < cfg.number_of_points →
        Covered cfg (ComputeNeighbors_ cfg s) q r := by
    unfold ComputeNeighbors_
    cases hn : cfg.do_naive with
    | true =>
      simp only [if_true]
      obtain ⟨h1, h3, -, -⟩ := computeBaseCase_spec cfg 0 cfg.number_of_points 0
        cfg.number_of_points (le_refl _) (le_refl _) s
      exact ⟨h1, fun q r hq hr => h3 q r (Nat.zero_le _) hq (Nat.zero_le _) hr⟩
    | false =>
      simp only [Bool.false_eq_true, if_false]
      have hw := hwf hn
      have hb : Bound cfg s := by
        intro N hN i hi
        rw [hC.stat_reset hn N hN, hC.dist_reset _ (hC.forest.root_lt i (hw.lt hN hi))]
      obtain ⟨h1, -, h3⟩ := computeNeighborsRecursion_spec cfg hw cfg.tree
        cfg.tree.self_mem_subtrees cfg.tree cfg.tree.self_mem_subtrees DBL_MAX s
        (hC.sound hn) hb (by
          intro h
          rw [hC.stat_reset hn cfg.tree cfg.tree.self_mem_subtrees] at h
          exact absurd h (lt_irrefl _))
      refine ⟨h1, ?_⟩
      intro q r hq hr
      have hcq : cfg.tree.Contains q := by
        unfold Tree.Contains Tree.end_
        rw [hw.root_begin, hw.root_count]
        omega
      have hcr : cfg.tree.Contains r := by
        unfold Tree.Contains Tree.end_
        rw [hw.root_begin, hw.root_count]
        omega
      exact h3 q r hcq hcr
  obtain ⟨h1, hcov⟩ := key
  have hF := hC.forest.searched h1
  refine ⟨h1, hF, selected_of_covered cfg _ hF (h1.cand hcand) hcov hfar ?_⟩
  rw [h1.number]
  exact h2

end NeighborsSpec

end Dtb

namespace Dtb

section CleanupSpec

variable {B : Type} {uf : UnionFind}

theorem setMember_stat_ne (node : Nat) (m : Int) (s : DualTreeBoruvka uf) (j : Nat)
    (h : j ≠ node) : (set_component_membership node m s).stat j = s.stat j := by
  unfold set_component_membership
  dsimp only
  rw [Function.update_noteq h]

theorem setMember_stat_self (node : Nat) (m : Int) (s : DualTreeBoruvka uf) :
    (set_component_membership node m s).stat node =
      ⟨(s.stat node).max_neighbor_distance, m⟩ := by
  unfold set_component_membership
  dsimp only
  rw [Function.update_same]

theorem setMax_stat_eq (node : Nat) (d : ℚ) (s : DualTreeBoruvka uf) :
    (set_max_neighbor_distance node d s).stat node =
      ⟨d, (s.stat node).component_membership⟩ := by
  unfold set_max_neighbor_distance
  dsimp only
  rw [Function.update_same]

theorem Kept.unchanged (s : DualTreeBoruvka uf) : Kept s s := ⟨rfl, rfl, rfl, rfl, rfl, rfl, rfl⟩

theorem Kept.compose {s s1 s2 : DualTreeBoruvka uf} (h1 : Kept s s1) (h2 : Kept s1 s2) :
    Kept s s2 :=
  ⟨h2.connections.trans h1.connections, h2.number.trans h1.number, h2.edges.trans h1.edges,
    h2.total.trans h1.total, h2.distances.trans h1.distances, h2.ins.trans h1.ins,
    h2.outs.trans h1.outs⟩

theorem NodeClean.congr {s s1 : DualTreeBoruvka uf} {N : Tree B}
    (h1 : s1.connections = s.connections) (h2 : s1.stat N.id = s.stat N.id)
    (h : NodeClean s N) : NodeClean s1 N := by
  unfold NodeClean at *
  simp only [comp_congr h1, h2]
  exact h

/-- The method `CleanupHelper_` on a tree of distinct non-empty nodes whose
non-negative memberships name sets of points that are still in one
component. -/
theorem cleanupHelper_spec (t : Tree B) :
    ∀ (_ : t.Distinct) (_ : t.Partitioned) (_ : ∀ N ∈ t.subtrees, 0 < N.count)
      (s : DualTreeBoruvka uf),
      (∀ N ∈ t.subtrees, 0 ≤ (s.stat N.id).component_membership →
        ∀ i j, N.Contains i → N.Contains j → comp s i = comp s j) →
      Kept s (CleanupHelper_ t s) ∧
        (∀ j, j ∉ t.ids → (CleanupHelper_ t s).stat j = s.stat j) ∧
        ∀ N ∈ t.subtrees, NodeClean (CleanupHelper_ t s) N := by
  induction t with
  | leaf id b c bd =>
    intro _ _ hne s hweak
    have hc : 0 < c := hne _ (Tree.self_mem_subtrees _)
    have hself : (Tree.leaf id b c bd) ∈ (Tree.leaf id b c bd).subtrees :=
      Tree.self_mem_subtrees _
    rw [CleanupHelper_]
    have hcomp1 : ∀ i, uf.Find (set_max_neighbor_distance id DBL_MAX s).connections i =
        comp s i := fun _ => rfl
    simp only [hcomp1]
    have hb : (Tree.leaf id b c bd).Contains b := by
      unfold Tree.Contains Tree.end_
      simp only [Tree.begin_leaf, Tree.count_leaf]
      omega
    split_ifs with hall
    · rw [List.all_eq_true] at hall
      refine ⟨⟨rfl, rfl, rfl, rfl, rfl, rfl, rfl⟩, ?_, ?_⟩
      · intro j hj
        have hj1 : j ≠ id := fun e => hj (by simp [Tree.ids, e])
        rw [setMember_stat_ne _ _ _ _ hj1, setMax_stat_ne _ _ _ _ hj1]
      · intro N hN
        simp only [Tree.subtrees, List.mem_singleton] at hN
        subst hN
        unfold NodeClean
        simp only [Tree.id_leaf, setMember_stat_self, setMax_stat_eq]
        refine ⟨trivial, ?_, fun _ => Int.ofNat_nonneg _⟩
        intro _ i hi
        have := hall i (by
          rw [List.mem_range'_1]
          exact hi)
        rw [decide_eq_true_eq] at this
        show ((comp s i : Nat) : Int) = ((comp s b : Nat) : Int)
        rw [this]
    · have hnot : ¬ ∀ i j, (Tree.leaf id b c bd).Contains i → (Tree.leaf id b c bd).Contains j →
          comp s i = comp s j := by
        intro h
        apply hall
        rw [List.all_eq_true]
        intro i hi
        rw [decide_eq_true_eq]
        rw [List.mem_range'_1] at hi
        exact h b i hb hi
      refine ⟨⟨rfl, rfl, rfl, rfl, rfl, rfl, rfl⟩, ?_, ?_⟩
      · intro j hj
        have hj1 : j ≠ id := fun e => hj (by simp [Tree.ids, e])
        rw [setMax_stat_ne _ _ _ _ hj1]
      · intro N hN
        simp only [Tree.subtrees, List.mem_singleton] at hN
        subst hN
        unfold NodeClean
        simp only [Tree.id_leaf, setMax_stat_eq]
        refine ⟨trivial, ?_, fun h => absurd h hnot⟩
        intro h0
        exact absurd (hweak _ hself h0) hnot
  | node id b c bd l r ihl ihr =>
    intro hd hp hne s hweak
    have hself : (Tree.node id b c bd l r) ∈ (Tree.node id b c bd l r).subtrees :=
      Tree.self_mem_subtrees _
    have hidl : id ∉ l.ids := hd.not_mem_left
    have hidr : id ∉ r.ids := hd.not_mem_right
    have hlr : ∀ j, j ∈ l.ids → j ∉ r.ids := hd.disjoint
    set s1 := set_max_neighbor_distance id DBL_MAX s with hs1
    have hweak1 : ∀ N ∈ l.subtrees, 0 ≤ (s1.stat N.id).component_membership →
        ∀ i j, N.Contains i → N.Contains j → comp s1 i = comp s1 j := by
      intro N hN h0 i j hi hj
      rw [hs1, setMax_member] at h0
      exact hweak N (Tree.subtrees_left hN) h0 i j hi hj
    obtain ⟨k1, f1, c1⟩ := ihl hd.of_left hp.left
      (fun N hN => hne N (Tree.subtrees_left hN)) s1 hweak1
    set s2 := CleanupHelper_ l s1 with hs2
    have hcomp2 : ∀ i, comp s2 i = comp s i := fun i => comp_congr k1.connections i
    have hweak2 : ∀ N ∈ r.subtrees, 0 ≤ (s2.stat N.id).component_membership →
        ∀ i j, N.Contains i → N.Contains j → comp s2 i = comp s2 j := by
      intro N hN h0 i j hi hj
      have hNr : N.id ∈ r.ids := subtrees_id_mem hN
      have hNl : N.id ∉ l.ids := fun h => hlr _ h hNr
      rw [f1 _ hNl, hs1, setMax_member] at h0
      rw [hcomp2, hcomp2]
      exact hweak N (Tree.subtrees_right hN) h0 i j hi hj
    obtain ⟨k2, f2, c2⟩ := ihr hd.of_right hp.right
      (fun N hN => hne N (Tree.subtrees_right hN)) s2 hweak2
    set s3 := CleanupHelper_ r s2 with hs3
    have hk3 : Kept s s3 := (Kept.compose (⟨rfl, rfl, rfl, rfl, rfl, rfl, rfl⟩ : Kept s s1) k1).compose k2
    have hcomp3 : ∀ i, comp s3 i = comp s i := fun i => comp_congr hk3.connections i
    have hstat_id : s3.stat id = ⟨DBL_MAX, (s.stat id).component_membership⟩ := by
      rw [f2 _ hidr, f1 _ hidl, hs1, setMax_stat_eq]
    have hcl : ∀ N ∈ l.subtrees, NodeClean s3 N := by
      intro N hN
      have hNl : N.id ∈ l.ids := subtrees_id_mem hN
      exact (c1 N hN).congr k2.connections (f2 _ (hlr _ hNl))
    have hcr : ∀ N ∈ r.subtrees, NodeClean s3 N := c2
    have hout : ∀ j, j ∉ (Tree.node id b c bd l r).ids → s3.stat j = s.stat j := by
      intro j hj
      simp only [Tree.ids, List.mem_cons, List.mem_append, not_or] at hj
      rw [f2 _ hj.2.2, f1 _ hj.2.1, hs1, setMax_stat_ne _ _ _ _ hj.1]
    have hsplit := fun x => Tree.contains_node id b c bd l r hp x
    have hbl : l.Contains l.begin := by
      have := hne l (Tree.subtrees_left l.self_mem_subtrees)
      unfold Tree.Contains Tree.end_
      omega
    have hbr : r.Contains r.begin := by
      have := hne r (Tree.subtrees_right r.self_mem_subtrees)
      unfold Tree.Contains Tree.end_
      omega
    have hNCl := hcl l l.self_mem_subtrees
    have hNCr := hcr r r.self_mem_subtrees
    have htest : (∀ i j, (Tree.node id b c bd l r).Contains i →
        (Tree.node id b c bd l r).Contains j → comp s3 i = comp s3 j) →
        0 ≤ (s3.stat l.id).component_membership ∧
          (s3.stat l.id).component_membership = (s3.stat r.id).component_membership := by
      intro hall
      have h1 : 0 ≤ (s3.stat l.id).component_membership :=
        hNCl.2.2 (fun i j hi hj => hall i j ((hsplit i).1.2 (Or.inl hi))
          ((hsplit j).1.2 (Or.inl hj)))
      have h2 : 0 ≤ (s3.stat r.id).component_membership :=
        hNCr.2.2 (fun i j hi hj => hall i j ((hsplit i).1.2 (Or.inr hi))
          ((hsplit j).1.2 (Or.inr hj)))
      refine ⟨h1, ?_⟩
      rw [← hNCl.2.1 h1 _ hbl, ← hNCr.2.1 h2 _ hbr,
        hall _ _ ((hsplit _).1.2 (Or.inl hbl)) ((hsplit _).1.2 (Or.inr hbr))]
    rw [CleanupHelper_]
    rw [← hs1, ← hs2, ← hs3]
    split_ifs with hif
    · refine ⟨hk3.compose ⟨rfl, rfl, rfl, rfl, rfl, rfl, rfl⟩, ?_, ?_⟩
      · intro j hj
        have hj1 : j ≠ id := fun e => hj (by simp [Tree.ids, e])
        rw [setMember_stat_ne _ _ _ _ hj1]
        exact hout j hj
      · intro N hN
        simp only [Tree.subtrees, List.mem_cons, List.mem_append] at hN
        rcases hN with hN | hN | hN
        · subst hN
          unfold NodeClean
          have hc4 : ∀ i, comp (set_component_membership id
              (s3.stat l.id).component_membership s3) i = comp s3 i := fun _ => rfl
          simp only [Tree.id_node, setMember_stat_self, hstat_id, hc4]
          refine ⟨trivial, ?_, fun _ => hif.1⟩
          intro _ i hi
          rcases (hsplit i).1.1 hi with k | k
          · exact hNCl.2.1 hif.1 i k
          · rw [hif.2]
            exact hNCr.2.1 (hif.2 ▸ hif.1) i k
        · have hNl : N.id ≠ id := fun e => hidl (e ▸ subtrees_id_mem hN)
          exact NodeClean.congr (s := s3) rfl (setMember_stat_ne _ _ _ _ hNl) (hcl N hN)
        · have hNr : N.id ≠ id := fun e => hidr (e ▸ subtrees_id_mem hN)
          exact NodeClean.congr (s := s3) rfl (setMember_stat_ne _ _ _ _ hNr) (hcr N hN)
    · refine ⟨hk3, hout, ?_⟩
      intro N hN
      simp only [Tree.subtrees, List.mem_cons, List.mem_append] at hN
      rcases hN with hN | hN | hN
      · subst hN
        unfold NodeClean
        simp only [Tree.id_node, hstat_id]
        refine ⟨trivial, ?_, fun h => absurd (htest h) hif⟩
        intro h0
        exfalso
        apply hif
        apply htest
        intro i j hi hj
        rw [hcomp3, hcomp3]
        exact hweak _ hself h0 i j hi hj
      · exact hcl N hN
      · exact hcr N hN

end CleanupSpec

end Dtb

namespace Dtb

section LoopSpec

variable {B : Type} {uf : UnionFind}

theorem resetFold_spec (l : List Nat) :
    ∀ s : DualTreeBoruvka uf,
      Kept s { (l.foldl (fun (t : DualTreeBoruvka uf) i =>
          { t with neighbors_distances := Function.update t.neighbors_distances i DBL_MAX }) s)
          with neighbors_distances := s.neighbors_distances } ∧
        (l.foldl (fun (t : DualTreeBoruvka uf) i =>
          { t with neighbors_distances := Function.update t.neighbors_distances i DBL_MAX })
          s).stat = s.stat ∧
        (∀ i, s.neighbors_distances i = DBL_MAX →
          (l.foldl (fun (t : DualTreeBoruvka uf) i =>
            { t with neighbors_distances := Function.update t.neighbors_distances i DBL_MAX })
            s).neighbors_distances i = DBL_MAX) ∧
        ∀ i ∈ l, (l.foldl (fun (t : DualTreeBoruvka uf) i =>
          { t with neighbors_distances := Function.update t.neighbors_distances i DBL_MAX })
          s).neighbors_distances i = DBL_MAX := by
  induction l with
  | nil =>
    intro s
    exact ⟨⟨rfl, rfl, rfl, rfl, rfl, rfl, rfl⟩, rfl, fun i h => h, fun i hi => absurd hi (List.not_mem_nil i)⟩
  | cons a l ih =>
    intro s
    rw [List.foldl_cons]
    obtain ⟨h1, h2, h3, h4⟩ := ih
      { s with neighbors_distances := Function.update s.neighbors_distances a DBL_MAX }
    refine ⟨⟨h1.connections, h1.number, h1.edges, h1.total, rfl, h1.ins, h1.outs⟩, h2, ?_, ?_⟩
    · intro i hi
      apply h3
      show Function.update s.neighbors_distances a DBL_MAX i = DBL_MAX
      by_cases e : i = a
      · rw [e, Function.update_same]
      · rw [Function.update_noteq e, hi]
    · intro i hi
      rcases List.mem_cons.1 hi with e | e
      · apply h3
        show Function.update s.neighbors_distances a DBL_MAX i = DBL_MAX
        rw [e, Function.update_same]
      · exact h4 i e

/-- The method `Cleanup_` re-establishes the state of the head of the
loop. -/
theorem cleanup_spec (cfg : Config B) (hwf : cfg.do_naive = false → WellFormed cfg)
    (s : DualTreeBoruvka uf) (hF : Forest cfg s)
    (hweak : cfg.do_naive = false → ∀ N ∈ cfg.tree.subtrees,
      0 ≤ (s.stat N.id).component_membership →
        ∀ i j, N.Contains i → N.Contains j → comp s i = comp s j) :
    Clean cfg (Cleanup_ cfg s) ∧ (Cleanup_ cfg s).number_of_edges = s.number_of_edges := by
  obtain ⟨h1, h2, -, h4⟩ := resetFold_spec (List.range' 0 cfg.number_of_points) s
  unfold Cleanup_
  dsimp only
  set s1 := (List.range' 0 cfg.number_of_points).foldl (fun (t : DualTreeBoruvka uf) i =>
    { t with neighbors_distances := Function.update t.neighbors_distances i DBL_MAX }) s with hs1
  have hreset : ∀ i, i < cfg.number_of_points → s1.neighbors_distances i = DBL_MAX := by
    intro i hi
    exact h4 i (by rw [List.mem_range'_1]; omega)
  have hF1 : Forest cfg s1 := Forest.of_kept h1.connections h1.number h1.edges h1.total hF
  cases hn : cfg.do_naive with
  | true =>
    simp only [Bool.not_true, Bool.false_eq_true, if_false]
    refine ⟨⟨Forest.of_kept (s := s1) rfl rfl rfl rfl hF1, hreset, ?_, ?_, ?_⟩, h1.number⟩
    · intro h; rw [hn] at h; exact absurd h (by decide)
    · intro h; rw [hn] at h; exact absurd h (by decide)
    · intro h; rw [hn] at h; exact absurd h (by decide)
  | false =>
    simp only [Bool.not_false, if_true]
    have hw := hwf hn
    set s2 : DualTreeBoruvka uf := { s1 with number_of_loops := s1.number_of_loops + 1 } with hs2
    have hc2 : ∀ i, comp s2 i = comp s i := fun i => comp_congr h1.connections i
    obtain ⟨k1, -, k3⟩ := cleanupHelper_spec cfg.tree hw.distinct hw.partitioned hw.nonempty s2
      (by
        intro N hN h0 i j hi hj
        rw [hc2, hc2]
        have h0' : 0 ≤ (s1.stat N.id).component_membership := h0
        rw [h2] at h0'
        exact hweak hn N hN h0' i j hi hj)
    have hc3 : ∀ i, comp (CleanupHelper_ cfg.tree s2) i = comp s2 i :=
      fun i => comp_congr k1.connections i
    refine ⟨⟨Forest.of_kept k1.connections k1.number k1.edges k1.total
      (Forest.of_kept (s := s1) rfl rfl rfl rfl hF1), ?_, ?_, ?_, ?_⟩, ?_⟩
    · intro i hi
      rw [k1.distances]
      exact hreset i hi
    · intro _ N hN
      exact (k3 N hN).1
    · intro _ N hN
      exact (k3 N hN).2.1
    · intro _ N hN
      exact (k3 N hN).2.2
    · rw [k1.number]
      exact h1.number

/-- One round of the loop of `ComputeMST` keeps the state of the head of the
loop and adds an edge. -/
theorem mstRound_spec (cfg : Config B) (hl : uf.Lawful)
    (hwf : cfg.do_naive = false → WellFormed cfg)
    (hfar : ∀ i j, i < cfg.number_of_points → j < cfg.number_of_points →
      cfg.dist i j < DBL_MAX)
    (s : DualTreeBoruvka uf) (hC : Clean cfg s)
    (h2 : s.number_of_edges + 1 < cfg.number_of_points) :
    Clean cfg (mstRound cfg s) ∧ s.number_of_edges + 1 ≤ (mstRound cfg s).number_of_edges := by
  obtain ⟨h1, hF1, hS1⟩ := computeNeighbors_spec cfg hwf hfar s hC h2
  obtain ⟨hR, hnum⟩ := addAllEdges_round cfg hl (ComputeNeighbors_ cfg s) hF1 hS1 (by omega)
  obtain ⟨hC3, hnum3⟩ := cleanup_spec cfg hwf (AddAllEdges_ cfg (ComputeNeighbors_ cfg s))
    hR.forest (by
      intro hn N hN h0 i j hi hj
      rw [hR.same_stat, h1.member] at h0
      apply hR.coarser
      rw [h1.comp_eq, h1.comp_eq]
      have e1 := hC.sound hn N hN h0 i hi
      have e2 := hC.sound hn N hN h0 j hj
      exact Int.ofNat_inj.1 (e1.trans e2.symm))
  unfold mstRound
  refine ⟨hC3, ?_⟩
  rw [hnum3, h1.number] at *
  exact hnum

/-- A state at the head of the loop holds at most `n - 1` edges. -/
theorem Clean.number_le {cfg : Config B} (hl : uf.Lawful) {s : DualTreeBoruvka uf}
    (hC : Clean cfg s) (hn : 0 < cfg.number_of_points) :
    s.number_of_edges + 1 ≤ cfg.number_of_points := by
  have h0 : comp s 0 ∈ roots cfg.number_of_points s := by
    unfold roots
    rw [Finset.mem_filter, Finset.mem_range]
    exact ⟨hC.forest.root_lt 0 hn, hl.find_find _ _⟩
  have := Finset.card_pos.2 ⟨_, h0⟩
  have := hC.forest.count
  omega

/-- The loop of `ComputeMST` ends, within `n - 1` rounds less the edges
held, in a state of the head of the loop that holds `n - 1` edges. -/
theorem mstLoop_spec (cfg : Config B) (hl : uf.Lawful)
    (hwf : cfg.do_naive = false → WellFormed cfg)
    (hfar : ∀ i j, i < cfg.number_of_points → j < cfg.number_of_points →
      cfg.dist i j < DBL_MAX)
    (hn : 0 < cfg.number_of_points) (fuel : Nat) :
    ∀ s : DualTreeBoruvka uf, Clean cfg s →
      cfg.number_of_points ≤ s.number_of_edges + 1 + fuel →
      ∃ s1, mstLoop cfg fuel s = some s1 ∧ Clean cfg s1 ∧
        s1.number_of_edges + 1 = cfg.number_of_points := by
  induction fuel with
  | zero =>
    intro s hC hf
    have hle := hC.number_le hl hn
    refine ⟨s, ?_, hC, by omega⟩
    unfold mstLoop
    rw [if_neg (by omega)]
  | succ fuel ih =>
    intro s hC hf
    have hle := hC.number_le hl hn
    unfold mstLoop
    by_cases h : (s.number_of_edges : Int) < (cfg.number_of_points : Int) - 1
    · rw [if_pos h]
      obtain ⟨hC1, hnum⟩ := mstRound_spec cfg hl hwf hfar s hC (by omega)
      exact ih (mstRound cfg s) hC1 (by omega)
    · rw [if_neg h]
      exact ⟨s, rfl, hC, by omega⟩

end LoopSpec

end Dtb

namespace Dtb

section InitSpec

variable {B : Type} {uf : UnionFind}

theorem initStats_frame (t : Tree B) :
    ∀ (a : Nat → DTBStat) (j : Nat), j ∉ t.ids → initStats t a j = a j := by
  induction t with
  | leaf id b c bd =>
    intro a j hj
    have hj1 : j ≠ id := fun e => hj (by simp [Tree.ids, e])
    rw [initStats, Function.update_noteq hj1]
  | node id b c bd l r ihl ihr =>
    intro a j hj
    simp only [Tree.ids, List.mem_cons, List.mem_append, not_or] at hj
    rw [initStats, Function.update_noteq hj.1, ihr _ _ hj.2.2, ihl _ _ hj.2.1]

/-- The statistics of the nodes of a tree of distinct nodes after its
construction. -/
theorem initStats_spec (t : Tree B) :
    ∀ (_ : t.Distinct) (a : Nat → DTBStat), ∀ N ∈ t.subtrees,
      initStats t a N.id = DTBStat.InitLeaf N.begin N.count := by
  induction t with
  | leaf id b c bd =>
    intro _ a N hN
    simp only [Tree.subtrees, List.mem_singleton] at hN
    subst hN
    rw [initStats]
    exact Function.update_same _ _ _
  | node id b c bd l r ihl ihr =>
    intro hd a N hN
    simp only [Tree.subtrees, List.mem_cons, List.mem_append] at hN
    rw [initStats]
    rcases hN with hN | hN | hN
    · subst hN
      exact Function.update_same _ _ _
    · have h1 : N.id ∈ l.ids := subtrees_id_mem hN
      have h2 : N.id ≠ id := fun e => hd.not_mem_left (e ▸ h1)
      rw [Function.update_noteq h2, initStats_frame r _ _ (hd.disjoint _ h1)]
      exact ihl hd.of_left a N hN
    · have h1 : N.id ∈ r.ids := subtrees_id_mem hN
      have h2 : N.id ≠ id := fun e => hd.not_mem_right (e ▸ h1)
      rw [Function.update_noteq h2]
      exact ihr hd.of_right _ N hN

theorem initLeaf_max (b c : Nat) : (DTBStat.InitLeaf b c).max_neighbor_distance = DBL_MAX := by
  unfold DTBStat.InitLeaf DTBStat.Init
  split_ifs <;> rfl

theorem initLeaf_member (b c : Nat) :
    (DTBStat.InitLeaf b c).component_membership = if c = 1 then (b : Int) else -1 := by
  unfold DTBStat.InitLeaf DTBStat.Init
  split_ifs <;> rfl

theorem comp_init (hl : uf.Lawful) (cfg : Config B) (a : Allocated) (i : Nat) :
    comp (Init cfg a : DualTreeBoruvka uf) i = i := hl.find_init _ _

theorem edgeSet_init (cfg : Config B) (a : Allocated) : edgeSet (Init cfg a : DualTreeBoruvka uf) = ∅ := rfl

/-- The object after `Init` is in the state of the head of the loop. -/
theorem init_clean (hl : uf.Lawful) (cfg : Config B) (a : Allocated)
    (hwf : cfg.do_naive = false → WellFormed cfg) :
    Clean cfg (Init cfg a : DualTreeBoruvka uf) := by
  have hc := comp_init hl cfg a
  refine ⟨⟨?_, ?_, ?_, ?_, ?_, ?_, ?_, ?_⟩, fun _ _ => rfl, ?_, ?_, ?_⟩
  · intro i hi; rw [hc]; exact hi
  · intro i j
    rw [hc, hc, edgeSet_init, Joined.empty_iff]
  · intro k hk
    exact absurd hk (Nat.not_lt_zero k)
  · exact List.nodup_nil
  · rw [edgeSet_init]
    intro e he
    exact absurd he (Finset.not_mem_empty e)
  · rw [edgeSet_init]
    rfl
  · have : roots cfg.number_of_points (Init cfg a : DualTreeBoruvka uf) =
        Finset.range cfg.number_of_points := by
      unfold roots
      simp only [hc, Finset.filter_True]
    rw [this, Finset.card_range]
    rfl
  · intro T hT
    exact ⟨T, hT, by rw [edgeSet_init]; exact Finset.empty_subset T, le_refl _⟩
  · intro hn N hN
    have hw := hwf hn
    have hs : (Init cfg a : DualTreeBoruvka uf).stat = initStats cfg.tree (fun _ => DTBStat.Init) := by
      unfold Init
      simp only [hn, Bool.false_eq_true, if_false]
    rw [hs, initStats_spec cfg.tree hw.distinct _ N hN, initLeaf_max]
  · intro hn N hN h0 i hi
    have hw := hwf hn
    have hs : (Init cfg a : DualTreeBoruvka uf).stat = initStats cfg.tree (fun _ => DTBStat.Init) := by
      unfold Init
      simp only [hn, Bool.false_eq_true, if_false]
    rw [hs, initStats_spec cfg.tree hw.distinct _ N hN, initLeaf_member] at h0 ⊢
    rw [hc]
    unfold Tree.Contains Tree.end_ at hi
    split_ifs at h0 ⊢ with h1
    · have : i = N.begin := by omega
      rw [this]
    · exact absurd h0 (by decide)
  · intro hn N hN hall
    have hw := hwf hn
    have hs : (Init cfg a : DualTreeBoruvka uf).stat = initStats cfg.tree (fun _ => DTBStat.Init) := by
      unfold Init
      simp only [hn, Bool.false_eq_true, if_false]
    rw [hs, initStats_spec cfg.tree hw.distinct _ N hN, initLeaf_member]
    have h0 := hw.nonempty N hN
    have h1 : N.count = 1 := by
      by_contra hne
      have := hall N.begin (N.begin + 1)
        (by unfold Tree.Contains Tree.end_; omega) (by unfold Tree.Contains Tree.end_; omega)
      rw [hc, hc] at this
      omega
    rw [if_pos h1]
    exact Int.ofNat_nonneg _

end InitSpec

section Final

variable {B : Type} {uf : UnionFind}

theorem quickFind_lawful : quickFind.Lawful := by
  refine ⟨fun _ _ => rfl, fun s i => s.2 i, ?_, ?_⟩
  · intro s x y
    right
    show (if s.1 x = s.1 x then s.1 y else s.1 x) = s.1 y
    rw [if_pos rfl]
  · intro s x y i
    show (if s.1 i = s.1 x then s.1 y else s.1 i) =
      if s.1 i = s.1 x ∨ s.1 i = s.1 y then (if s.1 x = s.1 x then s.1 y else s.1 x) else s.1 i
    rw [if_pos (rfl : s.1 x = s.1 x)]
    by_cases h1 : s.1 i = s.1 x
    · rw [if_pos h1, if_pos (Or.inl h1)]
    · rw [if_neg h1]
      by_cases h2 : s.1 i = s.1 y
      · rw [if_pos (Or.inr h2), h2]
      · rw [if_neg (fun h => h.elim h1 h2)]

theorem edgeList_length (s : DualTreeBoruvka uf) : (edgeList s).length = s.number_of_edges := by
  unfold edgeList
  rw [List.length_map, List.length_range]

/-- From the invariant of the edges with `n - 1` edges: the edges are a
spanning tree of least weight. -/
theorem Forest.final {cfg : Config B} (hl : uf.Lawful) {s : DualTreeBoruvka uf}
    (hF : Forest cfg s) (hnum : s.number_of_edges + 1 = cfg.number_of_points) :
    (edgeSet s).card = s.number_of_edges ∧ Spanning cfg.number_of_points (edgeSet s) ∧
      Acyclic (edgeSet s) ∧ s.total_dist = weight cfg (edgeSet s) ∧
      ∀ T, Spanning cfg.number_of_points T → s.total_dist ≤ weight cfg T := by
  refine ⟨?_, ⟨?_, ?_⟩, hF.acyclic, hF.total, ?_⟩
  · unfold edgeSet
    rw [List.toFinset_card_of_nodup hF.nodup, edgeList_length]
  · intro e he
    rw [mem_edgeSet_iff] at he
    unfold edgeList at he
    rw [List.mem_map] at he
    obtain ⟨k, hk, rfl⟩ := he
    rw [List.mem_range] at hk
    exact ⟨(hF.edge_ok k hk).1, (hF.edge_ok k hk).2.1⟩
  · intro a b ha hb
    rw [← hF.joined]
    have hcard : (roots cfg.number_of_points s).card = 1 := by
      have := hF.count
      omega
    obtain ⟨r, hr⟩ := Finset.card_eq_one.1 hcard
    have hmem : ∀ i, i < cfg.number_of_points → comp s i = r := by
      intro i hi
      have : comp s i ∈ roots cfg.number_of_points s := by
        unfold roots
        rw [Finset.mem_filter, Finset.mem_range]
        exact ⟨hF.root_lt i hi, hl.find_find _ _⟩
      rw [hr, Finset.mem_singleton] at this
      exact this
    rw [hmem a ha, hmem b hb]
  · intro T hT
    obtain ⟨T1, _, hsub, hw⟩ := hF.promising T hT
    rw [hF.total]
    refine le_trans ?_ hw
    unfold weight
    exact Finset.sum_le_sum_of_subset_of_nonneg hsub (fun e _ _ => cfg.dist_nonneg _ _)

end Final

end Dtb

namespace Dtb

section ExampleFacts

/-- The coordinate of a point of the example. -/
theorem Example.points_eq (i : Nat) :
    Example.points i = [if i = 0 then 0 else if i = 1 then 1 else if i = 2 then 3 else 7] := by
  unfold Example.points
  split_ifs <;> rfl

theorem Example.dist_eq (n : Bool) (i j : Nat) :
    (Example.config n).dist i j =
      ((if i = 0 then 0 else if i = 1 then 1 else if i = 2 then 3 else 7 : ℚ) -
        (if j = 0 then 0 else if j = 1 then 1 else if j = 2 then 3 else 7)) *
      ((if i = 0 then 0 else if i = 1 then 1 else if i = 2 then 3 else 7 : ℚ) -
        (if j = 0 then 0 else if j = 1 then 1 else if j = 2 then 3 else 7)) := by
  unfold Config.dist Example.config
  simp only [Example.points_eq, DistanceSqEuclidean, List.zipWith_cons_cons, List.zipWith_nil_left,
    List.sum_cons, List.sum_nil, add_zero]

theorem DBL_MAX_large : (49 : ℚ) < DBL_MAX := by
  unfold DBL_MAX
  norm_num

theorem Example.config_far (n : Bool) (i j : Nat) :
    (Example.config n).dist i j < DBL_MAX := by
  rw [Example.dist_eq]
  refine lt_of_le_of_lt ?_ DBL_MAX_large
  split_ifs <;> norm_num

theorem interval_bound (a b : VKde.Example.Interval) (x y : ℚ) (h1 : a.1 ≤ x) (h2 : x ≤ a.2)
    (h3 : b.1 ≤ y) (h4 : y ≤ b.2) : VKde.Example.minDistanceSq a b ≤ (x - y) * (x - y) := by
  unfold VKde.Example.minDistanceSq
  dsimp only
  have hg0 : (0 : ℚ) ≤ max 0 (max (a.1 - b.2) (b.1 - a.2)) := le_max_left _ _
  have hg1 : max 0 (max (a.1 - b.2) (b.1 - a.2)) ≤ |x - y| := by
    refine max_le (abs_nonneg _) (max_le ?_ ?_)
    · exact le_trans (by linarith) (le_abs_self _)
    · exact le_trans (by linarith) (neg_le_abs _)
  calc max 0 (max (a.1 - b.2) (b.1 - a.2)) * max 0 (max (a.1 - b.2) (b.1 - a.2))
      ≤ |x - y| * |x - y| := mul_self_le_mul_self hg0 hg1
    _ = (x - y) * (x - y) := abs_mul_abs_self _

theorem Example.config_wellFormed : WellFormed (Example.config false) := by
  refine ⟨?_, ?_, rfl, rfl, ?_, ?_⟩
  · simp [Example.config, Example.tree, Tree.Partitioned]
  · decide
  · decide
  · intro q hq r hr i j hi hj
    rw [Example.dist_eq]
    have key : ∀ t ∈ (Example.config false).tree.subtrees, ∀ k, t.Contains k →
        t.bound.1 ≤ (if k = 0 then 0 else if k = 1 then 1 else if k = 2 then 3 else 7 : ℚ) ∧
          (if k = 0 then 0 else if k = 1 then 1 else if k = 2 then 3 else 7 : ℚ) ≤ t.bound.2 := by
      intro t ht k hk
      simp only [Example.config, Example.tree, Tree.subtrees, List.mem_cons, List.cons_append,
        List.nil_append, List.mem_singleton, List.not_mem_nil, or_false] at ht
      rcases ht with rfl | rfl | rfl | rfl | rfl | rfl | rfl <;>
        simp only [Tree.Contains, Tree.end_, Tree.begin, Tree.count] at hk <;>
        simp only [Tree.bound] <;>
        (have hk4 : k < 4 := by omega) <;>
        interval_cases k <;> first | omega | norm_num
    exact interval_bound q.bound r.bound _ _ (key q hq i hi).1 (key q hq i hi).2
      (key r hr j hj).1 (key r hr j hj).2

end ExampleFacts

end Dtb

namespace Dtb

section Claim

variable {B : Type} {uf : UnionFind}

/-- C18, amended. MST correctness: for every lawful union-find structure,
every content of the arrays that `Init` does not fill, and every set of
`n >= 2` points whose pairwise squared distances are below `DBL_MAX` (in naive
mode, and in tree mode for any well-formed kd-tree), `ComputeMST` ends within
`n - 1` rounds of its loop with exactly `n - 1` pairwise different edges,
each stored with its squared distance, that connect the points and have no
cycle, and `total_dist_` is the sum of their squared distances and is at most
the weight of every edge set that connects the points.  The edges are those
of the object `s` at the exit of the loop, which `EmitResults_` copies to
`results`, in tree mode renamed by the permutation of the tree. -/
theorem C18_mst_correctness (hl : uf.Lawful) (cfg : Config B) (a : Allocated)
    (hwf : cfg.do_naive = false → WellFormed cfg) (hn : 2 ≤ cfg.number_of_points)
    (hfar : ∀ i j, i < cfg.number_of_points → j < cfg.number_of_points →
      cfg.dist i j < DBL_MAX)
    (fuel : Nat) (hfuel : cfg.number_of_points ≤ fuel + 1) :
    ∃ s, mstLoop cfg fuel (Init cfg a : DualTreeBoruvka uf) = some s ∧
      ComputeMST cfg fuel (Init cfg a : DualTreeBoruvka uf) = some (EmitResults_ cfg s) ∧
      s.number_of_edges + 1 = cfg.number_of_points ∧
      (∀ k, k < s.number_of_edges →
        (s.edges k).distance = cfg.dist (s.edges k).lesser_index (s.edges k).greater_index) ∧
      (edgeSet s).card = s.number_of_edges ∧
      Spanning cfg.number_of_points (edgeSet s) ∧ Acyclic (edgeSet s) ∧
      s.total_dist = weight cfg (edgeSet s) ∧
      ∀ T, Spanning cfg.number_of_points T → s.total_dist ≤ weight cfg T := by
  obtain ⟨s, h1, hC, hnum⟩ := mstLoop_spec cfg hl hwf hfar (by omega) fuel
    (Init cfg a : DualTreeBoruvka uf) (init_clean hl cfg a hwf) (by
      show cfg.number_of_points ≤ 0 + 1 + fuel
      omega)
  obtain ⟨k1, k2, k3, k4, k5⟩ := hC.forest.final hl hnum
  refine ⟨s, h1, ?_, hnum, fun k hk => (hC.forest.edge_ok k hk).2.2, k1, k2, k3, k4, k5⟩
  unfold ComputeMST
  rw [h1]
  rfl

/-- C18 at a concrete input: the four points 0, 1, 3 and 7 of the line in
tree mode, with the union-find that keeps every representative, arrays
allocated with zeros, and three rounds allowed. -/
theorem C18_mst_correctness_witness :
    ∃ s, mstLoop (Example.config false) 3
        (Init (Example.config false) Example.zeros : DualTreeBoruvka quickFind) = some s ∧
      ComputeMST (Example.config false) 3
        (Init (Example.config false) Example.zeros : DualTreeBoruvka quickFind) =
          some (EmitResults_ (Example.config false) s) ∧
      s.number_of_edges + 1 = (Example.config false).number_of_points ∧
      (∀ k, k < s.number_of_edges →
        (s.edges k).distance =
          (Example.config false).dist (s.edges k).lesser_index (s.edges k).greater_index) ∧
      (edgeSet s).card = s.number_of_edges ∧
      Spanning (Example.config false).number_of_points (edgeSet s) ∧ Acyclic (edgeSet s) ∧
      s.total_dist = weight (Example.config false) (edgeSet s) ∧
      ∀ T, Spanning (Example.config false).number_of_points T →
        s.total_dist ≤ weight (Example.config false) T :=
  C18_mst_correctness quickFind_lawful (Example.config false) Example.zeros
    (fun _ => Example.config_wellFormed) (by decide)
    (fun i j _ _ => Example.config_far false i j) 3 (by decide)

end Claim

end Dtb

namespace Dtb

section FarExample

variable {B : Type} {uf : UnionFind}

theorem baseCaseReference_skip (cfg : Config B) (q : Nat) (s : DualTreeBoruvka uf) (r : Nat)
    (h : comp s q = comp s r ∨ ¬ cfg.dist q r < s.neighbors_distances (comp s q)) :
    baseCaseReference cfg q (comp s q) s r = s := by
  unfold baseCaseReference
  dsimp only
  by_cases h1 : comp s q ≠ uf.Find s.connections r
  · rw [if_pos h1]
    rcases h with h | h
    · exact absurd h h1
    · rw [if_neg h]
  · rw [if_neg h1]

theorem baseCaseInner_skip (cfg : Config B) (q : Nat) (l : List Nat) (s : DualTreeBoruvka uf)
    (h : ∀ r ∈ l, comp s q = comp s r ∨ ¬ cfg.dist q r < s.neighbors_distances (comp s q)) :
    l.foldl (baseCaseReference cfg q (comp s q)) s = s := by
  induction l with
  | nil => rfl
  | cons r l ih =>
    rw [List.foldl_cons, baseCaseReference_skip cfg q s r (h r (List.mem_cons_self _ _))]
    exact ih (fun r1 hr1 => h r1 (List.mem_cons_of_mem _ hr1))

theorem baseCaseOuter_skip (cfg : Config B) (rs re : Nat) (l : List Nat) :
    ∀ (a : ℚ × DualTreeBoruvka uf),
      (∀ q ∈ l, ∀ r ∈ List.range' rs (re - rs),
        comp a.2 q = comp a.2 r ∨ ¬ cfg.dist q r < a.2.neighbors_distances (comp a.2 q)) →
      (l.foldl (baseCaseQuery cfg rs re) a).2 = a.2 := by
  induction l with
  | nil => intro a _; rfl
  | cons q l ih =>
    intro a h
    rw [List.foldl_cons]
    have h1 : (baseCaseQuery cfg rs re a q).2 = a.2 := by
      unfold baseCaseQuery
      dsimp only
      have h2 := baseCaseInner_skip cfg q (List.range' rs (re - rs)) a.2
        (h q (List.mem_cons_self _ _))
      unfold comp at h2
      rw [h2]
      split_ifs <;> rfl
    rw [ih (baseCaseQuery cfg rs re a q) (by
      rw [h1]
      exact fun q1 hq1 => h q1 (List.mem_cons_of_mem _ hq1)), h1]

/-- When no pair of points of two components is nearer than the candidate
distance, the base case changes only its counter. -/
theorem computeBaseCase_skip (cfg : Config B) (qs qe rs re : Nat) (s : DualTreeBoruvka uf)
    (h : ∀ q ∈ List.range' qs (qe - qs), ∀ r ∈ List.range' rs (re - rs),
      comp s q = comp s r ∨ ¬ cfg.dist q r < s.neighbors_distances (comp s q)) :
    (ComputeBaseCase_ cfg qs qe rs re s).2 =
      { s with number_leaf_computations := s.number_leaf_computations + 1 } := by
  unfold ComputeBaseCase_
  dsimp only
  rw [baseCaseOuter_skip cfg rs re _ _ h]

theorem addAllEdges_skip (l : List Nat) (s : DualTreeBoruvka uf)
    (h : ∀ c, comp s (s.neighbors_in_component c) = comp s (s.neighbors_out_component c)) :
    l.foldl addAllEdgesStep s = s := by
  induction l with
  | nil => rfl
  | cons i l ih => rw [List.foldl_cons, addAllEdgesStep_skip s i (h _)]; exact ih

theorem cast_pow_sub (a b : ℕ) (h : b ≤ a) :
    (((2 : ℕ) ^ a - 2 ^ b : ℕ) : ℚ) = (2 : ℚ) ^ a - 2 ^ b := by
  rw [Nat.cast_sub (Nat.pow_le_pow_right (by decide) h), Nat.cast_pow, Nat.cast_pow,
    Nat.cast_ofNat]

theorem DBL_MAX_cast : DBL_MAX = (2 : ℚ) ^ 1024 - 2 ^ 971 :=
  cast_pow_sub 1024 971 (by decide)

theorem Example.far_dist_01 : Example.farConfig.dist 0 1 = DBL_MAX := by
  rw [DBL_MAX_cast]
  unfold Config.dist Example.farConfig Example.farPoints
  simp only [if_true, one_ne_zero, if_false, DistanceSqEuclidean, List.zipWith_cons_cons,
    List.zipWith_nil_left, List.sum_cons, List.sum_nil]
  ring

theorem stuck_round (s : DualTreeBoruvka quickFind) (h : Stuck s) :
    Stuck (mstRound Example.farConfig s) := by
  obtain ⟨h1, h0, h2, h3, h4⟩ := h
  have e1 : ComputeNeighbors_ Example.farConfig s =
      { s with number_leaf_computations := s.number_leaf_computations + 1 } := by
    unfold ComputeNeighbors_
    have hnaive : Example.farConfig.do_naive = true := rfl
    rw [if_pos hnaive]
    apply computeBaseCase_skip
    intro q hq r hr
    rw [h4, h0, h0]
    rw [List.mem_range'_1] at hq hr
    have hq2 : q < 2 := by
      have : Example.farConfig.number_of_points = 2 := rfl
      omega
    have hr2 : r < 2 := by
      have : Example.farConfig.number_of_points = 2 := rfl
      omega
    by_cases hqr : q = r
    · exact Or.inl hqr
    · right
      have hd : Example.farConfig.dist q r = DBL_MAX := by
        interval_cases q <;> interval_cases r
        · exact absurd rfl hqr
        · exact Example.far_dist_01
        · rw [Config.dist_comm]; exact Example.far_dist_01
        · exact absurd rfl hqr
      rw [hd]
      exact lt_irrefl _
  have e2 : AddAllEdges_ Example.farConfig (ComputeNeighbors_ Example.farConfig s) =
      ComputeNeighbors_ Example.farConfig s := by
    unfold AddAllEdges_
    apply addAllEdges_skip
    intro c
    rw [e1]
    show comp s (s.neighbors_in_component c) = comp s (s.neighbors_out_component c)
    rw [h2, h3]
  obtain ⟨k1, -, k3, -⟩ := resetFold_spec (List.range' 0 Example.farConfig.number_of_points)
    (ComputeNeighbors_ Example.farConfig s)
  unfold mstRound
  rw [e2]
  unfold Cleanup_
  dsimp only
  have hn : (!Example.farConfig.do_naive) = false := rfl
  rw [hn]
  simp only [Bool.false_eq_true, if_false]
  rw [e1] at k1 k3 ⊢
  refine ⟨k1.number.trans h1, ?_, ?_, ?_, ?_⟩
  · intro i
    exact (comp_congr k1.connections i).trans (h0 i)
  · intro c
    exact (congrFun k1.ins c).trans (h2 c)
  · intro c
    exact (congrFun k1.outs c).trans (h3 c)
  · intro c
    exact k3 c (h4 c)

theorem stuck_loop (fuel : Nat) :
    ∀ s : DualTreeBoruvka quickFind, Stuck s → mstLoop Example.farConfig fuel s = none := by
  induction fuel with
  | zero =>
    intro s h
    unfold mstLoop
    rw [h.1]
    rfl
  | succ fuel ih =>
    intro s h
    unfold mstLoop
    rw [h.1]
    exact ih _ (stuck_round s h)

end FarExample

end Dtb

namespace Dtb

/-- C18, the claim as stated fails at the largest finite distance: for the
two points `(0, 0, 0)` and `2 ^ 485 * (92184541, 42027399, 88034690)`, whose
squared distance is `DBL_MAX`, in naive mode, with the union-find that keeps
every representative and arrays allocated with zeros, the loop of
`ComputeMST` adds no edge and does not end within any number of rounds. -/
theorem C18_counterexample :
    Example.farConfig.number_of_points = 2 ∧ Example.farConfig.do_naive = true ∧
      Example.farConfig.dist 0 1 = DBL_MAX ∧ quickFind.Lawful ∧
      (mstRound Example.farConfig
        (Init Example.farConfig Example.zeros : DualTreeBoruvka quickFind)).number_of_edges = 0 ∧
      ∀ fuel, ComputeMST Example.farConfig fuel
        (Init Example.farConfig Example.zeros : DualTreeBoruvka quickFind) = none := by
  have h0 : Stuck (Init Example.farConfig Example.zeros : DualTreeBoruvka quickFind) :=
    ⟨rfl, fun _ => rfl, fun _ => rfl, fun _ => rfl, fun _ => rfl⟩
  refine ⟨rfl, rfl, Example.far_dist_01, quickFind_lawful, (stuck_round _ h0).1, ?_⟩
  intro fuel
  unfold ComputeMST
  rw [stuck_loop fuel _ h0]
  rfl

end Dtb

section RangeClaims

theorem Range.MaxWith_eq (r range : Range) :
    r.MaxWith range = ⟨max r.lo range.lo, max r.hi range.hi⟩ := by
  unfold Range.MaxWith
  dsimp only
  congr 1
  · split_ifs with h
    · exact (max_eq_right (le_of_lt h)).symm
    · exact (max_eq_left (not_lt.1 h)).symm
  · split_ifs with h
    · exact (max_eq_right (le_of_lt h)).symm
    · exact (max_eq_left (not_lt.1 h)).symm

theorem Range.MinWith_eq (r range : Range) :
    r.MinWith range = ⟨min r.lo range.lo, min r.hi range.hi⟩ := by
  unfold Range.MinWith
  dsimp only
  congr 1
  · split_ifs with h
    · exact (min_eq_right (le_of_lt h)).symm
    · exact (min_eq_left (not_lt.1 h)).symm
  · split_ifs with h
    · exact (min_eq_right (le_of_lt h)).symm
    · exact (min_eq_left (not_lt.1 h)).symm

/-- C28, the failing input: on the empty range with `lo = 5` and `hi = 1`,
`MaxWith(3.0)` leaves the range `(5, 1)` while `MaxWith(Range(3.0))` gives
`(5, 3)`, and `MinWith(3.0)` leaves `(5, 1)` while `MinWith(Range(3.0))`
gives `(3, 1)`; on the empty set of `InitEmptySet`, `MaxWith(0.0)` changes
nothing while `MaxWith(Range(0.0))` raises the upper bound to 0. -/
theorem C28_counterexample :
    (Range.mk 5 1).MaxWith_double 3 = ⟨5, 1⟩ ∧
      (Range.mk 5 1).MaxWith (Range.ofPoint 3) = ⟨5, 3⟩ ∧
      (Range.mk 5 1).MinWith_double 3 = ⟨5, 1⟩ ∧
      (Range.mk 5 1).MinWith (Range.ofPoint 3) = ⟨3, 1⟩ ∧
      Range.InitEmptySet.MaxWith_double 0 = Range.InitEmptySet ∧
      (Range.InitEmptySet.MaxWith (Range.ofPoint 0)).hi = 0 := by
  decide!

/-- C28, on ranges that are not empty. For every range with `lo <= hi` and
every `v`, `MaxWith(v)` gives `(max(lo, v), max(hi, v))` and `MinWith(v)`
gives `(min(lo, v), min(hi, v))`, as `MaxWith(Range(v))` and
`MinWith(Range(v))` do. -/
theorem C28_with_double_on_nonempty (r : Range) (v : ℚ) (h : r.lo ≤ r.hi) :
    r.MaxWith_double v = ⟨max r.lo v, max r.hi v⟩ ∧
      r.MaxWith_double v = r.MaxWith (Range.ofPoint v) ∧
      r.MinWith_double v = ⟨min r.lo v, min r.hi v⟩ ∧
      r.MinWith_double v = r.MinWith (Range.ofPoint v) := by
  have h1 : r.MaxWith_double v = ⟨max r.lo v, max r.hi v⟩ := by
    unfold Range.MaxWith_double
    by_cases h1 : v > r.lo
    · rw [if_pos h1, max_eq_right (le_of_lt h1)]
      by_cases h2 : v > r.hi
      · rw [if_pos h2, max_eq_right (le_of_lt h2)]
      · rw [if_neg h2, max_eq_left (not_lt.1 h2)]
    · rw [if_neg h1, max_eq_left (not_lt.1 h1), max_eq_left (le_trans (not_lt.1 h1) h)]
  have h2 : r.MinWith_double v = ⟨min r.lo v, min r.hi v⟩ := by
    unfold Range.MinWith_double
    by_cases h1 : v < r.hi
    · rw [if_pos h1, min_eq_right (le_of_lt h1)]
      by_cases h2 : v < r.lo
      · rw [if_pos h2, min_eq_right (le_of_lt h2)]
      · rw [if_neg h2, min_eq_left (not_lt.1 h2)]
    · rw [if_neg h1, min_eq_left (not_lt.1 h1), min_eq_left (le_trans h (not_lt.1 h1))]
  refine ⟨h1, ?_, h2, ?_⟩
  · rw [h1, Range.MaxWith_eq]; rfl
  · rw [h2, Range.MinWith_eq]; rfl

/-- C28 at a concrete input: the range `(1, 5)` and the value 3. -/
theorem C28_with_double_on_nonempty_witness :
    (Range.mk 1 5).MaxWith_double 3 = ⟨max 1 3, max 5 3⟩ ∧
      (Range.mk 1 5).MaxWith_double 3 = (Range.mk 1 5).MaxWith (Range.ofPoint 3) ∧
      (Range.mk 1 5).MinWith_double 3 = ⟨min 1 3, min 5 3⟩ ∧
      (Range.mk 1 5).MinWith_double 3 = (Range.mk 1 5).MinWith (Range.ofPoint 3) :=
  C28_with_double_on_nonempty ⟨1, 5⟩ 3 (by norm_num)

theorem Range.and_eq (a b : Range) : a.and b = ⟨max a.lo b.lo, min a.hi b.hi⟩ := by
  unfold Range.and
  congr 1
  · split_ifs with h
    · exact (max_eq_right (le_of_lt h)).symm
    · exact (max_eq_left (not_lt.1 h)).symm
  · split_ifs with h
    · exact (min_eq_right (le_of_lt h)).symm
    · exact (min_eq_left (not_lt.1 h)).symm

theorem Range.contains_iff_le (r : Range) (d : ℚ) : r.Contains d = true ↔ r.lo ≤ d ∧ d ≤ r.hi := by
  unfold Range.Contains
  rw [Bool.and_eq_true, decide_eq_true_eq, decide_eq_true_eq]

/-- C29. Range intersection: for all ranges `a`, `b` and every `d`,
`(a & b).Contains(d)` holds exactly when `a.Contains(d)` and `b.Contains(d)`
hold; when `a` and `b` satisfy `lo <= hi` and have no point in common the
result has `lo > hi`; and `a &= b` leaves `a` equal to `a & b`. -/
theorem C29_range_intersection (a b : Range) :
    (∀ d, (a.and b).Contains d = (a.Contains d && b.Contains d)) ∧
      (a.lo ≤ a.hi → b.lo ≤ b.hi → (∀ d, ¬ (a.Contains d = true ∧ b.Contains d = true)) →
        (a.and b).lo > (a.and b).hi) ∧
      a.and_assign b = a.and b := by
  refine ⟨?_, ?_, rfl⟩
  · intro d
    rw [Bool.eq_iff_iff, Bool.and_eq_true, Range.contains_iff_le, Range.contains_iff_le,
      Range.contains_iff_le, Range.and_eq]
    dsimp only
    rw [max_le_iff, le_min_iff]
    tauto
  · intro ha hb hdis
    rw [Range.and_eq]
    dsimp only
    by_contra hcon
    have hle : max a.lo b.lo ≤ min a.hi b.hi := not_lt.1 hcon
    apply hdis (max a.lo b.lo)
    rw [Range.contains_iff_le, Range.contains_iff_le]
    exact ⟨⟨le_max_left _ _, le_trans hle (min_le_left _ _)⟩,
      ⟨le_max_right _ _, le_trans hle (min_le_right _ _)⟩⟩

/-- C29 at a concrete input: the ranges `(0, 1)` and `(2, 3)` have no point
in common and their intersection `(2, 1)` is empty. -/
theorem C29_range_intersection_witness :
    (Range.mk 0 1).and ⟨2, 3⟩ = ⟨2, 1⟩ ∧
      ((Range.mk 0 1).and ⟨2, 3⟩).lo > ((Range.mk 0 1).and ⟨2, 3⟩).hi :=
  ⟨by decide!, (C29_range_intersection ⟨0, 1⟩ ⟨2, 3⟩).2.1 (by norm_num) (by norm_num) (by
    intro d h
    rw [Range.contains_iff_le, Range.contains_iff_le] at h
    dsimp only at h
    linarith [h.1.2, h.2.1])⟩

end RangeClaims

namespace KdTreeHybridBuilder

theorem goal_col_eq (b e c : Int) (hb : 0 ≤ b) (he : 0 ≤ e) (hc : 1 ≤ c) :
    goal_col b e c = (b + e + c) / c / 2 * c := by
  unfold goal_col
  have e1 : (b + e + c).tdiv c = (b + e + c) / c := Int.tdiv_eq_ediv (by omega) (by omega)
  rw [e1, Int.tdiv_eq_ediv (Int.ediv_nonneg (by omega) (by omega)) (by omega)]

/-- C27. Block-rounded median split: for integers `0 <= begin_col <= end_col`
and `chunk_size_ >= 1`, `goal_col` is a multiple of `chunk_size_` with
`|2 * goal_col - (begin_col + end_col)| <= chunk_size_`; and when `begin_col`
and `end_col` are multiples of `chunk_size_` with `end_col - begin_col >
chunk_size_`, `begin_col < goal_col < end_col`. -/
theorem C27_block_rounded_median (begin_col end_col chunk_size_ : Int)
    (hb : 0 ≤ begin_col) (hbe : begin_col ≤ end_col) (hc : 1 ≤ chunk_size_) :
    chunk_size_ ∣ goal_col begin_col end_col chunk_size_ ∧
      |2 * goal_col begin_col end_col chunk_size_ - (begin_col + end_col)| ≤ chunk_size_ ∧
      (chunk_size_ ∣ begin_col → chunk_size_ ∣ end_col → end_col - begin_col > chunk_size_ →
        begin_col < goal_col begin_col end_col chunk_size_ ∧
          goal_col begin_col end_col chunk_size_ < end_col) := by
  rw [goal_col_eq begin_col end_col chunk_size_ hb (by omega) hc]
  have hc0 : (0 : Int) < chunk_size_ := by omega
  set S := begin_col + end_col + chunk_size_ with hS
  set q := S / chunk_size_ with hq
  set m := q / 2 with hm
  have h1 := Int.ediv_add_emod S chunk_size_
  have h2 := Int.emod_nonneg S (ne_of_gt hc0)
  have h3 := Int.emod_lt_of_pos S hc0
  have h4 := Int.ediv_add_emod q 2
  have h5 := Int.emod_two_eq q
  rw [← hq] at h1
  rw [← hm] at h4
  refine ⟨Dvd.intro_left m rfl, ?_, ?_⟩
  · rw [abs_le]
    rcases h5 with h5 | h5
    · have e1 : q = 2 * m := by omega
      rw [e1] at h1
      constructor <;> nlinarith
    · have e1 : q = 2 * m + 1 := by omega
      rw [e1] at h1
      constructor <;> nlinarith
  · rintro ⟨k1, rfl⟩ ⟨k2, rfl⟩ hgt
    have hk : k1 + 2 ≤ k2 := by
      by_contra hcon
      have : k2 ≤ k1 + 1 := by omega
      nlinarith
    have hS2 : S = (k1 + k2 + 1) * chunk_size_ := by rw [hS]; ring
    have hq2 : q = k1 + k2 + 1 := by
      rw [hq, hS2]
      exact Int.mul_ediv_cancel _ (ne_of_gt hc0)
    have hm1 : k1 + 1 ≤ m := by omega
    have hm2 : m ≤ k2 - 1 := by omega
    constructor <;> nlinarith

/-- C27 at a concrete input: the columns 64 to 160 with chunks of 32. -/
theorem C27_block_rounded_median_witness :
    goal_col 64 160 32 = 128 ∧ (32 : Int) ∣ goal_col 64 160 32 ∧
      |2 * goal_col 64 160 32 - (64 + 160)| ≤ 32 ∧
      (64 < goal_col 64 160 32 ∧ goal_col 64 160 32 < 160) :=
  ⟨by decide, (C27_block_rounded_median 64 160 32 (by decide) (by decide) (by decide)).1,
    (C27_block_rounded_median 64 160 32 (by decide) (by decide) (by decide)).2.1,
    (C27_block_rounded_median 64 160 32 (by decide) (by decide) (by decide)).2.2
      (by decide) (by decide) (by decide)⟩

theorem foldl_visited {Point Bound : Type} (points_ : Int → Point)
    (extend : Bound → Point → Bound) (begin count : Int) (bound : Bound) :
    FindBoundingBox_ points_ extend begin count bound =
      ((List.range count.toNat).map (fun k => begin + (k : Int))).foldl
        (fun b i => extend b (points_ i)) bound := rfl

/-- C26, the failing input: for `begin_index = 1` and `end_index = 2` (the
one point of index 1), the root that `Build_()` creates has `count() = 2`
and `end() = 3`, and its bounding box is computed from the points of
indices 1, 2 and 3.  The bound is here the list of the indices of the points
it was extended by. -/
theorem C26_counterexample :
    (Build_ (fun i => i) (fun (b : List Int) p => b ++ [p]) 1 2 ⟨0, 0, []⟩).begin = 1 ∧
      (Build_ (fun i => i) (fun (b : List Int) p => b ++ [p]) 1 2 ⟨0, 0, []⟩).count = 2 ∧
      (Build_ (fun i => i) (fun (b : List Int) p => b ++ [p]) 1 2 ⟨0, 0, []⟩).end_ = 3 ∧
      (Build_ (fun i => i) (fun (b : List Int) p => b ++ [p]) 1 2 ⟨0, 0, []⟩).bound =
        [1, 2, 3] := by
  decide

/-- C26, what the code does. The root that `Build_()` creates has
`begin() = begin_index` and `count() = end_index`, so that its `end()` is
`begin_index + end_index`, which is `end_index` exactly when `begin_index`
is 0; and its bounding box is computed from the points of `begin_index +
end_index` indices from `begin_index` on. -/
theorem C26_build_root_range {Point Bound : Type} (points_ : Int → Point)
    (extend : Bound → Point → Bound) (begin_index_ end_index_ : Int) (node : Node Bound) :
    (Build_ points_ extend begin_index_ end_index_ node).begin = begin_index_ ∧
      (Build_ points_ extend begin_index_ end_index_ node).count = end_index_ ∧
      (Build_ points_ extend begin_index_ end_index_ node).end_ = begin_index_ + end_index_ ∧
      ((Build_ points_ extend begin_index_ end_index_ node).end_ = end_index_ ↔
        begin_index_ = 0) ∧
      (Build_ points_ extend begin_index_ end_index_ node).bound =
        (visited begin_index_ (begin_index_ + end_index_)).foldl
          (fun b i => extend b (points_ i)) node.bound := by
  refine ⟨rfl, rfl, rfl, ?_, rfl⟩
  show begin_index_ + end_index_ = end_index_ ↔ begin_index_ = 0
  omega

end KdTreeHybridBuilder

section KernelClaims

theorem Example.EpanKernel.epan_mono (b : ℚ) (hb : 0 < b) (d1 d2 : ℚ) (h : d1 ≤ d2) :
    (Example.EpanKernel.Init b).EvalUnnormOnSq d2 ≤ (Example.EpanKernel.Init b).EvalUnnormOnSq d1 := by
  have hbb : 0 < b * b := mul_pos hb hb
  have hinv : 0 < 1 / (b * b) := one_div_pos.2 hbb
  unfold Example.EpanKernel.EvalUnnormOnSq Example.EpanKernel.Init
  dsimp only
  by_cases h2 : d2 < b * b
  · rw [if_pos h2, if_pos (lt_of_le_of_lt h h2)]
    have := mul_le_mul_of_nonneg_right h (le_of_lt hinv)
    linarith
  · rw [if_neg h2]
    by_cases h1 : d1 < b * b
    · rw [if_pos h1]
      have : d1 * (1 / (b * b)) < 1 := by
        rw [mul_one_div, div_lt_one hbb]
        exact h1
      linarith
    · rw [if_neg h1]

theorem Example.EpanKernel.epan_unit (b : ℚ) (hb : 0 < b) (d : ℚ) (hd : 0 ≤ d) :
    0 ≤ (Example.EpanKernel.Init b).EvalUnnormOnSq d ∧
      (Example.EpanKernel.Init b).EvalUnnormOnSq d ≤ 1 := by
  have hbb : 0 < b * b := mul_pos hb hb
  have h0 : (Example.EpanKernel.Init b).EvalUnnormOnSq 0 = 1 := by
    unfold Example.EpanKernel.EvalUnnormOnSq Example.EpanKernel.Init
    dsimp only
    rw [if_pos hbb, zero_mul, sub_zero]
  have hbig : (Example.EpanKernel.Init b).EvalUnnormOnSq (max d (b * b)) = 0 := by
    unfold Example.EpanKernel.EvalUnnormOnSq Example.EpanKernel.Init
    dsimp only
    rw [if_neg (not_lt.2 (le_max_right _ _))]
  constructor
  · rw [← hbig]
    exact Example.EpanKernel.epan_mono b hb _ _ (le_max_left _ _)
  · rw [← h0]
    exact Example.EpanKernel.epan_mono b hb _ _ hd

theorem GaussianKernel.gauss_mono (exp : ℚ → ℚ) (he : ExpContract exp) (b : ℚ) (hb : b ≠ 0)
    (d1 d2 : ℚ) (h : d1 ≤ d2) :
    (GaussianKernel.Init b).EvalUnnormOnSq exp d2 ≤ (GaussianKernel.Init b).EvalUnnormOnSq exp d1 := by
  have hbb : 0 < b * b := mul_self_pos.2 hb
  have hneg : -1 / (2 * (b * b)) < 0 := div_neg_of_neg_of_pos (by norm_num) (by linarith)
  unfold GaussianKernel.EvalUnnormOnSq GaussianKernel.Init
  dsimp only
  apply he.mono
  exact mul_le_mul_of_nonpos_right h (le_of_lt hneg)

theorem GaussianKernel.gauss_unit (exp : ℚ → ℚ) (he : ExpContract exp) (b : ℚ) (hb : b ≠ 0)
    (d : ℚ) (hd : 0 ≤ d) :
    0 ≤ (GaussianKernel.Init b).EvalUnnormOnSq exp d ∧
      (GaussianKernel.Init b).EvalUnnormOnSq exp d ≤ 1 := by
  refine ⟨he.nonneg _, ?_⟩
  have h0 : (GaussianKernel.Init b).EvalUnnormOnSq exp 0 = 1 := by
    unfold GaussianKernel.EvalUnnormOnSq
    rw [zero_mul, he.zero]
  rw [← h0]
  exact GaussianKernel.gauss_mono exp he b hb _ _ hd

/-- C23. Kernel value ranges are sound: for `EpanKernel` with bandwidth
greater than 0, and for `GaussianKernel` with bandwidth other than 0 and a
library function `exp` that does not decrease, is 1 at 0 and is not
negative, `EvalUnnormOnSq` does not increase in the squared distance and
takes values in `[0, 1]` on non-negative arguments; so for every range with
`0 <= lo <= hi`, `RangeUnnormOnSq` has lower end at most its upper end and
contains `EvalUnnormOnSq(d)` for every `d` with `lo <= d <= hi`. -/
theorem C23_kernel_ranges_sound (exp : ℚ → ℚ) (he : ExpContract exp) (be bg : ℚ)
    (hbe : 0 < be) (hbg : bg ≠ 0) :
    ((∀ d1 d2, d1 ≤ d2 → (Example.EpanKernel.Init be).EvalUnnormOnSq d2 ≤
          (Example.EpanKernel.Init be).EvalUnnormOnSq d1) ∧
      (∀ d, 0 ≤ d → 0 ≤ (Example.EpanKernel.Init be).EvalUnnormOnSq d ∧
          (Example.EpanKernel.Init be).EvalUnnormOnSq d ≤ 1) ∧
      ∀ range : DRange, 0 ≤ range.lo → range.lo ≤ range.hi →
        ((Example.EpanKernel.Init be).RangeUnnormOnSq range).lo ≤
            ((Example.EpanKernel.Init be).RangeUnnormOnSq range).hi ∧
          ∀ d, range.lo ≤ d → d ≤ range.hi →
            ((Example.EpanKernel.Init be).RangeUnnormOnSq range).lo ≤
                (Example.EpanKernel.Init be).EvalUnnormOnSq d ∧
              (Example.EpanKernel.Init be).EvalUnnormOnSq d ≤
                ((Example.EpanKernel.Init be).RangeUnnormOnSq range).hi) ∧
    ((∀ d1 d2, d1 ≤ d2 → (GaussianKernel.Init bg).EvalUnnormOnSq exp d2 ≤
          (GaussianKernel.Init bg).EvalUnnormOnSq exp d1) ∧
      (∀ d, 0 ≤ d → 0 ≤ (GaussianKernel.Init bg).EvalUnnormOnSq exp d ∧
          (GaussianKernel.Init bg).EvalUnnormOnSq exp d ≤ 1) ∧
      ∀ range : DRange, 0 ≤ range.lo → range.lo ≤ range.hi →
        ((GaussianKernel.Init bg).RangeUnnormOnSq exp range).lo ≤
            ((GaussianKernel.Init bg).RangeUnnormOnSq exp range).hi ∧
          ∀ d, range.lo ≤ d → d ≤ range.hi →
            ((GaussianKernel.Init bg).RangeUnnormOnSq exp range).lo ≤
                (GaussianKernel.Init bg).EvalUnnormOnSq exp d ∧
              (GaussianKernel.Init bg).EvalUnnormOnSq exp d ≤
                ((GaussianKernel.Init bg).RangeUnnormOnSq exp range).hi) := by
  refine ⟨⟨Example.EpanKernel.epan_mono be hbe, Example.EpanKernel.epan_unit be hbe, ?_⟩,
    ⟨GaussianKernel.gauss_mono exp he bg hbg, GaussianKernel.gauss_unit exp he bg hbg, ?_⟩⟩
  · intro range _ hle
    exact ⟨Example.EpanKernel.epan_mono be hbe _ _ hle, fun d h1 h2 =>
      ⟨Example.EpanKernel.epan_mono be hbe _ _ h2, Example.EpanKernel.epan_mono be hbe _ _ h1⟩⟩
  · intro range _ hle
    exact ⟨GaussianKernel.gauss_mono exp he bg hbg _ _ hle, fun d h1 h2 =>
      ⟨GaussianKernel.gauss_mono exp he bg hbg _ _ h2, GaussianKernel.gauss_mono exp he bg hbg _ _ h1⟩⟩

theorem Example.expModel_contract : ExpContract Example.expModel := by
  refine ⟨?_, ?_, ?_⟩
  · intro x y hxy
    unfold Example.expModel
    by_cases hx : 0 ≤ x
    · rw [if_pos hx, if_pos (le_trans hx hxy)]
      linarith
    · rw [if_neg hx]
      have hx1 : 0 < 1 - x := by linarith
      have h1 : 1 / (1 - x) ≤ 1 := by
        rw [div_le_one hx1]
        linarith
      by_cases hy : 0 ≤ y
      · rw [if_pos hy]
        linarith
      · rw [if_neg hy]
        exact one_div_le_one_div_of_le (by linarith) (by linarith)
  · unfold Example.expModel
    rw [if_pos (le_refl _), add_zero]
  · intro x
    unfold Example.expModel
    split_ifs with h
    · linarith
    · exact le_of_lt (one_div_pos.2 (by linarith))

/-- C23 at a concrete input: both kernels with bandwidth 2 and the range
`[1, 3]` of squared distances, whose value range is `[1/4, 3/4]` for the
Epanechnikov kernel. -/
theorem C23_kernel_ranges_sound_witness :
    ((Example.EpanKernel.Init 2).RangeUnnormOnSq ⟨1, 3⟩).lo = 1 / 4 ∧
      ((Example.EpanKernel.Init 2).RangeUnnormOnSq ⟨1, 3⟩).hi = 3 / 4 ∧
      ((Example.EpanKernel.Init 2).RangeUnnormOnSq ⟨1, 3⟩).lo ≤
        ((Example.EpanKernel.Init 2).RangeUnnormOnSq ⟨1, 3⟩).hi ∧
      ((GaussianKernel.Init 2).RangeUnnormOnSq Example.expModel ⟨1, 3⟩).lo ≤
        ((GaussianKernel.Init 2).RangeUnnormOnSq Example.expModel ⟨1, 3⟩).hi :=
  ⟨by decide!, by decide!,
    ((C23_kernel_ranges_sound Example.expModel Example.expModel_contract 2 2 (by norm_num)
      (by norm_num)).1.2.2 ⟨1, 3⟩ (by norm_num) (by norm_num)).1,
    ((C23_kernel_ranges_sound Example.expModel Example.expModel_contract 2 2 (by norm_num)
      (by norm_num)).2.2.2 ⟨1, 3⟩ (by norm_num) (by norm_num)).1⟩

end KernelClaims

section NbodyClaims

theorem Range.or_assign_eq (r rhs : Range) :
    r.or_assign rhs = ⟨min r.lo rhs.lo, max r.hi rhs.hi⟩ := by
  unfold Range.or_assign
  dsimp only
  congr 1
  · split_ifs with h
    · exact (min_eq_right (le_of_lt h)).symm
    · exact (min_eq_left (not_lt.1 h)).symm
  · split_ifs with h
    · exact (max_eq_right (le_of_lt h)).symm
    · exact (max_eq_left (not_lt.1 h)).symm

/-- C24, the failing input: the left child has the positive potential
`[0, 1]`, the right child `[2, 3]`, nothing is postponed or pruned and there
are 10 tuples.  After the re-accumulation the positive potential of the
parent is `[2, 3]`, the range of the right child, and does not contain the
range `[0, 1]` of the left child. -/
theorem C24_counterexample :
    (NbodySimulatorSummary.reaccumulate (Example.positiveSummary 7 7) 10
        (Example.positiveSummary 0 1) Example.zeroPostponed
        (Example.positiveSummary 2 3) Example.zeroPostponed).positive_potential = ⟨2, 3⟩ ∧
      ¬ (NbodySimulatorSummary.reaccumulate (Example.positiveSummary 7 7) 10
        (Example.positiveSummary 0 1) Example.zeroPostponed
        (Example.positiveSummary 2 3) Example.zeroPostponed).positive_potential.Encloses
          ((Example.positiveSummary 0 1).positive_potential.add
            Example.zeroPostponed.positive_potential) := by
  decide!

/-- C24, what the code does. After `StartReaccumulate()` and `Accumulate`
for two children that both pass the test on `pruned_`, the negative
potential of the parent contains the range (summary plus postponed) of both
children, `pruned_` is at most and `used_error_` at least the sum of each
child, and the positive potential of the parent is the range of the child
accumulated last. -/
theorem C24_reaccumulate (s : NbodySimulatorSummary) (total_num_tuples : ℚ)
    (ls : NbodySimulatorSummary) (lp : NbodySimulatorPostponed)
    (rs : NbodySimulatorSummary) (rp : NbodySimulatorPostponed)
    (hl : ls.pruned + lp.pruned < total_num_tuples)
    (hr : rs.pruned + rp.pruned < total_num_tuples) :
    (s.reaccumulate total_num_tuples ls lp rs rp).negative_potential.Encloses
        (ls.negative_potential.add lp.negative_potential) ∧
      (s.reaccumulate total_num_tuples ls lp rs rp).negative_potential.Encloses
        (rs.negative_potential.add rp.negative_potential) ∧
      (s.reaccumulate total_num_tuples ls lp rs rp).pruned ≤ ls.pruned + lp.pruned ∧
      (s.reaccumulate total_num_tuples ls lp rs rp).pruned ≤ rs.pruned + rp.pruned ∧
      ls.used_error + lp.used_error ≤ (s.reaccumulate total_num_tuples ls lp rs rp).used_error ∧
      rs.used_error + rp.used_error ≤ (s.reaccumulate total_num_tuples ls lp rs rp).used_error ∧
      (s.reaccumulate total_num_tuples ls lp rs rp).positive_potential =
        rs.positive_potential.add rp.positive_potential := by
  unfold NbodySimulatorSummary.reaccumulate NbodySimulatorSummary.Accumulate
  rw [if_pos hl, if_pos hr]
  dsimp only
  rw [Range.or_assign_eq, Range.or_assign_eq]
  unfold Range.Encloses
  dsimp only
  refine ⟨⟨?_, ?_⟩, ⟨?_, ?_⟩, ?_, ?_, ?_, ?_, rfl⟩
  · exact le_trans (min_le_left _ _) (min_le_right _ _)
  · exact le_trans (le_max_right _ _) (le_max_left _ _)
  · exact min_le_right _ _
  · exact le_max_right _ _
  · exact le_trans (min_le_left _ _) (min_le_right _ _)
  · exact min_le_right _ _
  · exact le_trans (le_max_right _ _) (le_max_left _ _)
  · exact le_max_right _ _

/-- C24 at a concrete input: the two children of the failing input. -/
theorem C24_reaccumulate_witness :
    (NbodySimulatorSummary.reaccumulate (Example.positiveSummary 7 7) 10
        (Example.positiveSummary 0 1) Example.zeroPostponed
        (Example.positiveSummary 2 3) Example.zeroPostponed).positive_potential =
      (Example.positiveSummary 2 3).positive_potential.add
        Example.zeroPostponed.positive_potential :=
  (C24_reaccumulate (Example.positiveSummary 7 7) 10 (Example.positiveSummary 0 1)
    Example.zeroPostponed (Example.positiveSummary 2 3) Example.zeroPostponed
    (by decide!) (by decide!)).2.2.2.2.2.2

end NbodyClaims

section PreProcessClaims

variable {B K : Type}

theorem Fresh.reset (env : Env B K) (s : VKdeStat K) : Fresh env (preProcessReset env s) :=
  ⟨rfl, rfl, rfl, rfl, rfl, rfl, rfl, rfl, rfl⟩

theorem preProcessPoint_fresh (env : Env B K) (l : List Nat) :
    ∀ s : VKdeStat K, Fresh env s → Fresh env (l.foldl (preProcessPoint env) s) := by
  induction l with
  | nil => intro s h; exact h
  | cons i l ih => intro s h; exact ih _ h

/-- The method `PreProcess` leaves fresh what was fresh, and makes the
statistics of the nodes of its tree fresh. -/
theorem preProcess_fresh (env : Env B K) (t : Tree B) :
    ∀ m : Mem K,
      (∀ j, Fresh env (m.stat j) → Fresh env ((PreProcess env t m).stat j)) ∧
        ∀ j ∈ t.ids, Fresh env ((PreProcess env t m).stat j) := by
  induction t with
  | leaf id b c bd =>
    intro m
    have hnew : Fresh env ((PreProcess env (.leaf id b c bd) m).stat id) := by
      rw [PreProcess, Mem.setStat_stat_self]
      exact preProcessPoint_fresh env _ _ (Fresh.reset env (m.stat id))
    constructor
    · intro j hj
      by_cases e : j = id
      · rw [e]; exact hnew
      · rw [PreProcess, Mem.setStat_stat_ne _ _ _ _ e]; exact hj
    · intro j hj
      simp only [Tree.ids, List.mem_singleton] at hj
      rw [hj]; exact hnew
  | node id b c bd l r ihl ihr =>
    intro m
    rw [PreProcess]
    dsimp only
    set m1 := m.setStat id (preProcessReset env (m.stat id)) with hm1
    set m3 := PreProcess env r (PreProcess env l m1) with hm3
    have h13 : ∀ j, Fresh env (m1.stat j) → Fresh env (m3.stat j) :=
      fun j hj => (ihr _).1 j ((ihl _).1 j hj)
    have hid1 : Fresh env (m1.stat id) := by
      rw [hm1, Mem.setStat_stat_self]; exact Fresh.reset env _
    have hid3 : Fresh env (m3.stat id) := h13 id hid1
    have hkeep : ∀ j, Fresh env (m3.stat j) →
        Fresh env ((m3.setStat id
          { m3.stat id with
            min_bandwidth_kernel :=
              env.Init (min (env.sqrt (env.bandwidth_sq (m3.stat l.id).min_bandwidth_kernel))
                (env.sqrt (env.bandwidth_sq (m3.stat r.id).min_bandwidth_kernel)))
            max_bandwidth_kernel :=
              env.Init (max (env.sqrt (env.bandwidth_sq (m3.stat l.id).max_bandwidth_kernel))
                (env.sqrt (env.bandwidth_sq (m3.stat r.id).max_bandwidth_kernel)))
            weight_sum := (m3.stat l.id).weight_sum + (m3.stat r.id).weight_sum }).stat j) := by
      intro j hj
      by_cases e : j = id
      · rw [e, Mem.setStat_stat_self]; exact hid3
      · rw [Mem.setStat_stat_ne _ _ _ _ e]; exact hj
    constructor
    · intro j hj
      apply hkeep
      apply h13
      by_cases e : j = id
      · rw [e]; exact hid1
      · rw [hm1, Mem.setStat_stat_ne _ _ _ _ e]; exact hj
    · intro j hj
      apply hkeep
      simp only [Tree.ids, List.mem_cons, List.mem_append] at hj
      rcases hj with e | hj | hj
      · rw [e]; exact hid3
      · exact (ihr _).1 j ((ihl _).2 j hj)
      · exact (ihr _).2 j hj

/-- C22. PreProcess initialisation: after `PreProcess(root)`, every node in
the subtree of `root` has `mass_l_ = 0`, `mass_u_ = rset_weight_sum_`,
`used_error_ = 0`, `n_pruned_ = 0` and the five postponed fields 0, whatever
the statistics held before. -/
theorem C22_preprocess_initialisation (env : Env B K) (root : Tree B) (m : Mem K) :
    ∀ N ∈ root.subtrees,
      ((PreProcess env root m).stat N.id).mass_l = 0 ∧
        ((PreProcess env root m).stat N.id).mass_u = env.rset_weight_sum ∧
        ((PreProcess env root m).stat N.id).used_error = 0 ∧
        ((PreProcess env root m).stat N.id).n_pruned = 0 ∧
        ((PreProcess env root m).stat N.id).postponed_l = 0 ∧
        ((PreProcess env root m).stat N.id).postponed_e = 0 ∧
        ((PreProcess env root m).stat N.id).postponed_u = 0 ∧
        ((PreProcess env root m).stat N.id).postponed_used_error = 0 ∧
        ((PreProcess env root m).stat N.id).postponed_n_pruned = 0 :=
  fun N hN => (preProcess_fresh env root m).2 N.id (Dtb.subtrees_id_mem hN)

end PreProcessClaims

section PreProcessAggregates

variable {B K : Type}

theorem sq_min (a b : ℚ) (ha : 0 ≤ a) (hb : 0 ≤ b) :
    min a b * min a b = min (a * a) (b * b) := by
  rcases le_total a b with h | h
  · rw [min_eq_left h, min_eq_left (mul_self_le_mul_self ha h)]
  · rw [min_eq_right h, min_eq_right (mul_self_le_mul_self hb h)]

theorem sq_max (a b : ℚ) (ha : 0 ≤ a) (hb : 0 ≤ b) :
    max a b * max a b = max (a * a) (b * b) := by
  rcases le_total a b with h | h
  · rw [max_eq_right h, max_eq_right (mul_self_le_mul_self ha h)]
  · rw [max_eq_left h, max_eq_left (mul_self_le_mul_self hb h)]

theorem LeastBandwidth.one (env : Env B K) (i : Nat) :
    LeastBandwidth env [i] (env.bandwidth_sq (env.kernels i)) :=
  ⟨fun j hj => by rw [List.mem_singleton.1 hj], i, List.mem_singleton_self i, rfl⟩

theorem GreatestBandwidth.only (env : Env B K) (i : Nat) :
    GreatestBandwidth env [i] (env.bandwidth_sq (env.kernels i)) :=
  ⟨fun j hj => by rw [List.mem_singleton.1 hj], i, List.mem_singleton_self i, rfl⟩

theorem LeastBandwidth.join {env : Env B K} {l1 l2 : List Nat} {x y : ℚ}
    (h1 : LeastBandwidth env l1 x) (h2 : LeastBandwidth env l2 y) :
    LeastBandwidth env (l1 ++ l2) (min x y) := by
  obtain ⟨a1, i1, hi1, e1⟩ := h1
  obtain ⟨a2, i2, hi2, e2⟩ := h2
  refine ⟨?_, ?_⟩
  · intro i hi
    rcases List.mem_append.1 hi with h | h
    · exact le_trans (min_le_left _ _) (a1 i h)
    · exact le_trans (min_le_right _ _) (a2 i h)
  · rcases le_total x y with h | h
    · exact ⟨i1, List.mem_append_left _ hi1, by rw [min_eq_left h, e1]⟩
    · exact ⟨i2, List.mem_append_right _ hi2, by rw [min_eq_right h, e2]⟩

theorem GreatestBandwidth.merge {env : Env B K} {l1 l2 : List Nat} {x y : ℚ}
    (h1 : GreatestBandwidth env l1 x) (h2 : GreatestBandwidth env l2 y) :
    GreatestBandwidth env (l1 ++ l2) (max x y) := by
  obtain ⟨a1, i1, hi1, e1⟩ := h1
  obtain ⟨a2, i2, hi2, e2⟩ := h2
  refine ⟨?_, ?_⟩
  · intro i hi
    rcases List.mem_append.1 hi with h | h
    · exact le_trans (a1 i h) (le_max_left _ _)
    · exact le_trans (a2 i h) (le_max_right _ _)
  · rcases le_total x y with h | h
    · exact ⟨i2, List.mem_append_right _ hi2, by rw [max_eq_right h, e2]⟩
    · exact ⟨i1, List.mem_append_left _ hi1, by rw [max_eq_left h, e1]⟩

/-- The kernel initialised with the lesser of the square roots of two
squared bandwidths of points has the lesser squared bandwidth. -/
theorem init_min (env : Env B K) (hinit : ∀ b, env.bandwidth_sq (env.Init b) = b * b)
    (i j : Nat) (hi : SqrtExactAt env i) (hj : SqrtExactAt env j) :
    env.bandwidth_sq (env.Init (min (env.sqrt (env.bandwidth_sq (env.kernels i)))
      (env.sqrt (env.bandwidth_sq (env.kernels j))))) =
      min (env.bandwidth_sq (env.kernels i)) (env.bandwidth_sq (env.kernels j)) := by
  rw [hinit, sq_min _ _ hi.1 hj.1, hi.2.1, hj.2.1]

theorem init_max (env : Env B K) (hinit : ∀ b, env.bandwidth_sq (env.Init b) = b * b)
    (i j : Nat) (hi : SqrtExactAt env i) (hj : SqrtExactAt env j) :
    env.bandwidth_sq (env.Init (max (env.sqrt (env.bandwidth_sq (env.kernels i)))
      (env.sqrt (env.bandwidth_sq (env.kernels j))))) =
      max (env.bandwidth_sq (env.kernels i)) (env.bandwidth_sq (env.kernels j)) := by
  rw [hinit, sq_max _ _ hi.1 hj.1, hi.2.1, hj.2.1]

theorem leafLoop_step (env : Env B K) (hinit : ∀ b, env.bandwidth_sq (env.Init b) = b * b)
    (hzero : env.sqrt 0 = 0) (done : List Nat) (s : VKdeStat K) (i : Nat)
    (hdone : ∀ j ∈ done, SqrtExactAt env j) (hi : SqrtExactAt env i)
    (h : LeafLoop env done s) : LeafLoop env (done ++ [i]) (preProcessPoint env s i) := by
  obtain ⟨hw, h0, h1⟩ := h
  refine ⟨?_, fun e => absurd e (by simp), fun _ => ?_⟩
  · show s.weight_sum + env.rset_weights i = _
    rw [hw, List.map_append, List.sum_append]
    simp
  · show LeastBandwidth env (done ++ [i])
        (env.bandwidth_sq (env.Init (min (env.sqrt (env.bandwidth_sq s.min_bandwidth_kernel))
          (env.sqrt (env.bandwidth_sq (env.kernels i)))))) ∧
      GreatestBandwidth env (done ++ [i])
        (env.bandwidth_sq (env.Init (max (env.sqrt (env.bandwidth_sq s.max_bandwidth_kernel))
          (env.sqrt (env.bandwidth_sq (env.kernels i))))))
    by_cases hd : done = []
    · obtain ⟨e1, e2⟩ := h0 hd
      rw [hd, List.nil_append, e1, e2, hzero, min_eq_right hi.2.2, max_eq_right hi.1, hinit,
        hi.2.1]
      exact ⟨LeastBandwidth.one env i, GreatestBandwidth.only env i⟩
    · obtain ⟨hl, hg⟩ := h1 hd
      obtain ⟨a, ha, ea⟩ := hl.2
      obtain ⟨b, hb, eb⟩ := hg.2
      constructor
      · have := hl.join (LeastBandwidth.one env i)
        rw [ea] at this ⊢
        rw [init_min env hinit a i (hdone a ha) hi]
        exact this
      · have := hg.merge (GreatestBandwidth.only env i)
        rw [eb] at this ⊢
        rw [init_max env hinit b i (hdone b hb) hi]
        exact this

theorem leafLoop_fold (env : Env B K) (hinit : ∀ b, env.bandwidth_sq (env.Init b) = b * b)
    (hzero : env.sqrt 0 = 0) (l : List Nat) :
    ∀ (done : List Nat) (s : VKdeStat K), (∀ j ∈ done, SqrtExactAt env j) →
      (∀ j ∈ l, SqrtExactAt env j) → LeafLoop env done s →
      LeafLoop env (done ++ l) (l.foldl (preProcessPoint env) s) := by
  induction l with
  | nil => intro done s _ _ h; rw [List.append_nil]; exact h
  | cons i l ih =>
    intro done s hdone hl h
    rw [List.foldl_cons]
    have := ih (done ++ [i]) (preProcessPoint env s i)
      (by
        intro j hj
        rcases List.mem_append.1 hj with e | e
        · exact hdone j e
        · rw [List.mem_singleton.1 e]; exact hl i (List.mem_cons_self _ _))
      (fun j hj => hl j (List.mem_cons_of_mem _ hj))
      (leafLoop_step env hinit hzero done s i hdone (hl i (List.mem_cons_self _ _)) h)
    rw [List.append_assoc] at this
    exact this

theorem preProcess_frame (env : Env B K) (t : Tree B) :
    ∀ (m : Mem K) (j : Nat), j ∉ t.ids → (PreProcess env t m).stat j = m.stat j := by
  induction t with
  | leaf id b c bd =>
    intro m j hj
    have hj1 : j ≠ id := fun e => hj (by simp [Tree.ids, e])
    rw [PreProcess, Mem.setStat_stat_ne _ _ _ _ hj1]
  | node id b c bd l r ihl ihr =>
    intro m j hj
    simp only [Tree.ids, List.mem_cons, List.mem_append, not_or] at hj
    rw [PreProcess]
    dsimp only
    rw [Mem.setStat_stat_ne _ _ _ _ hj.1, ihr _ _ hj.2.2, ihl _ _ hj.2.1,
      Mem.setStat_stat_ne _ _ _ _ hj.1]

theorem Aggregated.of_stat {env : Env B K} {m m1 : Mem K} {N : Tree B}
    (h : m1.stat N.id = m.stat N.id) (ha : Aggregated env m N) : Aggregated env m1 N := by
  unfold Aggregated at *
  rw [h]
  exact ha

/-- The method `PreProcess` aggregates the weight sum and the least and the
greatest bandwidth of every node of its tree. -/
theorem preProcess_aggregated (env : Env B K)
    (hinit : ∀ b, env.bandwidth_sq (env.Init b) = b * b) (hzero : env.sqrt 0 = 0)
    (t : Tree B) :
    ∀ (_ : t.Distinct) (_ : t.Partitioned)
      (_ : ∀ N ∈ t.subtrees, N.is_leaf = true → 0 < N.count)
      (_ : ∀ i ∈ List.range' t.begin t.count, SqrtExactAt env i) (m : Mem K),
      ∀ N ∈ t.subtrees, Aggregated env (PreProcess env t m) N := by
  induction t with
  | leaf id b c bd =>
    intro _ _ hne hs m N hN
    simp only [Tree.subtrees, List.mem_singleton] at hN
    subst hN
    have hc : 0 < c := hne _ (Tree.self_mem_subtrees _) rfl
    have hfold := leafLoop_fold env hinit hzero (List.range' b c) []
      ({ preProcessReset env (m.stat id) with
        min_bandwidth_kernel := env.Init (env.sqrt DBL_MAX)
        max_bandwidth_kernel := env.Init 0
        weight_sum := 0 })
      (fun j hj => absurd hj (List.not_mem_nil j)) hs
      ⟨rfl, fun _ => ⟨rfl, by
        show env.bandwidth_sq (env.Init 0) = 0
        rw [hinit, mul_zero]⟩, fun h => absurd rfl h⟩
    rw [List.nil_append] at hfold
    obtain ⟨hw, -, h1⟩ := hfold
    have hnn : List.range' b c ≠ [] := by
      intro e
      have := congrArg List.length e
      rw [List.length_range'] at this
      simp at this
      omega
    unfold Aggregated
    rw [PreProcess, Tree.id_leaf, Mem.setStat_stat_self, Tree.begin_leaf, Tree.count_leaf]
    exact ⟨hw, (h1 hnn).1, (h1 hnn).2⟩
  | node id b c bd l r ihl ihr =>
    intro hd hp hne hs m N hN
    have hrange := range_split hp
    have hsl : ∀ i ∈ List.range' l.begin l.count, SqrtExactAt env i := by
      intro i hi
      apply hs
      rw [Tree.begin_node, Tree.count_node, hrange]
      exact List.mem_append_left _ hi
    have hsr : ∀ i ∈ List.range' r.begin r.count, SqrtExactAt env i := by
      intro i hi
      apply hs
      rw [Tree.begin_node, Tree.count_node, hrange]
      exact List.mem_append_right _ hi
    set m1 := m.setStat id (preProcessReset env (m.stat id)) with hm1
    have al := ihl hd.of_left hp.left (fun N hN => hne N (Tree.subtrees_left hN)) hsl m1
    have ar := ihr hd.of_right hp.right (fun N hN => hne N (Tree.subtrees_right hN)) hsr
      (PreProcess env l m1)
    set m3 := PreProcess env r (PreProcess env l m1) with hm3
    have al3 : ∀ N ∈ l.subtrees, Aggregated env m3 N := by
      intro N hN
      refine (al N hN).of_stat ?_
      exact preProcess_frame env r _ _ (hd.disjoint _ (Dtb.subtrees_id_mem hN))
    rw [PreProcess]
    dsimp only
    rw [← hm1, ← hm3]
    simp only [Tree.subtrees, List.mem_cons, List.mem_append] at hN
    rcases hN with hN | hN | hN
    · subst hN
      obtain ⟨wl, ll, gl⟩ := al3 l l.self_mem_subtrees
      obtain ⟨wr, lr, gr⟩ := ar r r.self_mem_subtrees
      unfold Aggregated
      rw [Tree.id_node, Mem.setStat_stat_self, Tree.begin_node, Tree.count_node]
      dsimp only
      obtain ⟨a1, ha1, ea1⟩ := ll.2
      obtain ⟨a2, ha2, ea2⟩ := lr.2
      obtain ⟨b1, hb1, eb1⟩ := gl.2
      obtain ⟨b2, hb2, eb2⟩ := gr.2
      refine ⟨?_, ?_, ?_⟩
      · rw [wl, wr]
        exact (weightSumRange_node env hp).symm
      · have := ll.join lr
        rw [ea1, ea2] at this ⊢
        rw [init_min env hinit a1 a2 (hsl a1 ha1) (hsr a2 ha2), hrange]
        exact this
      · have := gl.merge gr
        rw [eb1, eb2] at this ⊢
        rw [init_max env hinit b1 b2 (hsl b1 hb1) (hsr b2 hb2), hrange]
        exact this
    · have hNid : N.id ≠ id := fun e => hd.not_mem_left (e ▸ Dtb.subtrees_id_mem hN)
      exact (al3 N hN).of_stat (Mem.setStat_stat_ne _ _ _ _ hNid)
    · have hNid : N.id ≠ id := fun e => hd.not_mem_right (e ▸ Dtb.subtrees_id_mem hN)
      exact (ar N hN).of_stat (Mem.setStat_stat_ne _ _ _ _ hNid)

end PreProcessAggregates

section PreProcessClaims2

variable {B K : Type}

/-- C21. PreProcess aggregates: for every reference tree of distinct nodes
whose children partition the index range of their parent and whose leaves
are not empty, when a kernel initialised with a bandwidth has the square of
the bandwidth as its squared bandwidth and `sqrt` is exact at 0 and at the
squared bandwidths of the kernels of the points, none of which exceeds the
start value of the minimum, after `PreProcess(root)` every node has
`weight_sum_` equal to the sum of `rset_weights_[i]` over its points, and the
squared bandwidths of `min_bandwidth_kernel_` and `max_bandwidth_kernel_` are
the least and the greatest of `kernels_[i].bandwidth_sq()` over its points. -/
theorem C21_preprocess_aggregates (env : Env B K) (root : Tree B) (m : Mem K)
    (hd : root.Distinct) (hp : root.Partitioned)
    (hne : ∀ N ∈ root.subtrees, N.is_leaf = true → 0 < N.count)
    (hinit : ∀ b, env.bandwidth_sq (env.Init b) = b * b) (hzero : env.sqrt 0 = 0)
    (hs : ∀ i ∈ List.range' root.begin root.count, SqrtExactAt env i) :
    ∀ N ∈ root.subtrees,
      ((PreProcess env root m).stat N.id).weight_sum =
          ((List.range' N.begin N.count).map env.rset_weights).sum ∧
        (∀ i ∈ List.range' N.begin N.count,
          env.bandwidth_sq ((PreProcess env root m).stat N.id).min_bandwidth_kernel ≤
            env.bandwidth_sq (env.kernels i)) ∧
        (∃ i ∈ List.range' N.begin N.count,
          env.bandwidth_sq ((PreProcess env root m).stat N.id).min_bandwidth_kernel =
            env.bandwidth_sq (env.kernels i)) ∧
        (∀ i ∈ List.range' N.begin N.count,
          env.bandwidth_sq (env.kernels i) ≤
            env.bandwidth_sq ((PreProcess env root m).stat N.id).max_bandwidth_kernel) ∧
        ∃ i ∈ List.range' N.begin N.count,
          env.bandwidth_sq ((PreProcess env root m).stat N.id).max_bandwidth_kernel =
            env.bandwidth_sq (env.kernels i) := by
  intro N hN
  obtain ⟨h1, h2, h3⟩ := preProcess_aggregated env hinit hzero root hd hp hne hs m N hN
  exact ⟨h1, h2.1, h2.2, h3.1, h3.2⟩

/-- C21 at a concrete input: the reference tree of the first instance with
the bandwidths 1, 2 and 3 and the weights 1, 2 and 3, from statistics of an
earlier run; the root gets the weight sum 6 and the squared bandwidths 1 and
9. -/
theorem C21_preprocess_aggregates_witness :
    ((PreProcess Example.env4 Example.rroot Example.memStale).stat 1).weight_sum = 6 ∧
      ((PreProcess Example.env4 Example.rroot Example.memStale).stat 1).min_bandwidth_kernel
        = 1 ∧
      ((PreProcess Example.env4 Example.rroot Example.memStale).stat 1).max_bandwidth_kernel
        = 9 ∧
      ((PreProcess Example.env4 Example.rroot Example.memStale).stat Example.rroot.id).weight_sum =
        ((List.range' Example.rroot.begin Example.rroot.count).map
          Example.env4.rset_weights).sum :=
  ⟨by decide!, by decide!, by decide!,
    (C21_preprocess_aggregates Example.env4 Example.rroot Example.memStale (by decide)
      ⟨rfl, rfl, rfl, trivial, trivial⟩ (by decide) (fun _ => rfl) (by decide!) (by decide!)
      Example.rroot Example.rroot.self_mem_subtrees).1⟩

/-- C22 at a concrete input: the statistic of the root of the reference tree
of the first instance, from statistics of an earlier run whose fields are
not zero. -/
theorem C22_preprocess_initialisation_witness :
    (Example.memStale.stat Example.rroot.id).mass_l = 5 ∧
      ((PreProcess Example.env4 Example.rroot Example.memStale).stat Example.rroot.id).mass_l
        = 0 ∧
      ((PreProcess Example.env4 Example.rroot Example.memStale).stat Example.rroot.id).mass_u
        = Example.env4.rset_weight_sum :=
  ⟨rfl,
    (C22_preprocess_initialisation Example.env4 Example.rroot Example.memStale Example.rroot
      Example.rroot.self_mem_subtrees).1,
    (C22_preprocess_initialisation Example.env4 Example.rroot Example.memStale Example.rroot
      Example.rroot.self_mem_subtrees).2.1⟩

end PreProcessClaims2

namespace Dtb

section Membership

variable {B : Type} {uf : UnionFind}

theorem Quiet.still (s : DualTreeBoruvka uf) : Quiet s s := ⟨rfl, fun _ => rfl⟩

theorem Quiet.next {s s1 s2 : DualTreeBoruvka uf} (h1 : Quiet s s1) (h2 : Quiet s1 s2) :
    Quiet s s2 :=
  ⟨h2.1.trans h1.1, fun j => (h2.2 j).trans (h1.2 j)⟩

theorem baseCaseReference_quiet (cfg : Config B) (q c : Nat) (s : DualTreeBoruvka uf) (r : Nat) :
    Quiet s (baseCaseReference cfg q c s r) := by
  unfold baseCaseReference
  dsimp only
  split_ifs <;> exact ⟨rfl, fun _ => rfl⟩

theorem foldl_quiet {α : Type} (f : DualTreeBoruvka uf → α → DualTreeBoruvka uf)
    (h : ∀ s x, Quiet s (f s x)) (l : List α) : ∀ s, Quiet s (l.foldl f s) := by
  induction l with
  | nil => exact fun s => Quiet.still s
  | cons x xs ih => exact fun s => (h s x).next (ih (f s x))

theorem baseCaseQuery_quiet (cfg : Config B) (rs re : Nat) (a : ℚ × DualTreeBoruvka uf)
    (q : Nat) : Quiet a.2 (baseCaseQuery cfg rs re a q).2 := by
  have h := foldl_quiet (baseCaseReference cfg q (uf.Find a.2.connections q))
    (baseCaseReference_quiet cfg q _) (List.range' rs (re - rs)) a.2
  unfold baseCaseQuery
  dsimp only
  split_ifs <;> exact h

theorem baseCaseOuter_quiet (cfg : Config B) (rs re : Nat) (l : List Nat) :
    ∀ a : ℚ × DualTreeBoruvka uf, Quiet a.2 (l.foldl (baseCaseQuery cfg rs re) a).2 := by
  induction l with
  | nil => exact fun a => Quiet.still a.2
  | cons x xs ih => exact fun a => (baseCaseQuery_quiet cfg rs re a x).next (ih _)

theorem computeBaseCase_quiet (cfg : Config B) (qs qe rs re : Nat) (s : DualTreeBoruvka uf) :
    Quiet s (ComputeBaseCase_ cfg qs qe rs re s).2 := by
  unfold ComputeBaseCase_
  have h0 : Quiet s { s with number_leaf_computations := s.number_leaf_computations + 1 } :=
    ⟨rfl, fun _ => rfl⟩
  exact h0.next (baseCaseOuter_quiet cfg rs re _ (-1, _))

theorem setMax_quiet (node : Nat) (d : ℚ) (s : DualTreeBoruvka uf) :
    Quiet s (set_max_neighbor_distance node d s) :=
  ⟨rfl, setMax_member node d s⟩

theorem neighborPrune_quiet (Q R : Tree B) (d : ℚ) (s s1 : DualTreeBoruvka uf)
    (h : neighborPrune Q R d s = some s1) : Quiet s s1 := by
  unfold neighborPrune at h
  split_ifs at h
  · rw [← Option.some.inj h]
    exact ⟨rfl, fun _ => rfl⟩
  · rw [← Option.some.inj h]
    exact ⟨rfl, fun _ => rfl⟩

theorem neighborBase_quiet (cfg : Config B) (Q R : Tree B) (s : DualTreeBoruvka uf) :
    Quiet s (neighborBase cfg Q R s) := by
  unfold neighborBase
  exact (computeBaseCase_quiet cfg _ _ _ _ s).next (setMax_quiet _ _ _)

theorem neighborsLeaf_quiet (cfg : Config B) (Q R : Tree B) :
    ∀ (d : ℚ) (s : DualTreeBoruvka uf), Quiet s (neighborsLeaf cfg Q R d s) := by
  induction R with
  | leaf rid rb rc rbd =>
    intro d s
    rw [neighborsLeaf_leaf]
    cases hp : neighborPrune Q (.leaf rid rb rc rbd) d s with
    | some s1 => exact neighborPrune_quiet _ _ _ _ _ hp
    | none => exact neighborBase_quiet cfg _ _ s
  | node rid rb rc rbd rl rr ihl ihr =>
    intro d s
    rw [neighborsLeaf_node]
    cases hp : neighborPrune Q (.node rid rb rc rbd rl rr) d s with
    | some s1 => exact neighborPrune_quiet _ _ _ _ _ hp
    | none =>
      have h0 : Quiet s { s with number_r_recursions := s.number_r_recursions + 1 } :=
        ⟨rfl, fun _ => rfl⟩
      dsimp only
      split_ifs
      · exact h0.next ((ihl _ _).next (ihr _ _))
      · exact h0.next ((ihr _ _).next (ihl _ _))

theorem neighborsDescend_quiet (cfg : Config B) (ql qr R : Tree B)
    (hl : ∀ (R : Tree B) (d : ℚ) (s : DualTreeBoruvka uf),
      Quiet s (ComputeNeighborsRecursion_ cfg ql R d s))
    (hr : ∀ (R : Tree B) (d : ℚ) (s : DualTreeBoruvka uf),
      Quiet s (ComputeNeighborsRecursion_ cfg qr R d s))
    (s : DualTreeBoruvka uf) : Quiet s (neighborsDescend cfg ql qr R s) := by
  cases R with
  | leaf rid rb rc rbd =>
    have h0 : Quiet s { s with number_q_recursions := s.number_q_recursions + 1 } :=
      ⟨rfl, fun _ => rfl⟩
    unfold neighborsDescend
    exact h0.next ((hl _ _ _).next (hr _ _ _))
  | node rid rb rc rbd rl rr =>
    have h0 : Quiet s { s with number_both_recursions := s.number_both_recursions + 1 } :=
      ⟨rfl, fun _ => rfl⟩
    unfold neighborsDescend
    dsimp only
    split_ifs
    · exact h0.next (((hl _ _ _).next (hl _ _ _)).next ((hr _ _ _).next (hr _ _ _)))
    · exact h0.next (((hl _ _ _).next (hl _ _ _)).next ((hr _ _ _).next (hr _ _ _)))
    · exact h0.next (((hl _ _ _).next (hl _ _ _)).next ((hr _ _ _).next (hr _ _ _)))
    · exact h0.next (((hl _ _ _).next (hl _ _ _)).next ((hr _ _ _).next (hr _ _ _)))

theorem computeNeighborsRecursion_quiet (cfg : Config B) (Q : Tree B) :
    ∀ (R : Tree B) (d : ℚ) (s : DualTreeBoruvka uf),
      Quiet s (ComputeNeighborsRecursion_ cfg Q R d s) := by
  induction Q with
  | leaf qid qb qc qbd =>
    intro R d s
    rw [computeNeighborsRecursion_leaf]
    exact neighborsLeaf_quiet cfg _ R d s
  | node qid qb qc qbd ql qr ihl ihr =>
    intro R d s
    rw [computeNeighborsRecursion_node]
    cases hp : neighborPrune (.node qid qb qc qbd ql qr) R d s with
    | some s1 => exact neighborPrune_quiet _ _ _ _ _ hp
    | none => exact (neighborsDescend_quiet cfg ql qr R ihl ihr s).next (setMax_quiet _ _ _)

/-- The method `ComputeNeighbors_` writes neither the union-find nor a
`component_membership`. -/
theorem computeNeighbors_quiet (cfg : Config B) (s : DualTreeBoruvka uf) :
    Quiet s (ComputeNeighbors_ cfg s) := by
  unfold ComputeNeighbors_
  split_ifs
  · exact computeBaseCase_quiet cfg _ _ _ _ s
  · exact computeNeighborsRecursion_quiet cfg _ _ _ s

theorem addAllEdgesStep_coarser (hl : uf.Lawful) (s : DualTreeBoruvka uf) (x : Nat) :
    (∀ i j, comp s i = comp s j → comp (addAllEdgesStep s x) i = comp (addAllEdgesStep s x) j) ∧
      (addAllEdgesStep s x).stat = s.stat := by
  by_cases h : comp s (s.neighbors_in_component (comp s x)) =
      comp s (s.neighbors_out_component (comp s x))
  · rw [addAllEdgesStep_skip s x h]
    exact ⟨fun _ _ e => e, rfl⟩
  · rw [addAllEdgesStep_add s x h]
    refine ⟨?_, ?_⟩
    · intro i j e
      rw [comp_union hl, comp_union hl, e]
    · exact (addEdge_arrays _ _ _ _).2.2.2

theorem addAllEdgesFold_coarser (hl : uf.Lawful) (l : List Nat) :
    ∀ s : DualTreeBoruvka uf,
      (∀ i j, comp s i = comp s j →
        comp (l.foldl addAllEdgesStep s) i = comp (l.foldl addAllEdgesStep s) j) ∧
        (l.foldl addAllEdgesStep s).stat = s.stat := by
  induction l with
  | nil => exact fun s => ⟨fun _ _ e => e, rfl⟩
  | cons x xs ih =>
    intro s
    obtain ⟨h1, h2⟩ := addAllEdgesStep_coarser hl s x
    obtain ⟨h3, h4⟩ := ih (addAllEdgesStep s x)
    exact ⟨fun i j e => h3 i j (h1 i j e), h4.trans h2⟩

/-- The method `AddAllEdges_` merges components and writes no statistic. -/
theorem addAllEdges_coarser (hl : uf.Lawful) (cfg : Config B) (s : DualTreeBoruvka uf) :
    (∀ i j, comp s i = comp s j →
      comp (AddAllEdges_ cfg s) i = comp (AddAllEdges_ cfg s) j) ∧
      (AddAllEdges_ cfg s).stat = s.stat :=
  addAllEdgesFold_coarser hl _ s

/-- The method `Cleanup_` in tree mode sets every membership right when the
non-negative memberships it finds name sets of points that are still in one
component. -/
theorem cleanup_members (cfg : Config B) (hn : cfg.do_naive = false) (hw : WellFormed cfg)
    (s : DualTreeBoruvka uf)
    (hweak : ∀ N ∈ cfg.tree.subtrees, 0 ≤ (s.stat N.id).component_membership →
      ∀ i j, N.Contains i → N.Contains j → comp s i = comp s j) :
    MemberSound cfg (Cleanup_ cfg s) ∧ MemberComplete cfg (Cleanup_ cfg s) := by
  obtain ⟨h1, h2, -, -⟩ := resetFold_spec (List.range' 0 cfg.number_of_points) s
  unfold Cleanup_
  dsimp only
  simp only [hn, Bool.not_false, if_true]
  set s1 := (List.range' 0 cfg.number_of_points).foldl (fun (t : DualTreeBoruvka uf) i =>
    { t with neighbors_distances := Function.update t.neighbors_distances i DBL_MAX }) s with hs1
  set s2 : DualTreeBoruvka uf := { s1 with number_of_loops := s1.number_of_loops + 1 } with hs2
  have hc2 : ∀ i, comp s2 i = comp s i := fun i => comp_congr h1.connections i
  obtain ⟨-, -, k3⟩ := cleanupHelper_spec cfg.tree hw.distinct hw.partitioned hw.nonempty s2
    (by
      intro N hN h0 i j hi hj
      rw [hc2, hc2]
      have h0' : 0 ≤ (s1.stat N.id).component_membership := h0
      rw [h2] at h0'
      exact hweak N hN h0' i j hi hj)
  exact ⟨fun N hN => (k3 N hN).2.1, fun N hN => (k3 N hN).2.2⟩

/-- One round of the loop of `ComputeMST` in tree mode sets every membership
right when the memberships it finds are sound. -/
theorem mstRound_members (hl : uf.Lawful) (cfg : Config B) (hn : cfg.do_naive = false)
    (hw : WellFormed cfg) (s : DualTreeBoruvka uf) (hs : MemberSound cfg s) :
    MemberSound cfg (mstRound cfg s) ∧ MemberComplete cfg (mstRound cfg s) := by
  have hq := computeNeighbors_quiet cfg s
  obtain ⟨hc, hst⟩ := addAllEdges_coarser hl cfg (ComputeNeighbors_ cfg s)
  unfold mstRound
  apply cleanup_members cfg hn hw
  intro N hN h0 i j hi hj
  rw [hst, hq.2] at h0
  apply hc
  rw [comp_congr hq.1, comp_congr hq.1]
  have e1 := hs N hN h0 i hi
  have e2 := hs N hN h0 j hj
  exact Int.ofNat_inj.1 (e1.trans e2.symm)

theorem iterate_members (hl : uf.Lawful) (cfg : Config B) (a : Allocated)
    (hn : cfg.do_naive = false) (hw : WellFormed cfg) (k : Nat) :
    MemberSound cfg ((mstRound cfg)^[k] (Init cfg a : DualTreeBoruvka uf)) ∧
      MemberComplete cfg ((mstRound cfg)^[k] (Init cfg a : DualTreeBoruvka uf)) := by
  induction k with
  | zero =>
    have h := init_clean hl cfg a (fun _ => hw)
    exact ⟨h.sound hn, h.complete hn⟩
  | succ k ih =>
    rw [Function.iterate_succ_apply']
    exact mstRound_members hl cfg hn hw _ ih.1

/-- The state that the loop of `ComputeMST` returns is the state after a
number of rounds. -/
theorem mstLoop_iterate (cfg : Config B) (fuel : Nat) :
    ∀ s s1 : DualTreeBoruvka uf, mstLoop cfg fuel s = some s1 →
      ∃ k, k ≤ fuel ∧ s1 = (mstRound cfg)^[k] s := by
  induction fuel with
  | zero =>
    intro s s1 h
    unfold mstLoop at h
    split_ifs at h
    exact ⟨0, le_refl _, (Option.some.inj h).symm⟩
  | succ n ih =>
    intro s s1 h
    unfold mstLoop at h
    split_ifs at h
    · obtain ⟨k, hk, e⟩ := ih _ _ h
      exact ⟨k + 1, by omega, by rw [Function.iterate_succ_apply]; exact e⟩
    · exact ⟨0, Nat.zero_le _, (Option.some.inj h).symm⟩

/-- Claim C25: with a lawful union-find, in tree mode, on a tree of distinct
non-empty nodes whose children split their ranges, the state after
construction (`k = 0`) and the state after the `Cleanup_` of each round `k`
of the loop of `ComputeMST` give every node of the tree a
`component_membership` that is non-negative if and only if all the points of
the node are in one component of the union-find, and that is then the value
of `connections_.Find(i)` for every point `i` of the node; so it is negative
otherwise. -/
theorem C25_component_membership (hl : uf.Lawful) (cfg : Config B) (a : Allocated)
    (hn : cfg.do_naive = false) (hw : WellFormed cfg) (k : Nat) (N : Tree B)
    (hN : N ∈ cfg.tree.subtrees) :
    (0 ≤ (((mstRound cfg)^[k] (Init cfg a : DualTreeBoruvka uf)).stat N.id).component_membership ↔
      ∀ i j, N.begin ≤ i → i < N.end_ → N.begin ≤ j → j < N.end_ →
        uf.Find ((mstRound cfg)^[k] (Init cfg a : DualTreeBoruvka uf)).connections i =
          uf.Find ((mstRound cfg)^[k] (Init cfg a : DualTreeBoruvka uf)).connections j) ∧
    (0 ≤ (((mstRound cfg)^[k] (Init cfg a : DualTreeBoruvka uf)).stat N.id).component_membership →
      ∀ i, N.begin ≤ i → i < N.end_ →
        ((uf.Find ((mstRound cfg)^[k] (Init cfg a : DualTreeBoruvka uf)).connections i : Nat) :
            Int) =
          (((mstRound cfg)^[k] (Init cfg a : DualTreeBoruvka uf)).stat N.id).component_membership) ∧
    ((¬ ∀ i j, N.begin ≤ i → i < N.end_ → N.begin ≤ j → j < N.end_ →
        uf.Find ((mstRound cfg)^[k] (Init cfg a : DualTreeBoruvka uf)).connections i =
          uf.Find ((mstRound cfg)^[k] (Init cfg a : DualTreeBoruvka uf)).connections j) →
      (((mstRound cfg)^[k] (Init cfg a : DualTreeBoruvka uf)).stat N.id).component_membership <
        0) := by
  obtain ⟨h1, h2⟩ := iterate_members hl cfg a hn hw k
  have hs := h1 N hN
  have hc := h2 N hN
  have hiff : 0 ≤ (((mstRound cfg)^[k]
        (Init cfg a : DualTreeBoruvka uf)).stat N.id).component_membership ↔
      ∀ i j, N.begin ≤ i → i < N.end_ → N.begin ≤ j → j < N.end_ →
        uf.Find ((mstRound cfg)^[k] (Init cfg a : DualTreeBoruvka uf)).connections i =
          uf.Find ((mstRound cfg)^[k] (Init cfg a : DualTreeBoruvka uf)).connections j := by
    constructor
    · intro h0 i j hi1 hi2 hj1 hj2
      have e1 := hs h0 i ⟨hi1, hi2⟩
      have e2 := hs h0 j ⟨hj1, hj2⟩
      exact Int.ofNat_inj.1 (e1.trans e2.symm)
    · intro hall
      exact hc (fun i j hi hj => hall i j hi.1 hi.2 hj.1 hj.2)
  refine ⟨hiff, ?_, ?_⟩
  · intro h0 i hi1 hi2
    exact hs h0 i ⟨hi1, hi2⟩
  · intro hnot
    by_contra h0
    exact hnot (hiff.1 (not_lt.1 h0))

end Membership

end Dtb

namespace Dtb

theorem C25_component_membership_witness :
    (quickFind.Lawful ∧ (Example.config false).do_naive = false ∧
      WellFormed (Example.config false) ∧
      Example.tree ∈ (Example.config false).tree.subtrees) ∧
    ((0 ≤ (((mstRound (Example.config false))^[2]
        (Init (Example.config false) Example.zeros : DualTreeBoruvka quickFind)).stat
          Example.tree.id).component_membership ↔
      ∀ i j, Example.tree.begin ≤ i → i < Example.tree.end_ → Example.tree.begin ≤ j →
        j < Example.tree.end_ →
        quickFind.Find ((mstRound (Example.config false))^[2]
          (Init (Example.config false) Example.zeros : DualTreeBoruvka quickFind)).connections i =
          quickFind.Find ((mstRound (Example.config false))^[2]
            (Init (Example.config false) Example.zeros :
              DualTreeBoruvka quickFind)).connections j) ∧
    (0 ≤ (((mstRound (Example.config false))^[2]
        (Init (Example.config false) Example.zeros : DualTreeBoruvka quickFind)).stat
          Example.tree.id).component_membership →
      ∀ i, Example.tree.begin ≤ i → i < Example.tree.end_ →
        ((quickFind.Find ((mstRound (Example.config false))^[2]
          (Init (Example.config false) Example.zeros :
            DualTreeBoruvka quickFind)).connections i : Nat) : Int) =
          (((mstRound (Example.config false))^[2]
            (Init (Example.config false) Example.zeros : DualTreeBoruvka quickFind)).stat
              Example.tree.id).component_membership) ∧
    ((¬ ∀ i j, Example.tree.begin ≤ i → i < Example.tree.end_ → Example.tree.begin ≤ j →
        j < Example.tree.end_ →
        quickFind.Find ((mstRound (Example.config false))^[2]
          (Init (Example.config false) Example.zeros : DualTreeBoruvka quickFind)).connections i =
          quickFind.Find ((mstRound (Example.config false))^[2]
            (Init (Example.config false) Example.zeros :
              DualTreeBoruvka quickFind)).connections j) →
      (((mstRound (Example.config false))^[2]
        (Init (Example.config false) Example.zeros : DualTreeBoruvka quickFind)).stat
          Example.tree.id).component_membership < 0)) :=
  ⟨⟨quickFind_lawful, rfl, Example.config_wellFormed, Tree.self_mem_subtrees _⟩,
    C25_component_membership quickFind_lawful (Example.config false) Example.zeros rfl
      Example.config_wellFormed 2 Example.tree (Tree.self_mem_subtrees _)⟩

end Dtb

namespace CLI

theorem marginOf_eq (padding : Nat) (h : padding < 80) : marginOf padding = 80 - padding := by
  unfold marginOf
  have e : (2 : Nat) ^ 64 + 80 - padding = 80 - padding + 2 ^ 64 := by omega
  rw [e, Nat.add_mod_right]
  exact Nat.mod_eq_of_lt (by norm_num; omega)

theorem space_ne_newline : space ≠ newline := by decide

theorem not_mem_take_indexOf (c : Char) (l : List Char) : c ∉ l.take (l.indexOf c) := by
  induction l with
  | nil => simp
  | cons x xs ih =>
    by_cases h : x = c
    · subst h; simp
    · rw [List.indexOf_cons_ne _ h, List.take_succ_cons]
      intro hm
      rcases List.mem_cons.1 hm with e | e
      · exact h e.symm
      · exact ih e

theorem find_some (str : List Char) (c : Char) (pos sp : Nat) (h : find str c pos = some sp) :
    pos ≤ sp ∧ sp < str.length ∧ charAt str sp = c ∧ c ∉ substr str pos (sp - pos) := by
  unfold find at h
  split_ifs at h with hlt
  · have e : sp = pos + (str.drop pos).indexOf c := (Option.some.inj h).symm
    have hlen : (str.drop pos).length = str.length - pos := List.length_drop _ _
    have hsp : sp < str.length := by omega
    refine ⟨by omega, hsp, ?_, ?_⟩
    · have hg := List.indexOf_get hlt
      unfold charAt
      rw [List.getD_eq_getElem _ _ hsp]
      have : str[sp] = (str.drop pos)[(str.drop pos).indexOf c] := by
        simp only [e, List.getElem_drop]
      rw [this]
      simp [hg]
    · have e2 : sp - pos = (str.drop pos).indexOf c := by omega
      unfold substr
      rw [e2]
      exact not_mem_take_indexOf c _

theorem find_none (str : List Char) (c : Char) (pos : Nat) (h : find str c pos = none) :
    c ∉ str.drop pos := by
  unfold find at h
  split_ifs at h with hlt
  intro hm
  exact hlt (List.indexOf_lt_length.2 hm)

theorem rfind_some (str : List Char) (c : Char) (pos sp : Nat) (h : rfind str c pos = some sp) :
    sp ≤ pos ∧ sp < str.length := by
  unfold rfind at h
  have hm := List.mem_of_find?_eq_some h
  rw [List.mem_reverse, List.mem_range] at hm
  omega

theorem splitWithoutNewline_bounds (str : List Char) (margin pos : Nat) (hm : 0 < margin)
    (hpos : pos < str.length) :
    pos < splitWithoutNewline str margin pos ∧ splitWithoutNewline str margin pos ≤ pos + margin ∧
      splitWithoutNewline str margin pos ≤ str.length := by
  unfold splitWithoutNewline
  split_ifs with h1
  · omega
  · cases hr : rfind str space (margin + pos) with
    | none => simp only; omega
    | some s =>
      have hs := rfind_some _ _ _ _ hr
      simp only
      split_ifs with h2 <;> omega

theorem not_mem_take_of_le (c : Char) (l : List Char) (a b : Nat) (hab : a ≤ b)
    (h : c ∉ l.take b) : c ∉ l.take a := by
  intro hm
  apply h
  have : l.take a = (l.take b).take a := by rw [List.take_take, Nat.min_eq_left hab]
  rw [this] at hm
  exact List.mem_of_mem_take hm

theorem splitPosition_spec (str : List Char) (margin pos : Nat) (hm : 0 < margin)
    (hpos : pos < str.length) :
    pos ≤ splitPosition str margin pos ∧ splitPosition str margin pos ≤ pos + margin ∧
      splitPosition str margin pos ≤ str.length ∧
      newline ∉ substr str pos (splitPosition str margin pos - pos) ∧
      (pos < splitPosition str margin pos ∨
        charAt str (splitPosition str margin pos) = newline) := by
  have hb := splitWithoutNewline_bounds str margin pos hm hpos
  unfold splitPosition
  cases hf : find str newline pos with
  | none =>
    simp only
    refine ⟨by omega, hb.2.1, hb.2.2, ?_, Or.inl hb.1⟩
    intro hx
    exact find_none _ _ _ hf (List.mem_of_mem_take hx)
  | some s =>
    have hs := find_some _ _ _ _ hf
    simp only
    split_ifs with h1
    · refine ⟨by omega, hb.2.1, hb.2.2, ?_, Or.inl hb.1⟩
      exact not_mem_take_of_le _ _ _ _ (by omega) hs.2.2.2
    · refine ⟨hs.1, by omega, by omega, hs.2.2.2, Or.inr hs.2.2.1⟩

theorem chunk_nil (str : List Char) (margin : Nat) : Chunk str margin [] :=
  ⟨Nat.zero_le _, List.nil_infix, by simp⟩

theorem chunk_substr (str : List Char) (margin pos n : Nat) (hn : n ≤ margin)
    (h : newline ∉ substr str pos n) : Chunk str margin (substr str pos n) := by
  refine ⟨?_, ?_, h⟩
  · unfold substr
    rw [List.length_take]
    omega
  · unfold substr
    exact (List.take_prefix _ _).isInfix.trans (List.drop_suffix _ _).isInfix

theorem laid_of_open (str : List Char) (padding margin : Nat) (out : List Char)
    (h : Open str padding margin out) : ∃ first later, Laid str padding margin first later out := by
  rcases h with h | ⟨first, later, h⟩
  · exact ⟨[], [], by simp [h], chunk_nil _ _, by simp⟩
  · exact ⟨first, later ++ [[]], h⟩

theorem open_append_chunk (str : List Char) (padding margin : Nat) (out c : List Char)
    (h : Open str padding margin out) (hc : Chunk str margin c) :
    ∃ first later, Laid str padding margin first later (out ++ c) := by
  rcases h with h | ⟨first, later, h1, h2, h3⟩
  · exact ⟨c, [], by simp [h], hc, by simp⟩
  · refine ⟨first, later ++ [c], ?_, h2, ?_⟩
    · rw [h1]
      simp [List.append_assoc]
    · intro d hd
      rcases List.mem_append.1 hd with e | e
      · exact h3 d (List.mem_append_left _ e)
      · rw [List.mem_singleton.1 e]
        exact hc

theorem laid_append_break (str : List Char) (padding margin : Nat) (first : List Char)
    (later : List (List Char)) (out : List Char) (h : Laid str padding margin first later out) :
    Open str padding margin (out ++ newline :: List.replicate padding space) := by
  refine Or.inr ⟨first, later, ?_, h.2.1, ?_⟩
  · rw [h.1]
    simp [List.append_assoc]
  · intro d hd
    rcases List.mem_append.1 hd with e | e
    · exact h.2.2 d e
    · rw [List.mem_singleton.1 e]
      exact chunk_nil _ _

theorem splitOn_laid (padding : Nat) (later : List (List Char)) :
    ∀ first : List Char, newline ∉ first → (∀ c ∈ later, newline ∉ c) →
      (first ++ (later.map (fun c => newline :: (List.replicate padding space ++ c))).flatten).splitOn
          newline =
        first :: later.map (fun c => List.replicate padding space ++ c) := by
  induction later with
  | nil =>
    intro first hf _
    simp only [List.map_nil, List.flatten_nil, List.append_nil]
    exact List.splitOnP_eq_single _ _ (fun x hx => by
      simp only [beq_iff_eq]
      rintro rfl
      exact hf hx)
  | cons c cs ih =>
    intro first hf hl
    have hpc : newline ∉ List.replicate padding space ++ c := by
      intro hx
      rcases List.mem_append.1 hx with e | e
      · exact space_ne_newline (List.eq_of_mem_replicate e).symm
      · exact hl c (List.mem_cons_self _ _) e
    have e1 : first ++ ((c :: cs).map
          (fun c => newline :: (List.replicate padding space ++ c))).flatten =
        first ++ newline :: ((List.replicate padding space ++ c) ++
          (cs.map (fun c => newline :: (List.replicate padding space ++ c))).flatten) := by
      simp [List.append_assoc]
    rw [e1]
    have e2 := List.splitOnP_first (fun x => x == newline) first (fun x hx => by
      simp only [beq_iff_eq]
      rintro rfl
      exact hf hx) newline (by simp)
      ((List.replicate padding space ++ c) ++
          (cs.map (fun c => newline :: (List.replicate padding space ++ c))).flatten)
    have e3 := ih (List.replicate padding space ++ c) hpc
      (fun d hd => hl d (List.mem_cons_of_mem _ hd))
    unfold List.splitOn at e3 ⊢
    rw [e2, e3]
    rfl

theorem hyphenateLoop_exit (str : List Char) (padding margin fuel : Nat) (a : List Char × Nat)
    (h : ¬ a.2 < str.length - 1) : hyphenateLoop str padding margin fuel a = some a.1 := by
  cases fuel with
  | zero => simp [hyphenateLoop, h]
  | succ n => simp [hyphenateLoop, h]

theorem hyphenateStep_spec (str : List Char) (padding margin : Nat) (hm : 0 < margin)
    (a : List Char × Nat) (ha : Open str padding margin a.1) (hpos : a.2 < str.length) :
    a.2 < (hyphenateStep str padding margin a).2 ∧
      (Open str padding margin (hyphenateStep str padding margin a).1 ∨
        ((∃ first later, Laid str padding margin first later (hyphenateStep str padding margin a).1) ∧
          str.length ≤ (hyphenateStep str padding margin a).2)) := by
  obtain ⟨h1, h2, h3, h4, h5⟩ := splitPosition_spec str margin a.2 hm hpos
  have hc := chunk_substr str margin a.2 (splitPosition str margin a.2 - a.2) (by omega) h4
  obtain ⟨first, later, hl⟩ := open_append_chunk str padding margin a.1 _ ha hc
  have hpos1 : a.2 < (hyphenateStep str padding margin a).2 := by
    simp only [hyphenateStep]
    rcases h5 with h | h
    · split_ifs <;> omega
    · rw [if_pos (Or.inr h)]
      omega
  refine ⟨hpos1, ?_⟩
  by_cases hlt : splitPosition str margin a.2 < str.length
  · left
    simp only [hyphenateStep, if_pos hlt]
    exact laid_append_break _ _ _ _ _ _ hl
  · right
    constructor
    · simp only [hyphenateStep, if_neg hlt]
      exact ⟨first, later, hl⟩
    · simp only [hyphenateStep]
      split_ifs <;> omega

theorem hyphenateLoop_spec (str : List Char) (padding margin : Nat) (hm : 0 < margin) :
    ∀ (fuel : Nat) (a : List Char × Nat), Open str padding margin a.1 →
      str.length ≤ fuel + a.2 + 1 →
      ∃ out first later, hyphenateLoop str padding margin fuel a = some out ∧
        Laid str padding margin first later out := by
  intro fuel
  induction fuel with
  | zero =>
    intro a ha hf
    obtain ⟨first, later, hl⟩ := laid_of_open _ _ _ _ ha
    exact ⟨a.1, first, later, hyphenateLoop_exit _ _ _ _ _ (by omega), hl⟩
  | succ n ih =>
    intro a ha hf
    by_cases hc : a.2 < str.length - 1
    · obtain ⟨h1, h2⟩ := hyphenateStep_spec str padding margin hm a ha (by omega)
      have e : hyphenateLoop str padding margin (n + 1) a =
          hyphenateLoop str padding margin n (hyphenateStep str padding margin a) := by
        simp [hyphenateLoop, hc]
      rw [e]
      rcases h2 with h2 | ⟨⟨first, later, hl⟩, h2⟩
      · exact ih _ h2 (by omega)
      · exact ⟨_, first, later, hyphenateLoop_exit _ _ _ _ _ (by omega), hl⟩
    · obtain ⟨first, later, hl⟩ := laid_of_open _ _ _ _ ha
      exact ⟨a.1, first, later, hyphenateLoop_exit _ _ _ _ _ hc, hl⟩

/-- Claim C30: for a padding below 80 and enough rounds for the loop (the
length of the string is enough), `HyphenateString` returns a string shorter
than `80 - padding` unchanged, and otherwise returns a text whose first line
is at most `80 - padding` consecutive characters of the input and whose
every later line is exactly `padding` spaces followed by at most
`80 - padding` consecutive characters of the input; so no line of it is
longer than 80 characters. -/
theorem C30_hyphenate_line_width (str : List Char) (padding fuel : Nat) (hp : padding < 80)
    (hf : str.length ≤ fuel) :
    (str.length < 80 - padding → HyphenateString str padding fuel = some str) ∧
    (¬ str.length < 80 - padding →
      ∃ out first later, HyphenateString str padding fuel = some out ∧
        out.splitOn newline = first :: later ∧
        first.length ≤ 80 - padding ∧ first <:+: str ∧
        (∀ l ∈ later, ∃ chunk, l = List.replicate padding space ++ chunk ∧
          chunk.length ≤ 80 - padding ∧ chunk <:+: str) ∧
        ∀ l ∈ out.splitOn newline, l.length ≤ 80) := by
  have hmar := marginOf_eq padding hp
  constructor
  · intro h
    simp [HyphenateString, hmar, h]
  · intro h
    obtain ⟨out, first, later, h1, h2, h3, h4⟩ :=
      hyphenateLoop_spec str padding (80 - padding) (by omega) fuel ([], 0) (Or.inl rfl)
        (by simp only; omega)
    have hs : out.splitOn newline =
        first :: later.map (fun c => List.replicate padding space ++ c) := by
      rw [h2]
      exact splitOn_laid padding later first h3.2.2 (fun c hc => (h4 c hc).2.2)
    have hlater : ∀ l ∈ later.map (fun c => List.replicate padding space ++ c),
        ∃ chunk, l = List.replicate padding space ++ chunk ∧
          chunk.length ≤ 80 - padding ∧ chunk <:+: str := by
      intro l hl
      obtain ⟨c, hc, rfl⟩ := List.mem_map.1 hl
      exact ⟨c, rfl, (h4 c hc).1, (h4 c hc).2.1⟩
    refine ⟨out, first, _, ?_, hs, h3.1, h3.2.1, hlater, ?_⟩
    · simp only [HyphenateString, hmar, if_neg h]
      exact h1
    · intro l hl
      rw [hs] at hl
      rcases List.mem_cons.1 hl with e | e
      · rw [e]
        have := h3.1
        omega
      · obtain ⟨chunk, rfl, hlen, _⟩ := hlater l e
        rw [List.length_append, List.length_replicate]
        omega

end CLI

namespace CLI

theorem C30_hyphenate_line_width_witness :
    (70 < 80 ∧ Example.text.length ≤ 19) ∧
    HyphenateString Example.text 70 19 =
      some ("0123456789".toList ++ newline :: (List.replicate 70 space ++ "12345678".toList)) ∧
    ((Example.text.length < 80 - 70 → HyphenateString Example.text 70 19 = some Example.text) ∧
    (¬ Example.text.length < 80 - 70 →
      ∃ out first later, HyphenateString Example.text 70 19 = some out ∧
        out.splitOn newline = first :: later ∧
        first.length ≤ 80 - 70 ∧ first <:+: Example.text ∧
        (∀ l ∈ later, ∃ chunk, l = List.replicate 70 space ++ chunk ∧
          chunk.length ≤ 80 - 70 ∧ chunk <:+: Example.text) ∧
        ∀ l ∈ out.splitOn newline, l.length ≤ 80)) :=
  ⟨⟨by decide, by decide⟩, by decide,
    C30_hyphenate_line_width Example.text 70 19 (by decide) (by decide)⟩

end CLI

section RefusalClaim

variable {B K : Type}

theorem numSamplesFrom_none (p : ℚ) (sm : Int) (l : List ℚ) :
    ∀ start : Nat, (∀ c ∈ l, c < p) → numSamplesFrom p sm start l = 0 := by
  induction l with
  | nil => intro _ _; rfl
  | cons c cs ih =>
    intro start h
    rw [numSamplesFrom, if_neg (not_le.2 (h c (List.mem_cons_self _ _)))]
    exact ih _ (fun x hx => h x (List.mem_cons_of_mem _ hx))

theorem numSamplesFrom_least (p : ℚ) (sm : Int) (l : List ℚ) :
    ∀ (start i : Nat) (c : ℚ), l[i]? = some c → p ≤ c →
      (∀ j x, j < i → l[j]? = some x → x < p) →
      numSamplesFrom p sm start l = sm * (((start + i : Nat) : Int) + 1) := by
  induction l with
  | nil => intro start i c h; simp at h
  | cons a as ih =>
    intro start i c h hc hlt
    cases i with
    | zero =>
      have e : a = c := by simpa using h
      rw [numSamplesFrom, if_pos (by rw [e]; exact hc)]
      rfl
    | succ i =>
      have ha : a < p := hlt 0 a (Nat.succ_pos _) (by simp)
      rw [numSamplesFrom, if_neg (not_le.2 ha)]
      have h1 : as[i]? = some c := by simpa using h
      rw [ih (start + 1) i c h1 hc (fun j x hj hx => hlt (j + 1) x (by omega) (by simpa using hx))]
      congr 2
      push_cast
      ring

/-- Claim C36: `MonteCarloPrunable_` returns false, with `de` and
`used_error` as they came and the generator not advanced, when the two
nodes hold fewer pairs than `num_initial_samples_per_query_` (it never
writes `dl`, `du` and `n_pruned`); `MonteCarloPrunableByOrderStatistics_`
takes `sample_multiple_ * (i + 1)` samples for the least index `i` whose
coverage probability reaches `probability`, and returns false, with its
five amounts as they came and the generator not advanced, when there is no
such index or the two nodes hold fewer pairs than that. -/
theorem C36_monte_carlo_refusals (env : Env B K) (cfg : MonteCarloConfig) (fuel : Nat)
    (m : Mem K) (qnode rnode : Tree B) (probability : ℚ) (d : Deltas) :
    ((qnode.count : Int) * (rnode.count : Int) < cfg.num_initial_samples_per_query →
      MonteCarloPrunable_ env cfg fuel m qnode rnode probability d =
        some (false, .fin d.de, .fin d.used_error, m)) ∧
    (∀ (i : Nat) (c : ℚ), env.coverage_probabilities[i]? = some c → probability ≤ c →
      (∀ j x, j < i → env.coverage_probabilities[j]? = some x → x < probability) →
      numSamplesFrom probability env.sample_multiple 0 env.coverage_probabilities =
          env.sample_multiple * ((i : Int) + 1) ∧
        (env.sample_multiple * ((i : Int) + 1) > (qnode.count : Int) * (rnode.count : Int) →
          MonteCarloPrunableByOrderStatistics_ env m qnode rnode probability d =
            (false, d, m))) ∧
    ((∀ c ∈ env.coverage_probabilities, c < probability) →
      MonteCarloPrunableByOrderStatistics_ env m qnode rnode probability d = (false, d, m)) := by
  refine ⟨?_, ?_, ?_⟩
  · intro h
    unfold MonteCarloPrunable_
    rw [if_pos h]
  · intro i c hi hc hlt
    have e := numSamplesFrom_least probability env.sample_multiple env.coverage_probabilities
      0 i c hi hc hlt
    rw [Nat.zero_add] at e
    refine ⟨e, ?_⟩
    intro h
    unfold MonteCarloPrunableByOrderStatistics_
    dsimp only
    rw [e, if_pos (Or.inr h)]
  · intro h
    have e := numSamplesFrom_none probability env.sample_multiple env.coverage_probabilities 0 h
    unfold MonteCarloPrunableByOrderStatistics_
    dsimp only
    rw [e, if_pos (Or.inl rfl)]

end RefusalClaim

namespace Dtb

section BoundClaim

variable {B : Type} {uf : UnionFind}

/-- The state at the head of the loop satisfies the bound of the distance
prune, every value being `DBL_MAX`. -/
theorem Clean.bound {cfg : Config B} (hwf : WellFormed cfg) (hn : cfg.do_naive = false)
    {s : DualTreeBoruvka uf} (hC : Clean cfg s) : Bound cfg s := by
  intro N hN i hi
  have hi1 := hwf.lt hN hi
  rw [hC.dist_reset _ (hC.forest.root_lt i hi1), hC.stat_reset hn N hN]

/-- Claim C33: in tree mode, from a state `s` of the head of the loop (the
state `Cleanup_` leaves), the `max_neighbor_distance` of every node is at
least the candidate distance of the component of each of its points: in `s`;
after the search `ComputeNeighbors_`; and, from any state `t` with the bound
and sound memberships, after every call of `ComputeNeighborsRecursion_` on
two nodes with the least squared distance of their bounds, which also keeps
the memberships sound, so that the bound holds at every call and return of
the recursion.  Under the bound, a pair of nodes whose least squared distance
exceeds the `max_neighbor_distance` of the query node has no pair of points
nearer than the candidate of the query point. -/
theorem C33_distance_prune_bound (cfg : Config B) (hwf : WellFormed cfg)
    (hn : cfg.do_naive = false) (s : DualTreeBoruvka uf) (hC : Clean cfg s) :
    (∀ Q ∈ cfg.tree.subtrees, ∀ i, Q.begin ≤ i → i < Q.end_ →
      s.neighbors_distances (uf.Find s.connections i) ≤
        (s.stat Q.id).max_neighbor_distance) ∧
    (∀ Q ∈ cfg.tree.subtrees, ∀ i, Q.begin ≤ i → i < Q.end_ →
      (ComputeNeighbors_ cfg s).neighbors_distances
          (uf.Find (ComputeNeighbors_ cfg s).connections i) ≤
        ((ComputeNeighbors_ cfg s).stat Q.id).max_neighbor_distance) ∧
    (∀ Q ∈ cfg.tree.subtrees, ∀ R ∈ cfg.tree.subtrees, ∀ t : DualTreeBoruvka uf,
      MemberSound cfg t → Bound cfg t →
        MemberSound cfg
            (ComputeNeighborsRecursion_ cfg Q R (cfg.MinDistanceSq Q.bound R.bound) t) ∧
          Bound cfg
            (ComputeNeighborsRecursion_ cfg Q R (cfg.MinDistanceSq Q.bound R.bound) t) ∧
          ((t.stat Q.id).max_neighbor_distance < cfg.MinDistanceSq Q.bound R.bound →
            ∀ i j, Q.Contains i → R.Contains j →
              t.neighbors_distances (uf.Find t.connections i) < cfg.dist i j)) := by
  have hb : Bound cfg s := hC.bound hwf hn
  refine ⟨fun Q hQ i h1 h2 => hb Q hQ i ⟨h1, h2⟩, ?_, ?_⟩
  · have key : Bound cfg (ComputeNeighbors_ cfg s) := by
      unfold ComputeNeighbors_
      simp only [hn, Bool.false_eq_true, if_false]
      refine (computeNeighborsRecursion_spec cfg hwf cfg.tree (Tree.self_mem_subtrees _)
        cfg.tree (Tree.self_mem_subtrees _) DBL_MAX s (hC.sound hn) hb ?_).2.1
      intro h
      rw [hC.stat_reset hn _ (Tree.self_mem_subtrees _)] at h
      exact absurd h (lt_irrefl _)
    exact fun Q hQ i h1 h2 => key Q hQ i ⟨h1, h2⟩
  · intro Q hQ R hR t hm hbt
    obtain ⟨h1, h2, -⟩ := computeNeighborsRecursion_spec cfg hwf Q hQ R hR
      (cfg.MinDistanceSq Q.bound R.bound) t hm hbt
      (fun _ q r hq hr => hwf.bounds Q hQ R hR q r hq hr)
    refine ⟨hm.search h1, h2, ?_⟩
    intro hlt i j hi hj
    exact lt_of_le_of_lt (hbt Q hQ i hi) (lt_of_lt_of_le hlt (hwf.bounds Q hQ R hR i j hi hj))

theorem C33_distance_prune_bound_witness :
    (WellFormed (Example.config false) ∧ (Example.config false).do_naive = false ∧
      Clean (Example.config false)
        (Init (Example.config false) Example.zeros : DualTreeBoruvka quickFind)) ∧
    ((∀ Q ∈ (Example.config false).tree.subtrees, ∀ i, Q.begin ≤ i → i < Q.end_ →
      (Init (Example.config false) Example.zeros : DualTreeBoruvka quickFind).neighbors_distances
          (quickFind.Find
            (Init (Example.config false) Example.zeros : DualTreeBoruvka quickFind).connections
            i) ≤
        ((Init (Example.config false) Example.zeros : DualTreeBoruvka quickFind).stat
          Q.id).max_neighbor_distance) ∧
    (∀ Q ∈ (Example.config false).tree.subtrees, ∀ i, Q.begin ≤ i → i < Q.end_ →
      (ComputeNeighbors_ (Example.config false)
        (Init (Example.config false) Example.zeros :
          DualTreeBoruvka quickFind)).neighbors_distances
          (quickFind.Find (ComputeNeighbors_ (Example.config false)
            (Init (Example.config false) Example.zeros :
              DualTreeBoruvka quickFind)).connections i) ≤
        ((ComputeNeighbors_ (Example.config false)
          (Init (Example.config false) Example.zeros : DualTreeBoruvka quickFind)).stat
            Q.id).max_neighbor_distance) ∧
    (∀ Q ∈ (Example.config false).tree.subtrees, ∀ R ∈ (Example.config false).tree.subtrees,
      ∀ t : DualTreeBoruvka quickFind,
      MemberSound (Example.config false) t → Bound (Example.config false) t →
        MemberSound (Example.config false)
            (ComputeNeighborsRecursion_ (Example.config false) Q R
              ((Example.config false).MinDistanceSq Q.bound R.bound) t) ∧
          Bound (Example.config false)
            (ComputeNeighborsRecursion_ (Example.config false) Q R
              ((Example.config false).MinDistanceSq Q.bound R.bound) t) ∧
          ((t.stat Q.id).max_neighbor_distance <
              (Example.config false).MinDistanceSq Q.bound R.bound →
            ∀ i j, Q.Contains i → R.Contains j →
              t.neighbors_distances (quickFind.Find t.connections i) <
                (Example.config false).dist i j))) :=
  ⟨⟨Example.config_wellFormed, rfl,
      init_clean quickFind_lawful _ _ (fun _ => Example.config_wellFormed)⟩,
    C33_distance_prune_bound (Example.config false) Example.config_wellFormed rfl _
      (init_clean quickFind_lawful _ _ (fun _ => Example.config_wellFormed))⟩

end BoundClaim

end Dtb

namespace Dtb

section CountClaim

variable {B : Type} {uf : UnionFind}

theorem Forest.edges_le {cfg : Config B} (hl : uf.Lawful) {s : DualTreeBoruvka uf}
    (hF : Forest cfg s) (hn : 0 < cfg.number_of_points) :
    s.number_of_edges + 1 ≤ cfg.number_of_points := by
  have h0 : comp s 0 ∈ roots cfg.number_of_points s := by
    unfold roots
    rw [Finset.mem_filter, Finset.mem_range]
    exact ⟨hF.root_lt 0 hn, hl.find_find _ _⟩
  have := Finset.card_pos.2 ⟨_, h0⟩
  have := hF.count
  omega

theorem Forest.counted {cfg : Config B} (hl : uf.Lawful) {s : DualTreeBoruvka uf}
    (hF : Forest cfg s) (hn : 0 < cfg.number_of_points) : Counted cfg s :=
  ⟨hF.count, hF.nodup, hF.acyclic, hF.edges_le hl hn⟩

/-- The states of the head of the loop of `ComputeMST`, as long as the loop
runs. -/
theorem iterate_clean (hl : uf.Lawful) (cfg : Config B) (a : Allocated)
    (hwf : cfg.do_naive = false → WellFormed cfg)
    (hfar : ∀ i j, i < cfg.number_of_points → j < cfg.number_of_points →
      cfg.dist i j < DBL_MAX) :
    ∀ k, (∀ j, j < k →
        ((mstRound cfg)^[j] (Init cfg a : DualTreeBoruvka uf)).number_of_edges + 1 <
          cfg.number_of_points) →
      Clean cfg ((mstRound cfg)^[k] (Init cfg a : DualTreeBoruvka uf)) := by
  intro k
  induction k with
  | zero => exact fun _ => init_clean hl cfg a hwf
  | succ k ih =>
    intro hrun
    rw [Function.iterate_succ_apply']
    exact (mstRound_spec cfg hl hwf hfar _ (ih (fun j hj => hrun j (by omega)))
      (hrun k (Nat.lt_succ_self k))).1

/-- Claim C32, with every squared distance below `DBL_MAX` and at least one
point: after `Init`, and after the `AddAllEdges_` of every round that the
loop of `ComputeMST` runs, the components and the stored edges together
number `n`, the stored edges are pairwise different and free of cycles, and
they are at most `n - 1`; every step of the loop of `AddAllEdges_` leaves the
object as it is or adds, at an index of at most `n - 2`, an edge between two
components that it then unites; and the loop of `ComputeMST` ends, within
`n - 1` rounds, with `n - 1` edges. -/
theorem C32_edge_forest_invariant (hl : uf.Lawful) (cfg : Config B) (a : Allocated)
    (hwf : cfg.do_naive = false → WellFormed cfg) (hn : 0 < cfg.number_of_points)
    (hfar : ∀ i j, i < cfg.number_of_points → j < cfg.number_of_points →
      cfg.dist i j < DBL_MAX)
    (k : Nat)
    (hrun : ∀ j, j < k + 1 →
      ((mstRound cfg)^[j] (Init cfg a : DualTreeBoruvka uf)).number_of_edges + 1 <
        cfg.number_of_points) :
    Counted cfg (Init cfg a : DualTreeBoruvka uf) ∧
    Counted cfg (AddAllEdges_ cfg (ComputeNeighbors_ cfg
      ((mstRound cfg)^[k] (Init cfg a : DualTreeBoruvka uf)))) ∧
    (∀ j, j < cfg.number_of_points →
      addAllEdgesStep ((List.range' 0 j).foldl addAllEdgesStep (ComputeNeighbors_ cfg
          ((mstRound cfg)^[k] (Init cfg a : DualTreeBoruvka uf)))) j =
        (List.range' 0 j).foldl addAllEdgesStep (ComputeNeighbors_ cfg
          ((mstRound cfg)^[k] (Init cfg a : DualTreeBoruvka uf))) ∨
      ∃ (t : DualTreeBoruvka uf) (u v : Nat) (d total : ℚ),
        t = (List.range' 0 j).foldl addAllEdgesStep (ComputeNeighbors_ cfg
          ((mstRound cfg)^[k] (Init cfg a : DualTreeBoruvka uf))) ∧
        addAllEdgesStep t j =
          { AddEdge_ u v d { t with total_dist := total } with
            connections := uf.Union t.connections u v } ∧
        uf.Find t.connections u ≠ uf.Find t.connections v ∧
        t.number_of_edges + 2 ≤ cfg.number_of_points) ∧
    ∀ fuel, cfg.number_of_points ≤ fuel + 1 →
      ∃ s, mstLoop cfg fuel (Init cfg a : DualTreeBoruvka uf) = some s ∧
        s.number_of_edges + 1 = cfg.number_of_points := by
  have hC := iterate_clean hl cfg a hwf hfar k (fun j hj => hrun j (by omega))
  obtain ⟨-, hF1, hS1⟩ := computeNeighbors_spec cfg hwf hfar _ hC (hrun k (Nat.lt_succ_self k))
  refine ⟨(init_clean hl cfg a hwf).forest.counted hl hn, ?_, ?_, ?_⟩
  · exact (addAllEdges_round cfg hl _ hF1 hS1 hn).1.forest.counted hl hn
  · intro j hj
    set s0 := ComputeNeighbors_ cfg ((mstRound cfg)^[k] (Init cfg a : DualTreeBoruvka uf))
      with hs0
    obtain ⟨hR, -⟩ := Round.fold cfg hl s0 hS1 (List.range' 0 j) s0
      (by
        intro i hi
        rw [List.mem_range'_1] at hi
        omega)
      (Round.start cfg hl s0 hF1 hS1)
    set t := (List.range' 0 j).foldl addAllEdgesStep s0 with ht
    obtain ⟨hR1, -, hadd⟩ := Round.step cfg hl s0 t hS1 hR j hj
    by_cases hne : comp t (t.neighbors_in_component (comp t j)) =
        comp t (t.neighbors_out_component (comp t j))
    · left
      exact addAllEdgesStep_skip t j hne
    · right
      refine ⟨t, _, _, _, _, rfl, addAllEdgesStep_add t j hne, hne, ?_⟩
      have h1 := hadd hne
      have h2 := hR1.forest.edges_le hl hn
      omega
  · intro fuel hfuel
    obtain ⟨s, h1, -, h3⟩ := mstLoop_spec cfg hl hwf hfar hn fuel
      (Init cfg a : DualTreeBoruvka uf) (init_clean hl cfg a hwf) (by
        show cfg.number_of_points ≤ 0 + 1 + fuel
        omega)
    exact ⟨s, h1, h3⟩

theorem C32_edge_forest_invariant_witness :
    (quickFind.Lawful ∧ 0 < (Example.config false).number_of_points ∧
      (∀ j, j < 0 + 1 →
        ((mstRound (Example.config false))^[j]
          (Init (Example.config false) Example.zeros :
            DualTreeBoruvka quickFind)).number_of_edges + 1 <
          (Example.config false).number_of_points)) ∧
    (Counted (Example.config false)
      (Init (Example.config false) Example.zeros : DualTreeBoruvka quickFind) ∧
    Counted (Example.config false) (AddAllEdges_ (Example.config false)
      (ComputeNeighbors_ (Example.config false)
        ((mstRound (Example.config false))^[0]
          (Init (Example.config false) Example.zeros : DualTreeBoruvka quickFind)))) ∧
    (∀ j, j < (Example.config false).number_of_points →
      addAllEdgesStep ((List.range' 0 j).foldl addAllEdgesStep
          (ComputeNeighbors_ (Example.config false)
            ((mstRound (Example.config false))^[0]
              (Init (Example.config false) Example.zeros : DualTreeBoruvka quickFind)))) j =
        (List.range' 0 j).foldl addAllEdgesStep (ComputeNeighbors_ (Example.config false)
          ((mstRound (Example.config false))^[0]
            (Init (Example.config false) Example.zeros : DualTreeBoruvka quickFind))) ∨
      ∃ (t : DualTreeBoruvka quickFind) (u v : Nat) (d total : ℚ),
        t = (List.range' 0 j).foldl addAllEdgesStep (ComputeNeighbors_ (Example.config false)
          ((mstRound (Example.config false))^[0]
            (Init (Example.config false) Example.zeros : DualTreeBoruvka quickFind))) ∧
        addAllEdgesStep t j =
          { AddEdge_ u v d { t with total_dist := total } with
            connections := quickFind.Union t.connections u v } ∧
        quickFind.Find t.connections u ≠ quickFind.Find t.connections v ∧
        t.number_of_edges + 2 ≤ (Example.config false).number_of_points) ∧
    ∀ fuel, (Example.config false).number_of_points ≤ fuel + 1 →
      ∃ s, mstLoop (Example.config false) fuel
          (Init (Example.config false) Example.zeros : DualTreeBoruvka quickFind) = some s ∧
        s.number_of_edges + 1 = (Example.config false).number_of_points) :=
  have hrun : ∀ j, j < 0 + 1 →
      ((mstRound (Example.config false))^[j]
        (Init (Example.config false) Example.zeros :
          DualTreeBoruvka quickFind)).number_of_edges + 1 <
        (Example.config false).number_of_points := by
    intro j hj
    have e : j = 0 := by omega
    subst e
    show 0 + 1 < 4
    decide
  ⟨⟨quickFind_lawful, by decide, hrun⟩,
    C32_edge_forest_invariant quickFind_lawful (Example.config false) Example.zeros
      (fun _ => Example.config_wellFormed) (by decide)
      (fun i j _ _ => Example.config_far false i j) 0 hrun⟩

/-- Claim C32 fails on the two points at the squared distance `DBL_MAX`: the
loop of `ComputeMST` does not end, whatever the bound on its rounds. -/
theorem C32_counterexample :
    Example.farConfig.number_of_points = 2 ∧ Example.farConfig.dist 0 1 = DBL_MAX ∧
      quickFind.Lawful ∧
      (∀ k, ((mstRound Example.farConfig)^[k]
        (Init Example.farConfig Example.zeros : DualTreeBoruvka quickFind)).number_of_edges = 0) ∧
      ∀ fuel, mstLoop Example.farConfig fuel
        (Init Example.farConfig Example.zeros : DualTreeBoruvka quickFind) = none := by
  have h0 : Stuck (Init Example.farConfig Example.zeros : DualTreeBoruvka quickFind) :=
    ⟨rfl, fun _ => rfl, fun _ => rfl, fun _ => rfl, fun _ => rfl⟩
  have hk : ∀ k, Stuck ((mstRound Example.farConfig)^[k]
      (Init Example.farConfig Example.zeros : DualTreeBoruvka quickFind)) := by
    intro k
    induction k with
    | zero => exact h0
    | succ k ih =>
      rw [Function.iterate_succ_apply']
      exact stuck_round _ ih
  exact ⟨rfl, Example.far_dist_01, quickFind_lawful, fun k => (hk k).1,
    fun fuel => stuck_loop fuel _ h0⟩

end CountClaim

end Dtb

namespace Dtb

section OrderClaim

variable {B : Type} {uf : UnionFind}

theorem SameEdges.unwritten (s : DualTreeBoruvka uf) : SameEdges s s := ⟨rfl, rfl⟩

theorem SameEdges.followedBy {s s1 s2 : DualTreeBoruvka uf} (h1 : SameEdges s s1)
    (h2 : SameEdges s1 s2) : SameEdges s s2 :=
  ⟨h2.1.trans h1.1, h2.2.trans h1.2⟩

theorem baseCaseReference_sameEdges (cfg : Config B) (q c : Nat) (s : DualTreeBoruvka uf)
    (r : Nat) : SameEdges s (baseCaseReference cfg q c s r) := by
  unfold baseCaseReference
  dsimp only
  split_ifs <;> exact ⟨rfl, rfl⟩

theorem foldl_sameEdges {α : Type} (f : DualTreeBoruvka uf → α → DualTreeBoruvka uf)
    (h : ∀ s x, SameEdges s (f s x)) (l : List α) : ∀ s, SameEdges s (l.foldl f s) := by
  induction l with
  | nil => exact fun s => SameEdges.unwritten s
  | cons x xs ih => exact fun s => (h s x).followedBy (ih (f s x))

theorem baseCaseQuery_sameEdges (cfg : Config B) (rs re : Nat) (a : ℚ × DualTreeBoruvka uf)
    (q : Nat) : SameEdges a.2 (baseCaseQuery cfg rs re a q).2 := by
  have h := foldl_sameEdges (baseCaseReference cfg q (uf.Find a.2.connections q))
    (baseCaseReference_sameEdges cfg q _) (List.range' rs (re - rs)) a.2
  unfold baseCaseQuery
  dsimp only
  split_ifs <;> exact h

theorem baseCaseOuter_sameEdges (cfg : Config B) (rs re : Nat) (l : List Nat) :
    ∀ a : ℚ × DualTreeBoruvka uf, SameEdges a.2 (l.foldl (baseCaseQuery cfg rs re) a).2 := by
  induction l with
  | nil => exact fun a => SameEdges.unwritten a.2
  | cons x xs ih => exact fun a => (baseCaseQuery_sameEdges cfg rs re a x).followedBy (ih _)

theorem computeBaseCase_sameEdges (cfg : Config B) (qs qe rs re : Nat)
    (s : DualTreeBoruvka uf) : SameEdges s (ComputeBaseCase_ cfg qs qe rs re s).2 := by
  unfold ComputeBaseCase_
  have h0 : SameEdges s
      { s with number_leaf_computations := s.number_leaf_computations + 1 } := ⟨rfl, rfl⟩
  exact h0.followedBy (baseCaseOuter_sameEdges cfg rs re _ (-1, _))

theorem neighborPrune_sameEdges (Q R : Tree B) (d : ℚ) (s s1 : DualTreeBoruvka uf)
    (h : neighborPrune Q R d s = some s1) : SameEdges s s1 := by
  unfold neighborPrune at h
  split_ifs at h
  · rw [← Option.some.inj h]
    exact ⟨rfl, rfl⟩
  · rw [← Option.some.inj h]
    exact ⟨rfl, rfl⟩

theorem neighborBase_sameEdges (cfg : Config B) (Q R : Tree B) (s : DualTreeBoruvka uf) :
    SameEdges s (neighborBase cfg Q R s) := by
  unfold neighborBase
  exact (computeBaseCase_sameEdges cfg _ _ _ _ s).followedBy ⟨rfl, rfl⟩

theorem neighborsLeaf_sameEdges (cfg : Config B) (Q R : Tree B) :
    ∀ (d : ℚ) (s : DualTreeBoruvka uf), SameEdges s (neighborsLeaf cfg Q R d s) := by
  induction R with
  | leaf rid rb rc rbd =>
    intro d s
    rw [neighborsLeaf_leaf]
    cases hp : neighborPrune Q (.leaf rid rb rc rbd) d s with
    | some s1 => exact neighborPrune_sameEdges _ _ _ _ _ hp
    | none => exact neighborBase_sameEdges cfg _ _ s
  | node rid rb rc rbd rl rr ihl ihr =>
    intro d s
    rw [neighborsLeaf_node]
    cases hp : neighborPrune Q (.node rid rb rc rbd rl rr) d s with
    | some s1 => exact neighborPrune_sameEdges _ _ _ _ _ hp
    | none =>
      have h0 : SameEdges s { s with number_r_recursions := s.number_r_recursions + 1 } :=
        ⟨rfl, rfl⟩
      dsimp only
      split_ifs
      · exact h0.followedBy ((ihl _ _).followedBy (ihr _ _))
      · exact h0.followedBy ((ihr _ _).followedBy (ihl _ _))

theorem neighborsDescend_sameEdges (cfg : Config B) (ql qr R : Tree B)
    (hl : ∀ (R : Tree B) (d : ℚ) (s : DualTreeBoruvka uf),
      SameEdges s (ComputeNeighborsRecursion_ cfg ql R d s))
    (hr : ∀ (R : Tree B) (d : ℚ) (s : DualTreeBoruvka uf),
      SameEdges s (ComputeNeighborsRecursion_ cfg qr R d s))
    (s : DualTreeBoruvka uf) : SameEdges s (neighborsDescend cfg ql qr R s) := by
  cases R with
  | leaf rid rb rc rbd =>
    have h0 : SameEdges s { s with number_q_recursions := s.number_q_recursions + 1 } :=
      ⟨rfl, rfl⟩
    unfold neighborsDescend
    exact h0.followedBy ((hl _ _ _).followedBy (hr _ _ _))
  | node rid rb rc rbd rl rr =>
    have h0 : SameEdges s { s with number_both_recursions := s.number_both_recursions + 1 } :=
      ⟨rfl, rfl⟩
    have hl2 : ∀ (X Y : Tree B) (d e : ℚ) (t : DualTreeBoruvka uf), SameEdges t
        (ComputeNeighborsRecursion_ cfg ql X d (ComputeNeighborsRecursion_ cfg ql Y e t)) :=
      fun X Y d e t => (hl Y e t).followedBy (hl X d _)
    have hr2 : ∀ (X Y : Tree B) (d e : ℚ) (t : DualTreeBoruvka uf), SameEdges t
        (ComputeNeighborsRecursion_ cfg qr X d (ComputeNeighborsRecursion_ cfg qr Y e t)) :=
      fun X Y d e t => (hr Y e t).followedBy (hr X d _)
    unfold neighborsDescend
    dsimp only
    split_ifs <;> exact h0.followedBy ((hl2 _ _ _ _ _).followedBy (hr2 _ _ _ _ _))

theorem computeNeighborsRecursion_sameEdges (cfg : Config B) (Q : Tree B) :
    ∀ (R : Tree B) (d : ℚ) (s : DualTreeBoruvka uf),
      SameEdges s (ComputeNeighborsRecursion_ cfg Q R d s) := by
  induction Q with
  | leaf qid qb qc qbd =>
    intro R d s
    rw [computeNeighborsRecursion_leaf]
    exact neighborsLeaf_sameEdges cfg _ R d s
  | node qid qb qc qbd ql qr ihl ihr =>
    intro R d s
    rw [computeNeighborsRecursion_node]
    cases hp : neighborPrune (.node qid qb qc qbd ql qr) R d s with
    | some s1 => exact neighborPrune_sameEdges _ _ _ _ _ hp
    | none => exact (neighborsDescend_sameEdges cfg ql qr R ihl ihr s).followedBy ⟨rfl, rfl⟩

/-- The method `ComputeNeighbors_` writes no edge. -/
theorem computeNeighbors_sameEdges (cfg : Config B) (s : DualTreeBoruvka uf) :
    SameEdges s (ComputeNeighbors_ cfg s) := by
  unfold ComputeNeighbors_
  split_ifs
  · exact computeBaseCase_sameEdges cfg _ _ _ _ s
  · exact computeNeighborsRecursion_sameEdges cfg _ _ _ s

theorem cleanupHelper_sameEdges (t : Tree B) :
    ∀ s : DualTreeBoruvka uf, SameEdges s (CleanupHelper_ t s) := by
  induction t with
  | leaf id b c bd =>
    intro s
    rw [CleanupHelper_]
    split_ifs <;> exact ⟨rfl, rfl⟩
  | node id b c bd l r ihl ihr =>
    intro s
    rw [CleanupHelper_]
    have h0 : SameEdges s (set_max_neighbor_distance id DBL_MAX s) := ⟨rfl, rfl⟩
    have h1 := h0.followedBy ((ihl _).followedBy (ihr (CleanupHelper_ l (set_max_neighbor_distance id DBL_MAX s))))
    split_ifs
    · exact h1.followedBy ⟨rfl, rfl⟩
    · exact h1

/-- The method `Cleanup_` writes no edge. -/
theorem cleanup_sameEdges (cfg : Config B) (s : DualTreeBoruvka uf) :
    SameEdges s (Cleanup_ cfg s) := by
  obtain ⟨h1, -, -, -⟩ := resetFold_spec (List.range' 0 cfg.number_of_points) s
  have h2 : SameEdges s ((List.range' 0 cfg.number_of_points).foldl
      (fun (t : DualTreeBoruvka uf) i =>
        { t with neighbors_distances := Function.update t.neighbors_distances i DBL_MAX }) s) :=
    ⟨h1.number, h1.edges⟩
  unfold Cleanup_
  dsimp only
  split_ifs
  · exact h2.followedBy (SameEdges.followedBy ⟨rfl, rfl⟩ (cleanupHelper_sameEdges _ _))
  · exact h2.followedBy ⟨rfl, rfl⟩

theorem EdgesOrdered.of_sameEdges {s s1 : DualTreeBoruvka uf} (h : SameEdges s s1)
    (ho : EdgesOrdered s) : EdgesOrdered s1 := by
  intro k hk
  rw [h.1] at hk
  rw [h.2]
  exact ho k hk

theorem addEdge_ordered (s : DualTreeBoruvka uf) (u v : Nat) (d : ℚ) (huv : u ≠ v)
    (ho : EdgesOrdered s) : EdgesOrdered (AddEdge_ u v d s) := by
  intro k hk
  rw [addEdge_number] at hk
  unfold AddEdge_
  dsimp only
  by_cases hkn : k = s.number_of_edges
  · subst hkn
    split_ifs with hlt
    · simp only [Function.update_same]
      exact hlt
    · simp only [Function.update_same]
      omega
  · have hk2 : k < s.number_of_edges := by omega
    split_ifs with hlt
    · simp only [Function.update_noteq hkn]
      exact ho k hk2
    · simp only [Function.update_noteq hkn]
      exact ho k hk2

theorem addAllEdgesStep_ordered (s : DualTreeBoruvka uf) (i : Nat) (ho : EdgesOrdered s) :
    EdgesOrdered (addAllEdgesStep s i) := by
  by_cases hne : comp s (s.neighbors_in_component (comp s i)) =
      comp s (s.neighbors_out_component (comp s i))
  · rw [addAllEdgesStep_skip s i hne]
    exact ho
  · rw [addAllEdgesStep_add s i hne]
    have huv : s.neighbors_in_component (comp s i) ≠ s.neighbors_out_component (comp s i) :=
      fun e => hne (by rw [e])
    have h1 := addEdge_ordered
      { s with total_dist := s.total_dist + s.neighbors_distances (comp s i) }
      (s.neighbors_in_component (comp s i)) (s.neighbors_out_component (comp s i))
      (s.neighbors_distances (comp s i)) huv (ho.of_sameEdges ⟨rfl, rfl⟩)
    exact h1.of_sameEdges ⟨rfl, rfl⟩

theorem addAllEdges_ordered (cfg : Config B) (s : DualTreeBoruvka uf) (ho : EdgesOrdered s) :
    EdgesOrdered (AddAllEdges_ cfg s) := by
  unfold AddAllEdges_
  generalize List.range' 0 cfg.number_of_points = l
  induction l generalizing s with
  | nil => exact ho
  | cons x xs ih => exact ih _ (addAllEdgesStep_ordered s x ho)

theorem mstRound_ordered (cfg : Config B) (s : DualTreeBoruvka uf) (ho : EdgesOrdered s) :
    EdgesOrdered (mstRound cfg s) := by
  unfold mstRound
  exact (addAllEdges_ordered cfg _ (ho.of_sameEdges (computeNeighbors_sameEdges cfg s))).of_sameEdges
    (cleanup_sameEdges cfg _)

theorem mstLoop_ordered (cfg : Config B) (fuel : Nat) :
    ∀ s s1 : DualTreeBoruvka uf, EdgesOrdered s → mstLoop cfg fuel s = some s1 →
      EdgesOrdered s1 := by
  induction fuel with
  | zero =>
    intro s s1 ho h
    unfold mstLoop at h
    split_ifs at h
    rw [← Option.some.inj h]
    exact ho
  | succ n ih =>
    intro s s1 ho h
    unfold mstLoop at h
    split_ifs at h
    · exact ih _ _ (mstRound_ordered cfg s ho) h
    · rw [← Option.some.inj h]
      exact ho

/-- Claim C38, as far as it holds: whenever `ComputeMST` returns, every edge
stored in `edges_` before `EmitResults_` holds its lesser index first; in
naive mode these are the emitted edges; in tree mode the emitted edge `k`
holds the images of the two indices under `old_from_new_permutation_` in
their places, so it holds its lesser index first exactly when the permutation
keeps the order of the two indices. -/
theorem C38_emitted_edges_ordered (cfg : Config B) (a : Allocated) (fuel : Nat)
    (r : DualTreeBoruvka uf × (Nat → EdgePair))
    (h : ComputeMST cfg fuel (Init cfg a : DualTreeBoruvka uf) = some r) :
    ∃ s, mstLoop cfg fuel (Init cfg a : DualTreeBoruvka uf) = some s ∧
      r = EmitResults_ cfg s ∧
      (∀ k, k < s.number_of_edges → (s.edges k).lesser_index < (s.edges k).greater_index) ∧
      (cfg.do_naive = true → ∀ k, k < s.number_of_edges →
        (r.2 k).lesser_index < (r.2 k).greater_index) ∧
      (cfg.do_naive = false → ∀ k, k < cfg.number_of_points - 1 →
        (r.2 k).lesser_index = cfg.old_from_new_permutation (s.edges k).lesser_index ∧
        (r.2 k).greater_index = cfg.old_from_new_permutation (s.edges k).greater_index) := by
  unfold ComputeMST at h
  cases hs : mstLoop cfg fuel (Init cfg a : DualTreeBoruvka uf) with
  | none => rw [hs] at h; exact absurd h (by simp)
  | some s =>
    rw [hs] at h
    have hr : r = EmitResults_ cfg s := (Option.some.inj h).symm
    have h0 : EdgesOrdered (Init cfg a : DualTreeBoruvka uf) :=
      fun k hk => absurd hk (Nat.not_lt_zero k)
    have ho := mstLoop_ordered cfg fuel _ s h0 hs
    refine ⟨s, rfl, hr, ho, ?_, ?_⟩
    · intro hn k hk
      rw [hr]
      unfold EmitResults_
      simp only [hn, Bool.not_true, Bool.false_eq_true, if_false]
      exact ho k hk
    · intro hn k hk
      rw [hr]
      unfold EmitResults_
      simp only [hn, Bool.not_false, if_true, if_pos hk]
      exact ⟨trivial, trivial⟩

theorem C38_emitted_edges_ordered_witness :
    ∃ r, ComputeMST (Example.config true) 3
        (Init (Example.config true) Example.zeros : DualTreeBoruvka quickFind) = some r ∧
      ∃ s, mstLoop (Example.config true) 3
          (Init (Example.config true) Example.zeros : DualTreeBoruvka quickFind) = some s ∧
        r = EmitResults_ (Example.config true) s ∧
        (∀ k, k < s.number_of_edges → (s.edges k).lesser_index < (s.edges k).greater_index) ∧
        ((Example.config true).do_naive = true → ∀ k, k < s.number_of_edges →
          (r.2 k).lesser_index < (r.2 k).greater_index) ∧
        ((Example.config true).do_naive = false →
          ∀ k, k < (Example.config true).number_of_points - 1 →
          (r.2 k).lesser_index =
            (Example.config true).old_from_new_permutation (s.edges k).lesser_index ∧
          (r.2 k).greater_index =
            (Example.config true).old_from_new_permutation (s.edges k).greater_index) := by
  obtain ⟨s, hs, -, -⟩ := mstLoop_spec (Example.config true) quickFind_lawful
    (fun h => absurd h (by decide)) (fun i j _ _ => Example.config_far true i j) (by decide) 3
    (Init (Example.config true) Example.zeros : DualTreeBoruvka quickFind)
    (init_clean quickFind_lawful _ _ (fun h => absurd h (by decide))) (by decide)
  have h : ComputeMST (Example.config true) 3
      (Init (Example.config true) Example.zeros : DualTreeBoruvka quickFind) =
      some (EmitResults_ (Example.config true) s) := by
    unfold ComputeMST
    rw [hs]
    rfl
  exact ⟨_, h, C38_emitted_edges_ordered (Example.config true) Example.zeros 3 _ h⟩

theorem Example.reversedConfig_wellFormed : WellFormed Example.reversedConfig :=
  ⟨Example.config_wellFormed.partitioned, Example.config_wellFormed.distinct,
    Example.config_wellFormed.root_begin, Example.config_wellFormed.root_count,
    Example.config_wellFormed.nonempty, Example.config_wellFormed.bounds⟩

/-- Claim C38 fails in tree mode on the four points of the line with the
permutation that reverses them: `ComputeMST` returns, and every one of the
three edges it emits holds its greater index first. -/
theorem C38_counterexample :
    Example.reversedConfig.do_naive = false ∧
    Example.reversedConfig.old_from_new_permutation 0 = 3 ∧
    Example.reversedConfig.old_from_new_permutation 3 = 0 ∧
    ∃ r, ComputeMST Example.reversedConfig 3
        (Init Example.reversedConfig Example.zeros : DualTreeBoruvka quickFind) = some r ∧
      r.1.number_of_edges = 3 ∧
      ∀ k, k < 3 → (r.2 k).greater_index < (r.2 k).lesser_index := by
  refine ⟨rfl, rfl, rfl, ?_⟩
  obtain ⟨s, hs, hC, hnum⟩ := mstLoop_spec Example.reversedConfig quickFind_lawful
    (fun _ => Example.reversedConfig_wellFormed)
    (fun i j _ _ => Example.config_far false i j) (by decide) 3
    (Init Example.reversedConfig Example.zeros : DualTreeBoruvka quickFind)
    (init_clean quickFind_lawful _ _ (fun _ => Example.reversedConfig_wellFormed)) (by decide)
  have hn : s.number_of_edges = 3 := by
    have : Example.reversedConfig.number_of_points = 4 := rfl
    omega
  refine ⟨EmitResults_ Example.reversedConfig s, ?_, ?_, ?_⟩
  · unfold ComputeMST
    rw [hs]
    rfl
  · exact hn
  · intro k hk
    obtain ⟨h1, h2, -⟩ := hC.forest.edge_ok k (by omega)
    have h3 : (s.edges k).greater_index < 4 := h2
    have e1 : ((EmitResults_ Example.reversedConfig s).2 k).lesser_index =
        3 - (s.edges k).lesser_index := by
      unfold EmitResults_
      have hd : Example.reversedConfig.do_naive = false := rfl
      have hp : Example.reversedConfig.number_of_points - 1 = 3 := rfl
      simp only [hd, Bool.not_false, if_true, hp, if_pos hk]
      rfl
    have e2 : ((EmitResults_ Example.reversedConfig s).2 k).greater_index =
        3 - (s.edges k).greater_index := by
      unfold EmitResults_
      have hd : Example.reversedConfig.do_naive = false := rfl
      have hp : Example.reversedConfig.number_of_points - 1 = 3 := rfl
      simp only [hd, Bool.not_false, if_true, hp, if_pos hk]
      rfl
    rw [e1, e2]
    omega

end OrderClaim

end Dtb

namespace CLI

theorem charAt_of_le (str : List Char) (pos : Nat) (h : str.length ≤ pos) :
    charAt str pos = Char.ofNat 0 := by
  unfold charAt
  exact List.getD_eq_default _ _ h

theorem charAt_skip (str : List Char) (pos : Nat)
    (h : charAt str pos = space ∨ charAt str pos = newline) :
    pos < str.length ∧ (str.drop pos).take 1 = [charAt str pos] := by
  have hlt : pos < str.length := by
    by_contra hge
    rw [charAt_of_le str pos (not_lt.1 hge)] at h
    rcases h with h | h
    · exact absurd h (by decide)
    · exact absurd h (by decide)
  refine ⟨hlt, ?_⟩
  unfold charAt
  rw [List.getD_eq_getElem _ _ hlt, List.drop_eq_getElem_cons hlt]
  rfl

theorem take_step (str : List Char) (pos sp : Nat) (h : pos ≤ sp) :
    str.take sp = str.take pos ++ substr str pos (sp - pos) := by
  unfold substr
  have e : sp = pos + (sp - pos) := by omega
  nth_rewrite 1 [e]
  rw [List.take_add]

theorem take_skip (str : List Char) (sp : Nat)
    (h : charAt str sp = space ∨ charAt str sp = newline) :
    str.take (sp + 1) = str.take sp ++ [charAt str sp] := by
  rw [List.take_add, (charAt_skip str sp h).2]

theorem hyphenateStep_traced (str : List Char) (padding margin : Nat) (hm : 0 < margin)
    (rs : List (List Char × List Char × Bool)) (a : List Char × Nat)
    (ha : Traced str padding rs a.1 a.2) (hpos : a.2 < str.length) :
    ∃ rs1, Traced str padding rs1 (hyphenateStep str padding margin a).1
        (hyphenateStep str padding margin a).2 ∧
      a.2 < (hyphenateStep str padding margin a).2 ∧
      (hyphenateStep str padding margin a).2 ≤ str.length := by
  obtain ⟨h1, -, h3, -, h5⟩ := splitPosition_spec str margin a.2 hm hpos
  obtain ⟨t1, t2, t3⟩ := ha
  by_cases hsk : charAt str (splitPosition str margin a.2) = space ∨
      charAt str (splitPosition str margin a.2) = newline
  · have hlt := (charAt_skip str _ hsk).1
    refine ⟨rs ++ [(substr str a.2 (splitPosition str margin a.2 - a.2),
      [charAt str (splitPosition str margin a.2)], true)], ⟨?_, ?_, ?_⟩, ?_, ?_⟩
    · simp only [hyphenateStep, if_pos hlt, List.map_append, List.flatten_append, List.map_cons,
        List.map_nil, List.flatten_cons, List.flatten_nil, List.append_nil, if_true]
      rw [← t1, List.append_assoc]
    · simp only [hyphenateStep, if_pos hsk, List.map_append, List.flatten_append, List.map_cons,
        List.map_nil, List.flatten_cons, List.flatten_nil, List.append_nil]
      rw [take_skip str _ hsk, take_step str a.2 _ h1, t2, List.append_assoc]
    · intro r hr
      rcases List.mem_append.1 hr with e | e
      · exact t3 r e
      · rw [List.mem_singleton.1 e]
        rcases hsk with k | k
        · exact Or.inr (Or.inl (by rw [k]))
        · exact Or.inr (Or.inr (by rw [k]))
    · simp only [hyphenateStep, if_pos hsk]
      omega
    · simp only [hyphenateStep, if_pos hsk]
      omega
  · have hgt : a.2 < splitPosition str margin a.2 := by
      rcases h5 with k | k
      · exact k
      · exact absurd (Or.inr k) hsk
    refine ⟨rs ++ [(substr str a.2 (splitPosition str margin a.2 - a.2), [],
      decide (splitPosition str margin a.2 < str.length))], ⟨?_, ?_, ?_⟩, ?_, ?_⟩
    · simp only [hyphenateStep, List.map_append, List.flatten_append, List.map_cons,
        List.map_nil, List.flatten_cons, List.flatten_nil, List.append_nil, decide_eq_true_eq]
      rw [← t1]
      split_ifs
      · rw [List.append_assoc]
      · rw [List.append_nil]
    · simp only [hyphenateStep, if_neg hsk, List.map_append, List.flatten_append, List.map_cons,
        List.map_nil, List.flatten_cons, List.flatten_nil, List.append_nil]
      rw [take_step str a.2 _ h1, t2]
    · intro r hr
      rcases List.mem_append.1 hr with e | e
      · exact t3 r e
      · rw [List.mem_singleton.1 e]
        exact Or.inl rfl
    · simp only [hyphenateStep, if_neg hsk]
      exact hgt
    · simp only [hyphenateStep, if_neg hsk]
      exact h3

theorem hyphenateLoop_traced (str : List Char) (padding margin : Nat) (hm : 0 < margin) :
    ∀ (fuel : Nat) (rs : List (List Char × List Char × Bool)) (a : List Char × Nat),
      Traced str padding rs a.1 a.2 → a.2 ≤ str.length → str.length ≤ fuel + a.2 + 1 →
      ∃ out rs1 pos, hyphenateLoop str padding margin fuel a = some out ∧
        Traced str padding rs1 out pos ∧ pos ≤ str.length ∧ str.length ≤ pos + 1 := by
  intro fuel
  induction fuel with
  | zero =>
    intro rs a ha hle hf
    exact ⟨a.1, rs, a.2, hyphenateLoop_exit _ _ _ _ _ (by omega), ha, hle, by omega⟩
  | succ n ih =>
    intro rs a ha hle hf
    by_cases hc : a.2 < str.length - 1
    · obtain ⟨rs1, h1, h2, h3⟩ := hyphenateStep_traced str padding margin hm rs a ha (by omega)
      have e : hyphenateLoop str padding margin (n + 1) a =
          hyphenateLoop str padding margin n (hyphenateStep str padding margin a) := by
        simp [hyphenateLoop, hc]
      rw [e]
      exact ih rs1 _ h1 h3 (by omega)
    · exact ⟨a.1, rs, a.2, hyphenateLoop_exit _ _ _ _ _ hc, ha, hle, by omega⟩

/-- Claim C35, as far as it holds: for a padding below 80 and a string of at
least `80 - padding` characters, `HyphenateString` returns a text made of
chunks, each followed or not by a line break with its padding, such that the
input is these chunks, each followed by the one space or newline that the
round skipped, if any, and then by at most one last character, which the
text does not hold. -/
theorem C35_hyphenate_keeps_text (str : List Char) (padding fuel : Nat) (hp : padding < 80)
    (hf : str.length ≤ fuel) (hlen : ¬ str.length < 80 - padding) :
    ∃ (out : List Char) (rs : List (List Char × List Char × Bool)) (lost : List Char),
      HyphenateString str padding fuel = some out ∧
      out = (rs.map (fun r =>
        r.1 ++ (if r.2.2 then newline :: List.replicate padding space else []))).flatten ∧
      str = (rs.map (fun r => r.1 ++ r.2.1)).flatten ++ lost ∧
      (∀ r ∈ rs, r.2.1 = [] ∨ r.2.1 = [space] ∨ r.2.1 = [newline]) ∧
      lost.length ≤ 1 := by
  have hmar := marginOf_eq padding hp
  obtain ⟨out, rs, pos, h1, ⟨t1, t2, t3⟩, h3, h4⟩ :=
    hyphenateLoop_traced str padding (80 - padding) (by omega) fuel [] ([], 0)
      ⟨rfl, rfl, fun r hr => absurd hr (List.not_mem_nil r)⟩ (Nat.zero_le _)
      (by simp only; omega)
  refine ⟨out, rs, str.drop pos, ?_, t1, ?_, t3, ?_⟩
  · simp only [HyphenateString, hmar, if_neg hlen]
    exact h1
  · rw [← t2, List.take_append_drop]
  · rw [List.length_drop]
    omega

theorem C35_hyphenate_keeps_text_witness :
    (70 < 80 ∧ Example.text.length ≤ 19 ∧ ¬ Example.text.length < 80 - 70) ∧
    ∃ (out : List Char) (rs : List (List Char × List Char × Bool)) (lost : List Char),
      HyphenateString Example.text 70 19 = some out ∧
      out = (rs.map (fun r =>
        r.1 ++ (if r.2.2 then newline :: List.replicate 70 space else []))).flatten ∧
      Example.text = (rs.map (fun r => r.1 ++ r.2.1)).flatten ++ lost ∧
      (∀ r ∈ rs, r.2.1 = [] ∨ r.2.1 = [space] ∨ r.2.1 = [newline]) ∧
      lost.length ≤ 1 :=
  ⟨⟨by decide, by decide, by decide⟩,
    C35_hyphenate_keeps_text Example.text 70 19 (by decide) (by decide) (by decide)⟩

/-- Claim C35 fails on the eleven characters `0123456789a` with the padding
70: the result is the first ten characters, a line break and the padding;
the last character `a` of the input is not in it. -/
theorem C35_counterexample :
    Example.word.length = 11 ∧ Example.word.getLast? = some 'a' ∧
    HyphenateString Example.word 70 11 =
      some ("0123456789".toList ++ newline :: List.replicate 70 space) ∧
    'a' ∉ "0123456789".toList ++ newline :: List.replicate 70 space := by
  refine ⟨by decide, by decide, by decide, by decide⟩

end CLI

namespace NbodySimulatorSummary

theorem quantileIndex_bounds (n : Nat) (q : ℚ) (hn : 0 < n) (hq : 0 ≤ q) :
    (0 ≤ quantileIndex n q ∧ quantileIndex n q < (n : Int)) ↔ q < 1 := by
  unfold quantileIndex
  have hn1 : (0 : ℚ) < (n : ℚ) := by exact_mod_cast hn
  have h0 : (0 : Int) ≤ ⌊(n : ℚ) * q⌋ := Int.floor_nonneg.2 (mul_nonneg hn1.le hq)
  constructor
  · rintro ⟨-, h⟩
    rw [Int.floor_lt] at h
    have h1 : (n : ℚ) * q < (n : ℚ) * 1 := by
      rw [mul_one]
      exact_mod_cast h
    exact lt_of_mul_lt_mul_left h1 hn1.le
  · intro h
    refine ⟨h0, ?_⟩
    rw [Int.floor_lt]
    have h1 : (n : ℚ) * q < (n : ℚ) * 1 := mul_lt_mul_of_pos_left h hn1
    rw [mul_one] at h1
    exact_mod_cast h1

theorem readAt_isSome (v : List ℚ) (index : Int) :
    (readAt v index).isSome ↔ (0 ≤ index ∧ index < (v.length : Int)) := by
  unfold readAt
  split_ifs with h
  · rw [← Option.ne_none_iff_isSome, ne_eq, List.getElem?_eq_none_iff, not_le]
    constructor
    · intro h1
      exact ⟨h, by omega⟩
    · rintro ⟨-, h1⟩
      omega
  · simp [h]

theorem readAt_zero (v : List ℚ) (x : ℚ) (t : List ℚ) (h : v = x :: t) :
    readAt v 0 = some x := by
  subst h
  simp [readAt]

theorem accumulateFold_lists (results : NbodySimulatorResult) (qs : List Nat) :
    ∀ a : NbodySimulatorSummary × NbodySimulatorGlobal,
      (qs.foldl (fun a q => AccumulateResult a.1 a.2 results q) a).2.total_num_tuples =
          a.2.total_num_tuples ∧
        (qs.foldl (fun a q => AccumulateResult a.1 a.2 results q) a).2.summary_compute_quantile =
          a.2.summary_compute_quantile ∧
        (qs.foldl (fun a q => AccumulateResult a.1 a.2 results q)
            a).2.sort_negative_potential_hi =
          a.2.sort_negative_potential_hi ++
            ((qs.filter (fun i => decide (results.pruned i < a.2.total_num_tuples))).map
              (fun i => (results.negative_potential i).hi)) ∧
        (qs.foldl (fun a q => AccumulateResult a.1 a.2 results q)
            a).2.sort_positive_potential_lo =
          a.2.sort_positive_potential_lo ++
            ((qs.filter (fun i => decide (results.pruned i < a.2.total_num_tuples))).map
              (fun i => (results.positive_potential i).lo)) ∧
        (qs.foldl (fun a q => AccumulateResult a.1 a.2 results q) a).2.sort_used_error =
          a.2.sort_used_error ++
            ((qs.filter (fun i => decide (results.pruned i < a.2.total_num_tuples))).map
              results.used_error) ∧
        (qs.foldl (fun a q => AccumulateResult a.1 a.2 results q) a).2.sort_pruned =
          a.2.sort_pruned ++
            ((qs.filter (fun i => decide (results.pruned i < a.2.total_num_tuples))).map
              results.pruned) := by
  induction qs with
  | nil => intro a; simp
  | cons q qs ih =>
    intro a
    rw [List.foldl_cons]
    obtain ⟨h1, h2, h3, h4, h5, h6⟩ := ih (AccumulateResult a.1 a.2 results q)
    by_cases hp : results.pruned q < a.2.total_num_tuples
    · have e : AccumulateResult a.1 a.2 results q = _ := if_pos hp
      rw [e] at h1 h2 h3 h4 h5 h6 ⊢
      simp only at h1 h2 h3 h4 h5 h6
      rw [h1, h2, h3, h4, h5, h6]
      simp [hp, List.filter_cons]
    · have e : AccumulateResult a.1 a.2 results q = (a.1, a.2) := if_neg hp
      rw [e] at h1 h2 h3 h4 h5 h6 ⊢
      simp only at h1 h2 h3 h4 h5 h6
      rw [h1, h2, h3, h4, h5, h6]
      simp [hp, List.filter_cons]

theorem sorted_head_ge (l : List ℚ) (hl : l ≠ []) :
    ∃ x t, l.insertionSort (fun x y => x ≥ y) = x :: t ∧ x ∈ l ∧ ∀ y ∈ l, y ≤ x := by
  have hperm := List.perm_insertionSort (fun x y : ℚ => x ≥ y) l
  have hsort := List.sorted_insertionSort (fun x y : ℚ => x ≥ y) l
  cases hs : l.insertionSort (fun x y => x ≥ y) with
  | nil =>
    rw [hs] at hperm
    exact absurd hperm.symm.eq_nil hl
  | cons x t =>
    rw [hs] at hperm hsort
    refine ⟨x, t, rfl, hperm.subset (List.mem_cons_self _ _), ?_⟩
    intro y hy
    rcases List.mem_cons.1 (hperm.symm.subset hy) with e | e
    · rw [e]
    · exact List.rel_of_sorted_cons hsort y e

theorem sorted_head_le (l : List ℚ) (hl : l ≠ []) :
    ∃ x t, l.insertionSort (fun x y => x ≤ y) = x :: t ∧ x ∈ l ∧ ∀ y ∈ l, x ≤ y := by
  have hperm := List.perm_insertionSort (fun x y : ℚ => x ≤ y) l
  have hsort := List.sorted_insertionSort (fun x y : ℚ => x ≤ y) l
  cases hs : l.insertionSort (fun x y => x ≤ y) with
  | nil =>
    rw [hs] at hperm
    exact absurd hperm.symm.eq_nil hl
  | cons x t =>
    rw [hs] at hperm hsort
    refine ⟨x, t, rfl, hperm.subset (List.mem_cons_self _ _), ?_⟩
    intro y hy
    rcases List.mem_cons.1 (hperm.symm.subset hy) with e | e
    · rw [e]
    · exact List.rel_of_sorted_cons hsort y e

/-- Claim C39: after `StartReaccumulate(global)` and one `Accumulate` for
each query point of `qs`, of which at least one passes the test of
`Accumulate`, the four vectors hold the values of the points that pass it;
for a quantile `q >= 0` the index `floor(n * q)` of `PostAccumulate` is
within the bounds of the vectors, and `PostAccumulate` reads them within
their bounds, if and only if `q < 1`; with `q = 0` the summary takes the
greatest `negative_potential.hi`, the least `positive_potential.lo`, the
greatest `used_error` and the least `pruned` of these points. -/
theorem C39_quantile_index (s : NbodySimulatorSummary) (global : NbodySimulatorGlobal)
    (results : NbodySimulatorResult) (qs : List Nat)
    (hne : qs.filter (fun i => decide (results.pruned i < global.total_num_tuples)) ≠ [])
    (hq : 0 ≤ global.summary_compute_quantile) :
    ((0 ≤ quantileIndex
          (qs.filter (fun i => decide (results.pruned i < global.total_num_tuples))).length
          global.summary_compute_quantile ∧
        quantileIndex
          (qs.filter (fun i => decide (results.pruned i < global.total_num_tuples))).length
          global.summary_compute_quantile <
          ((qs.filter (fun i => decide (results.pruned i < global.total_num_tuples))).length :
            Int)) ↔ global.summary_compute_quantile < 1) ∧
    ((PostAccumulate (accumulateAll s global results qs).1
        (accumulateAll s global results qs).2).isSome ↔ global.summary_compute_quantile < 1) ∧
    (global.summary_compute_quantile = 0 →
      ∃ r, PostAccumulate (accumulateAll s global results qs).1
          (accumulateAll s global results qs).2 = some r ∧
        (∃ i ∈ qs, results.pruned i < global.total_num_tuples ∧
          r.1.negative_potential.hi = (results.negative_potential i).hi) ∧
        (∀ i ∈ qs, results.pruned i < global.total_num_tuples →
          (results.negative_potential i).hi ≤ r.1.negative_potential.hi) ∧
        (∃ i ∈ qs, results.pruned i < global.total_num_tuples ∧
          r.1.positive_potential.lo = (results.positive_potential i).lo) ∧
        (∀ i ∈ qs, results.pruned i < global.total_num_tuples →
          r.1.positive_potential.lo ≤ (results.positive_potential i).lo) ∧
        (∃ i ∈ qs, results.pruned i < global.total_num_tuples ∧
          r.1.used_error = results.used_error i) ∧
        (∀ i ∈ qs, results.pruned i < global.total_num_tuples →
          results.used_error i ≤ r.1.used_error) ∧
        (∃ i ∈ qs, results.pruned i < global.total_num_tuples ∧
          r.1.pruned = results.pruned i) ∧
        (∀ i ∈ qs, results.pruned i < global.total_num_tuples →
          r.1.pruned ≤ results.pruned i)) := by
  set acc := qs.filter (fun i => decide (results.pruned i < global.total_num_tuples)) with hacc
  have hn : 0 < acc.length := List.length_pos.2 hne
  obtain ⟨h1, h2, h3, h4, h5, h6⟩ :=
    accumulateFold_lists results qs (StartReaccumulateGlobal s global)
  have e1 : (StartReaccumulateGlobal s global).2.total_num_tuples = global.total_num_tuples :=
    rfl
  rw [e1] at h3 h4 h5 h6
  rw [← hacc] at h3 h4 h5 h6
  have k3 : (accumulateAll s global results qs).2.sort_negative_potential_hi =
      acc.map (fun i => (results.negative_potential i).hi) := h3
  have k4 : (accumulateAll s global results qs).2.sort_positive_potential_lo =
      acc.map (fun i => (results.positive_potential i).lo) := h4
  have k5 : (accumulateAll s global results qs).2.sort_used_error =
      acc.map results.used_error := h5
  have k6 : (accumulateAll s global results qs).2.sort_pruned = acc.map results.pruned := h6
  have k2 : (accumulateAll s global results qs).2.summary_compute_quantile =
      global.summary_compute_quantile := h2
  have hb := quantileIndex_bounds acc.length global.summary_compute_quantile hn hq
  have hmem : ∀ i, i ∈ acc ↔ i ∈ qs ∧ results.pruned i < global.total_num_tuples := by
    intro i
    rw [hacc, List.mem_filter, decide_eq_true_eq]
  have hpos : (accumulateAll s global results qs).2.sort_pruned.length > 0 := by
    rw [k6, List.length_map]
    exact hn
  refine ⟨hb, ?_, ?_⟩
  · unfold PostAccumulate
    rw [if_pos hpos]
    simp only [k2, k3, k4, k5, k6, List.length_insertionSort, List.length_map]
    by_cases hlt : global.summary_compute_quantile < 1
    · have hin := hb.2 hlt
      have r1 := (readAt_isSome ((acc.map (fun i => (results.negative_potential i).hi)).insertionSort
        (fun x y => x ≥ y)) (quantileIndex acc.length global.summary_compute_quantile)).2
        (by rw [List.length_insertionSort, List.length_map]; exact hin)
      have r2 := (readAt_isSome ((acc.map (fun i => (results.positive_potential i).lo)).insertionSort
        (fun x y => x ≤ y)) (quantileIndex acc.length global.summary_compute_quantile)).2
        (by rw [List.length_insertionSort, List.length_map]; exact hin)
      have r3 := (readAt_isSome ((acc.map results.used_error).insertionSort
        (fun x y => x ≥ y)) (quantileIndex acc.length global.summary_compute_quantile)).2
        (by rw [List.length_insertionSort, List.length_map]; exact hin)
      have r4 := (readAt_isSome ((acc.map results.pruned).insertionSort
        (fun x y => x ≤ y)) (quantileIndex acc.length global.summary_compute_quantile)).2
        (by rw [List.length_insertionSort, List.length_map]; exact hin)
      obtain ⟨a1, ha1⟩ := Option.isSome_iff_exists.1 r1
      obtain ⟨a2, ha2⟩ := Option.isSome_iff_exists.1 r2
      obtain ⟨a3, ha3⟩ := Option.isSome_iff_exists.1 r3
      obtain ⟨a4, ha4⟩ := Option.isSome_iff_exists.1 r4
      rw [ha1, ha2, ha3, ha4]
      simp [hlt]
    · have hout : ¬ (0 ≤ quantileIndex acc.length global.summary_compute_quantile ∧
          quantileIndex acc.length global.summary_compute_quantile < (acc.length : Int)) :=
        fun h => hlt (hb.1 h)
      have r1 : readAt ((acc.map (fun i => (results.negative_potential i).hi)).insertionSort
          (fun x y => x ≥ y)) (quantileIndex acc.length global.summary_compute_quantile) =
          none := by
        rw [← Option.not_isSome_iff_eq_none, readAt_isSome, List.length_insertionSort,
          List.length_map]
        exact hout
      rw [r1]
      simp [hlt]
  · intro h0
    have hidx : quantileIndex acc.length global.summary_compute_quantile = 0 := by
      unfold quantileIndex
      rw [h0, mul_zero, Int.floor_zero]
    have hne1 : acc.map (fun i => (results.negative_potential i).hi) ≠ [] := by
      simpa using hne
    have hne2 : acc.map (fun i => (results.positive_potential i).lo) ≠ [] := by
      simpa using hne
    have hne3 : acc.map results.used_error ≠ [] := by simpa using hne
    have hne4 : acc.map results.pruned ≠ [] := by simpa using hne
    obtain ⟨x1, t1, s1, m1, b1⟩ := sorted_head_ge _ hne1
    obtain ⟨x2, t2, s2, m2, b2⟩ := sorted_head_le _ hne2
    obtain ⟨x3, t3, s3, m3, b3⟩ := sorted_head_ge _ hne3
    obtain ⟨x4, t4, s4, m4, b4⟩ := sorted_head_le _ hne4
    unfold PostAccumulate
    rw [if_pos hpos]
    simp only [k2, k3, k4, k5, k6, List.length_insertionSort, List.length_map, hidx,
      readAt_zero _ x1 t1 s1, readAt_zero _ x2 t2 s2, readAt_zero _ x3 t3 s3,
      readAt_zero _ x4 t4 s4]
    refine ⟨_, rfl, ?_, ?_, ?_, ?_, ?_, ?_, ?_, ?_⟩
    · obtain ⟨i, hi, e⟩ := List.mem_map.1 m1
      exact ⟨i, ((hmem i).1 hi).1, ((hmem i).1 hi).2, e.symm⟩
    · intro i hi hp
      exact b1 _ (List.mem_map.2 ⟨i, (hmem i).2 ⟨hi, hp⟩, rfl⟩)
    · obtain ⟨i, hi, e⟩ := List.mem_map.1 m2
      exact ⟨i, ((hmem i).1 hi).1, ((hmem i).1 hi).2, e.symm⟩
    · intro i hi hp
      exact b2 _ (List.mem_map.2 ⟨i, (hmem i).2 ⟨hi, hp⟩, rfl⟩)
    · obtain ⟨i, hi, e⟩ := List.mem_map.1 m3
      exact ⟨i, ((hmem i).1 hi).1, ((hmem i).1 hi).2, e.symm⟩
    · intro i hi hp
      exact b3 _ (List.mem_map.2 ⟨i, (hmem i).2 ⟨hi, hp⟩, rfl⟩)
    · obtain ⟨i, hi, e⟩ := List.mem_map.1 m4
      exact ⟨i, ((hmem i).1 hi).1, ((hmem i).1 hi).2, e.symm⟩
    · intro i hi hp
      exact b4 _ (List.mem_map.2 ⟨i, (hmem i).2 ⟨hi, hp⟩, rfl⟩)

theorem C39_quantile_index_witness :
    ([0, 1, 2].filter (fun i => decide (Example.results3.pruned i <
        (Example.global3 0).total_num_tuples)) ≠ [] ∧
      0 ≤ (Example.global3 0).summary_compute_quantile) ∧
    (((0 ≤ quantileIndex
          ([0, 1, 2].filter (fun i => decide (Example.results3.pruned i < (Example.global3 0).total_num_tuples))).length
          (Example.global3 0).summary_compute_quantile ∧
        quantileIndex
          ([0, 1, 2].filter (fun i => decide (Example.results3.pruned i < (Example.global3 0).total_num_tuples))).length
          (Example.global3 0).summary_compute_quantile <
          (([0, 1, 2].filter (fun i => decide (Example.results3.pruned i < (Example.global3 0).total_num_tuples))).length :
            Int)) ↔ (Example.global3 0).summary_compute_quantile < 1) ∧
    ((PostAccumulate (accumulateAll (Example.positiveSummary 7 7) (Example.global3 0) Example.results3 [0, 1, 2]).1
        (accumulateAll (Example.positiveSummary 7 7) (Example.global3 0) Example.results3 [0, 1, 2]).2).isSome ↔ (Example.global3 0).summary_compute_quantile < 1) ∧
    ((Example.global3 0).summary_compute_quantile = 0 →
      ∃ r, PostAccumulate (accumulateAll (Example.positiveSummary 7 7) (Example.global3 0) Example.results3 [0, 1, 2]).1
          (accumulateAll (Example.positiveSummary 7 7) (Example.global3 0) Example.results3 [0, 1, 2]).2 = some r ∧
        (∃ i ∈ [0, 1, 2], Example.results3.pruned i < (Example.global3 0).total_num_tuples ∧
          r.1.negative_potential.hi = (Example.results3.negative_potential i).hi) ∧
        (∀ i ∈ [0, 1, 2], Example.results3.pruned i < (Example.global3 0).total_num_tuples →
          (Example.results3.negative_potential i).hi ≤ r.1.negative_potential.hi) ∧
        (∃ i ∈ [0, 1, 2], Example.results3.pruned i < (Example.global3 0).total_num_tuples ∧
          r.1.positive_potential.lo = (Example.results3.positive_potential i).lo) ∧
        (∀ i ∈ [0, 1, 2], Example.results3.pruned i < (Example.global3 0).total_num_tuples →
          r.1.positive_potential.lo ≤ (Example.results3.positive_potential i).lo) ∧
        (∃ i ∈ [0, 1, 2], Example.results3.pruned i < (Example.global3 0).total_num_tuples ∧
          r.1.used_error = Example.results3.used_error i) ∧
        (∀ i ∈ [0, 1, 2], Example.results3.pruned i < (Example.global3 0).total_num_tuples →
          Example.results3.used_error i ≤ r.1.used_error) ∧
        (∃ i ∈ [0, 1, 2], Example.results3.pruned i < (Example.global3 0).total_num_tuples ∧
          r.1.pruned = Example.results3.pruned i) ∧
        (∀ i ∈ [0, 1, 2], Example.results3.pruned i < (Example.global3 0).total_num_tuples →
          r.1.pruned ≤ Example.results3.pruned i))) :=
  ⟨⟨by decide, by decide⟩,
    C39_quantile_index (Example.positiveSummary 7 7) (Example.global3 0) Example.results3
      [0, 1, 2] (by decide) (by decide)⟩

end NbodySimulatorSummary

section CoverageClaim

theorem forLoop_count {σ : Type} (lo hi : ℚ) (cnt : Nat) (h : hi = lo + (cnt : ℚ) - 1)
    (body : ℚ → σ → σ) (s : σ) :
    forLoop lo hi body s =
      (List.range cnt).foldl (fun s (k : Nat) => body (lo + (k : ℚ)) s) s := by
  unfold forLoop
  have e : hi - lo = (((cnt : Int) - 1 : Int) : ℚ) := by
    rw [h]
    push_cast
    ring
  rw [e, Int.floor_intCast]
  have e2 : ((cnt : Int) - 1 + 1).toNat = cnt := by omega
  rw [e2]

/-- The binomial coefficient `C(a + j, j)` as a rational number. -/
theorem choose_step (a j : Nat) :
    ((a + (j + 1)).choose (j + 1) : ℚ) =
      ((a + j).choose j : ℚ) * ((a : ℚ) + (j : ℚ) + 1) / ((j : ℚ) + 1) := by
  have h := Nat.succ_mul_choose_eq (a + j) j
  have h1 : ((a + j + 1 : Nat) : ℚ) * ((a + j).choose j : ℚ) =
      ((a + j + 1).choose (j + 1) : ℚ) * ((j + 1 : Nat) : ℚ) := by exact_mod_cast h
  have hj : ((j : ℚ) + 1) ≠ 0 := by positivity
  rw [eq_div_iff hj]
  have e : a + (j + 1) = a + j + 1 := by omega
  rw [e]
  push_cast at h1 ⊢
  linarith

theorem choose_pos_cast (a j : Nat) : (0 : ℚ) < ((a + j).choose j : ℚ) := by
  exact_mod_cast Nat.choose_pos (Nat.le_add_left j a)

theorem loop_first (a1 a2 : Nat) (c : ℚ) (j : Nat) :
    (List.range j).foldl
        (fun (s : ℚ × ℚ × ℚ) (k : Nat) =>
          (fun (_ : ℚ) (s : ℚ × ℚ × ℚ) =>
            (s.1 + 1, s.2.1 + 1, s.2.2 * (s.1 + 1) / (s.2.1 + 1))) ((1 : ℚ) + (k : ℚ)) s)
        ((a1 : ℚ), (a2 : ℚ), c) =
      ((a1 : ℚ) + j, (a2 : ℚ) + j,
        c * ((a1 + j).choose j : ℚ) / ((a2 + j).choose j : ℚ)) := by
  induction j with
  | zero => simp
  | succ j ih =>
    rw [List.range_succ, List.foldl_append, ih]
    simp only [List.foldl_cons, List.foldl_nil]
    have p2 := choose_pos_cast a2 j
    have q2 : ((a2 : ℚ) + (j : ℚ) + 1) ≠ 0 := by positivity
    have hj : ((j : ℚ) + 1) ≠ 0 := by positivity
    rw [choose_step a1 j, choose_step a2 j]
    refine Prod.ext ?_ (Prod.ext ?_ ?_)
    · push_cast; ring
    · push_cast; ring
    · simp only
      field_simp
      ring

theorem loop_second_lt (x : ℚ) (a2 m : Nat) (y : ℚ) (d : Nat) :
    (List.range d).foldl
        (fun (s : ℚ × ℚ × ℚ) (k : Nat) =>
          (fun (i : ℚ) (s : ℚ × ℚ × ℚ) =>
            (s.1, s.2.1 + 1, s.2.2 * i / (s.2.1 + 1))) (((m : ℚ) + 1) + (k : ℚ)) s)
        (x, (a2 : ℚ) + m, y / ((a2 + m).choose m : ℚ)) =
      (x, (a2 : ℚ) + m + d, y / ((a2 + (m + d)).choose (m + d) : ℚ)) := by
  induction d with
  | zero => simp
  | succ d ih =>
    rw [List.range_succ, List.foldl_append, ih]
    simp only [List.foldl_cons, List.foldl_nil]
    have p2 := choose_pos_cast a2 (m + d)
    have e : m + (d + 1) = (m + d) + 1 := by omega
    rw [e, choose_step a2 (m + d)]
    have q2 : ((a2 : ℚ) + ((m + d : Nat) : ℚ) + 1) ≠ 0 := by positivity
    have hj : (((m + d : Nat) : ℚ) + 1) ≠ 0 := by positivity
    refine Prod.ext rfl (Prod.ext ?_ ?_)
    · push_cast; ring
    · simp only
      push_cast at q2 hj ⊢
      field_simp
      ring

theorem loop_second_ge (a1 m : Nat) (x : ℚ) (y : ℚ) (d : Nat) :
    (List.range d).foldl
        (fun (s : ℚ × ℚ × ℚ) (k : Nat) =>
          (fun (i : ℚ) (s : ℚ × ℚ × ℚ) =>
            (s.1 + 1, s.2.1, s.2.2 * (s.1 + 1) / i)) (((m : ℚ) + 1) + (k : ℚ)) s)
        ((a1 : ℚ) + m, x, y * ((a1 + m).choose m : ℚ)) =
      ((a1 : ℚ) + m + d, x, y * ((a1 + (m + d)).choose (m + d) : ℚ)) := by
  induction d with
  | zero => simp
  | succ d ih =>
    rw [List.range_succ, List.foldl_append, ih]
    simp only [List.foldl_cons, List.foldl_nil]
    have e : m + (d + 1) = (m + d) + 1 := by omega
    rw [e, choose_step a1 (m + d)]
    have hj : (((m + d : Nat) : ℚ) + 1) ≠ 0 := by positivity
    refine Prod.ext ?_ (Prod.ext rfl ?_)
    · push_cast; ring
    · simp only
      push_cast at hj ⊢
      field_simp
      ring

theorem loop_third (a3 : Nat) (c : ℚ) (j : Nat) :
    (List.range j).foldl
        (fun (s : ℚ × ℚ) (k : Nat) =>
          (fun (i : ℚ) (s : ℚ × ℚ) => (s.1 + 1, s.2 * (s.1 + 1) / i)) ((1 : ℚ) + (k : ℚ)) s)
        ((a3 : ℚ), c) =
      ((a3 : ℚ) + j, c * ((a3 + j).choose j : ℚ)) := by
  induction j with
  | zero => simp
  | succ j ih =>
    rw [List.range_succ, List.foldl_append, ih]
    simp only [List.foldl_cons, List.foldl_nil]
    rw [choose_step a3 j]
    have hj : ((j : ℚ) + 1) ≠ 0 := by positivity
    refine Prod.ext ?_ ?_
    · push_cast; ring
    · simp only
      field_simp
      ring

theorem largerHalf_nat (n k : Nat) (h : k ≤ n) :
    ∃ a b : Nat, largerHalf (n : ℚ) (k : ℚ) = ((a : ℚ), (b : ℚ)) ∧ a + b = n ∧
      (a + b).choose b = n.choose k := by
  unfold largerHalf
  have hc : ((n : ℚ) - (k : ℚ)) = ((n - k : Nat) : ℚ) := by
    rw [Nat.cast_sub h]
  split_ifs with hlt
  · refine ⟨n - k, k, ?_, by omega, ?_⟩
    · rw [hc]
      refine Prod.ext rfl ?_
      simp only
      rw [Nat.cast_sub h]
      ring
    · have e : n - k + k = n := by omega
      rw [e]
  · refine ⟨k, n - k, ?_, by omega, ?_⟩
    · rw [hc]
    · have e : k + (n - k) = n := by omega
      rw [e, Nat.choose_symm h]

/-- The method `BinomialCoefficientHelper_` on natural numbers `k <= n`
gives `C(n3, k3) * C(n1, k1) / C(n2, k2)`. -/
theorem binomialCoefficientHelper_eq (n3 k3 n1 k1 n2 k2 : Nat) (h3 : k3 ≤ n3) (h1 : k1 ≤ n1)
    (h2 : k2 ≤ n2) :
    BinomialCoefficientHelper_ n3 k3 n1 k1 n2 k2 =
      (n3.choose k3 : ℚ) * (n1.choose k1 : ℚ) / (n2.choose k2 : ℚ) := by
  obtain ⟨a3, b3, e3, s3, c3⟩ := largerHalf_nat n3 k3 h3
  obtain ⟨a1, b1, e1, s1, c1⟩ := largerHalf_nat n1 k1 h1
  obtain ⟨a2, b2, e2, s2, c2⟩ := largerHalf_nat n2 k2 h2
  have hcheck : ¬ ((k3 : ℚ) > n3 ∨ (k3 : ℚ) < 0 ∨ (k1 : ℚ) > n1 ∨ (k1 : ℚ) < 0 ∨
      (k2 : ℚ) > n2 ∨ (k2 : ℚ) < 0) := by
    have g3 : (k3 : ℚ) ≤ n3 := by exact_mod_cast h3
    have g1 : (k1 : ℚ) ≤ n1 := by exact_mod_cast h1
    have g2 : (k2 : ℚ) ≤ n2 := by exact_mod_cast h2
    have p3 : (0 : ℚ) ≤ k3 := Nat.cast_nonneg _
    have p1 : (0 : ℚ) ≤ k1 := Nat.cast_nonneg _
    have p2 : (0 : ℚ) ≤ k2 := Nat.cast_nonneg _
    rintro (h | h | h | h | h | h) <;> linarith
  unfold BinomialCoefficientHelper_
  rw [if_neg hcheck]
  simp only [e3, e1, e2]
  rw [← c3, ← c1, ← c2]
  have hmin : min (b1 : ℚ) (b2 : ℚ) = ((min b1 b2 : Nat) : ℚ) := (Nat.cast_min b1 b2).symm
  have hmax : max (b1 : ℚ) (b2 : ℚ) = ((max b1 b2 : Nat) : ℚ) := (Nat.cast_max b1 b2).symm
  rw [hmin, hmax]
  have L1 : forLoop 1 ((min b1 b2 : Nat) : ℚ)
      (fun (_ : ℚ) (s : ℚ × ℚ × ℚ) => (s.1 + 1, s.2.1 + 1, s.2.2 * (s.1 + 1) / (s.2.1 + 1)))
      ((a1 : ℚ), (a2 : ℚ), 1) =
      ((a1 : ℚ) + (min b1 b2 : Nat), (a2 : ℚ) + (min b1 b2 : Nat),
        1 * ((a1 + min b1 b2).choose (min b1 b2) : ℚ) /
          ((a2 + min b1 b2).choose (min b1 b2) : ℚ)) := by
    rw [forLoop_count 1 ((min b1 b2 : Nat) : ℚ) (min b1 b2) (by ring)]
    exact loop_first a1 a2 1 (min b1 b2)
  have hcnt : ((max b1 b2 : Nat) : ℚ) =
      ((min b1 b2 : Nat) : ℚ) + 1 + ((max b1 b2 - min b1 b2 : Nat) : ℚ) - 1 := by
    have : min b1 b2 ≤ max b1 b2 := le_trans (min_le_left _ _) (le_max_left _ _)
    rw [Nat.cast_sub this]
    ring
  have L3 : ∀ c : ℚ, forLoop 1 (b3 : ℚ)
      (fun (i : ℚ) (s : ℚ × ℚ) => (s.1 + 1, s.2 * (s.1 + 1) / i)) ((a3 : ℚ), c) =
      ((a3 : ℚ) + b3, c * ((a3 + b3).choose b3 : ℚ)) := by
    intro c
    rw [forLoop_count 1 (b3 : ℚ) b3 (by ring)]
    exact loop_third a3 c b3
  rw [L1, L3]
  by_cases hlt : b1 < b2
  · have hq : (b1 : ℚ) < (b2 : ℚ) := by exact_mod_cast hlt
    have em : min b1 b2 = b1 := min_eq_left hlt.le
    have eM : max b1 b2 = b2 := max_eq_right hlt.le
    rw [em, eM] at hcnt ⊢
    simp only [hq, if_true]
    have L2 : forLoop ((b1 : ℚ) + 1) (b2 : ℚ)
        (fun (i : ℚ) (s : ℚ × ℚ × ℚ) => (s.1, s.2.1 + 1, s.2.2 * i / (s.2.1 + 1)))
        ((a1 : ℚ) + b1, (a2 : ℚ) + b1,
          1 * ((a1 + b1).choose b1 : ℚ) / ((a2 + b1).choose b1 : ℚ)) =
        ((a1 : ℚ) + b1, (a2 : ℚ) + b1 + ((b2 - b1 : Nat) : ℚ),
          1 * ((a1 + b1).choose b1 : ℚ) / ((a2 + (b1 + (b2 - b1))).choose (b1 + (b2 - b1)) : ℚ)) := by
      rw [forLoop_count ((b1 : ℚ) + 1) (b2 : ℚ) (b2 - b1) hcnt]
      exact loop_second_lt ((a1 : ℚ) + b1) a2 b1 (1 * ((a1 + b1).choose b1 : ℚ)) (b2 - b1)
    rw [L2]
    have e4 : b1 + (b2 - b1) = b2 := by omega
    rw [e4]
    simp only
    ring
  · have hq : ¬ (b1 : ℚ) < (b2 : ℚ) := by
      intro h
      exact hlt (by exact_mod_cast h)
    have hle : b2 ≤ b1 := not_lt.1 hlt
    have em : min b1 b2 = b2 := min_eq_right hle
    have eM : max b1 b2 = b1 := max_eq_left hle
    rw [em, eM] at hcnt ⊢
    simp only [hq, if_false]
    have e : (1 : ℚ) * ((a1 + b2).choose b2 : ℚ) / ((a2 + b2).choose b2 : ℚ) =
        1 / ((a2 + b2).choose b2 : ℚ) * ((a1 + b2).choose b2 : ℚ) := by ring
    have L2 : forLoop ((b2 : ℚ) + 1) (b1 : ℚ)
        (fun (i : ℚ) (s : ℚ × ℚ × ℚ) => (s.1 + 1, s.2.1, s.2.2 * (s.1 + 1) / i))
        ((a1 : ℚ) + b2, (a2 : ℚ) + b2,
          1 * ((a1 + b2).choose b2 : ℚ) / ((a2 + b2).choose b2 : ℚ)) =
        ((a1 : ℚ) + b2 + ((b1 - b2 : Nat) : ℚ), (a2 : ℚ) + b2,
          1 / ((a2 + b2).choose b2 : ℚ) *
            ((a1 + (b2 + (b1 - b2))).choose (b2 + (b1 - b2)) : ℚ)) := by
      rw [forLoop_count ((b2 : ℚ) + 1) (b1 : ℚ) (b1 - b2) hcnt, e]
      exact loop_second_ge a1 b2 ((a2 : ℚ) + b2) (1 / ((a2 + b2).choose b2 : ℚ)) (b1 - b2)
    rw [L2]
    have e4 : b2 + (b1 - b2) = b1 := by omega
    rw [e4]
    simp only
    ring

theorem forLoop_nat {σ : Type} (lo hi : Nat) (body : ℚ → σ → σ) (s : σ) :
    forLoop (lo : ℚ) (hi : ℚ) body s =
      (List.range (hi + 1 - lo)).foldl (fun s (k : Nat) => body ((lo : ℚ) + (k : ℚ)) s) s := by
  unfold forLoop
  have e : (hi : ℚ) - (lo : ℚ) = (((hi : Int) - (lo : Int) : Int) : ℚ) := by
    push_cast
    ring
  rw [e, Int.floor_intCast]
  have e2 : ((hi : Int) - (lo : Int) + 1).toNat = hi + 1 - lo := by omega
  rw [e2]

theorem foldl_add_sum (F : Nat → ℚ) (cnt : Nat) :
    (List.range cnt).foldl (fun (t : ℚ) (k : Nat) => t + F k) 0 = ∑ k ∈ Finset.range cnt, F k := by
  induction cnt with
  | zero => simp
  | succ c ih =>
    rw [List.range_succ, List.foldl_append, ih, Finset.sum_range_succ]
    rfl

/-- Claim C37: for natural numbers `K <= N` and `n <= N` and a natural
number `r0`, `OuterConfidenceInterval(N, n, r0, K)` is the hypergeometric
tail, the sum over `r` from `r0` to `min(K, n)` with `n - r <= N - K` of
`C(K, r) * C(N - K, n - r) / C(N, n)`, clamped into `[0, 1]`; and for all
arguments the result lies in `[0, 1]`. -/
theorem C37_outer_confidence_interval (N n r0 K : Nat) (hK : K ≤ N) (hn : n ≤ N) :
    OuterConfidenceInterval (N : ℚ) (n : ℚ) (r0 : ℚ) (K : ℚ) =
        max (min (hypergeometricTail N n r0 K) 1) 0 ∧
      ∀ a b c d : ℚ, 0 ≤ OuterConfidenceInterval a b c d ∧
        OuterConfidenceInterval a b c d ≤ 1 := by
  constructor
  · unfold OuterConfidenceInterval
    dsimp only
    have hmin : min (K : ℚ) (n : ℚ) = ((min K n : Nat) : ℚ) := (Nat.cast_min K n).symm
    rw [hmin, forLoop_nat]
    set F : Nat → ℚ := fun r =>
      if n - r ≤ N - K then
        ((K.choose r : ℚ) * ((N - K).choose (n - r) : ℚ)) / (N.choose n : ℚ)
      else 0 with hF
    have hfold : (List.range (min K n + 1 - r0)).foldl
        (fun (s : ℚ) (k : Nat) =>
          if (r0 : ℚ) + (k : ℚ) > (K : ℚ) ∨ (n : ℚ) - ((r0 : ℚ) + (k : ℚ)) < 0 ∨
              (N : ℚ) - (K : ℚ) < 0 ∨
              (n : ℚ) - ((r0 : ℚ) + (k : ℚ)) > (N : ℚ) - (K : ℚ) then s
          else s + BinomialCoefficientHelper_ (K : ℚ) ((r0 : ℚ) + (k : ℚ)) ((N : ℚ) - (K : ℚ))
            ((n : ℚ) - ((r0 : ℚ) + (k : ℚ))) (N : ℚ) (n : ℚ)) 0 =
        (List.range (min K n + 1 - r0)).foldl (fun (t : ℚ) (k : Nat) => t + F (r0 + k)) 0 := by
      apply List.foldl_ext
      intro t k hk
      rw [List.mem_range] at hk
      have hr : r0 + k ≤ min K n := by omega
      have hrK : r0 + k ≤ K := le_trans hr (min_le_left _ _)
      have hrn : r0 + k ≤ n := le_trans hr (min_le_right _ _)
      have c1 : (r0 : ℚ) + (k : ℚ) = ((r0 + k : Nat) : ℚ) := by push_cast; ring
      have c2 : (N : ℚ) - (K : ℚ) = ((N - K : Nat) : ℚ) := by rw [Nat.cast_sub hK]
      have c3 : (n : ℚ) - ((r0 + k : Nat) : ℚ) = ((n - (r0 + k) : Nat) : ℚ) := by
        rw [Nat.cast_sub hrn]
      rw [c1, c2, c3]
      have g1 : ¬ (((r0 + k : Nat) : ℚ) > (K : ℚ)) := by
        rw [gt_iff_lt, not_lt]
        exact_mod_cast hrK
      have g2 : ¬ (((n - (r0 + k) : Nat) : ℚ) < 0) := not_lt.2 (Nat.cast_nonneg _)
      have g3 : ¬ (((N - K : Nat) : ℚ) < 0) := not_lt.2 (Nat.cast_nonneg _)
      by_cases h4 : n - (r0 + k) ≤ N - K
      · have g4 : ¬ (((n - (r0 + k) : Nat) : ℚ) > ((N - K : Nat) : ℚ)) := by
          rw [gt_iff_lt, not_lt]
          exact_mod_cast h4
        rw [if_neg (by tauto), binomialCoefficientHelper_eq K (r0 + k) (N - K) (n - (r0 + k)) N n
          hrK h4 hn]
        simp only [hF, if_pos h4]
      · have g4 : ((n - (r0 + k) : Nat) : ℚ) > ((N - K : Nat) : ℚ) := by
          rw [gt_iff_lt]
          exact_mod_cast not_le.1 h4
        rw [if_pos (Or.inr (Or.inr (Or.inr g4)))]
        simp only [hF, if_neg h4, add_zero]
    rw [hfold, foldl_add_sum (fun k => F (r0 + k))]
    have hsum : ∑ k ∈ Finset.range (min K n + 1 - r0), F (r0 + k) =
        hypergeometricTail N n r0 K := by
      unfold hypergeometricTail
      rw [Finset.sum_filter, ← Nat.Ico_succ_right, Finset.sum_Ico_eq_sum_range]
    rw [hsum]
  · intro a b c d
    unfold OuterConfidenceInterval
    dsimp only
    exact ⟨le_max_right _ _, max_le (min_le_right _ _) zero_le_one⟩

theorem C37_outer_confidence_interval_witness :
    (3 ≤ 10 ∧ 4 ≤ 10) ∧
    OuterConfidenceInterval 10 4 1 3 = 5 / 6 ∧ hypergeometricTail 10 4 1 3 = 5 / 6 ∧
    (OuterConfidenceInterval ((10 : Nat) : ℚ) ((4 : Nat) : ℚ) ((1 : Nat) : ℚ) ((3 : Nat) : ℚ) =
        max (min (hypergeometricTail 10 4 1 3) 1) 0 ∧
      ∀ a b c d : ℚ, 0 ≤ OuterConfidenceInterval a b c d ∧
        OuterConfidenceInterval a b c d ≤ 1) :=
  ⟨⟨by decide, by decide⟩, by decide!, by decide!,
    C37_outer_confidence_interval 10 4 1 3 (by decide) (by decide)⟩

end CoverageClaim

namespace KdTreeHybridBuilder

section PartitionClaim

variable {Point Bound : Type}

theorem leftScan_spec (get : Point → Int → ℚ) (extend : Bound → Point → Bound)
    (Includes : Bound → Point → Prop) (hself : ∀ b p, Includes (extend b p) p)
    (hmono : ∀ b p q, Includes b q → Includes (extend b p) q)
    (points0 : Int → Point) (split_dim : Int) (splitvalue : ℚ) (begin count : Int) :
    ∀ (fuel : Nat) (s : PartitionState Point Bound),
      PartitionInv get Includes points0 split_dim splitvalue begin count s →
      (s.right_i - s.left_i + 1).toNat + 1 ≤ fuel →
      ∃ s1 b, leftScan get extend split_dim splitvalue fuel s = some (s1, b) ∧
        PartitionInv get Includes points0 split_dim splitvalue begin count s1 ∧
        s1.right_i = s.right_i ∧ s.left_i ≤ s1.left_i ∧
        (b = true → s1.left_i > s1.right_i) ∧
        (b = false → s1.left_i ≤ s1.right_i ∧
          splitvalue ≤ get (s1.points_ s1.left_i) split_dim ∧
          Includes s1.right_bound (s1.points_ s1.left_i)) := by
  intro fuel
  induction fuel with
  | zero => intro s _ hf; omega
  | succ n ih =>
    intro s hI hf
    rw [leftScan]
    by_cases h1 : s.left_i > s.right_i
    · rw [if_pos h1]
      exact ⟨s, true, rfl, hI, rfl, le_refl _, fun _ => h1, fun h => absurd h (by decide)⟩
    · rw [if_neg h1]
      by_cases h2 : get (s.points_ s.left_i) split_dim ≥ splitvalue
      · rw [if_pos h2]
        refine ⟨_, false, rfl, ⟨hI.lo, hI.hi, hI.order, hI.left, ?_, hI.perm⟩, rfl, le_refl _,
          fun h => absurd h (by decide), fun _ => ⟨not_lt.1 h1, h2, hself _ _⟩⟩
        intro i hi1 hi2
        exact ⟨(hI.right i hi1 hi2).1, hmono _ _ _ (hI.right i hi1 hi2).2⟩
      · rw [if_neg h2]
        have hI1 : PartitionInv get Includes points0 split_dim splitvalue begin count
            { s with
              left_bound := extend s.left_bound (s.points_ s.left_i)
              left_i := s.left_i + 1 } := by
          refine ⟨?_, hI.hi, ?_, ?_, hI.right, hI.perm⟩
          · have := hI.lo
            show begin ≤ s.left_i + 1
            omega
          · show s.left_i + 1 ≤ s.right_i + 1
            omega
          · intro i hi1 hi2
            have hi3 : i < s.left_i + 1 := hi2
            by_cases e : i = s.left_i
            · rw [e]
              exact ⟨not_le.1 h2, hself _ _⟩
            · have hi4 : i < s.left_i := by omega
              exact ⟨(hI.left i hi1 hi4).1, hmono _ _ _ (hI.left i hi1 hi4).2⟩
        obtain ⟨s1, b, k1, k2, k3, k4, k5, k6⟩ := ih _ hI1 (by
          show (s.right_i - (s.left_i + 1) + 1).toNat + 1 ≤ n
          omega)
        refine ⟨s1, b, k1, k2, k3, ?_, k5, k6⟩
        have : s.left_i + 1 ≤ s1.left_i := k4
        omega

theorem rightScan_spec (get : Point → Int → ℚ) (extend : Bound → Point → Bound)
    (Includes : Bound → Point → Prop) (hself : ∀ b p, Includes (extend b p) p)
    (hmono : ∀ b p q, Includes b q → Includes (extend b p) q)
    (points0 : Int → Point) (split_dim : Int) (splitvalue : ℚ) (begin count : Int) :
    ∀ (fuel : Nat) (s : PartitionState Point Bound),
      PartitionInv get Includes points0 split_dim splitvalue begin count s →
      (splitvalue ≤ get (s.points_ s.left_i) split_dim ∧
        Includes s.right_bound (s.points_ s.left_i)) →
      (s.right_i - s.left_i + 1).toNat + 1 ≤ fuel →
      ∃ s1 b, rightScan get extend split_dim splitvalue fuel s = some (s1, b) ∧
        PartitionInv get Includes points0 split_dim splitvalue begin count s1 ∧
        s1.left_i = s.left_i ∧ s1.right_i ≤ s.right_i ∧
        (splitvalue ≤ get (s1.points_ s1.left_i) split_dim ∧
          Includes s1.right_bound (s1.points_ s1.left_i)) ∧
        (b = true → s1.left_i > s1.right_i) ∧
        (b = false → s1.left_i ≤ s1.right_i ∧
          get (s1.points_ s1.right_i) split_dim < splitvalue ∧
          Includes s1.left_bound (s1.points_ s1.right_i)) := by
  intro fuel
  induction fuel with
  | zero => intro s _ _ hf; omega
  | succ n ih =>
    intro s hI hp hf
    rw [rightScan]
    by_cases h1 : s.left_i > s.right_i
    · rw [if_pos h1]
      exact ⟨s, true, rfl, hI, rfl, le_refl _, hp, fun _ => h1, fun h => absurd h (by decide)⟩
    · rw [if_neg h1]
      by_cases h2 : get (s.points_ s.right_i) split_dim < splitvalue
      · rw [if_pos h2]
        refine ⟨_, false, rfl, ⟨hI.lo, hI.hi, hI.order, ?_, hI.right, hI.perm⟩, rfl, le_refl _,
          hp, fun h => absurd h (by decide), fun _ => ⟨not_lt.1 h1, h2, hself _ _⟩⟩
        intro i hi1 hi2
        exact ⟨(hI.left i hi1 hi2).1, hmono _ _ _ (hI.left i hi1 hi2).2⟩
      · rw [if_neg h2]
        have hI1 : PartitionInv get Includes points0 split_dim splitvalue begin count
            { s with
              right_bound := extend s.right_bound (s.points_ s.right_i)
              right_i := s.right_i - 1 } := by
          refine ⟨hI.lo, ?_, ?_, hI.left, ?_, hI.perm⟩
          · have := hI.hi
            show s.right_i - 1 < begin + count
            omega
          · show s.left_i ≤ s.right_i - 1 + 1
            omega
          · intro i hi1 hi2
            have hi3 : s.right_i - 1 < i := hi1
            by_cases e : i = s.right_i
            · rw [e]
              exact ⟨not_lt.1 h2, hself _ _⟩
            · have hi4 : s.right_i < i := by omega
              exact ⟨(hI.right i hi4 hi2).1, hmono _ _ _ (hI.right i hi4 hi2).2⟩
        obtain ⟨s1, b, k1, k2, k3, k4, k5, k6, k7⟩ := ih _ hI1 ⟨hp.1, hmono _ _ _ hp.2⟩ (by
          show (s.right_i - 1 - s.left_i + 1).toNat + 1 ≤ n
          omega)
        refine ⟨s1, b, k1, k2, k3, ?_, k5, k6, k7⟩
        have : s1.right_i ≤ s.right_i - 1 := k4
        omega

theorem partitionLoop_spec (get : Point → Int → ℚ) (extend : Bound → Point → Bound)
    (Includes : Bound → Point → Prop) (hself : ∀ b p, Includes (extend b p) p)
    (hmono : ∀ b p q, Includes b q → Includes (extend b p) q)
    (points0 : Int → Point) (split_dim : Int) (splitvalue : ℚ) (begin count : Int) :
    ∀ (fuel : Nat) (s : PartitionState Point Bound),
      PartitionInv get Includes points0 split_dim splitvalue begin count s →
      (s.right_i - s.left_i + 1).toNat + 1 ≤ fuel →
      ∃ s1, partitionLoop get extend split_dim splitvalue fuel s = some (s1.left_i, s1) ∧
        PartitionInv get Includes points0 split_dim splitvalue begin count s1 ∧
        s1.left_i > s1.right_i := by
  intro fuel
  induction fuel with
  | zero => intro s _ hf; omega
  | succ n ih =>
    intro s hI hf
    obtain ⟨s1, b1, k1, k2, k3, k4, k5, k6⟩ := leftScan_spec get extend Includes hself hmono
      points0 split_dim splitvalue begin count (n + 1) s hI hf
    rw [partitionLoop, k1]
    cases b1 with
    | true => exact ⟨s1, rfl, k2, k5 rfl⟩
    | false =>
      obtain ⟨g1, g2, g3⟩ := k6 rfl
      obtain ⟨s2, b2, m1, m2, m3, m4, m5, m6, m7⟩ := rightScan_spec get extend Includes hself
        hmono points0 split_dim splitvalue begin count (n + 1) s1 k2 ⟨g2, g3⟩ (by omega)
      simp only
      rw [m1]
      cases b2 with
      | true => exact ⟨s2, rfl, m2, m6 rfl⟩
      | false =>
        obtain ⟨q1, q2, q3⟩ := m7 rfl
        simp only
        apply ih
        · obtain ⟨σ, hσ1, hσ2⟩ := m2.perm
          refine ⟨m2.lo, ?_, ?_, ?_, ?_, ?_⟩
          · have := m2.hi
            show s2.right_i - 1 < begin + count
            omega
          · show s2.left_i ≤ s2.right_i - 1 + 1
            omega
          · intro i hi1 hi2
            have hi3 : i < s2.left_i := hi2
            have e : Swap s2.points_ s2.left_i s2.right_i i = s2.points_ i := by
              unfold Swap
              rw [if_neg (by omega), if_neg (by omega)]
            show get (Swap s2.points_ s2.left_i s2.right_i i) split_dim < splitvalue ∧
              Includes s2.left_bound (Swap s2.points_ s2.left_i s2.right_i i)
            rw [e]
            exact m2.left i hi1 hi3
          · intro i hi1 hi2
            have hi3 : s2.right_i - 1 < i := hi1
            show splitvalue ≤ get (Swap s2.points_ s2.left_i s2.right_i i) split_dim ∧
              Includes s2.right_bound (Swap s2.points_ s2.left_i s2.right_i i)
            by_cases e : i = s2.right_i
            · have e1 : Swap s2.points_ s2.left_i s2.right_i i = s2.points_ s2.left_i := by
                unfold Swap
                by_cases e2 : i = s2.left_i
                · rw [if_pos e2, ← e, e2]
                · rw [if_neg e2, if_pos e]
              rw [e1]
              exact m5
            · have e1 : Swap s2.points_ s2.left_i s2.right_i i = s2.points_ i := by
                unfold Swap
                rw [if_neg (by omega), if_neg e]
              rw [e1]
              exact m2.right i (by omega) hi2
          · refine ⟨(Equiv.swap s2.left_i s2.right_i).trans σ, ?_, ?_⟩
            · intro i hi
              have hl := m2.lo
              have hr := m2.hi
              rw [Equiv.trans_apply, Equiv.swap_apply_of_ne_of_ne (by omega) (by omega)]
              exact hσ1 i hi
            · intro i
              show Swap s2.points_ s2.left_i s2.right_i i = _
              rw [Equiv.trans_apply, Equiv.swap_apply_def]
              unfold Swap
              split_ifs <;> exact hσ2 _
        · show (s2.right_i - 1 - s2.left_i + 1).toNat + 1 ≤ n
          omega

/-- Claim C34: for `count >= 0` and with enough rounds for its loops
(`count + 1` is enough), `Partition_` returns an index `s` with
`begin <= s <= begin + count`; the points at the indices of `[begin, s)` are
below the split value in the split dimension and are included in
`left_bound`, the points at the indices of `[s, begin + count)` are not below
it and are included in `right_bound`; the array is the array of the start
rearranged by a permutation of the indices that moves no index outside
`[begin, begin + count)`, so the points outside the range are as they were.
The operator `|=` of the bound type is taken to include the point it is
given and to keep the points included. -/
theorem C34_partition_postcondition (get : Point → Int → ℚ) (extend : Bound → Point → Bound)
    (Includes : Bound → Point → Prop) (hself : ∀ b p, Includes (extend b p) p)
    (hmono : ∀ b p q, Includes b q → Includes (extend b p) q)
    (points_ : Int → Point) (split_dim : Int) (splitvalue : ℚ) (begin count : Int)
    (hcount : 0 ≤ count) (left_bound right_bound : Bound) (fuel : Nat)
    (hfuel : count + 1 ≤ (fuel : Int)) :
    ∃ (s : Int) (points1 : Int → Point) (left1 right1 : Bound),
      Partition_ get extend fuel points_ split_dim splitvalue begin count left_bound
        right_bound = some (s, points1, left1, right1) ∧
      begin ≤ s ∧ s ≤ begin + count ∧
      (∀ i, begin ≤ i → i < s →
        get (points1 i) split_dim < splitvalue ∧ Includes left1 (points1 i)) ∧
      (∀ i, s ≤ i → i < begin + count →
        get (points1 i) split_dim ≥ splitvalue ∧ Includes right1 (points1 i)) ∧
      (∃ σ : Equiv.Perm Int, (∀ i, i < begin ∨ begin + count ≤ i → σ i = i) ∧
        ∀ i, points1 i = points_ (σ i)) ∧
      ∀ i, i < begin ∨ begin + count ≤ i → points1 i = points_ i := by
  have h0 : PartitionInv get Includes points_ split_dim splitvalue begin count
      (⟨points_, begin, begin + count - 1, left_bound, right_bound⟩ :
        PartitionState Point Bound) := by
    refine ⟨le_refl _, ?_, ?_, ?_, ?_, ⟨Equiv.refl _, fun _ _ => rfl, fun _ => rfl⟩⟩
    · show begin + count - 1 < begin + count
      omega
    · show begin ≤ begin + count - 1 + 1
      omega
    · intro i hi1 hi2
      have : i < begin := hi2
      omega
    · intro i hi1 hi2
      have : begin + count - 1 < i := hi1
      omega
  obtain ⟨s1, k1, k2, k3⟩ := partitionLoop_spec get extend Includes hself hmono points_
    split_dim splitvalue begin count fuel _ h0 (by
      show (begin + count - 1 - begin + 1).toNat + 1 ≤ fuel
      omega)
  have ho := k2.order
  have hh := k2.hi
  have hl := k2.lo
  obtain ⟨σ, hσ1, hσ2⟩ := k2.perm
  refine ⟨s1.left_i, s1.points_, s1.left_bound, s1.right_bound, ?_, hl, by omega, k2.left, ?_,
    ⟨σ, hσ1, hσ2⟩, ?_⟩
  · unfold Partition_
    rw [k1]
    rfl
  · intro i hi1 hi2
    exact k2.right i (by omega) hi2
  · intro i hi
    rw [hσ2, hσ1 i hi]

theorem Example.extendInterval_self (b : ℚ × ℚ) (p : ℚ) :
    (Example.extendInterval b p).1 ≤ p ∧ p ≤ (Example.extendInterval b p).2 :=
  ⟨min_le_right _ _, le_max_right _ _⟩

theorem Example.extendInterval_keeps (b : ℚ × ℚ) (p q : ℚ) (h : b.1 ≤ q ∧ q ≤ b.2) :
    (Example.extendInterval b p).1 ≤ q ∧ q ≤ (Example.extendInterval b p).2 :=
  ⟨le_trans (min_le_left _ _) h.1, le_trans h.2 (le_max_left _ _)⟩

theorem C34_partition_postcondition_witness :
    ((0 : Int) ≤ 5 ∧ (5 : Int) + 1 ≤ ((6 : Nat) : Int)) ∧
    (Partition_ (fun (p : ℚ) (_ : Int) => p) Example.extendInterval 6 Example.line5 0 2 0 5
        ((100 : ℚ), (-100 : ℚ)) ((100 : ℚ), (-100 : ℚ))).map
        (fun r => (r.1, r.2.1 0, r.2.1 1, r.2.1 2, r.2.1 3, r.2.1 4, r.2.2)) =
      some (2, 0, 1, 3, 4, 2, (0, 1), (2, 4)) ∧
    ∃ (s : Int) (points1 : Int → ℚ) (left1 right1 : ℚ × ℚ),
      Partition_ (fun (p : ℚ) (_ : Int) => p) Example.extendInterval 6 Example.line5 0 2 0 5
        ((100 : ℚ), (-100 : ℚ)) ((100 : ℚ), (-100 : ℚ)) = some (s, points1, left1, right1) ∧
      0 ≤ s ∧ s ≤ 0 + 5 ∧
      (∀ i, 0 ≤ i → i < s → points1 i < 2 ∧ (left1.1 ≤ points1 i ∧ points1 i ≤ left1.2)) ∧
      (∀ i, s ≤ i → i < 0 + 5 →
        points1 i ≥ 2 ∧ (right1.1 ≤ points1 i ∧ points1 i ≤ right1.2)) ∧
      (∃ σ : Equiv.Perm Int, (∀ i, i < 0 ∨ 0 + 5 ≤ i → σ i = i) ∧
        ∀ i, points1 i = Example.line5 (σ i)) ∧
      ∀ i, i < 0 ∨ 0 + 5 ≤ i → points1 i = Example.line5 i :=
  ⟨⟨by decide, by decide⟩, by rfl,
    C34_partition_postcondition (fun (p : ℚ) (_ : Int) => p) Example.extendInterval
      (fun b p => b.1 ≤ p ∧ p ≤ b.2) Example.extendInterval_self Example.extendInterval_keeps
      Example.line5 0 2 0 5 (by decide) ((100 : ℚ), (-100 : ℚ)) ((100 : ℚ), (-100 : ℚ)) 6
      (by decide)⟩

end PartitionClaim

end KdTreeHybridBuilder

section ReturnValue

variable {B K : Type}

theorem pruneAttempt_none_iff (env : Env B K) (q r : Tree B) (p : ℚ) (st : State K) :
    (pruneAttempt env q r p st).1 = none ↔
      ((Prunable_ env st.mem q r p).result = false ∧
        (p < 1 → (MonteCarloPrunableByOrderStatistics_ env st.mem q r p
          (Prunable_ env st.mem q r p).deltas).1 = false)) := by
  unfold pruneAttempt
  dsimp only
  by_cases h : (Prunable_ env st.mem q r p).result = true
  · simp [h]
  · have hf : (Prunable_ env st.mem q r p).result = false := by simpa using h
    by_cases hp : p < 1
    · by_cases hmc : (MonteCarloPrunableByOrderStatistics_ env st.mem q r p
          (Prunable_ env st.mem q r p).deltas).1 = true
      · simp [hf, hp, hmc]
      · have hmf : (MonteCarloPrunableByOrderStatistics_ env st.mem q r p
            (Prunable_ env st.mem q r p).deltas).1 = false := by simpa using hmc
        simp [hf, hp, hmf]
    · simp [hf, hp]

theorem pruneAttempt_of_monteCarlo (env : Env B K) (q r : Tree B) (p : ℚ) (st : State K)
    (h : (Prunable_ env st.mem q r p).result = false) (hp : p < 1)
    (hmc : (MonteCarloPrunableByOrderStatistics_ env st.mem q r p
      (Prunable_ env st.mem q r p).deltas).1 = true) :
    pruneAttempt env q r p st =
      (some false,
        State.step (.monteCarloPrune q.id r.id)
          (monteCarloPrune q.id (MonteCarloPrunableByOrderStatistics_ env st.mem q r p
            (Prunable_ env st.mem q r p).deltas).2.1)
          ⟨(MonteCarloPrunableByOrderStatistics_ env st.mem q r p
            (Prunable_ env st.mem q r p).deltas).2.2, st.trace⟩) := by
  unfold pruneAttempt
  simp only [h, Bool.false_eq_true, if_false, hp, if_true, hmc]

theorem partners_children (env : Env B K) (nd nd1 nd2 : Tree B) (p : ℚ) :
    ((BestNodePartners env nd nd1 nd2 p).partner1 = nd1 ∧
        (BestNodePartners env nd nd1 nd2 p).partner2 = nd2) ∨
      ((BestNodePartners env nd nd1 nd2 p).partner1 = nd2 ∧
        (BestNodePartners env nd nd1 nd2 p).partner2 = nd1) := by
  by_cases h : env.MinDistanceSq nd.bound nd1.bound ≤ env.MinDistanceSq nd.bound nd2.bound
  · exact Or.inl ((BestNodePartners_partners env nd nd1 nd2 p).1 h)
  · exact Or.inr ((BestNodePartners_partners env nd nd1 nd2 p).2 h)

/-- Claim C8.  For every node pair, confidence and state:

* `DualtreeVKdeCanonical_` returns true exactly when no Monte Carlo prune is
  recorded among the steps of the call, equivalently when
  `num_monte_carlo_prunes_` is unchanged, and the counter grows by the number
  of Monte Carlo prunes of the call;
* when `Prunable_` approves, the call is the finite-difference prune alone
  and returns true;
* when `Prunable_` refuses, the confidence is below 1 and the Monte Carlo
  test approves, the call is the Monte Carlo prune alone and returns false;
* otherwise (neither prune applies) a pair of two leaves is the base case
  alone and returns true;
* otherwise an interior call makes both calls on the two children of the
  node it expands (all four when it expands both nodes), each from the state
  that the one before it leaves, whatever that one returned, and returns the
  conjunction of their results. -/
theorem C8_return_value_exact (env : Env B K) (qnode rnode : Tree B) (probability : ℚ)
    (st : State K) :
    (∃ new, (DualtreeVKdeCanonical_ env qnode rnode probability st).1.trace = new ++ st.trace ∧
      (DualtreeVKdeCanonical_ env qnode rnode probability st).1.mem.num_monte_carlo_prunes =
        st.mem.num_monte_carlo_prunes + monteCarloCount new ∧
      ((DualtreeVKdeCanonical_ env qnode rnode probability st).2 = true ↔
        monteCarloCount new = 0) ∧
      ((DualtreeVKdeCanonical_ env qnode rnode probability st).2 = true ↔
        (DualtreeVKdeCanonical_ env qnode rnode probability st).1.mem.num_monte_carlo_prunes =
          st.mem.num_monte_carlo_prunes)) ∧
    ((Prunable_ env st.mem qnode rnode probability).result = true →
      DualtreeVKdeCanonical_ env qnode rnode probability st =
        ((st.step (.call qnode.id rnode.id probability) id).step
            (.finiteDifferencePrune qnode.id rnode.id)
            (finiteDifferencePrune qnode.id
              (Prunable_ env st.mem qnode rnode probability).deltas),
          true)) ∧
    ((Prunable_ env st.mem qnode rnode probability).result = false → probability < 1 →
      (MonteCarloPrunableByOrderStatistics_ env st.mem qnode rnode probability
        (Prunable_ env st.mem qnode rnode probability).deltas).1 = true →
      DualtreeVKdeCanonical_ env qnode rnode probability st =
        (State.step (.monteCarloPrune qnode.id rnode.id)
            (monteCarloPrune qnode.id
              (MonteCarloPrunableByOrderStatistics_ env st.mem qnode rnode probability
                (Prunable_ env st.mem qnode rnode probability).deltas).2.1)
            ⟨(MonteCarloPrunableByOrderStatistics_ env st.mem qnode rnode probability
                (Prunable_ env st.mem qnode rnode probability).deltas).2.2,
              (st.step (.call qnode.id rnode.id probability) id).trace⟩,
          false)) ∧
    ((pruneAttempt env qnode rnode probability
        (st.step (.call qnode.id rnode.id probability) id)).1 = none ↔
      ((Prunable_ env st.mem qnode rnode probability).result = false ∧
        (probability < 1 →
          (MonteCarloPrunableByOrderStatistics_ env st.mem qnode rnode probability
            (Prunable_ env st.mem qnode rnode probability).deltas).1 = false))) ∧
    (∀ (qid qb qc : Nat) (qbd : B) (rid rb rc : Nat) (rbd : B),
      qnode = .leaf qid qb qc qbd → rnode = .leaf rid rb rc rbd →
      (pruneAttempt env qnode rnode probability
        (st.step (.call qnode.id rnode.id probability) id)).1 = none →
      DualtreeVKdeCanonical_ env qnode rnode probability st =
        ((pruneAttempt env qnode rnode probability
            (st.step (.call qnode.id rnode.id probability) id)).2.step
            (.baseCase qnode.id rnode.id) (DualtreeVKdeBase_ env qnode rnode probability),
          true)) ∧
    (∀ (qid qb qc : Nat) (qbd : B) (rid rb rc : Nat) (rbd : B) (rl rr : Tree B),
      qnode = .leaf qid qb qc qbd → rnode = .node rid rb rc rbd rl rr →
      (pruneAttempt env qnode rnode probability
        (st.step (.call qnode.id rnode.id probability) id)).1 = none →
      (((BestNodePartners env qnode rl rr probability).partner1 = rl ∧
          (BestNodePartners env qnode rl rr probability).partner2 = rr) ∨
        ((BestNodePartners env qnode rl rr probability).partner1 = rr ∧
          (BestNodePartners env qnode rl rr probability).partner2 = rl)) ∧
      ∃ r1 r2 : State K × Bool,
        r1 = DualtreeVKdeCanonical_ env qnode
          (BestNodePartners env qnode rl rr probability).partner1
          (BestNodePartners env qnode rl rr probability).probability1
          (pruneAttempt env qnode rnode probability
            (st.step (.call qnode.id rnode.id probability) id)).2 ∧
        r2 = DualtreeVKdeCanonical_ env qnode
          (BestNodePartners env qnode rl rr probability).partner2
          (if r1.2 then Sqr (BestNodePartners env qnode rl rr probability).probability1
            else (BestNodePartners env qnode rl rr probability).probability2) r1.1 ∧
        DualtreeVKdeCanonical_ env qnode rnode probability st = (r2.1, r1.2 && r2.2)) ∧
    (∀ (qid qb qc : Nat) (qbd : B) (ql qr : Tree B) (rid rb rc : Nat) (rbd : B),
      qnode = .node qid qb qc qbd ql qr → rnode = .leaf rid rb rc rbd →
      (pruneAttempt env qnode rnode probability
        (st.step (.call qnode.id rnode.id probability) id)).1 = none →
      (((BestNodePartners env rnode ql qr probability).partner1 = ql ∧
          (BestNodePartners env rnode ql qr probability).partner2 = qr) ∨
        ((BestNodePartners env rnode ql qr probability).partner1 = qr ∧
          (BestNodePartners env rnode ql qr probability).partner2 = ql)) ∧
      ∃ r1 r2 : State K × Bool,
        r1 = DualtreeVKdeCanonical_ env
          (BestNodePartners env rnode ql qr probability).partner1 rnode probability
          ((pruneAttempt env qnode rnode probability
            (st.step (.call qnode.id rnode.id probability) id)).2.step (.pushDown qid)
              (pushDown qid ql.id qr.id)) ∧
        r2 = DualtreeVKdeCanonical_ env
          (BestNodePartners env rnode ql qr probability).partner2 rnode probability r1.1 ∧
        DualtreeVKdeCanonical_ env qnode rnode probability st =
          (r2.1.step (.refine qid) (refine qid ql.id qr.id), r1.2 && r2.2)) ∧
    (∀ (qid qb qc : Nat) (qbd : B) (ql qr : Tree B) (rid rb rc : Nat) (rbd : B)
        (rl rr : Tree B),
      qnode = .node qid qb qc qbd ql qr → rnode = .node rid rb rc rbd rl rr →
      (pruneAttempt env qnode rnode probability
        (st.step (.call qnode.id rnode.id probability) id)).1 = none →
      (((BestNodePartners env ql rl rr probability).partner1 = rl ∧
          (BestNodePartners env ql rl rr probability).partner2 = rr) ∨
        ((BestNodePartners env ql rl rr probability).partner1 = rr ∧
          (BestNodePartners env ql rl rr probability).partner2 = rl)) ∧
      (((BestNodePartners env qr rl rr probability).partner1 = rl ∧
          (BestNodePartners env qr rl rr probability).partner2 = rr) ∨
        ((BestNodePartners env qr rl rr probability).partner1 = rr ∧
          (BestNodePartners env qr rl rr probability).partner2 = rl)) ∧
      ∃ r1 r2 r3 r4 : State K × Bool,
        r1 = DualtreeVKdeCanonical_ env ql
          (BestNodePartners env ql rl rr probability).partner1
          (BestNodePartners env ql rl rr probability).probability1
          ((pruneAttempt env qnode rnode probability
            (st.step (.call qnode.id rnode.id probability) id)).2.step (.pushDown qid)
              (pushDown qid ql.id qr.id)) ∧
        r2 = DualtreeVKdeCanonical_ env ql
          (BestNodePartners env ql rl rr probability).partner2
          (if r1.2 then Sqr (BestNodePartners env ql rl rr probability).probability1
            else (BestNodePartners env ql rl rr probability).probability2) r1.1 ∧
        r3 = DualtreeVKdeCanonical_ env qr
          (BestNodePartners env qr rl rr probability).partner1
          (BestNodePartners env qr rl rr probability).probability1 r2.1 ∧
        r4 = DualtreeVKdeCanonical_ env qr
          (BestNodePartners env qr rl rr probability).partner2
          (if r3.2 then Sqr (BestNodePartners env qr rl rr probability).probability1
            else (BestNodePartners env qr rl rr probability).probability2) r3.1 ∧
        DualtreeVKdeCanonical_ env qnode rnode probability st =
          (r4.1.step (.refine qid) (refine qid ql.id qr.id),
            (r1.2 && r2.2) && (r3.2 && r4.2))) := by
  refine ⟨canonical_monteCarloCount env qnode rnode probability st, ?_, ?_,
    pruneAttempt_none_iff env qnode rnode probability _, ?_, ?_, ?_, ?_⟩
  · intro h
    exact canonical_of_attempt_some env qnode rnode probability st _ true
      (pruneAttempt_of_prunable env qnode rnode probability
        (st.step (.call qnode.id rnode.id probability) id) h)
  · intro h hp hmc
    exact canonical_of_attempt_some env qnode rnode probability st _ false
      (pruneAttempt_of_monteCarlo env qnode rnode probability
        (st.step (.call qnode.id rnode.id probability) id) h hp hmc)
  · intro qid qb qc qbd rid rb rc rbd hq hr hnone
    subst hq hr
    simp only [DualtreeVKdeCanonical_, canonicalLeaf, Tree.id] at hnone ⊢
    rw [hnone]
  · intro qid qb qc qbd rid rb rc rbd rl rr hq hr hnone
    subst hq hr
    refine ⟨partners_children env _ rl rr probability, _, _, rfl, rfl, ?_⟩
    rw [canonical_leaf_node env qid qb qc qbd rid rb rc rbd rl rr probability st hnone]
    rfl
  · intro qid qb qc qbd ql qr rid rb rc rbd hq hr hnone
    subst hq hr
    refine ⟨partners_children env _ ql qr probability, _, _, rfl, rfl, ?_⟩
    rw [canonical_node_leaf env qid qb qc qbd ql qr rid rb rc rbd probability st hnone]
    rfl
  · intro qid qb qc qbd ql qr rid rb rc rbd rl rr hq hr hnone
    subst hq hr
    refine ⟨partners_children env _ rl rr probability, partners_children env _ rl rr probability,
      _, _, _, _, rfl, rfl, rfl, rfl, ?_⟩
    rw [canonical_node_node env qid qb qc qbd ql qr rid rb rc rbd rl rr probability st hnone]
    rfl

end ReturnValue

section ReturnValueWitness

/-- C8 at concrete inputs: a finite-difference prune returns true, a Monte
Carlo prune returns false, a base case returns true, and the call on the
root pair of the first instance returns the conjunction of the two calls on
the children of the reference root. -/
theorem C8_return_value_exact_witness :
    (DualtreeVKdeCanonical_ (Example.env 1) Example.qroot Example.rleaf 1
      ⟨Example.mem0, []⟩).2 = true ∧
    (DualtreeVKdeCanonical_ Example.envSampling Example.qroot Example.rroot (1 / 2)
      ⟨Example.mem0, []⟩).2 = false ∧
    (DualtreeVKdeCanonical_ (Example.env 0) Example.qroot Example.rleaf 1
      ⟨Example.mem0, []⟩).2 = true ∧
    ∃ r1 r2 : State Example.EpanKernel × Bool,
      r1 = DualtreeVKdeCanonical_ (Example.env 0) Example.qroot
        (BestNodePartners (Example.env 0) Example.qroot (.leaf 2 0 2 (0, 0))
          (.leaf 3 2 1 (1 / 2, 1 / 2)) 1).partner1
        (BestNodePartners (Example.env 0) Example.qroot (.leaf 2 0 2 (0, 0))
          (.leaf 3 2 1 (1 / 2, 1 / 2)) 1).probability1
        (pruneAttempt (Example.env 0) Example.qroot Example.rroot 1
          (State.step (.call Example.qroot.id Example.rroot.id 1) id ⟨Example.mem0, []⟩)).2 ∧
      r2 = DualtreeVKdeCanonical_ (Example.env 0) Example.qroot
        (BestNodePartners (Example.env 0) Example.qroot (.leaf 2 0 2 (0, 0))
          (.leaf 3 2 1 (1 / 2, 1 / 2)) 1).partner2
        (if r1.2 then Sqr (BestNodePartners (Example.env 0) Example.qroot (.leaf 2 0 2 (0, 0))
            (.leaf 3 2 1 (1 / 2, 1 / 2)) 1).probability1
          else (BestNodePartners (Example.env 0) Example.qroot (.leaf 2 0 2 (0, 0))
            (.leaf 3 2 1 (1 / 2, 1 / 2)) 1).probability2) r1.1 ∧
      DualtreeVKdeCanonical_ (Example.env 0) Example.qroot Example.rroot 1 ⟨Example.mem0, []⟩ =
        (r2.1, r1.2 && r2.2) :=
  ⟨congrArg Prod.snd ((C8_return_value_exact (Example.env 1) Example.qroot Example.rleaf 1
      ⟨Example.mem0, []⟩).2.1 (by decide!)),
    congrArg Prod.snd ((C8_return_value_exact Example.envSampling Example.qroot Example.rroot
      (1 / 2) ⟨Example.mem0, []⟩).2.2.1 (by decide!) (by decide!) (by decide!)),
    congrArg Prod.snd ((C8_return_value_exact (Example.env 0) Example.qroot
      Example.rleaf 1 ⟨Example.mem0, []⟩).2.2.2.2.1 0 0 1 (0, 0) 1 0 3
      (0, 1 / 2) rfl rfl (by decide!)),
    ((C8_return_value_exact (Example.env 0) Example.qroot Example.rroot 1
      ⟨Example.mem0, []⟩).2.2.2.2.2.1 0 0 1 (0, 0) 1 0 3 (0, 1 / 2) (.leaf 2 0 2 (0, 0))
      (.leaf 3 2 1 (1 / 2, 1 / 2)) rfl rfl (by decide!)).2⟩

end ReturnValueWitness

end VKde
